import Mathlib

/-! quim-eq: chemical equation balancer

A shallow embedding of the balancing engine (formula parser, equation model,
stoichiometric matrix, Gaussian elimination, integer reduction, orchestrator)
and theorems about it.

Modelling conventions

* `std::string` is a `List Char`; `formula[i]` is a partial read (`charAt`).
* `int` is an `Int` between `INT_MIN` and `INT_MAX`: the result of every `int` operation
  that can leave this range is reduced modulo `2^32` by `wrapInt` (two's complement
  wrap-around).  Signed overflow is undefined behaviour in C++; wrap-around is what the
  compiled program does.  The definitions whose name ends in `Exact` (below, with the
  definitions used to state the properties) read the same code with unbounded integers.
* `double` is `ℚ`: the solver's arithmetic is read as exact rational arithmetic.
* `std::map<std::string, int>` is an association list kept sorted by key with
  unique keys (`ElementMap`); iteration order is the list order.
* A `while` loop whose guard contains `i < end` is a recursion on the number
  `end - i` of indices left; `parseGroup`, whose loop also calls itself, is a
  recursion on a budget that `parseGroup` sets to `end - start`.
* An exception is a value of `Exn`; member state changed before a `throw`
  is kept.
-/

namespace QuimEq

/-! ## Exceptions and strings -/

/-- Exceptions (`std::exception` subclasses) and the two ways the embedding itself can stop. -/
inductive Exn where
  /-- Models `std::invalid_argument(what)`. -/
  | invalidArgument (what : List Char)
  /-- Models `std::out_of_range`, thrown by `std::stoi`. -/
  | outOfRange
  /-- A read `formula[i]` with `i` not an index of the string. -/
  | badIndex (i : Nat)
  /-- The recursion budget of the embedding ran out. -/
  | budget
  deriving DecidableEq, Repr

deriving instance DecidableEq for Except

/-- Models `formula[i]`. -/
def charAt (formula : List Char) (i : Nat) : Except Exn Char :=
  match formula[i]? with
  | some c => .ok c
  | none => .error (.badIndex i)

/-- Models `std::isspace` in the "C" locale, which `\s` of `std::regex` uses. -/
def isspace (c : Char) : Bool :=
  c == ' ' || c == '\t' || c == '\n' || c == '\x0b' || c == '\x0c' || c == '\r'

/-! ## Machine integers: `int` -/

/-- The least value of `int`. -/
def INT_MIN : Int := -2147483648

/-- The greatest value of `int`. -/
def INT_MAX : Int := 2147483647

/-- The `int` that a computation with the exact result `x` leaves: `x` reduced modulo `2^32`
into the range from `INT_MIN` to `INT_MAX`. -/
def wrapInt (x : Int) : Int := (x + 2147483648) % 4294967296 - 2147483648

/-- Models `std::abs` on `int` (`std::abs(INT_MIN)`, undefined in the source, is `INT_MIN`). -/
def absInt (x : Int) : Int := wrapInt (abs x)

/-- Models `static_cast<int>` on an integral `double`.  A value outside the range of `int` is
undefined behaviour in the source; the embedding returns `INT_MIN` there, which is what the
conversion instruction of x86-64 returns. -/
def castToInt (x : Int) : Int :=
  if -2147483648 ≤ x ∧ x ≤ 2147483647 then x else -2147483648

/-! ## Element maps: `std::map<std::string, int>` -/

/-- Models `std::map<std::string, int>`: sorted by key, keys unique. -/
abbrev ElementMap := List (List Char × Int)

/-- Models `m[key] += value` (a missing key is first inserted with value `0`). -/
def ElementMap.addTo : ElementMap → List Char → Int → ElementMap
  | [], key, value => [(key, wrapInt (0 + value))]
  | (k, v) :: rest, key, value =>
    if key = k then (k, wrapInt (v + value)) :: rest
    else if key < k then (key, wrapInt (0 + value)) :: (k, v) :: rest
    else (k, v) :: ElementMap.addTo rest key value

/-- Models `m.find(key)`: the stored value, if any. -/
def ElementMap.find : ElementMap → List Char → Option Int
  | [], _ => none
  | (k, v) :: rest, key => if key = k then some v else ElementMap.find rest key

/-- The map read as a function from symbols to counts, an absent symbol counting `0`. -/
def ElementMap.count (m : ElementMap) (key : List Char) : Int :=
  (m.find key).getD 0

/-! ## Formula parser (`ChemicalCompound.cpp`) -/

/-- Models `while (i < end && std::islower(formula[i])) element += formula[i++];`,
with `n = end - i`. -/
def lowerLoop (formula : List Char) : Nat → Nat → List Char → Except Exn (Nat × List Char)
  | 0, i, element => .ok (i, element)
  | n + 1, i, element =>
    match charAt formula i with
    | .error e => .error e
    | .ok c =>
      if c.isLower then lowerLoop formula n (i + 1) (element ++ [c])
      else .ok (i, element)

/-- Models `while (i < end && std::isdigit(formula[i])) count = count * 10 + (formula[i++] - '0');`,
with `n = end - i`. -/
def digitLoop (formula : List Char) : Nat → Nat → Int → Except Exn (Nat × Int)
  | 0, i, count => .ok (i, count)
  | n + 1, i, count =>
    match charAt formula i with
    | .error e => .error e
    | .ok c =>
      if c.isDigit then
        digitLoop formula n (i + 1)
          (wrapInt (wrapInt (count * 10) + ((c.toNat : Int) - ('0'.toNat : Int))))
      else .ok (i, count)

/-- Models the block `int count = 1; if (i < end && std::isdigit(formula[i])) ...`, which
the source has twice (element count, group multiplier): returns the new `i` and the number. -/
def readCount (formula : List Char) (end_ i : Nat) : Except Exn (Nat × Int) :=
  if i < end_ then
    match charAt formula i with
    | .error e => .error e
    | .ok c => if c.isDigit then digitLoop formula (end_ - i) i 0 else .ok (i, 1)
  else .ok (i, 1)

/-- Models the depth-counting loop `while (i < end && depth > 0)`, with `n = end - i`. -/
def depthLoop (formula : List Char) : Nat → Nat → Int → Except Exn Nat
  | 0, i, _ => .ok i
  | n + 1, i, depth =>
    if depth > 0 then
      match charAt formula i with
      | .error e => .error e
      | .ok c =>
        depthLoop formula n (i + 1)
          (if c = '(' then depth + 1 else if c = ')' then depth - 1 else depth)
    else .ok i

/-- Models the body of `ChemicalCompound::parseGroup` from loop position `i` on; the first
argument is the recursion budget.  Returns the outcome and the member `elements_`. -/
def parseGroupAux (formula : List Char) :
    Nat → Nat → Nat → Int → ElementMap → Except Exn Unit × ElementMap
  | 0, i, end_, _, elements =>
    if i < end_ then (.error .budget, elements) else (.ok (), elements)
  | fuel + 1, i, end_, multiplier, elements =>
    if i < end_ then
      match charAt formula i with
      | .error e => (.error e, elements)
      | .ok c =>
        if c.isUpper then
          match lowerLoop formula (end_ - (i + 1)) (i + 1) [c] with
          | .error e => (.error e, elements)
          | .ok (i1, element) =>
            match readCount formula end_ i1 with
            | .error e => (.error e, elements)
            | .ok (i2, count) =>
              parseGroupAux formula fuel i2 end_ multiplier
                (elements.addTo element (wrapInt (count * multiplier)))
        else if c = '(' then
          match depthLoop formula (end_ - (i + 1)) (i + 1) 1 with
          | .error e => (.error e, elements)
          | .ok i1 =>
            match readCount formula end_ i1 with
            | .error e => (.error e, elements)
            | .ok (i2, groupMultiplier) =>
              match parseGroupAux formula fuel (i + 1) (i1 - 1)
                  (wrapInt (multiplier * groupMultiplier)) elements with
              | (.error e, elements1) => (.error e, elements1)
              | (.ok (), elements1) => parseGroupAux formula fuel i2 end_ multiplier elements1
        else (.error (.invalidArgument ("Invalid character in formula: ".toList ++ [c])), elements)
    else (.ok (), elements)

/-- Models `ChemicalCompound::parseGroup(formula, start, end, multiplier)`. -/
def parseGroup (formula : List Char) (start end_ : Nat) (multiplier : Int)
    (elements : ElementMap) : Except Exn Unit × ElementMap :=
  parseGroupAux formula (end_ - start) start end_ multiplier elements

/-- The characters `[slgaq]` of the state regex. -/
def stateChars : List Char := ['s', 'l', 'g', 'a', 'q']

/-- A match of `\s*\([slgaq]\)\s*` that starts at the head of `s`: what follows the match. -/
def matchStateTag (s : List Char) : Option (List Char) :=
  match s.dropWhile isspace with
  | '(' :: x :: ')' :: rest => if x ∈ stateChars then some (rest.dropWhile isspace) else none
  | _ => none

/-- Models `std::regex_replace(s, stateRegex, "")`: leftmost matches, left to right. -/
def removeStateTags : Nat → List Char → List Char
  | 0, s => s
  | _ + 1, [] => []
  | fuel + 1, c :: rest =>
    match matchStateTag (c :: rest) with
    | some rest1 => removeStateTags fuel rest1
    | none => c :: removeStateTags fuel rest

/-- The cleaned formula of `parseFormula`: state tags removed, then whitespace removed. -/
def cleanFormula (formula : List Char) : List Char :=
  (removeStateTags formula.length formula).filter (fun c => !isspace c)

/-- Models `ChemicalCompound::parseFormula`: the outcome (the cleaned formula, or the
exception) and the member `elements_`, which is cleared first. -/
def parseFormula (formula : List Char) : Except Exn (List Char) × ElementMap :=
  let clean := cleanFormula formula
  match parseGroup clean 0 clean.length 1 [] with
  | (.ok (), elements) => (.ok clean, elements)
  | (.error e, elements) => (.error e, elements)

/-! ## Compounds and equations (`ChemicalCompound.cpp`, `CompoundDatabase.cpp`) -/

/-- The atomic masses that `CompoundDatabase::loadElements` stores, as exact decimals. -/
def atomicMassTable : List (String × ℚ) := [
  ("H", 1008 / 1000), ("He", 4003 / 1000), ("Li", 6941 / 1000), ("Be", 9012 / 1000),
  ("B", 10811 / 1000), ("C", 12011 / 1000), ("N", 14007 / 1000), ("O", 15999 / 1000),
  ("F", 18998 / 1000), ("Ne", 20180 / 1000), ("Na", 22990 / 1000), ("Mg", 24305 / 1000),
  ("Al", 26982 / 1000), ("Si", 28086 / 1000), ("P", 30974 / 1000), ("S", 32066 / 1000),
  ("Cl", 35453 / 1000), ("Ar", 39948 / 1000), ("K", 39098 / 1000), ("Ca", 40078 / 1000),
  ("Sc", 44956 / 1000), ("Ti", 47867 / 1000), ("V", 50942 / 1000), ("Cr", 51996 / 1000),
  ("Mn", 54938 / 1000), ("Fe", 55845 / 1000), ("Co", 58933 / 1000), ("Ni", 58693 / 1000),
  ("Cu", 63546 / 1000), ("Zn", 6538 / 100), ("Ga", 69723 / 1000), ("Ge", 72630 / 1000),
  ("As", 74922 / 1000), ("Se", 78971 / 1000), ("Br", 79904 / 1000), ("Kr", 83798 / 1000),
  ("Rb", 85468 / 1000), ("Sr", 8762 / 100), ("Y", 88906 / 1000), ("Zr", 91224 / 1000),
  ("Nb", 92906 / 1000), ("Mo", 9595 / 100), ("Tc", 980 / 10), ("Ru", 10107 / 100),
  ("Rh", 10291 / 100), ("Pd", 10642 / 100), ("Ag", 10787 / 100), ("Cd", 11241 / 100),
  ("In", 11482 / 100), ("Sn", 11871 / 100), ("Sb", 12176 / 100), ("Te", 12760 / 100),
  ("I", 12690 / 100), ("Xe", 13129 / 100), ("Cs", 13291 / 100), ("Ba", 13733 / 100),
  ("La", 13891 / 100), ("Ce", 14012 / 100), ("Pr", 14091 / 100), ("Nd", 14424 / 100),
  ("Pm", 1450 / 10), ("Sm", 15036 / 100), ("Eu", 15196 / 100), ("Gd", 15725 / 100),
  ("Tb", 15893 / 100), ("Dy", 16250 / 100), ("Ho", 16493 / 100), ("Er", 16726 / 100),
  ("Tm", 16893 / 100), ("Yb", 17304 / 100), ("Lu", 17497 / 100), ("Hf", 17849 / 100),
  ("Ta", 18095 / 100), ("W", 18384 / 100), ("Re", 18621 / 100), ("Os", 19023 / 100),
  ("Ir", 19222 / 100), ("Pt", 19508 / 100), ("Au", 19697 / 100), ("Hg", 20059 / 100),
  ("Tl", 20438 / 100), ("Pb", 2072 / 10), ("Bi", 20898 / 100), ("Po", 2090 / 10),
  ("At", 2100 / 10), ("Rn", 2220 / 10), ("Fr", 2230 / 10), ("Ra", 2260 / 10),
  ("Ac", 2270 / 10), ("Th", 23204 / 100), ("Pa", 23104 / 100), ("U", 23803 / 100)]

/-- Models `CompoundDatabase::getAtomicMass`: `0.0` for an element that is not in the table. -/
def getAtomicMass (element : List Char) : ℚ :=
  match atomicMassTable.find? (fun entry => entry.1.toList = element) with
  | some entry => entry.2
  | none => 0

/-- Models `class ChemicalCompound` (its data members). -/
structure ChemicalCompound where
  elements_ : ElementMap
  molarMass_ : ℚ
  formula_ : List Char
  valid_ : Bool
  deriving DecidableEq

/-- Models `ChemicalCompound::calculateMolarMass`. -/
def calculateMolarMass (elements : ElementMap) : ℚ :=
  elements.foldl (fun mass element => mass + getAtomicMass element.1 * element.2) 0

/-- Models the constructor `ChemicalCompound::ChemicalCompound(formula)`: any exception of
`parseFormula` is caught and leaves `valid_ = false`, `molarMass_ = 0.0`. -/
def ChemicalCompound.create (formula : List Char) : ChemicalCompound :=
  match parseFormula formula with
  | (.ok _, elements) => ⟨elements, calculateMolarMass elements, formula, true⟩
  | (.error _, elements) => ⟨elements, 0, formula, false⟩

/-- Models `ChemicalCompound::getElementCount`. -/
def ChemicalCompound.getElementCount (self : ChemicalCompound) : ElementMap := self.elements_

/-- Models `ChemicalCompound::isValid`. -/
def ChemicalCompound.isValid (self : ChemicalCompound) : Bool := self.valid_

/-- Models `class ChemicalEquation` (its data members). -/
structure ChemicalEquation where
  reactants_ : List (ChemicalCompound × Int)
  products_ : List (ChemicalCompound × Int)
  balanced_ : Bool
  deriving DecidableEq

/-- Models the constructor `ChemicalEquation::ChemicalEquation()`. -/
def ChemicalEquation.create : ChemicalEquation := ⟨[], [], false⟩

/-- Models `ChemicalEquation::addReactant`. -/
def ChemicalEquation.addReactant (self : ChemicalEquation) (compound : ChemicalCompound)
    (coefficient : Int) : ChemicalEquation :=
  { self with reactants_ := self.reactants_ ++ [(compound, coefficient)], balanced_ := false }

/-- Models `ChemicalEquation::addProduct`. -/
def ChemicalEquation.addProduct (self : ChemicalEquation) (compound : ChemicalCompound)
    (coefficient : Int) : ChemicalEquation :=
  { self with products_ := self.products_ ++ [(compound, coefficient)], balanced_ := false }

/-- Models `ChemicalEquation::getTotalCompounds`. -/
def ChemicalEquation.getTotalCompounds (self : ChemicalEquation) : Nat :=
  self.reactants_.length + self.products_.length

/-- Models `ChemicalEquation::isBalanced`. -/
def ChemicalEquation.isBalanced (self : ChemicalEquation) : Bool := self.balanced_

/-- Models `ChemicalEquation::clear`. -/
def ChemicalEquation.clear (_self : ChemicalEquation) : ChemicalEquation := ⟨[], [], false⟩

/-- Models `ChemicalEquation::checkBalance` (`m[key] -= value` is read as `m[key] += -value`,
which leaves the same `int`). -/
def ChemicalEquation.checkBalance (self : ChemicalEquation) : ChemicalEquation :=
  let elementCount1 : ElementMap := self.reactants_.foldl
    (fun m reactant => reactant.1.getElementCount.foldl
      (fun m element => m.addTo element.1 (wrapInt (element.2 * reactant.2))) m) []
  let elementCount : ElementMap := self.products_.foldl
    (fun m product => product.1.getElementCount.foldl
      (fun m element => m.addTo element.1 (wrapInt (-(wrapInt (element.2 * product.2))))) m)
    elementCount1
  { self with balanced_ := elementCount.all (fun element => element.2 == 0) }

/-- Models `ChemicalEquation::setCoefficients`: throws when the sizes differ, otherwise
overwrites the coefficients in order (reactants, then products) and calls `checkBalance`. -/
def ChemicalEquation.setCoefficients (self : ChemicalEquation) (coefficients : List Int) :
    Except Exn ChemicalEquation :=
  if coefficients.length ≠ self.getTotalCompounds then
    .error (.invalidArgument "Number of coefficients doesn't match number of compounds".toList)
  else
    .ok (ChemicalEquation.checkBalance
      { self with
        reactants_ := List.zipWith (fun reactant c => (reactant.1, c)) self.reactants_
          (coefficients.take self.reactants_.length)
        products_ := List.zipWith (fun product c => (product.1, c)) self.products_
          (coefficients.drop self.reactants_.length) })

/-- Models `std::set<std::string>::insert`. -/
def setInsert : List (List Char) → List Char → List (List Char)
  | [], x => [x]
  | y :: ys, x =>
    if x = y then y :: ys
    else if x < y then x :: y :: ys
    else y :: setInsert ys x

/-- Models `ChemicalEquation::getAllElements`. -/
def ChemicalEquation.getAllElements (self : ChemicalEquation) : List (List Char) :=
  let elementSet1 := self.reactants_.foldl
    (fun s reactant => reactant.1.getElementCount.foldl (fun s element => setInsert s element.1) s) []
  self.products_.foldl
    (fun s product => product.1.getElementCount.foldl (fun s element => setInsert s element.1) s)
    elementSet1

/-! ## Linear solver (`MatrixSolver.cpp`) -/

/-- Models `std::vector<std::vector<double>>`. -/
abbrev Matrix := List (List ℚ)

/-- Models `matrix[row][col]` (a read outside the matrix is undefined in the source; the
embedding reads `0` there). -/
def entry (matrix : Matrix) (row col : Nat) : ℚ := (matrix.getD row []).getD col 0

/-- Models `struct SolutionStep`, without the `description` text (formatting only). -/
structure SolutionStep where
  matrix : Matrix
  operation : String
  deriving DecidableEq

/-- Models `class MatrixSolver` (its data member `steps_`). -/
structure MatrixSolver where
  steps_ : List SolutionStep
  deriving DecidableEq

/-- Models `const double EPSILON = 1e-10`. -/
def EPSILON : ℚ := 1 / 10000000000

/-- Models `MatrixSolver::isZero`. -/
def isZero (value : ℚ) : Bool := decide (abs value < EPSILON)

/-- The exact zero test, for comparison with `isZero`. -/
def isExactZero (value : ℚ) : Bool := decide (value = 0)

/-- Models `MatrixSolver::addStep`. -/
def MatrixSolver.addStep (self : MatrixSolver) (matrix : Matrix) (operation : String) :
    MatrixSolver :=
  ⟨self.steps_ ++ [⟨matrix, operation⟩]⟩

/-- Models `MatrixSolver::clearSteps`. -/
def MatrixSolver.clearSteps (_self : MatrixSolver) : MatrixSolver := ⟨[]⟩

/-- Models `std::swap(matrix[row1], matrix[row2])`. -/
def swapRowsM (matrix : Matrix) (row1 row2 : Nat) : Matrix :=
  (matrix.set row1 (matrix.getD row2 [])).set row2 (matrix.getD row1 [])

/-- Models `MatrixSolver::swapRows`. -/
def MatrixSolver.swapRows (self : MatrixSolver) (matrix : Matrix) (row1 row2 : Nat) :
    MatrixSolver × Matrix :=
  if row1 ≠ row2 then
    (self.addStep (swapRowsM matrix row1 row2) "row_swap", swapRowsM matrix row1 row2)
  else (self, matrix)

/-- The loop of `addRowToRow` on one target row: `target[col] += factor * source[col]` for
every column of the source row (a source row longer than the target is undefined in the
source). -/
def addScaled (factor : ℚ) : List ℚ → List ℚ → List ℚ
  | t :: ts, s :: ss => (t + factor * s) :: addScaled factor ts ss
  | ts, [] => ts
  | [], _ :: _ => []

/-- The matrix after `addRowToRow`. -/
def addRowToRowM (matrix : Matrix) (sourceRow targetRow : Nat) (factor : ℚ) : Matrix :=
  matrix.set targetRow (addScaled factor (matrix.getD targetRow []) (matrix.getD sourceRow []))

/-- Models `MatrixSolver::addRowToRow`. -/
def MatrixSolver.addRowToRow (self : MatrixSolver) (matrix : Matrix) (sourceRow targetRow : Nat)
    (factor : ℚ) : MatrixSolver × Matrix :=
  (self.addStep (addRowToRowM matrix sourceRow targetRow factor) "row_add",
    addRowToRowM matrix sourceRow targetRow factor)

/-- The pivot search of `gaussianElimination`:
`for (row = pivot + 1; row < rows; ++row) if (abs(m[row][pivot]) > abs(m[pivotRow][pivot])) pivotRow = row`. -/
def findPivotRow (matrix : Matrix) (pivot rows : Nat) : Nat :=
  (List.range' (pivot + 1) (rows - (pivot + 1))).foldl
    (fun pivotRow row =>
      if abs (entry matrix row pivot) > abs (entry matrix pivotRow pivot) then row else pivotRow)
    pivot

/-- The loop "Eliminate column" of `gaussianElimination`, with the zero test as a parameter. -/
def eliminateColumnBy (zero : ℚ → Bool) (state : MatrixSolver × Matrix) (pivot rows : Nat) :
    MatrixSolver × Matrix :=
  (List.range' (pivot + 1) (rows - (pivot + 1))).foldl
    (fun st row =>
      if !zero (entry st.2 row pivot) then
        st.1.addRowToRow st.2 pivot row (-(entry st.2 row pivot) / entry st.2 pivot pivot)
      else st)
    state

/-- One iteration of the loop "Forward elimination" of `gaussianElimination`. -/
def forwardStepBy (zero : ℚ → Bool) (rows : Nat) (state : MatrixSolver × Matrix) (pivot : Nat) :
    MatrixSolver × Matrix :=
  let pivotRow := findPivotRow state.2 pivot rows
  let st1 := if pivotRow ≠ pivot then state.1.swapRows state.2 pivot pivotRow else state
  if zero (entry st1.2 pivot pivot) then st1
  else eliminateColumnBy zero st1 pivot rows

/-- Models `MatrixSolver::solveHomogeneous`, its search "first non-zero element in this row". -/
def firstNonZeroBy (zero : ℚ → Bool) (row : List ℚ) (cols : Nat) : Option Nat :=
  (List.range cols).find? (fun col => !zero (row.getD col 0))

/-- One iteration of the loop "Back substitution" of `solveHomogeneous`. -/
def backStepBy (zero : ℚ → Bool) (matrix : Matrix) (cols : Nat) (solution : List ℚ) (row : Nat) :
    List ℚ :=
  match firstNonZeroBy zero (matrix.getD row []) cols with
  | none => solution
  | some pivot =>
    let sum := (List.range' (pivot + 1) (cols - (pivot + 1))).foldl
      (fun sum col => sum + entry matrix row col * solution.getD col 0) 0
    if !zero (entry matrix row pivot) then solution.set pivot (-sum / entry matrix row pivot)
    else solution

/-- Models `MatrixSolver::solveHomogeneous`, with the zero test as a parameter. -/
def MatrixSolver.solveHomogeneousBy (zero : ℚ → Bool) (self : MatrixSolver) (matrix : Matrix) :
    List ℚ × MatrixSolver :=
  let rows := matrix.length
  let cols := (matrix.getD 0 []).length
  let solution0 := (List.replicate cols (0 : ℚ)).set (cols - 1) 1
  let solution := (List.range rows).reverse.foldl (backStepBy zero matrix cols) solution0
  (solution, self.addStep matrix "back_substitution")

/-- Models `MatrixSolver::gaussianElimination`, with the zero test as a parameter: returns
the solution, the solver with its trace, and the matrix as left in place. -/
def MatrixSolver.gaussianEliminationBy (zero : ℚ → Bool) (_self : MatrixSolver) (matrix : Matrix) :
    List ℚ × MatrixSolver × Matrix :=
  let self0 : MatrixSolver := ⟨[]⟩
  if matrix.isEmpty || (matrix.getD 0 []).isEmpty then ([], self0, matrix)
  else
    let rows := matrix.length
    let cols := (matrix.getD 0 []).length
    let st0 := (self0.addStep matrix "initial", matrix)
    let st1 := (List.range (min rows cols)).foldl (forwardStepBy zero rows) st0
    let self2 := st1.1.addStep st1.2 "forward_done"
    let res := self2.solveHomogeneousBy zero st1.2
    (res.1, res.2, st1.2)

/-- Models `MatrixSolver::solveHomogeneous`. -/
def MatrixSolver.solveHomogeneous (self : MatrixSolver) (matrix : Matrix) :
    List ℚ × MatrixSolver :=
  self.solveHomogeneousBy isZero matrix

/-- Models `MatrixSolver::gaussianElimination`. -/
def MatrixSolver.gaussianElimination (self : MatrixSolver) (matrix : Matrix) :
    List ℚ × MatrixSolver × Matrix :=
  self.gaussianEliminationBy isZero matrix

/-- Models `MatrixSolver::rank`: eliminates a copy of the matrix and counts the rows that
hold a value which `isZero` does not take for zero.  Returns the count and the solver (the
elimination records its trace). -/
def MatrixSolver.rank (self : MatrixSolver) (matrix : Matrix) : Int × MatrixSolver :=
  if matrix.isEmpty then (0, self)
  else
    let solved := self.gaussianElimination matrix
    (solved.2.2.foldl
      (fun rank row => if row.any (fun val => !isZero val) then rank + 1 else rank) 0,
      solved.2.1)

/-- Models `MatrixSolver::hasUniqueSolution`. -/
def MatrixSolver.hasUniqueSolution (self : MatrixSolver) (matrix : Matrix) :
    Bool × MatrixSolver :=
  if matrix.isEmpty then (false, self)
  else
    let ranked := self.rank matrix
    let numVars : Int := (matrix.getD 0 []).length
    (decide (ranked.1 = numVars - 1), ranked.2)

/-! ## Integer reducer (`MatrixSolver::reduceToIntegers`) -/

/-- Models `std::round` (halfway cases away from zero); its value is an integral `double`. -/
def stdRound (x : ℚ) : Int :=
  if 0 ≤ x then Rat.floor (x + 1 / 2) else -Rat.floor (-x + 1 / 2)

/-- Models `static_cast<int>(std::round(x))`. -/
def roundToInt (x : ℚ) : Int := castToInt (stdRound x)

/-- Models `const double TOLERANCE = 1e-6`. -/
def TOLERANCE : ℚ := 1 / 1000000

/-- The search `for (denom = 1; denom <= 1000 && !found; ++denom)` from `denom` on, with `n`
denominators left to try: the first numerator and denominator found. -/
def searchFraction (coef : ℚ) : Nat → Int → Option (Int × Int)
  | 0, _ => none
  | n + 1, denom =>
    if abs (coef * denom - stdRound (coef * denom)) < TOLERANCE then
      some (roundToInt (coef * denom), denom)
    else searchFraction coef n (denom + 1)

/-- The numerator and denominator that `reduceToIntegers` pushes for one coefficient. -/
def toFraction (coef : ℚ) : Int × Int :=
  match searchFraction coef 1000 1 with
  | some fraction => fraction
  | none => (roundToInt (coef * 1000), 1000)

/-- The loop of `MatrixSolver::gcd`, run at most `fuel` times (the remainder `a % b` is never
outside the range of `int`). -/
def gcdLoop : Nat → Int → Int → Int
  | 0, a, _ => a
  | fuel + 1, a, b => if b ≠ 0 then gcdLoop fuel b (Int.tmod a b) else a

/-- Models `MatrixSolver::gcd`; the loop ends within `|b| + 1` rounds, since the absolute
value of `b` decreases. -/
def gcd (a b : Int) : Int := gcdLoop ((absInt b).natAbs + 1) (absInt a) (absInt b)

/-- Models `MatrixSolver::lcm` (a division by zero, undefined in the source, gives `0`; the
quotient of `INT_MIN` by `-1`, undefined as well, is reduced like every other result). -/
def lcm (a b : Int) : Int := wrapInt (Int.tdiv (absInt (wrapInt (a * b))) (gcd a b))

/-- The block "Find GCD and reduce" of `reduceToIntegers` (a division by a value greater than
`1` cannot overflow). -/
def divideByGcd (result : List Int) : List Int :=
  let gcdValue := result.tail.foldl (fun g value => gcd g (absInt value))
    (absInt (result.headD 0))
  if gcdValue > 1 then result.map (fun value => Int.tdiv value gcdValue) else result

/-- The block "Make sure all coefficients are positive" of `reduceToIntegers`. -/
def makePositive (result : List Int) : List Int :=
  let allNegative := result.all (fun value => !decide (value > 0))
  if allNegative then result.map (fun value => wrapInt (-value)) else result

/-- Models `MatrixSolver::reduceToIntegers` (reading element `0` of an empty vector is
undefined in the source; the embedding reads `0` there).  A denominator lies between `1` and
`1000`, so the division by it cannot overflow. -/
def reduceToIntegers (coefficients : List ℚ) : List Int :=
  let fractions := coefficients.map toFraction
  let numerators := fractions.map (fun fraction => fraction.1)
  let denominators := fractions.map (fun fraction => fraction.2)
  let lcmValue := denominators.tail.foldl lcm (denominators.headD 0)
  let result := List.zipWith
    (fun numerator denominator => Int.tdiv (wrapInt (numerator * lcmValue)) denominator)
    numerators denominators
  makePositive (divideByGcd result)

/-! ## Balancer orchestrator (`EquationBalancer.cpp`) -/

/-- Models `enum class BalanceResult`. -/
inductive BalanceResult where
  | SUCCESS
  | ALREADY_BALANCED
  | NO_SOLUTION
  | INFINITE_SOLUTIONS
  | INVALID_EQUATION
  | PARSING_ERROR
  deriving DecidableEq, Repr

/-- Models `struct BalanceInfo`. -/
structure BalanceInfo where
  result : BalanceResult
  coefficients : List Int
  message : String
  atomBalance : ElementMap
  conservationVerified : Bool
  deriving DecidableEq

/-- Models `class EquationBalancer` (its data members).  A balancing step is kept as its
fixed leading text; the formatted values appended to it are omitted. -/
structure EquationBalancer where
  solver_ : MatrixSolver
  balancingSteps_ : List String
  deriving DecidableEq

/-- Models `EquationBalancer::addBalancingStep`. -/
def EquationBalancer.addBalancingStep (self : EquationBalancer) (step : String) :
    EquationBalancer :=
  { self with balancingSteps_ := self.balancingSteps_ ++ [step] }

/-- Models `matrix[row][col] = value`. -/
def setEntry (matrix : Matrix) (row col : Nat) (value : ℚ) : Matrix :=
  matrix.set row ((matrix.getD row []).set col value)

/-- Models `EquationBalancer::buildStoichiometricMatrix`.  The entries are `double` values;
for a product the source negates the `int` count before the conversion (`-it->second`), so
the negation wraps around like every `int` operation: the negation of `INT_MIN` is
`INT_MIN`. -/
def EquationBalancer.buildStoichiometricMatrix (self : EquationBalancer)
    (equation : ChemicalEquation) : Matrix × EquationBalancer :=
  let elements := equation.getAllElements
  let reactants := equation.reactants_
  let products := equation.products_
  let numElements := elements.length
  let numCompounds := reactants.length + products.length
  let matrix0 : Matrix := List.replicate numElements (List.replicate numCompounds 0)
  let self1 := self.addBalancingStep "Building stoichiometric matrix for elements: "
  let matrix1 := reactants.enum.foldl
    (fun matrix reactant => elements.enum.foldl
      (fun matrix element =>
        match reactant.2.1.getElementCount.find element.2 with
        | some count => setEntry matrix element.1 reactant.1 count
        | none => matrix)
      matrix)
    matrix0
  let matrix2 := products.enum.foldl
    (fun matrix product => elements.enum.foldl
      (fun matrix element =>
        match product.2.1.getElementCount.find element.2 with
        | some count =>
          setEntry matrix element.1 (reactants.length + product.1) ((wrapInt (-count) : Int) : ℚ)
        | none => matrix)
      matrix)
    matrix1
  (matrix2, self1.addBalancingStep "Matrix constructed with ")

/-- Models `EquationBalancer::getAtomBalance` (`m[key] -= value` is read as
`m[key] += -value`, which leaves the same `int`). -/
def getAtomBalance (equation : ChemicalEquation) : ElementMap :=
  let balance1 : ElementMap := equation.reactants_.foldl
    (fun balance reactant => reactant.1.getElementCount.foldl
      (fun balance element => balance.addTo element.1 (wrapInt (element.2 * reactant.2)))
      balance) []
  equation.products_.foldl
    (fun balance product => product.1.getElementCount.foldl
      (fun balance element =>
        balance.addTo element.1 (wrapInt (-(wrapInt (element.2 * product.2))))) balance)
    balance1

/-- Models `EquationBalancer::validateAtomConservation`. -/
def validateAtomConservation (equation : ChemicalEquation) : Bool :=
  (getAtomBalance equation).all (fun element => element.2 == 0)

/-- Models `e.what()`. -/
def Exn.what : Exn → String
  | .invalidArgument what => String.mk what
  | .outOfRange => "stoi"
  | .badIndex _ => ""
  | .budget => ""

/-- Models `EquationBalancer::balance`: returns the `BalanceInfo`, the balancer (its traces)
and the equation, which the source changes in place. -/
def EquationBalancer.balance (self : EquationBalancer) (equation : ChemicalEquation) :
    BalanceInfo × EquationBalancer × ChemicalEquation :=
  let self0 : EquationBalancer := ⟨self.solver_.clearSteps, []⟩
  let info : BalanceInfo := ⟨.SUCCESS, [], "", [], false⟩
  let self1 := (self0.addBalancingStep "Starting equation balancing process").addBalancingStep
    "Original equation: "
  if equation.isBalanced then
    ({ info with
        result := .ALREADY_BALANCED
        message := "Equation is already balanced"
        coefficients := equation.reactants_.map (fun reactant => reactant.2) ++
          equation.products_.map (fun product => product.2)
        conservationVerified := true
        atomBalance := getAtomBalance equation },
      self1, equation)
  else
    let built := self1.buildStoichiometricMatrix equation
    let self2 := ((built.2.addBalancingStep "Stoichiometric matrix:").addBalancingStep
      "").addBalancingStep "Solving system of linear equations using Gaussian elimination"
    let solved := self2.solver_.gaussianElimination built.1
    let self3 : EquationBalancer := { self2 with solver_ := solved.2.1 }
    if solved.1.isEmpty then
      ({ info with result := .NO_SOLUTION, message := "No solution exists for this equation" },
        self3, equation)
    else
      let self4 := self3.addBalancingStep "Raw solution found: "
      let integerCoeffs := reduceToIntegers solved.1
      let self5 := self4.addBalancingStep "Converting to smallest integer coefficients: "
      if integerCoeffs.any (fun coeff => decide (coeff ≤ 0)) then
        ({ info with
            result := .NO_SOLUTION
            message := "Invalid coefficients found (zero or negative)" },
          self5, equation)
      else
        match equation.setCoefficients integerCoeffs with
        | .error e =>
          ({ info with
              result := .PARSING_ERROR
              message := "Error during balancing: " ++ e.what },
            self5.addBalancingStep "ERROR: ", equation)
        | .ok equation1 =>
          let info1 : BalanceInfo := { info with
            coefficients := integerCoeffs
            conservationVerified := validateAtomConservation equation1
            atomBalance := getAtomBalance equation1 }
          if info1.conservationVerified then
            ({ info1 with message := "Equation balanced successfully" },
              (self5.addBalancingStep "Final balanced equation: ").addBalancingStep
                "Atom conservation verified", equation1)
          else
            ({ info1 with
                result := .INVALID_EQUATION
                message := "Balancing failed - atom conservation violated" },
              self5.addBalancingStep "ERROR: Atom conservation failed", equation1)

/-! ## Equation strings (`EquationBalancer::parseEquationString`) -/

/-- Models `std::sregex_token_iterator(first, last, regex, -1)`: the pieces of the string
between the matches of a regex.  `matchAt s` is what follows a match that starts at the head
of `s`; `token` is the piece read so far.  (An empty last piece is listed here and dropped
by every caller, as the iterator's empty pieces are.) -/
def splitTokens (matchAt : List Char → Option (List Char)) :
    Nat → List Char → List Char → List (List Char)
  | 0, token, _ => [token]
  | _ + 1, token, [] => [token]
  | fuel + 1, token, c :: rest =>
    match matchAt (c :: rest) with
    | some rest1 => token :: splitTokens matchAt fuel [] rest1
    | none => splitTokens matchAt fuel (token ++ [c]) rest

/-- A match of the arrow regex `\s*(?:->|→)\s*` that starts at the head of `s`. -/
def matchArrow (s : List Char) : Option (List Char) :=
  match s.dropWhile isspace with
  | '-' :: '>' :: rest => some (rest.dropWhile isspace)
  | '→' :: rest => some (rest.dropWhile isspace)
  | _ => none

/-- A match of the regex `\s*\+\s*` that starts at the head of `s`. -/
def matchPlus (s : List Char) : Option (List Char) :=
  match s.dropWhile isspace with
  | '+' :: rest => some (rest.dropWhile isspace)
  | _ => none

/-- Models `EquationBalancer::splitCompounds`. -/
def splitCompounds (side : List Char) : List (List Char) :=
  (splitTokens matchPlus side.length [] side).filter (fun compound => !compound.isEmpty)

/-- The character class `[A-Za-z0-9()]`. -/
def isFormulaChar (c : Char) : Bool :=
  c.isUpper || c.isLower || c.isDigit || c == '(' || c == ')'

/-- A match of `\s*([A-Za-z0-9()]+)\s*$` against all of `s`: the captured formula. -/
def matchFormulaTail (s : List Char) : Option (List Char) :=
  let s1 := s.dropWhile isspace
  let formula := s1.takeWhile isFormulaChar
  let rest := s1.dropWhile isFormulaChar
  if !formula.isEmpty && rest.all isspace then some formula else none

/-- A match of `^\s*(\d+)?\s*([A-Za-z0-9()]+)\s*$` against all of the string: the two
captures.  The greedy optional group `(\d+)?` first takes all the digits and gives them back
one at a time while the rest does not match. -/
def matchCoeffRegex (compoundStr : List Char) : Option (List Char × List Char) :=
  let s1 := compoundStr.dropWhile isspace
  let digits := s1.takeWhile Char.isDigit
  let rest := s1.dropWhile Char.isDigit
  (List.range (digits.length + 1)).reverse.findSome? (fun taken =>
    (matchFormulaTail (digits.drop taken ++ rest)).map (fun formula => (digits.take taken, formula)))

/-- Models `std::stoi` on a string of digits: the value, or `std::out_of_range`. -/
def stoi (digits : List Char) : Except Exn Int :=
  let value := digits.foldl (fun value c => value * 10 + ((c.toNat : Int) - ('0'.toNat : Int))) 0
  if value > 2147483647 then .error .outOfRange else .ok value

/-- Models `EquationBalancer::parseCompoundWithCoefficient`. -/
def parseCompoundWithCoefficient (compoundStr : List Char) : Except Exn (List Char × Int) :=
  match matchCoeffRegex compoundStr with
  | some (digits, formula) =>
    if digits.isEmpty then .ok (formula, 1)
    else
      match stoi digits with
      | .ok coefficient => .ok (formula, coefficient)
      | .error e => .error e
  | none => .error (.invalidArgument ("Invalid compound format: ".toList ++ compoundStr))

/-- The loop "Parse reactants" (with `isProduct = false`) and the loop "Parse products"
(with `isProduct = true`) of `parseEquationString`. -/
def addCompounds (isProduct : Bool) :
    List (List Char) → ChemicalEquation → Except Exn ChemicalEquation
  | [], equation => .ok equation
  | compoundStr :: rest, equation =>
    match parseCompoundWithCoefficient compoundStr with
    | .error e => .error e
    | .ok (formula, coeff) =>
      let compound := ChemicalCompound.create formula
      if !compound.isValid then
        .error (.invalidArgument
          ((if isProduct then "Invalid product: " else "Invalid reactant: ").toList ++ formula))
      else
        addCompounds isProduct rest
          (if isProduct then equation.addProduct compound coeff
            else equation.addReactant compound coeff)

/-- Models `EquationBalancer::parseEquationString`. -/
def parseEquationString (equationStr : List Char) : Except Exn ChemicalEquation :=
  let sides := (splitTokens matchArrow equationStr.length [] equationStr).filter
    (fun side => !side.isEmpty)
  match sides with
  | [reactantSide, productSide] =>
    match addCompounds false (splitCompounds reactantSide) ChemicalEquation.create with
    | .error e => .error e
    | .ok equation => addCompounds true (splitCompounds productSide) equation
  | _ => .error (.invalidArgument
      "Invalid equation format - must have reactants -> products".toList)

/-! ## Definitions used to state the properties -/


/-- Keys strictly increasing: the invariant of `std::map`. -/
def ElementMap.Sorted (m : ElementMap) : Prop := List.Pairwise (fun a b => a.1 < b.1) m

instance (m : ElementMap) : Decidable m.Sorted := by
  unfold ElementMap.Sorted
  infer_instance

/-! ### The program read with unbounded integers

The definitions below repeat the code that computes with `int`, with `Int` arithmetic that
never wraps around.  They say what the code computes as long as no `int` overflows, and
serve to state that condition. -/

/-- The update `m[key] += value` read with unbounded integers. -/
def ElementMap.addToExact : ElementMap → List Char → Int → ElementMap
  | [], key, value => [(key, 0 + value)]
  | (k, v) :: rest, key, value =>
    if key = k then (k, v + value) :: rest
    else if key < k then (key, 0 + value) :: (k, v) :: rest
    else (k, v) :: ElementMap.addToExact rest key value

/-- The element map with every count reduced to an `int`. -/
def ElementMap.wrap (m : ElementMap) : ElementMap := m.map (fun entry => (entry.1, wrapInt entry.2))

/-- The loop `digitLoop` read with unbounded integers. -/
def digitLoopExact (formula : List Char) : Nat → Nat → Int → Except Exn (Nat × Int)
  | 0, i, count => .ok (i, count)
  | n + 1, i, count =>
    match charAt formula i with
    | .error e => .error e
    | .ok c =>
      if c.isDigit then
        digitLoopExact formula n (i + 1) (count * 10 + ((c.toNat : Int) - ('0'.toNat : Int)))
      else .ok (i, count)

/-- The block `readCount` read with unbounded integers. -/
def readCountExact (formula : List Char) (end_ i : Nat) : Except Exn (Nat × Int) :=
  if i < end_ then
    match charAt formula i with
    | .error e => .error e
    | .ok c => if c.isDigit then digitLoopExact formula (end_ - i) i 0 else .ok (i, 1)
  else .ok (i, 1)

/-- The body of `parseGroup` (`parseGroupAux`) read with unbounded integers. -/
def parseGroupAuxExact (formula : List Char) :
    Nat → Nat → Nat → Int → ElementMap → Except Exn Unit × ElementMap
  | 0, i, end_, _, elements =>
    if i < end_ then (.error .budget, elements) else (.ok (), elements)
  | fuel + 1, i, end_, multiplier, elements =>
    if i < end_ then
      match charAt formula i with
      | .error e => (.error e, elements)
      | .ok c =>
        if c.isUpper then
          match lowerLoop formula (end_ - (i + 1)) (i + 1) [c] with
          | .error e => (.error e, elements)
          | .ok (i1, element) =>
            match readCountExact formula end_ i1 with
            | .error e => (.error e, elements)
            | .ok (i2, count) =>
              parseGroupAuxExact formula fuel i2 end_ multiplier
                (elements.addToExact element (count * multiplier))
        else if c = '(' then
          match depthLoop formula (end_ - (i + 1)) (i + 1) 1 with
          | .error e => (.error e, elements)
          | .ok i1 =>
            match readCountExact formula end_ i1 with
            | .error e => (.error e, elements)
            | .ok (i2, groupMultiplier) =>
              match parseGroupAuxExact formula fuel (i + 1) (i1 - 1)
                  (multiplier * groupMultiplier) elements with
              | (.error e, elements1) => (.error e, elements1)
              | (.ok (), elements1) =>
                parseGroupAuxExact formula fuel i2 end_ multiplier elements1
        else (.error (.invalidArgument ("Invalid character in formula: ".toList ++ [c])), elements)
    else (.ok (), elements)

/-- The call `parseGroup(formula, start, end, multiplier)` read with unbounded integers. -/
def parseGroupExact (formula : List Char) (start end_ : Nat) (multiplier : Int)
    (elements : ElementMap) : Except Exn Unit × ElementMap :=
  parseGroupAuxExact formula (end_ - start) start end_ multiplier elements

/-- The function `parseFormula` read with unbounded integers: its outcome and the counts that
the formula denotes. -/
def parseFormulaExact (formula : List Char) : Except Exn (List Char) × ElementMap :=
  let clean := cleanFormula formula
  match parseGroupExact clean 0 clean.length 1 [] with
  | (.ok (), elements) => (.ok clean, elements)
  | (.error e, elements) => (.error e, elements)

/-- The function `getAtomBalance` read with unbounded integers. -/
def getAtomBalanceExact (equation : ChemicalEquation) : ElementMap :=
  let balance1 : ElementMap := equation.reactants_.foldl
    (fun balance reactant => reactant.1.getElementCount.foldl
      (fun balance element => balance.addToExact element.1 (element.2 * reactant.2)) balance) []
  equation.products_.foldl
    (fun balance product => product.1.getElementCount.foldl
      (fun balance element => balance.addToExact element.1 (-(element.2 * product.2))) balance)
    balance1

/-- The search `searchFraction` with the numerator kept as the integral `double` that
`std::round` returns, before `static_cast<int>`. -/
def searchFractionExact (coef : ℚ) : Nat → Int → Option (Int × Int)
  | 0, _ => none
  | n + 1, denom =>
    if abs (coef * denom - stdRound (coef * denom)) < TOLERANCE then
      some (stdRound (coef * denom), denom)
    else searchFractionExact coef n (denom + 1)

/-- The numerator, before `static_cast<int>`, and the denominator that `reduceToIntegers`
finds for one coefficient. -/
def toFractionExact (coef : ℚ) : Int × Int :=
  match searchFractionExact coef 1000 1 with
  | some fraction => fraction
  | none => (stdRound (coef * 1000), 1000)

/-- The function `gcd` read with unbounded integers. -/
def gcdExact (a b : Int) : Int := gcdLoop ((abs b).toNat + 1) (abs a) (abs b)

/-- The function `lcm` read with unbounded integers. -/
def lcmExact (a b : Int) : Int := Int.tdiv (abs (a * b)) (gcdExact a b)

/-- The block "Find GCD and reduce" read with unbounded integers. -/
def divideByGcdExact (result : List Int) : List Int :=
  let gcdValue := result.tail.foldl (fun g value => gcdExact g (abs value)) (abs (result.headD 0))
  if gcdValue > 1 then result.map (fun value => Int.tdiv value gcdValue) else result

/-- The block "Make sure all coefficients are positive" read with unbounded integers. -/
def makePositiveExact (result : List Int) : List Int :=
  let allNegative := result.all (fun value => !decide (value > 0))
  if allNegative then result.map (fun value => -value) else result

/-- The function `reduceToIntegers` read with unbounded integers. -/
def reduceToIntegersExact (coefficients : List ℚ) : List Int :=
  let fractions := coefficients.map toFractionExact
  let numerators := fractions.map (fun fraction => fraction.1)
  let denominators := fractions.map (fun fraction => fraction.2)
  let lcmValue := denominators.tail.foldl lcmExact (denominators.headD 0)
  let result := List.zipWith (fun numerator denominator => Int.tdiv (numerator * lcmValue) denominator)
    numerators denominators
  makePositiveExact (divideByGcdExact result)


/-- No product `a * b` that the loop "Find LCM of all denominators" computes overflows: the
running value times the next denominator is at most `INT_MAX`. -/
def lcmFits : Int → List Int → Bool
  | _, [] => true
  | a, b :: rest => decide (a * b ≤ 2147483647) && lcmFits (lcmExact a b) rest

/-- No `int` computation of `reduceToIntegers` overflows on the vector: the products of the
loop "Find LCM of all denominators" and the products `numerators[i] * lcmValue` are at most
`INT_MAX` in absolute value (so every numerator is an `int` as well). -/
def reduceFits (coefficients : List ℚ) : Bool :=
  let fractions := coefficients.map toFractionExact
  let denominators := fractions.map (fun fraction => fraction.2)
  let lcmValue := denominators.tail.foldl lcmExact (denominators.headD 0)
  lcmFits (denominators.headD 0) denominators.tail &&
    fractions.all (fun fraction => decide (abs fraction.1 * lcmValue ≤ 2147483647))

/-- The signed count of parentheses in `s`: `+1` for each `(` and `-1` for each `)`. -/
def parenDepth (s : List Char) : Int := (s.count '(' : Int) - (s.count ')' : Int)

/-- Balanced parentheses: as many `(` as `)`, and no beginning of `s` has more `)` than `(`. -/
def BalancedParens (s : List Char) : Prop :=
  parenDepth s = 0 ∧ ∀ k, k ≤ s.length → 0 ≤ parenDepth (s.take k)

/-- The tag and the coefficients that `balance` returns for an equation string, when
`parseEquationString` accepts it. -/
def balanceString (b : EquationBalancer) (equationStr : String) :
    Option (BalanceResult × List Int) :=
  match parseEquationString equationStr.toList with
  | .ok equation => some ((b.balance equation).1.result, (b.balance equation).1.coefficients)
  | .error _ => none

/-- The stoichiometric matrix that `balance` builds for an equation. -/
def stoichiometricMatrix (equation : ChemicalEquation) : Matrix :=
  (EquationBalancer.buildStoichiometricMatrix ⟨⟨[]⟩, []⟩ equation).1

/-- The vector that the solver returns inside `balance`. -/
def solutionOf (equation : ChemicalEquation) : List ℚ :=
  (MatrixSolver.gaussianElimination ⟨[]⟩ (stoichiometricMatrix equation)).1

/-- The `BalanceInfo` and the equation that `balance` leaves, read off without the traces
(`balance_eq_core` proves that this is what `balance` returns). -/
def balanceCore (equation : ChemicalEquation) : BalanceInfo × ChemicalEquation :=
  if equation.isBalanced then
    (⟨.ALREADY_BALANCED,
        equation.reactants_.map (fun reactant => reactant.2) ++
          equation.products_.map (fun product => product.2),
        "Equation is already balanced", getAtomBalance equation, true⟩, equation)
  else if (solutionOf equation).isEmpty then
    (⟨.NO_SOLUTION, [], "No solution exists for this equation", [], false⟩, equation)
  else if (reduceToIntegers (solutionOf equation)).any (fun coeff => decide (coeff ≤ 0)) then
    (⟨.NO_SOLUTION, [], "Invalid coefficients found (zero or negative)", [], false⟩, equation)
  else
    match equation.setCoefficients (reduceToIntegers (solutionOf equation)) with
    | .error e => (⟨.PARSING_ERROR, [], "Error during balancing: " ++ e.what, [], false⟩, equation)
    | .ok equation1 =>
      if validateAtomConservation equation1 then
        (⟨.SUCCESS, reduceToIntegers (solutionOf equation), "Equation balanced successfully",
          getAtomBalance equation1, true⟩, equation1)
      else
        (⟨.INVALID_EQUATION, reduceToIntegers (solutionOf equation),
          "Balancing failed - atom conservation violated", getAtomBalance equation1, false⟩,
          equation1)

/-- The greatest common divisor of all entries of a list of integers. -/
def listGcd (l : List Int) : Nat := l.foldr (fun c g => Int.gcd c g) 0

/-- The number of atoms of `element` that an element map records: the value stored under
that key (a `std::map` holds at most one entry per key), `0` when there is none. -/
def ElementMap.atoms (m : ElementMap) (element : List Char) : Int :=
  (m.map (fun entry => if entry.1 = element then entry.2 else 0)).sum

/-- The imbalance of `element` under the equation's coefficients, as a sum: over the
reactants of count times coefficient, minus over the products of count times coefficient. -/
def imbalance (equation : ChemicalEquation) (element : List Char) : Int :=
  (equation.reactants_.map
    (fun reactant => reactant.1.getElementCount.atoms element * reactant.2)).sum -
  (equation.products_.map
    (fun product => product.1.getElementCount.atoms element * product.2)).sum

/-- The equation `H2 + O2 -> H2O` with coefficients `1`, as `parseEquationString` builds it. -/
def waterEquation : ChemicalEquation :=
  ((ChemicalEquation.create.addReactant (ChemicalCompound.create "H2".toList) 1).addReactant
    (ChemicalCompound.create "O2".toList) 1).addProduct (ChemicalCompound.create "H2O".toList) 1

/-- Formulas of the grammar `F ::= item*`, `item ::= Symbol [count] | '(' F ')' [count]`, as
syntax trees: a formula is empty, or an item followed by a formula.  A count is its list of
digits, the empty list when the count is absent. -/
inductive Formula where
  | nil : Formula
  | element (upper : Char) (lowers : List Char) (count : List Char) (rest : Formula) : Formula
  | group (inner : Formula) (count : List Char) (rest : Formula) : Formula

/-- The character classes of the grammar: a symbol is one uppercase letter followed by
lowercase letters, a count is made of decimal digits. -/
def Formula.wellFormed : Formula → Bool
  | .nil => true
  | .element upper lowers count rest =>
    upper.isUpper && lowers.all Char.isLower && count.all Char.isDigit && rest.wellFormed
  | .group inner count rest =>
    inner.wellFormed && count.all Char.isDigit && rest.wellFormed

/-- The text of a formula. -/
def Formula.render : Formula → List Char
  | .nil => []
  | .element upper lowers count rest => upper :: lowers ++ count ++ rest.render
  | .group inner count rest => '(' :: inner.render ++ ')' :: count ++ rest.render

/-- The value of a decimal numeral, read digit by digit. -/
def decimalValue (digits : List Char) : Int :=
  digits.foldl (fun value c => value * 10 + ((c.toNat : Int) - 48)) 0

/-- The value of a count: `1` when it is absent. -/
def countValue (count : List Char) : Int :=
  if count = [] then 1 else decimalValue count

/-- Manual expansion: the number of atoms of `symbol` in a formula that stands inside groups
whose multipliers have product `multiplier`: the sum over the occurrences of the symbol of
its count times the multipliers of all enclosing groups. -/
def Formula.expand : Formula → Int → List Char → Int
  | .nil, _, _ => 0
  | .element upper lowers count rest, multiplier, symbol =>
    (if upper :: lowers = symbol then countValue count * multiplier else 0) +
      rest.expand multiplier symbol
  | .group inner count rest, multiplier, symbol =>
    inner.expand (multiplier * countValue count) symbol + rest.expand multiplier symbol

/-- The change of depth that one character makes. -/
def parenStep (c : Char) : Int := if c = '(' then 1 else if c = ')' then -1 else 0

/-- The element map that parsing a formula leaves when no `int` overflows: every symbol is
added, in text order, with its count times the multiplier in force. -/
def Formula.accumulate : Formula → Int → ElementMap → ElementMap
  | .nil, _, elements => elements
  | .element upper lowers count rest, multiplier, elements =>
    rest.accumulate multiplier
      (elements.addToExact (upper :: lowers) (countValue count * multiplier))
  | .group inner count rest, multiplier, elements =>
    rest.accumulate multiplier (inner.accumulate (multiplier * countValue count) elements)

/-- The formula `Mg(OH)2` as a syntax tree. -/
def magnesiumHydroxide : Formula :=
  .element 'M' ['g'] [] (.group (.element 'O' [] [] (.element 'H' [] [] .nil)) ['2'] .nil)

/-- The signed count of parentheses among the characters of `s` at the indices `a ≤ k < b`. -/
def segDepth (s : List Char) (a b : Nat) : Int := parenDepth ((s.take b).drop a)

/-! ### The solver without its trace -/

/-- The matrix that the loop "Eliminate column" leaves (`eliminateColumnBy` without the
trace). -/
def eliminateColumnM (zero : ℚ → Bool) (matrix : Matrix) (pivot rows : Nat) : Matrix :=
  (List.range' (pivot + 1) (rows - (pivot + 1))).foldl
    (fun m row =>
      if !zero (entry m row pivot) then
        addRowToRowM m pivot row (-(entry m row pivot) / entry m pivot pivot)
      else m)
    matrix

/-- The matrix that one iteration of "Forward elimination" leaves (`forwardStepBy` without
the trace). -/
def forwardStepM (zero : ℚ → Bool) (rows : Nat) (matrix : Matrix) (pivot : Nat) : Matrix :=
  let m1 := if findPivotRow matrix pivot rows ≠ pivot then
      swapRowsM matrix pivot (findPivotRow matrix pivot rows)
    else matrix
  if zero (entry m1 pivot pivot) then m1 else eliminateColumnM zero m1 pivot rows

/-- The matrix that forward elimination leaves. -/
def forwardEliminationM (zero : ℚ → Bool) (matrix : Matrix) : Matrix :=
  (List.range (min matrix.length (matrix.getD 0 []).length)).foldl
    (forwardStepM zero matrix.length) matrix

/-- The vector that back substitution computes from an eliminated matrix. -/
def backSubstitution (zero : ℚ → Bool) (matrix : Matrix) : List ℚ :=
  (List.range matrix.length).reverse.foldl
    (backStepBy zero matrix (matrix.getD 0 []).length)
    ((List.replicate (matrix.getD 0 []).length (0 : ℚ)).set ((matrix.getD 0 []).length - 1) 1)

/-- The solver with the exact zero test in place of the tolerance test `isZero`. -/
def exactSolutionOf (equation : ChemicalEquation) : List ℚ :=
  (MatrixSolver.gaussianEliminationBy isExactZero ⟨[]⟩ (stoichiometricMatrix equation)).1

/-- The product of a matrix row with a vector. -/
def dot (row x : List ℚ) : ℚ := (List.zipWith (fun a b => a * b) row x).sum

/-- The vector `x` solves the homogeneous system of the matrix: it lies in its null space. -/
def IsNull (matrix : Matrix) (x : List ℚ) : Prop := ∀ row ∈ matrix, dot row x = 0

/-- Every row of the matrix has `n` entries. -/
def Rect (matrix : Matrix) (n : Nat) : Prop := ∀ row ∈ matrix, row.length = n

/-- The product of row `r` of the matrix with the vector `x`, as a sum over the `n` columns. -/
def dotF (n : Nat) (matrix : Matrix) (r : Nat) (x : Nat → ℚ) : ℚ :=
  ∑ j ∈ Finset.range n, entry matrix r j * x j

/-- The vector `x` (a function of the column index) solves the homogeneous system. -/
def NullF (n : Nat) (matrix : Matrix) (x : Nat → ℚ) : Prop :=
  ∀ r, r < matrix.length → dotF n matrix r x = 0

/-- The first `p` columns are eliminated: the diagonal entry is not zero and the entries
below it are zero. -/
def Echelon (matrix : Matrix) (p : Nat) : Prop :=
  ∀ q, q < p → entry matrix q q ≠ 0 ∧ ∀ r, q < r → r < matrix.length → entry matrix r q = 0

/-- What forward elimination keeps true of the matrix `m` it works on: its shape, that its
first `p` columns are eliminated, and that it has the null space of the original matrix. -/
def ElimState (n rows p : Nat) (original m : Matrix) : Prop :=
  m.length = rows ∧ Rect m n ∧ Echelon m p ∧ ∀ x, NullF n m x ↔ NullF n original x

/-- The row of the stoichiometric matrix for one element, written out: the atom count in
each reactant, then the atom count in each product, negated as an `int` (`0` where the
element does not occur). -/
def stoichiometricRow (equation : ChemicalEquation) (element : List Char) : List ℚ :=
  equation.reactants_.map
      (fun reactant => (((reactant.1.getElementCount.find element).getD 0 : Int) : ℚ)) ++
    equation.products_.map
      (fun product => ((wrapInt (-((product.1.getElementCount.find element).getD 0)) : Int) : ℚ))


/-- The equation `C1000000O + CH1000000 + H -> C1000001H1000001O` with coefficients `1`, as
`parseEquationString` builds it. -/
def heavyEquation : ChemicalEquation :=
  (((ChemicalEquation.create.addReactant (ChemicalCompound.create "C1000000O".toList) 1).addReactant
    (ChemicalCompound.create "CH1000000".toList) 1).addReactant
    (ChemicalCompound.create "H".toList) 1).addProduct
    (ChemicalCompound.create "C1000001H1000001O".toList) 1

/-- An equation whose only compound is the formula `()`, which parses to no element. -/
def emptyGroupEquation : ChemicalEquation :=
  ChemicalEquation.create.addReactant (ChemicalCompound.create "()".toList) 1

/-- The equation `4H2 + 2O2 -> 4H2O`, as `parseEquationString` builds it: its coefficients
conserve every element. -/
def doubledWaterEquation : ChemicalEquation :=
  ((ChemicalEquation.create.addReactant (ChemicalCompound.create "H2".toList) 4).addReactant
    (ChemicalCompound.create "O2".toList) 2).addProduct (ChemicalCompound.create "H2O".toList) 4

/-- The equation `H2 + O2 -> H2O` after `setCoefficients({2, 1, 2})`. -/
def balancedWaterEquation : ChemicalEquation :=
  match waterEquation.setCoefficients [2, 1, 2] with
  | .ok equation => equation
  | .error _ => waterEquation

/-- The equation `H2 + O2 -> H2` with coefficients `1`, as `parseEquationString` builds it. -/
def oxygenLostEquation : ChemicalEquation :=
  ((ChemicalEquation.create.addReactant (ChemicalCompound.create "H2".toList) 1).addReactant
    (ChemicalCompound.create "O2".toList) 1).addProduct (ChemicalCompound.create "H2".toList) 1

/-- The equation with the reactants `H2$O` (a formula that the parser rejects) and `O2` and
the product `H2O`, built with `addReactant` and `addProduct`. -/
def invalidCompoundEquation : ChemicalEquation :=
  ((ChemicalEquation.create.addReactant (ChemicalCompound.create "H2$O".toList) 1).addReactant
    (ChemicalCompound.create "O2".toList) 1).addProduct (ChemicalCompound.create "H2O".toList) 1

/-! ### Cleaning a formula: state tags and whitespace -/

/-- A state tag `(x)`, with `x` one of `s`, `l`, `g`, `a`, `q` (the class `[slgaq]` of the
state regex), stands at the head of the string. -/
def startsWithTag (s : List Char) : Bool :=
  match s with
  | '(' :: x :: ')' :: _ => decide (x ∈ stateChars)
  | _ => false

/-- The string without its state tags `(x)` and without its whitespace, read off in one pass
(`cleanFormula_eq_stripTags` proves that this is what `cleanFormula` computes). -/
def stripTags : List Char → List Char
  | [] => []
  | c :: rest =>
    if startsWithTag (c :: rest) then stripTags (rest.drop 2)
    else if isspace c then stripTags rest
    else c :: stripTags rest
termination_by s => s.length
decreasing_by
  all_goals simp_wf
  all_goals omega

/-- The relation "`spaced` is `formula` with whitespace characters inserted at arbitrary
positions". -/
inductive Spaced : List Char → List Char → Prop where
  | done : Spaced [] []
  | space (w : Char) {formula spaced : List Char} :
      isspace w = true → Spaced formula spaced → Spaced formula (w :: spaced)
  | keep (c : Char) {formula spaced : List Char} :
      Spaced formula spaced → Spaced (c :: formula) (c :: spaced)

/-- The relation "`spaced` is `formula` with whitespace characters inserted at arbitrary
positions, except between the parentheses of a state tag `(x)` of `formula`": a state tag is
copied whole. -/
inductive SpacedOutsideTags : List Char → List Char → Prop where
  | done : SpacedOutsideTags [] []
  | space (w : Char) {formula spaced : List Char} :
      isspace w = true → SpacedOutsideTags formula spaced →
      SpacedOutsideTags formula (w :: spaced)
  | keep (c : Char) {formula spaced : List Char} :
      startsWithTag (c :: formula) = false → SpacedOutsideTags formula spaced →
      SpacedOutsideTags (c :: formula) (c :: spaced)
  | tag (x : Char) {formula spaced : List Char} :
      x ∈ stateChars → SpacedOutsideTags formula spaced →
      SpacedOutsideTags ('(' :: x :: ')' :: formula) ('(' :: x :: ')' :: spaced)

/-! ### `parseGroup` with a log of its reads and of its recursive calls -/

/-- What `parseGroup(formula, start, end, _)` does with its string and its range: a read of
`formula[i]`, or a recursive call `parseGroup(formula, groupStart, groupEnd, _)`. -/
inductive Access where
  | read (start end_ i : Nat)
  | call (start end_ groupStart groupEnd : Nat)
  deriving DecidableEq, Repr

/-- A read inside its range and inside the string; a recursive call on a strictly shorter
range that ends inside the string. -/
def Access.inBounds (formula : List Char) : Access → Prop
  | .read start end_ i => start ≤ i ∧ i < end_ ∧ end_ ≤ formula.length
  | .call start end_ groupStart groupEnd =>
    groupEnd - groupStart < end_ - start ∧ groupEnd ≤ formula.length

/-- The loop `lowerLoop`, which also returns the reads it makes. -/
def lowerLoopLog (formula : List Char) (start end_ : Nat) :
    Nat → Nat → List Char → Except Exn (Nat × List Char) × List Access
  | 0, i, element => (.ok (i, element), [])
  | n + 1, i, element =>
    match charAt formula i with
    | .error e => (.error e, [.read start end_ i])
    | .ok c =>
      if c.isLower then
        ((lowerLoopLog formula start end_ n (i + 1) (element ++ [c])).1,
          .read start end_ i :: (lowerLoopLog formula start end_ n (i + 1) (element ++ [c])).2)
      else (.ok (i, element), [.read start end_ i])

/-- The loop `digitLoop`, which also returns the reads it makes. -/
def digitLoopLog (formula : List Char) (start end_ : Nat) :
    Nat → Nat → Int → Except Exn (Nat × Int) × List Access
  | 0, i, count => (.ok (i, count), [])
  | n + 1, i, count =>
    match charAt formula i with
    | .error e => (.error e, [.read start end_ i])
    | .ok c =>
      if c.isDigit then
        ((digitLoopLog formula start end_ n (i + 1)
            (wrapInt (wrapInt (count * 10) + ((c.toNat : Int) - ('0'.toNat : Int))))).1,
          .read start end_ i :: (digitLoopLog formula start end_ n (i + 1)
            (wrapInt (wrapInt (count * 10) + ((c.toNat : Int) - ('0'.toNat : Int))))).2)
      else (.ok (i, count), [.read start end_ i])

/-- The block `readCount`, which also returns the reads it makes. -/
def readCountLog (formula : List Char) (start end_ i : Nat) :
    Except Exn (Nat × Int) × List Access :=
  if i < end_ then
    match charAt formula i with
    | .error e => (.error e, [.read start end_ i])
    | .ok c =>
      if c.isDigit then
        ((digitLoopLog formula start end_ (end_ - i) i 0).1,
          .read start end_ i :: (digitLoopLog formula start end_ (end_ - i) i 0).2)
      else (.ok (i, 1), [.read start end_ i])
  else (.ok (i, 1), [])

/-- The loop `depthLoop`, which also returns the reads it makes. -/
def depthLoopLog (formula : List Char) (start end_ : Nat) :
    Nat → Nat → Int → Except Exn Nat × List Access
  | 0, i, _ => (.ok i, [])
  | n + 1, i, depth =>
    if depth > 0 then
      match charAt formula i with
      | .error e => (.error e, [.read start end_ i])
      | .ok c =>
        ((depthLoopLog formula start end_ n (i + 1)
            (if c = '(' then depth + 1 else if c = ')' then depth - 1 else depth)).1,
          .read start end_ i :: (depthLoopLog formula start end_ n (i + 1)
            (if c = '(' then depth + 1 else if c = ')' then depth - 1 else depth)).2)
    else (.ok i, [])

/-- The body of `parseGroup` (`parseGroupAux`) for the call with the range from `start` to
`end_`, which also returns, in order, the reads it makes and the recursive calls it makes,
followed by what those calls do. -/
def parseGroupAuxLog (formula : List Char) :
    Nat → Nat → Nat → Nat → Int → ElementMap → (Except Exn Unit × ElementMap) × List Access
  | 0, _, i, end_, _, elements =>
    (if i < end_ then (.error .budget, elements) else (.ok (), elements), [])
  | fuel + 1, start, i, end_, multiplier, elements =>
    if i < end_ then
      match charAt formula i with
      | .error e => ((.error e, elements), [.read start end_ i])
      | .ok c =>
        if c.isUpper then
          match lowerLoopLog formula start end_ (end_ - (i + 1)) (i + 1) [c] with
          | (.error e, log1) => ((.error e, elements), .read start end_ i :: log1)
          | (.ok (i1, element), log1) =>
            match readCountLog formula start end_ i1 with
            | (.error e, log2) => ((.error e, elements), .read start end_ i :: (log1 ++ log2))
            | (.ok (i2, count), log2) =>
              ((parseGroupAuxLog formula fuel start i2 end_ multiplier
                  (elements.addTo element (wrapInt (count * multiplier)))).1,
                .read start end_ i :: (log1 ++ log2 ++
                  (parseGroupAuxLog formula fuel start i2 end_ multiplier
                    (elements.addTo element (wrapInt (count * multiplier)))).2))
        else if c = '(' then
          match depthLoopLog formula start end_ (end_ - (i + 1)) (i + 1) 1 with
          | (.error e, log1) => ((.error e, elements), .read start end_ i :: log1)
          | (.ok i1, log1) =>
            match readCountLog formula start end_ i1 with
            | (.error e, log2) => ((.error e, elements), .read start end_ i :: (log1 ++ log2))
            | (.ok (i2, groupMultiplier), log2) =>
              match parseGroupAuxLog formula fuel (i + 1) (i + 1) (i1 - 1)
                  (wrapInt (multiplier * groupMultiplier)) elements with
              | ((.error e, elements1), log3) =>
                ((.error e, elements1),
                  .read start end_ i :: (log1 ++ log2 ++
                    (.call start end_ (i + 1) (i1 - 1) :: log3)))
              | ((.ok (), elements1), log3) =>
                ((parseGroupAuxLog formula fuel start i2 end_ multiplier elements1).1,
                  .read start end_ i :: (log1 ++ log2 ++
                    (.call start end_ (i + 1) (i1 - 1) :: log3) ++
                    (parseGroupAuxLog formula fuel start i2 end_ multiplier elements1).2))
        else
          ((.error (.invalidArgument ("Invalid character in formula: ".toList ++ [c])), elements),
            [.read start end_ i])
    else ((.ok (), elements), [])

/-- The call `parseGroup(formula, start, end, multiplier)` with its log. -/
def parseGroupLog (formula : List Char) (start end_ : Nat) (multiplier : Int)
    (elements : ElementMap) : (Except Exn Unit × ElementMap) × List Access :=
  parseGroupAuxLog formula (end_ - start) start start end_ multiplier elements

/-! ### Under-determined systems -/

/-- The entries below the diagonal are zero in the first `p` columns. -/
def LowerZero (matrix : Matrix) (p : Nat) : Prop :=
  ∀ q, q < p → ∀ r, q < r → r < matrix.length → entry matrix r q = 0

/-- What forward elimination keeps true of the matrix `m` it works on, whether or not it
finds pivots: its shape, zeros below the diagonal in the first `p` columns, and the null
space of the original matrix. -/
def ShapeState (n rows p : Nat) (original m : Matrix) : Prop :=
  m.length = rows ∧ Rect m n ∧ LowerZero m p ∧ ∀ x, NullF n m x ↔ NullF n original x

/-- The null space of the matrix, in `n` unknowns, has dimension two or more: it holds two
linearly independent vectors. -/
def NullityAtLeastTwo (matrix : Matrix) (n : Nat) : Prop :=
  ∃ x y : List ℚ, x.length = n ∧ y.length = n ∧ IsNull matrix x ∧ IsNull matrix y ∧
    ∀ a b : ℚ, (∀ j, j < n → a * x.getD j 0 + b * y.getD j 0 = 0) → a = 0 ∧ b = 0

/-- The equation
`C1000000S + CH1000000 + HN1001O1000 -> HN + H1000N1000 + C1000001H999000O1000S`
with coefficients `1`, as `parseEquationString` builds it. -/
def underdeterminedEquation : ChemicalEquation :=
  (((((ChemicalEquation.create.addReactant (ChemicalCompound.create "C1000000S".toList) 1).addReactant
    (ChemicalCompound.create "CH1000000".toList) 1).addReactant
    (ChemicalCompound.create "HN1001O1000".toList) 1).addProduct
    (ChemicalCompound.create "HN".toList) 1).addProduct
    (ChemicalCompound.create "H1000N1000".toList) 1).addProduct
    (ChemicalCompound.create "C1000001H999000O1000S".toList) 1

/-- The equation `C + O2 -> CO + CO2` with coefficients `1`, as `parseEquationString` builds
it. -/
def carbonOxidesEquation : ChemicalEquation :=
  (((ChemicalEquation.create.addReactant (ChemicalCompound.create "C".toList) 1).addReactant
    (ChemicalCompound.create "O2".toList) 1).addProduct
    (ChemicalCompound.create "CO".toList) 1).addProduct
    (ChemicalCompound.create "CO2".toList) 1

/-- The equation object after the call `setCoefficients(coefficients)`, whether the call
returns or throws: the source throws before it writes to the object, so a call that throws
leaves the object as it was. -/
def ChemicalEquation.afterSetCoefficients (self : ChemicalEquation) (coefficients : List Int) :
    ChemicalEquation :=
  match self.setCoefficients coefficients with
  | .ok equation1 => equation1
  | .error _ => self

/-- The stoichiometric matrix of `C1000000O + CH1000000 + H -> C1000001H1000001O` (rows `C`,
`H`, `O`): its null space is the line through `(1, 1, 1, 1)`. -/
def heavyMatrix : Matrix :=
  [[1000000, 1, 0, -1000001], [0, 1000000, 1, -1000001], [1, 0, 0, -1]]

/-- The stoichiometric matrix of `H2 + O2 -> H2O` (rows `H`, `O`): its null space is the line
through `(2, 1, 2)`. -/
def waterMatrix : Matrix := [[2, 0, -2], [0, 2, -1]]

/-- The equation `0H2 + O2 -> H2O` as `parseEquationString` builds it: the first reactant
has the coefficient `0`. -/
def zeroCoefficientEquation : ChemicalEquation :=
  ((ChemicalEquation.create.addReactant (ChemicalCompound.create "H2".toList) 0).addReactant
    (ChemicalCompound.create "O2".toList) 1).addProduct (ChemicalCompound.create "H2O".toList) 1

/-- No digit `0` of the text stands where a number starts: a `0` follows a digit
(`afterDigit` tells whether a digit stands before the text). -/
def noLeadingZeroFrom : Bool → List Char → Bool
  | _, [] => true
  | afterDigit, c :: rest => (c != '0' || afterDigit) && noLeadingZeroFrom c.isDigit rest

/-- No number written in the text starts with the digit `0`: no `0` stands first or directly
after a character that is not a digit. -/
def noLeadingZero (s : List Char) : Bool := noLeadingZeroFrom false s

/-! ### Equation strings -/

/-- A compound as it is written in an equation string: the digits of its coefficient (none
when no coefficient is written), then the text of its formula. -/
def writtenCompound (term : List Char × Formula) : List Char := term.1 ++ term.2.render

/-- One side of an equation string: the written compounds, joined by the separator `plus`. -/
def writtenSide (plus : List Char) : List (List Char × Formula) → List Char
  | [] => []
  | [term] => writtenCompound term
  | term :: next :: rest => writtenCompound term ++ plus ++ writtenSide plus (next :: rest)

/-- An equation string: the reactant side, the arrow, the product side. -/
def writtenEquation (plus arrow : List Char) (reactants products : List (List Char × Formula)) :
    List Char :=
  writtenSide plus reactants ++ arrow ++ writtenSide plus products

/-- The separator is a plus sign with optional whitespace on both sides. -/
def isPlusSeparator (sep : List Char) : Bool :=
  match sep.dropWhile isspace with
  | '+' :: rest => rest.all isspace
  | _ => false

/-- The separator is the arrow `->` or `→` with optional whitespace on both sides. -/
def isArrowSeparator (sep : List Char) : Bool :=
  match sep.dropWhile isspace with
  | '-' :: '>' :: rest => rest.all isspace
  | '→' :: rest => rest.all isspace
  | _ => false

/-- The compound and the coefficient that a written compound stands for: the coefficient is
the value of its digits, `1` when none is written. -/
def readCompound (term : List Char × Formula) : ChemicalCompound × Int :=
  (ChemicalCompound.create term.2.render, countValue term.1)

/-- The formula `H2`. -/
def hydrogenFormula : Formula := .element 'H' [] ['2'] .nil

/-- The formula `O2`. -/
def oxygenFormula : Formula := .element 'O' [] ['2'] .nil

/-- The formula `H2O`. -/
def waterFormula : Formula := .element 'H' [] ['2'] (.element 'O' [] [] .nil)

/-! ### Equation states -/

/-- The equation states that can be reached from a new `ChemicalEquation` through
`addReactant`, `addProduct`, `setCoefficients`, `checkBalance` and `clear` (a call of
`setCoefficients` that throws leaves the state as it is). -/
inductive Reachable : ChemicalEquation → Prop where
  | create : Reachable ChemicalEquation.create
  | addReactant (equation : ChemicalEquation) (compound : ChemicalCompound) (coefficient : Int) :
      Reachable equation → Reachable (equation.addReactant compound coefficient)
  | addProduct (equation : ChemicalEquation) (compound : ChemicalCompound) (coefficient : Int) :
      Reachable equation → Reachable (equation.addProduct compound coefficient)
  | setCoefficients (equation equation1 : ChemicalEquation) (coefficients : List Int) :
      Reachable equation → equation.setCoefficients coefficients = .ok equation1 →
      Reachable equation1
  | checkBalance (equation : ChemicalEquation) :
      Reachable equation → Reachable equation.checkBalance
  | clear (equation : ChemicalEquation) : Reachable equation → Reachable equation.clear

/-! ### Row operations -/

/-- The matrix `m` is obtained from `original` by row swaps and by adding multiples of a row
to a row below it. -/
inductive RowOps (original : Matrix) : Matrix → Prop where
  | start : RowOps original original
  | swap (m : Matrix) (row1 row2 : Nat) : RowOps original m → row1 < m.length →
      row2 < m.length → RowOps original (swapRowsM m row1 row2)
  | add (m : Matrix) (sourceRow targetRow : Nat) (factor : ℚ) : RowOps original m →
      sourceRow < targetRow → targetRow < m.length →
      RowOps original (addRowToRowM m sourceRow targetRow factor)

/-- The matrix with the rows `(0, 1)` and `(0, 2)`: its second row is twice its first. -/
def dependentRowsMatrix : Matrix := [[0, 1], [0, 2]]

/-! ### Overflow of `int` -/

/-- The equation `A2 + B4 -> A1073741827B` with coefficients `1`, as `parseEquationString`
builds it.  Its balancing coefficients are `2147483654, 1, 4`, and `2147483654` is not an
`int`. -/
def overflowEquation : ChemicalEquation :=
  ((ChemicalEquation.create.addReactant (ChemicalCompound.create "A2".toList) 1).addReactant
    (ChemicalCompound.create "B4".toList) 1).addProduct
    (ChemicalCompound.create "A1073741827B".toList) 1

/-- The compound and the coefficient that a token of an equation string stands for: the
compound of the formula that the regex of `parseCompoundWithCoefficient` captures, and the
value of the digits it captures before the formula, `1` when it captures none. -/
def tokenCompound (token : List Char) : ChemicalCompound × Int :=
  match matchCoeffRegex token with
  | some (digits, formula) => (ChemicalCompound.create formula, countValue digits)
  | none => (ChemicalCompound.create [], 1)

/-- The equation `10H2 + 5O2 -> 10H2O`, as `parseEquationString` builds it. -/
def tenfoldWaterEquation : ChemicalEquation :=
  ((ChemicalEquation.create.addReactant (ChemicalCompound.create "H2".toList) 10).addReactant
    (ChemicalCompound.create "O2".toList) 5).addProduct (ChemicalCompound.create "H2O".toList) 10

/-- The equation `A100000B -> A + B100000` with coefficients `1`, as `parseEquationString`
builds it: the solver returns `(100000, 10000000000, 1)` for it. -/
def largeRatioEquation : ChemicalEquation :=
  ((ChemicalEquation.create.addReactant (ChemicalCompound.create "A100000B".toList) 1).addProduct
    (ChemicalCompound.create "A".toList) 1).addProduct
    (ChemicalCompound.create "B100000".toList) 1

/-- The formula `H2147483648` as a syntax tree. -/
def overflowFormula : Formula := .element 'H' [] "2147483648".toList .nil

/-- The formula `(H100000)100000` as a syntax tree. -/
def overflowGroupFormula : Formula :=
  .group (.element 'H' [] "100000".toList .nil) "100000".toList .nil

/-! ## Machine integers -/

theorem wrapInt_range (x : Int) : -2147483648 ≤ wrapInt x ∧ wrapInt x ≤ 2147483647 := by
  unfold wrapInt
  omega

/-- Every result of an `int` computation lies between `INT_MIN` and `INT_MAX`. -/
theorem wrapInt_mem_int (x : Int) : INT_MIN ≤ wrapInt x ∧ wrapInt x ≤ INT_MAX :=
  wrapInt_range x

theorem wrapInt_of_range (x : Int) (hlo : -2147483648 ≤ x) (hhi : x ≤ 2147483647) :
    wrapInt x = x := by
  unfold wrapInt
  omega

theorem wrapInt_sub_dvd (x : Int) : (4294967296 : Int) ∣ wrapInt x - x := by
  unfold wrapInt
  omega

theorem wrapInt_congr (x y : Int) (h : (4294967296 : Int) ∣ x - y) : wrapInt x = wrapInt y := by
  unfold wrapInt
  omega

theorem wrapInt_eq_iff (x y : Int) : wrapInt x = wrapInt y ↔ (4294967296 : Int) ∣ x - y := by
  unfold wrapInt
  omega

theorem wrapInt_eq_zero_iff (x : Int) : wrapInt x = 0 ↔ (4294967296 : Int) ∣ x := by
  unfold wrapInt
  omega

theorem wrapInt_zero : wrapInt 0 = 0 := by decide

theorem wrapInt_one : wrapInt 1 = 1 := by decide

theorem wrapInt_wrapInt (x : Int) : wrapInt (wrapInt x) = wrapInt x := by
  unfold wrapInt
  omega

theorem wrapInt_add_left (x y : Int) : wrapInt (wrapInt x + y) = wrapInt (x + y) := by
  unfold wrapInt
  omega

theorem wrapInt_add_right (x y : Int) : wrapInt (x + wrapInt y) = wrapInt (x + y) := by
  unfold wrapInt
  omega

theorem wrapInt_neg (x : Int) : wrapInt (-wrapInt x) = wrapInt (-x) := by
  unfold wrapInt
  omega

theorem wrapInt_mul_left (x y : Int) : wrapInt (wrapInt x * y) = wrapInt (x * y) := by
  apply wrapInt_congr
  have h : wrapInt x * y - x * y = (wrapInt x - x) * y := by ring
  rw [h]
  exact Dvd.dvd.mul_right (wrapInt_sub_dvd x) y

theorem wrapInt_mul_right (x y : Int) : wrapInt (x * wrapInt y) = wrapInt (x * y) := by
  rw [mul_comm, wrapInt_mul_left, mul_comm]

theorem wrapInt_mul (x y : Int) : wrapInt (wrapInt x * wrapInt y) = wrapInt (x * y) := by
  rw [wrapInt_mul_left, wrapInt_mul_right]

/-- A value that is not a multiple of `2^32` away from zero and small enough is zero. -/
theorem eq_zero_of_wrapInt_eq_zero (x : Int) (h : wrapInt x = 0) (hlo : -4294967296 < x)
    (hhi : x < 4294967296) : x = 0 := by
  unfold wrapInt at h
  omega

theorem absInt_of_range (x : Int) (hlo : -2147483648 < x) (hhi : x ≤ 2147483647) :
    absInt x = abs x := by
  unfold absInt
  apply wrapInt_of_range
  · have := abs_nonneg x
    omega
  · rcases abs_cases x with ⟨h, _⟩ | ⟨h, _⟩ <;> omega

theorem absInt_natAbs (x : Int) (hlo : -2147483648 ≤ x) (hhi : x ≤ 2147483647) :
    (absInt x).natAbs = x.natAbs := by
  by_cases h : x = -2147483648
  · subst h
    decide
  · rw [absInt_of_range x (by omega) hhi]
    exact Int.natAbs_abs x

theorem absInt_range (x : Int) : -2147483648 ≤ absInt x ∧ absInt x ≤ 2147483647 :=
  wrapInt_range _

theorem castToInt_of_range (x : Int) (hlo : -2147483648 ≤ x) (hhi : x ≤ 2147483647) :
    castToInt x = x := by
  unfold castToInt
  rw [if_pos ⟨hlo, hhi⟩]

theorem castToInt_range (x : Int) : -2147483648 ≤ castToInt x ∧ castToInt x ≤ 2147483647 := by
  unfold castToInt
  split
  · assumption
  · decide

/-! ## Element maps -/

theorem ElementMap.sorted_nil : ElementMap.Sorted [] := List.Pairwise.nil

theorem ElementMap.find_eq_none_of_lt (m : ElementMap) (key : List Char)
    (h : ∀ p ∈ m, key < p.1) : ElementMap.find m key = none := by
  induction m with
  | nil => rfl
  | cons p rest ih =>
    obtain ⟨k, v⟩ := p
    have hk : key < k := h (k, v) (List.mem_cons_self _ _)
    have hne : key ≠ k := ne_of_lt hk
    simp only [ElementMap.find, hne, if_false]
    exact ih (fun p hp => h p (List.mem_cons_of_mem _ hp))

theorem ElementMap.find_addToExact (m : ElementMap) (hs : m.Sorted) (key : List Char) (value : Int)
    (k1 : List Char) :
    (m.addToExact key value).find k1
      = if k1 = key then some ((m.find key).getD 0 + value) else m.find k1 := by
  induction m with
  | nil =>
    simp only [ElementMap.addToExact, ElementMap.find]
    split <;> simp
  | cons p rest ih =>
    obtain ⟨k, v⟩ := p
    have hs1 : ElementMap.Sorted rest := (List.pairwise_cons.mp hs).2
    have hlt : ∀ q ∈ rest, k < q.1 := (List.pairwise_cons.mp hs).1
    by_cases hk : key = k
    · subst hk
      simp only [ElementMap.addToExact, if_true, ElementMap.find]
      by_cases h1 : k1 = key
      · simp [h1]
      · simp [h1]
    · by_cases hlt2 : key < k
      · have hnone : ElementMap.find ((k, v) :: rest) key = none := by
          apply ElementMap.find_eq_none_of_lt
          intro q hq
          rcases List.mem_cons.mp hq with h | h
          · rw [h]; exact hlt2
          · exact lt_trans hlt2 (hlt q h)
        rw [hnone]
        simp only [ElementMap.addToExact, hk, if_false, hlt2, if_true]
        by_cases h1 : k1 = key
        · simp [ElementMap.find, h1]
        · simp only [ElementMap.find, h1, if_false]
      · simp only [ElementMap.addToExact, hk, if_false, hlt2]
        by_cases h1 : k1 = key
        · subst h1
          simp only [ElementMap.find, hk, if_false, if_true]
          rw [ih hs1]; simp
        · simp only [ElementMap.find, h1, if_false]
          by_cases h2 : k1 = k
          · simp [h2]
          · simp only [h2, if_false]
            rw [ih hs1]; simp [h1]

theorem ElementMap.addToExact_keys (m : ElementMap) (key : List Char) (value : Int) :
    ∀ p ∈ m.addToExact key value, p.1 = key ∨ ∃ q ∈ m, q.1 = p.1 := by
  induction m with
  | nil =>
    intro p hp
    simp only [ElementMap.addToExact, List.mem_singleton] at hp
    left; rw [hp]
  | cons q rest ih =>
    obtain ⟨k, v⟩ := q
    intro p hp
    simp only [ElementMap.addToExact] at hp
    split at hp
    · rcases List.mem_cons.mp hp with h | h
      · right; exact ⟨(k, v), List.mem_cons_self _ _, by rw [h]⟩
      · right; exact ⟨p, List.mem_cons_of_mem _ h, rfl⟩
    · split at hp
      · rcases List.mem_cons.mp hp with h | h
        · left; rw [h]
        · right; exact ⟨p, h, rfl⟩
      · rcases List.mem_cons.mp hp with h | h
        · right; exact ⟨(k, v), List.mem_cons_self _ _, by rw [h]⟩
        · rcases ih p h with h1 | ⟨q, hq, hq1⟩
          · left; exact h1
          · right; exact ⟨q, List.mem_cons_of_mem _ hq, hq1⟩

theorem ElementMap.addToExact_sorted (m : ElementMap) (hs : m.Sorted) (key : List Char) (value : Int) :
    (m.addToExact key value).Sorted := by
  induction m with
  | nil => simp [ElementMap.addToExact, ElementMap.Sorted]
  | cons p rest ih =>
    obtain ⟨k, v⟩ := p
    have hs1 : ElementMap.Sorted rest := (List.pairwise_cons.mp hs).2
    have hlt : ∀ q ∈ rest, k < q.1 := (List.pairwise_cons.mp hs).1
    simp only [ElementMap.addToExact]
    split
    · exact List.pairwise_cons.mpr ⟨hlt, hs1⟩
    · rename_i hk
      split
      · rename_i hlt2
        refine List.pairwise_cons.mpr ⟨?_, hs⟩
        intro q hq
        rcases List.mem_cons.mp hq with h | h
        · rw [h]; exact hlt2
        · exact lt_trans hlt2 (hlt q h)
      · rename_i hlt2
        refine List.pairwise_cons.mpr ⟨?_, ih hs1⟩
        intro q hq
        rcases ElementMap.addToExact_keys rest key value q hq with h | ⟨r, hr, hr1⟩
        · rw [h]; exact lt_of_le_of_ne (not_lt.mp hlt2) (Ne.symm hk)
        · rw [← hr1]; exact hlt r hr

theorem ElementMap.count_addToExact (m : ElementMap) (hs : m.Sorted) (key : List Char) (value : Int)
    (k1 : List Char) :
    (m.addToExact key value).count k1 = m.count k1 + if k1 = key then value else 0 := by
  unfold ElementMap.count
  rw [ElementMap.find_addToExact m hs]
  by_cases h : k1 = key
  · simp [h]
  · simp [h]


/-! ### The update with wrap-around -/

theorem ElementMap.find_addTo (m : ElementMap) (hs : m.Sorted) (key : List Char) (value : Int)
    (k1 : List Char) :
    (m.addTo key value).find k1
      = if k1 = key then some (wrapInt ((m.find key).getD 0 + value)) else m.find k1 := by
  induction m with
  | nil =>
    simp only [ElementMap.addTo, ElementMap.find]
    split <;> simp
  | cons p rest ih =>
    obtain ⟨k, v⟩ := p
    have hs1 : ElementMap.Sorted rest := (List.pairwise_cons.mp hs).2
    have hlt : ∀ q ∈ rest, k < q.1 := (List.pairwise_cons.mp hs).1
    by_cases hk : key = k
    · subst hk
      simp only [ElementMap.addTo, if_true, ElementMap.find]
      by_cases h1 : k1 = key
      · simp [h1]
      · simp [h1]
    · by_cases hlt2 : key < k
      · have hnone : ElementMap.find ((k, v) :: rest) key = none := by
          apply ElementMap.find_eq_none_of_lt
          intro q hq
          rcases List.mem_cons.mp hq with h | h
          · rw [h]; exact hlt2
          · exact lt_trans hlt2 (hlt q h)
        rw [hnone]
        simp only [ElementMap.addTo, hk, if_false, hlt2, if_true]
        by_cases h1 : k1 = key
        · simp [ElementMap.find, h1]
        · simp only [ElementMap.find, h1, if_false]
      · simp only [ElementMap.addTo, hk, if_false, hlt2]
        by_cases h1 : k1 = key
        · subst h1
          simp only [ElementMap.find, hk, if_false, if_true]
          rw [ih hs1]; simp
        · simp only [ElementMap.find, h1, if_false]
          by_cases h2 : k1 = k
          · simp [h2]
          · simp only [h2, if_false]
            rw [ih hs1]; simp [h1]

theorem ElementMap.addTo_keys (m : ElementMap) (key : List Char) (value : Int) :
    ∀ p ∈ m.addTo key value, p.1 = key ∨ ∃ q ∈ m, q.1 = p.1 := by
  induction m with
  | nil =>
    intro p hp
    simp only [ElementMap.addTo, List.mem_singleton] at hp
    left; rw [hp]
  | cons q rest ih =>
    obtain ⟨k, v⟩ := q
    intro p hp
    simp only [ElementMap.addTo] at hp
    split at hp
    · rcases List.mem_cons.mp hp with h | h
      · right; exact ⟨(k, v), List.mem_cons_self _ _, by rw [h]⟩
      · right; exact ⟨p, List.mem_cons_of_mem _ h, rfl⟩
    · split at hp
      · rcases List.mem_cons.mp hp with h | h
        · left; rw [h]
        · right; exact ⟨p, h, rfl⟩
      · rcases List.mem_cons.mp hp with h | h
        · right; exact ⟨(k, v), List.mem_cons_self _ _, by rw [h]⟩
        · rcases ih p h with h1 | ⟨q, hq, hq1⟩
          · left; exact h1
          · right; exact ⟨q, List.mem_cons_of_mem _ hq, hq1⟩

theorem ElementMap.addTo_sorted (m : ElementMap) (hs : m.Sorted) (key : List Char) (value : Int) :
    (m.addTo key value).Sorted := by
  induction m with
  | nil => simp [ElementMap.addTo, ElementMap.Sorted]
  | cons p rest ih =>
    obtain ⟨k, v⟩ := p
    have hs1 : ElementMap.Sorted rest := (List.pairwise_cons.mp hs).2
    have hlt : ∀ q ∈ rest, k < q.1 := (List.pairwise_cons.mp hs).1
    simp only [ElementMap.addTo]
    split
    · exact List.pairwise_cons.mpr ⟨hlt, hs1⟩
    · rename_i hk
      split
      · rename_i hlt2
        refine List.pairwise_cons.mpr ⟨?_, hs⟩
        intro q hq
        rcases List.mem_cons.mp hq with h | h
        · rw [h]; exact hlt2
        · exact lt_trans hlt2 (hlt q h)
      · rename_i hlt2
        refine List.pairwise_cons.mpr ⟨?_, ih hs1⟩
        intro q hq
        rcases ElementMap.addTo_keys rest key value q hq with h | ⟨r, hr, hr1⟩
        · rw [h]; exact lt_of_le_of_ne (not_lt.mp hlt2) (Ne.symm hk)
        · rw [← hr1]; exact hlt r hr

theorem ElementMap.count_addTo (m : ElementMap) (hs : m.Sorted) (key : List Char) (value : Int)
    (k1 : List Char) :
    (m.addTo key value).count k1
      = if k1 = key then wrapInt (m.count k1 + value) else m.count k1 := by
  unfold ElementMap.count
  rw [ElementMap.find_addTo m hs]
  by_cases h : k1 = key
  · simp [h]
  · simp [h]


theorem ElementMap.wrap_sorted (m : ElementMap) (hs : m.Sorted) : (ElementMap.wrap m).Sorted := by
  unfold ElementMap.Sorted ElementMap.wrap
  rw [List.pairwise_map]
  exact hs

theorem ElementMap.find_wrap (m : ElementMap) (key : List Char) :
    (ElementMap.wrap m).find key = (m.find key).map wrapInt := by
  induction m with
  | nil => rfl
  | cons p rest ih =>
    obtain ⟨k, v⟩ := p
    have h : ElementMap.wrap ((k, v) :: rest) = (k, wrapInt v) :: ElementMap.wrap rest := rfl
    rw [h]
    simp only [ElementMap.find]
    split
    · rfl
    · exact ih

theorem ElementMap.count_wrap (m : ElementMap) (key : List Char) :
    (ElementMap.wrap m).count key = wrapInt (m.count key) := by
  unfold ElementMap.count
  rw [ElementMap.find_wrap]
  cases m.find key with
  | none => rfl
  | some v => rfl

theorem ElementMap.wrap_nil : ElementMap.wrap [] = [] := rfl

/-- The update with wrap-around follows the update with unbounded integers. -/
theorem ElementMap.addTo_wrap (m : ElementMap) (key : List Char) (x y : Int)
    (h : wrapInt x = wrapInt y) :
    (ElementMap.wrap m).addTo key x = ElementMap.wrap (m.addToExact key y) := by
  have h0 : wrapInt (0 + x) = wrapInt (0 + y) := by simpa using h
  induction m with
  | nil =>
    simp only [ElementMap.wrap, List.map_nil, ElementMap.addTo, ElementMap.addToExact,
      List.map_cons, h0]
  | cons p rest ih =>
    obtain ⟨k, v⟩ := p
    have hw : ElementMap.wrap ((k, v) :: rest) = (k, wrapInt v) :: ElementMap.wrap rest := rfl
    rw [hw]
    simp only [ElementMap.addTo, ElementMap.addToExact]
    split
    · have hv : wrapInt (wrapInt v + x) = wrapInt (v + y) := by
        rw [wrapInt_add_left, ← wrapInt_add_right, h, wrapInt_add_right]
      simp only [ElementMap.wrap, List.map_cons, hv]
    · split
      · simp only [ElementMap.wrap, List.map_cons, h0]
      · rw [ih]
        rfl

theorem ElementMap.wrap_mem (m : ElementMap) (p : List Char × Int) (hp : p ∈ ElementMap.wrap m) :
    ∃ q ∈ m, p = (q.1, wrapInt q.2) := by
  unfold ElementMap.wrap at hp
  obtain ⟨q, hq, rfl⟩ := List.mem_map.mp hp
  exact ⟨q, hq, rfl⟩

/-! ## The parser and the balancer on the examples of the specification -/

/-- The result of `balance` does not depend on the balancer it is called on: both traces are
cleared first. -/
theorem balance_eq_of_fresh (b : EquationBalancer) (equation : ChemicalEquation) :
    b.balance equation = EquationBalancer.balance ⟨⟨[]⟩, []⟩ equation := rfl

theorem balanceString_eq_of_fresh (b : EquationBalancer) (equationStr : String) :
    balanceString b equationStr = balanceString ⟨⟨[]⟩, []⟩ equationStr := rfl

/-- C3: parsing the four equations of `runTests` and balancing them returns `SUCCESS` with
the coefficients `[2,1,2]`, `[1,2,1,2]`, `[4,3,2]` and `[1,6,6,6]`. -/
theorem C3_end_to_end (b : EquationBalancer) :
    balanceString b "H2 + O2 -> H2O" = some (.SUCCESS, [2, 1, 2]) ∧
    balanceString b "CH4 + O2 -> CO2 + H2O" = some (.SUCCESS, [1, 2, 1, 2]) ∧
    balanceString b "Fe + O2 -> Fe2O3" = some (.SUCCESS, [4, 3, 2]) ∧
    balanceString b "C6H12O6 + O2 -> CO2 + H2O" = some (.SUCCESS, [1, 6, 6, 6]) := by
  rw [balanceString_eq_of_fresh b "H2 + O2 -> H2O",
    balanceString_eq_of_fresh b "CH4 + O2 -> CO2 + H2O",
    balanceString_eq_of_fresh b "Fe + O2 -> Fe2O3",
    balanceString_eq_of_fresh b "C6H12O6 + O2 -> CO2 + H2O"]
  refine ⟨?_, ?_, ?_, ?_⟩ <;> decide!

/-- C7: the element counts of `Ca(OH)2`, `C6H12O6`, `Mg(OH)2` and `(NH4)2SO4` (listed in key
order, as the map holds them), each compound valid; `K4[Fe(CN)6]` is invalid. -/
theorem C7_parser_examples :
    (ChemicalCompound.create "Ca(OH)2".toList).isValid = true ∧
    (ChemicalCompound.create "Ca(OH)2".toList).getElementCount
      = [("Ca".toList, 1), ("H".toList, 2), ("O".toList, 2)] ∧
    (ChemicalCompound.create "C6H12O6".toList).isValid = true ∧
    (ChemicalCompound.create "C6H12O6".toList).getElementCount
      = [("C".toList, 6), ("H".toList, 12), ("O".toList, 6)] ∧
    (ChemicalCompound.create "Mg(OH)2".toList).isValid = true ∧
    (ChemicalCompound.create "Mg(OH)2".toList).getElementCount
      = [("H".toList, 2), ("Mg".toList, 1), ("O".toList, 2)] ∧
    (ChemicalCompound.create "(NH4)2SO4".toList).isValid = true ∧
    (ChemicalCompound.create "(NH4)2SO4".toList).getElementCount
      = [("H".toList, 8), ("N".toList, 2), ("O".toList, 4), ("S".toList, 1)] ∧
    (ChemicalCompound.create "K4[Fe(CN)6]".toList).isValid = false := by
  decide

/-- C8 (the code at the failing input): `Ca(OH$` is its own cleaned form and holds `$`, a
character outside `[A-Za-z0-9()]`, yet the compound built from it is valid, with counts
`Ca:1, H:1, O:1`. -/
theorem C8_stray_character_accepted :
    cleanFormula "Ca(OH$".toList = "Ca(OH$".toList ∧
    isFormulaChar '$' = false ∧
    (ChemicalCompound.create "Ca(OH$".toList).isValid = true ∧
    (ChemicalCompound.create "Ca(OH$".toList).getElementCount
      = [("Ca".toList, 1), ("H".toList, 1), ("O".toList, 1)] := by
  decide

/-- C9 (the code at the failing input): `Ca(OH` is its own cleaned form and has an unmatched
`(`, yet the compound built from it is valid, with counts `Ca:1, O:1`. -/
theorem C9_unmatched_open_accepted :
    cleanFormula "Ca(OH".toList = "Ca(OH".toList ∧
    ¬ BalancedParens (cleanFormula "Ca(OH".toList) ∧
    (ChemicalCompound.create "Ca(OH".toList).isValid = true ∧
    (ChemicalCompound.create "Ca(OH".toList).getElementCount
      = [("Ca".toList, 1), ("O".toList, 1)] := by
  refine ⟨by decide, ?_, by decide, by decide⟩
  intro h
  have h0 := h.1
  revert h0
  decide

/-! ## The orchestrator without its traces -/

theorem balance_eq_core (b : EquationBalancer) (equation : ChemicalEquation) :
    ((b.balance equation).1, (b.balance equation).2.2) = balanceCore equation := by
  rw [balance_eq_of_fresh]
  unfold EquationBalancer.balance balanceCore
  simp only []
  split
  · rfl
  · split
    · rename_i h1
      have h2 : (solutionOf equation).isEmpty = true := h1
      rw [if_pos h2]
    · rename_i h1
      have h2 : ¬ (solutionOf equation).isEmpty = true := h1
      rw [if_neg h2]
      split
      · rename_i h3
        have h4 : (reduceToIntegers (solutionOf equation)).any (fun coeff => decide (coeff ≤ 0)) = true := h3
        rw [if_pos h4]
      · rename_i h3
        have h4 : ¬ (reduceToIntegers (solutionOf equation)).any (fun coeff => decide (coeff ≤ 0)) = true := h3
        rw [if_neg h4]
        split
        · rename_i e he
          have he2 : equation.setCoefficients (reduceToIntegers (solutionOf equation)) = .error e := he
          rw [he2]
        · rename_i eq1 he
          have he2 : equation.setCoefficients (reduceToIntegers (solutionOf equation)) = .ok eq1 := he
          rw [he2]
          simp only []
          split
          · rename_i hv
            simp only [hv]
            rfl
          · rename_i hv
            have hv1 : validateAtomConservation eq1 = false := by simpa using hv
            simp only [hv1]
            rfl

/-! ## Integer reducer: gcd and lcm, read with unbounded integers -/

theorem gcdLoop_eq (fuel : Nat) (a b : Int) (ha : 0 ≤ a) (hb : 0 ≤ b) (hf : b.toNat < fuel) :
    gcdLoop fuel a b = (Int.gcd a b : Int) := by
  induction fuel generalizing a b with
  | zero => omega
  | succ fuel ih =>
    unfold gcdLoop
    by_cases hb0 : b = 0
    · subst hb0
      simp only [ne_eq, not_true_eq_false, if_false, Int.gcd_zero_right]
      omega
    · have hbpos : 0 < b := lt_of_le_of_ne hb (Ne.symm hb0)
      simp only [ne_eq, hb0, not_false_eq_true, if_true]
      rw [Int.tmod_eq_emod ha hb]
      have h1 : 0 ≤ a % b := Int.emod_nonneg a hb0
      have h2 : a % b < b := Int.emod_lt_of_pos a hbpos
      rw [ih b (a % b) hb h1 (by omega)]
      congr 1
      rw [Int.gcd_eq_natAbs, Int.gcd_eq_natAbs, Nat.gcd_comm a.natAbs,
        Nat.gcd_rec b.natAbs a.natAbs, Nat.gcd_comm]
      congr 1
      zify
      rw [abs_of_nonneg h1, abs_of_nonneg ha, abs_of_nonneg hb]

/-- `MatrixSolver::gcd`, read with unbounded integers, computes the greatest common divisor. -/
theorem gcdExact_eq (a b : Int) : gcdExact a b = (Int.gcd a b : Int) := by
  unfold gcdExact
  rw [gcdLoop_eq _ _ _ (abs_nonneg a) (abs_nonneg b) (by omega)]
  simp [Int.gcd_eq_natAbs, Int.natAbs_abs]

theorem listGcd_cons (v : Int) (l : List Int) :
    listGcd (v :: l) = Int.gcd v (listGcd l) := rfl

theorem foldl_gcdExact_eq (l : List Int) (g0 : Int) (h0 : 0 ≤ g0) :
    l.foldl (fun g value => gcdExact g (abs value)) g0 = (Int.gcd g0 (listGcd l) : Int) := by
  induction l generalizing g0 with
  | nil =>
    simp only [List.foldl_nil, listGcd, List.foldr_nil, Nat.cast_zero, Int.gcd_zero_right]
    omega
  | cons v l ih =>
    rw [List.foldl_cons, gcdExact_eq, ih _ (Int.natCast_nonneg _), listGcd_cons, Int.gcd_assoc]
    congr 2
    simp [Int.gcd_eq_natAbs, Int.natAbs_abs]

theorem gcdValueExact_eq (result : List Int) :
    result.tail.foldl (fun g value => gcdExact g (abs value)) (abs (result.headD 0))
      = (listGcd result : Int) := by
  rw [foldl_gcdExact_eq _ _ (abs_nonneg _)]
  cases result with
  | nil => simp [listGcd]
  | cons v l =>
    rw [listGcd_cons]
    simp [Int.gcd_eq_natAbs, Int.natAbs_abs]

theorem listGcd_dvd (l : List Int) : ∀ x ∈ l, (listGcd l : Int) ∣ x := by
  induction l with
  | nil => intro x hx; cases hx
  | cons v l ih =>
    intro x hx
    rw [listGcd_cons]
    rcases List.mem_cons.mp hx with h | h
    · rw [h]; exact Int.gcd_dvd_left
    · exact dvd_trans Int.gcd_dvd_right (ih x h)

theorem listGcd_eq_zero (l : List Int) (h : listGcd l = 0) : ∀ x ∈ l, x = 0 := by
  intro x hx
  have := listGcd_dvd l x hx
  rw [h] at this
  simpa using this

theorem listGcd_map_neg (l : List Int) : listGcd (l.map (fun value => -value)) = listGcd l := by
  induction l with
  | nil => rfl
  | cons v l ih =>
    rw [List.map_cons, listGcd_cons, listGcd_cons, ih, Int.gcd_comm, Int.gcd_neg, Int.gcd_comm]

theorem listGcd_map_tdiv (l : List Int) (k : Nat) (_hk : 0 < k)
    (hd : ∀ x ∈ l, (k : Int) ∣ x) :
    listGcd (l.map (fun value => Int.tdiv value k)) = listGcd l / k := by
  induction l with
  | nil => simp [listGcd]
  | cons v l ih =>
    have hv : (k : Int) ∣ v := hd v (List.mem_cons_self _ _)
    have hl : ∀ x ∈ l, (k : Int) ∣ x := fun x hx => hd x (List.mem_cons_of_mem _ hx)
    have hg : (k : Int) ∣ (listGcd l : Int) := by
      have : k ∣ listGcd l := by
        clear ih hd hv
        induction l with
        | nil => simp [listGcd]
        | cons w l ih2 =>
          rw [listGcd_cons]
          have hw : (k : Int) ∣ w := hl w (List.mem_cons_self _ _)
          have := ih2 (fun x hx => hl x (List.mem_cons_of_mem _ hx))
          rw [Int.gcd_eq_natAbs]
          apply Nat.dvd_gcd
          · exact Int.natCast_dvd.mp hw
          · simpa using this
      exact Int.natCast_dvd_natCast.mpr this
    rw [List.map_cons, listGcd_cons, listGcd_cons, ih hl, Int.tdiv_eq_ediv_of_dvd hv]
    have h1 := Int.gcd_div hv hg
    simp only [Int.natAbs_ofNat] at h1
    rw [← h1]
    congr 1

/-- After the blocks "Find GCD and reduce" and "Make sure all coefficients are positive" the
entries have greatest common divisor `1`, unless they are all `0`. -/
theorem listGcd_makePositiveExact (result : List Int) (h : ∃ x ∈ result, x ≠ 0) :
    listGcd (makePositiveExact (divideByGcdExact result)) = 1 := by
  have hpos : 0 < listGcd result := by
    rcases h with ⟨x, hx, hx0⟩
    by_contra h0
    exact hx0 (listGcd_eq_zero result (by omega) x hx)
  have h1 : listGcd (divideByGcdExact result) = 1 := by
    unfold divideByGcdExact
    simp only [gcdValueExact_eq]
    split
    · rw [listGcd_map_tdiv result (listGcd result) hpos (listGcd_dvd result)]
      exact Nat.div_self hpos
    · rename_i hle
      have : ¬ 1 < listGcd result := by exact_mod_cast hle
      omega
  unfold makePositiveExact
  simp only []
  split
  · rw [listGcd_map_neg, h1]
  · exact h1

theorem makePositiveExact_divideByGcd_zero (result : List Int) (h : ∀ x ∈ result, x = 0) :
    ∀ y ∈ makePositiveExact (divideByGcdExact result), y = 0 := by
  have h1 : ∀ y ∈ divideByGcdExact result, y = 0 := by
    unfold divideByGcdExact
    simp only []
    split
    · intro y hy
      rcases List.mem_map.mp hy with ⟨x, hx, rfl⟩
      rw [h x hx]; simp
    · exact h
  unfold makePositiveExact
  simp only []
  split
  · intro y hy
    rcases List.mem_map.mp hy with ⟨x, hx, rfl⟩
    rw [h1 x hx]; simp
  · exact h1

/-! ## Integer reducer: gcd on `int` -/

theorem natAbs_tmod (a b : Int) : (Int.tmod a b).natAbs = a.natAbs % b.natAbs := by
  cases a <;> cases b <;> simp [Int.tmod, Int.natAbs_neg] <;> rfl

theorem gcdLoop_natAbs (fuel : Nat) (a b : Int) (hf : b.natAbs < fuel) :
    (gcdLoop fuel a b).natAbs = Int.gcd a b := by
  induction fuel generalizing a b with
  | zero => omega
  | succ fuel ih =>
    unfold gcdLoop
    by_cases hb0 : b = 0
    · subst hb0
      simp
    · simp only [ne_eq, hb0, not_false_eq_true, if_true]
      have hpos : 0 < b.natAbs := Int.natAbs_pos.mpr hb0
      have hlt : (Int.tmod a b).natAbs < b.natAbs := by
        rw [natAbs_tmod]
        exact Nat.mod_lt _ hpos
      rw [ih b (Int.tmod a b) (by omega)]
      rw [Int.gcd_eq_natAbs, Int.gcd_eq_natAbs, natAbs_tmod, Nat.gcd_comm a.natAbs,
        Nat.gcd_rec b.natAbs a.natAbs, Nat.gcd_comm]

theorem gcdLoop_nonneg (fuel : Nat) (a b : Int) (ha : 0 ≤ a) (hb : 0 ≤ b) :
    0 ≤ gcdLoop fuel a b := by
  induction fuel generalizing a b with
  | zero => exact ha
  | succ fuel ih =>
    unfold gcdLoop
    split
    · exact ih b (Int.tmod a b) hb (Int.tmod_nonneg b ha)
    · exact ha

theorem gcdLoop_range (fuel : Nat) (a b : Int)
    (ha : -2147483648 ≤ a ∧ a ≤ 2147483647) (hb : -2147483648 ≤ b ∧ b ≤ 2147483647) :
    -2147483648 ≤ gcdLoop fuel a b ∧ gcdLoop fuel a b ≤ 2147483647 := by
  induction fuel generalizing a b with
  | zero => exact ha
  | succ fuel ih =>
    unfold gcdLoop
    split
    · rename_i hb0
      apply ih b (Int.tmod a b) hb
      have hpos : 0 < b.natAbs := Int.natAbs_pos.mpr hb0
      have hlt : (Int.tmod a b).natAbs < b.natAbs := by
        rw [natAbs_tmod]
        exact Nat.mod_lt _ hpos
      omega
    · exact ha

theorem gcd_range (a b : Int) : -2147483648 ≤ gcd a b ∧ gcd a b ≤ 2147483647 :=
  gcdLoop_range _ _ _ (absInt_range a) (absInt_range b)

/-- On `int` values, `MatrixSolver::gcd` returns the greatest common divisor up to its
sign. -/
theorem gcd_natAbs (a b : Int) (ha : -2147483648 ≤ a ∧ a ≤ 2147483647)
    (hb : -2147483648 ≤ b ∧ b ≤ 2147483647) : (gcd a b).natAbs = Int.gcd a b := by
  unfold gcd
  rw [gcdLoop_natAbs _ _ _ (by omega), Int.gcd_eq_natAbs, Int.gcd_eq_natAbs,
    absInt_natAbs a ha.1 ha.2, absInt_natAbs b hb.1 hb.2]

theorem gcd_nonneg (a b : Int) (ha : -2147483648 < a ∧ a ≤ 2147483647)
    (hb : -2147483648 < b ∧ b ≤ 2147483647) : 0 ≤ gcd a b := by
  unfold gcd
  rw [absInt_of_range a ha.1 ha.2, absInt_of_range b hb.1 hb.2]
  exact gcdLoop_nonneg _ _ _ (abs_nonneg a) (abs_nonneg b)

/-- On `int` values other than `INT_MIN`, `MatrixSolver::gcd` returns the greatest common
divisor. -/
theorem gcd_eq (a b : Int) (ha : -2147483648 < a ∧ a ≤ 2147483647)
    (hb : -2147483648 < b ∧ b ≤ 2147483647) : gcd a b = (Int.gcd a b : Int) := by
  have h1 := gcd_natAbs a b ⟨by omega, ha.2⟩ ⟨by omega, hb.2⟩
  have h2 := gcd_nonneg a b ha hb
  omega

theorem foldl_gcd_range (l : List Int) (g0 : Int)
    (h0 : -2147483648 ≤ g0 ∧ g0 ≤ 2147483647) :
    -2147483648 ≤ l.foldl (fun g value => gcd g (absInt value)) g0 ∧
      l.foldl (fun g value => gcd g (absInt value)) g0 ≤ 2147483647 := by
  induction l generalizing g0 with
  | nil => exact h0
  | cons v l ih =>
    rw [List.foldl_cons]
    exact ih _ (gcd_range _ _)

theorem foldl_gcd_natAbs (l : List Int) (g0 : Int)
    (h0 : -2147483648 ≤ g0 ∧ g0 ≤ 2147483647)
    (hl : ∀ v ∈ l, -2147483648 ≤ v ∧ v ≤ 2147483647) :
    (l.foldl (fun g value => gcd g (absInt value)) g0).natAbs = Int.gcd g0 (listGcd l) := by
  induction l generalizing g0 with
  | nil => simp [listGcd]
  | cons v l ih =>
    have hv := hl v (List.mem_cons_self _ _)
    rw [List.foldl_cons, ih _ (gcd_range _ _) (fun x hx => hl x (List.mem_cons_of_mem _ hx)),
      listGcd_cons, Int.gcd_eq_natAbs, gcd_natAbs g0 (absInt v) h0 (absInt_range v)]
    simp only [Int.gcd_eq_natAbs, Int.natAbs_ofNat, absInt_natAbs v hv.1 hv.2]
    rw [Nat.gcd_assoc]

theorem foldl_gcd_nonneg (l : List Int) (g0 : Int) (h0 : 0 ≤ g0 ∧ g0 ≤ 2147483647)
    (hl : ∀ v ∈ l, -2147483648 < v ∧ v ≤ 2147483647) :
    0 ≤ l.foldl (fun g value => gcd g (absInt value)) g0 := by
  induction l generalizing g0 with
  | nil => exact h0.1
  | cons v l ih =>
    have hv := hl v (List.mem_cons_self _ _)
    rw [List.foldl_cons]
    apply ih _ _ (fun x hx => hl x (List.mem_cons_of_mem _ hx))
    have habs : absInt v = abs v := absInt_of_range v hv.1 hv.2
    have hav : 0 ≤ abs v := abs_nonneg v
    have hav2 : abs v ≤ 2147483647 := by
      rcases abs_cases v with ⟨h, _⟩ | ⟨h, _⟩ <;> omega
    exact ⟨gcd_nonneg _ _ ⟨by omega, h0.2⟩ ⟨by rw [habs]; omega, by rw [habs]; exact hav2⟩,
      (gcd_range _ _).2⟩

/-- The value `gcdValue` of the block "Find GCD and reduce" is, up to its sign, the greatest
common divisor of the entries. -/
theorem gcdValue_natAbs (result : List Int)
    (hr : ∀ v ∈ result, -2147483648 ≤ v ∧ v ≤ 2147483647) :
    (result.tail.foldl (fun g value => gcd g (absInt value)) (absInt (result.headD 0))).natAbs
      = listGcd result := by
  cases result with
  | nil => simp [listGcd, absInt, wrapInt]
  | cons v l =>
    have hv := hr v (List.mem_cons_self _ _)
    simp only [List.tail_cons, List.headD_cons]
    rw [foldl_gcd_natAbs l _ (absInt_range v) (fun x hx => hr x (List.mem_cons_of_mem _ hx)),
      listGcd_cons, Int.gcd_eq_natAbs, Int.gcd_eq_natAbs, absInt_natAbs v hv.1 hv.2]

/-- When no entry is `INT_MIN`, the value `gcdValue` is the greatest common divisor of the
entries. -/
theorem gcdValue_eq (result : List Int)
    (hr : ∀ v ∈ result, -2147483648 < v ∧ v ≤ 2147483647) :
    result.tail.foldl (fun g value => gcd g (absInt value)) (absInt (result.headD 0))
      = (listGcd result : Int) := by
  have h1 := gcdValue_natAbs result (fun v hv => ⟨by have := hr v hv; omega, (hr v hv).2⟩)
  have h2 : 0 ≤ result.tail.foldl (fun g value => gcd g (absInt value))
      (absInt (result.headD 0)) := by
    cases result with
    | nil => simp [absInt, wrapInt]
    | cons v l =>
      have hv := hr v (List.mem_cons_self _ _)
      simp only [List.tail_cons, List.headD_cons]
      apply foldl_gcd_nonneg l _ _ (fun x hx => hr x (List.mem_cons_of_mem _ hx))
      rw [absInt_of_range v hv.1 hv.2]
      refine ⟨abs_nonneg v, ?_⟩
      rcases abs_cases v with ⟨h, _⟩ | ⟨h, _⟩ <;> omega
  omega

theorem listGcd_map_congr (l : List Int) (f g : Int → Int) (h : ∀ x ∈ l, f x = g x) :
    listGcd (l.map f) = listGcd (l.map g) := by
  rw [List.map_congr_left h]

theorem makePositive_divideByGcd_zero (result : List Int) (h : ∀ x ∈ result, x = 0) :
    ∀ y ∈ makePositive (divideByGcd result), y = 0 := by
  have h1 : ∀ y ∈ divideByGcd result, y = 0 := by
    unfold divideByGcd
    simp only []
    split
    · intro y hy
      rcases List.mem_map.mp hy with ⟨x, hx, rfl⟩
      rw [h x hx]; simp
    · exact h
  unfold makePositive
  simp only []
  split
  · intro y hy
    rcases List.mem_map.mp hy with ⟨x, hx, rfl⟩
    rw [h1 x hx]; decide
  · exact h1

/-- After the blocks "Find GCD and reduce" and "Make sure all coefficients are positive", `int`
entries that are all positive have greatest common divisor `1`. -/
theorem listGcd_makePositive_divideByGcd (result : List Int) (hne : result ≠ [])
    (hr : ∀ v ∈ result, -2147483648 ≤ v ∧ v ≤ 2147483647)
    (hpos : ∀ y ∈ makePositive (divideByGcd result), 0 < y) :
    listGcd (makePositive (divideByGcd result)) = 1 := by
  have hg := gcdValue_natAbs result hr
  obtain ⟨x0, hx0⟩ := List.exists_mem_of_ne_nil _ hne
  by_cases hg1 : result.tail.foldl (fun g value => gcd g (absInt value))
      (absInt (result.headD 0)) > 1
  · have hd : divideByGcd result = result.map (fun value => Int.tdiv value (listGcd result)) := by
      unfold divideByGcd
      simp only [hg1, if_true]
      have : result.tail.foldl (fun g value => gcd g (absInt value)) (absInt (result.headD 0))
          = (listGcd result : Int) := by omega
      rw [this]
    have hk : 1 < listGcd result := by omega
    have h1 : listGcd (divideByGcd result) = 1 := by
      rw [hd, listGcd_map_tdiv result (listGcd result) (by omega) (listGcd_dvd result)]
      exact Nat.div_self (by omega)
    have hsmall : ∀ y ∈ divideByGcd result, -2147483648 < y ∧ y ≤ 2147483647 := by
      intro y hy
      rw [hd] at hy
      obtain ⟨x, hx, rfl⟩ := List.mem_map.mp hy
      have hxr := hr x hx
      have hna : (Int.tdiv x (listGcd result)).natAbs = x.natAbs / listGcd result := by
        rw [Int.natAbs_tdiv]; rfl
      have hle : x.natAbs / listGcd result ≤ x.natAbs / 2 :=
        Nat.div_le_div_left hk (by omega)
      omega
    unfold makePositive
    simp only []
    split
    · rw [listGcd_map_congr _ _ (fun value => -value)
        (fun y hy => wrapInt_of_range _ (by have := hsmall y hy; omega)
          (by have := hsmall y hy; omega)), listGcd_map_neg, h1]
    · exact h1
  · have hd : divideByGcd result = result := by
      unfold divideByGcd
      simp only [hg1, if_false]
    rw [hd] at hpos ⊢
    have hfinish : (∀ v ∈ result, -2147483648 < v ∧ v ≤ 2147483647) →
        (∃ v ∈ result, v ≠ 0) → listGcd result = 1 := by
      intro hr1 hnz
      have h2 := gcdValue_eq result hr1
      have h3 : ¬ 1 < listGcd result := by
        intro hcon
        apply hg1
        rw [h2]
        exact_mod_cast hcon
      have h4 : listGcd result ≠ 0 := by
        intro h0
        obtain ⟨v, hv, hv0⟩ := hnz
        exact hv0 (listGcd_eq_zero result h0 v hv)
      omega
    unfold makePositive at hpos ⊢
    simp only [] at hpos ⊢
    split at hpos
    · rename_i hall
      simp only [hall, if_true]
      have hneg : ∀ v ∈ result, -2147483648 < v ∧ v < 0 := by
        intro v hv
        have hp := hpos (wrapInt (-v)) (List.mem_map.mpr ⟨v, hv, rfl⟩)
        have hvr := hr v hv
        unfold wrapInt at hp
        omega
      rw [listGcd_map_congr _ _ (fun value => -value)
        (fun v hv => wrapInt_of_range _ (by have := hneg v hv; omega)
          (by have := hneg v hv; omega)), listGcd_map_neg]
      exact hfinish (fun v hv => ⟨(hneg v hv).1, by have := hneg v hv; omega⟩)
        ⟨x0, hx0, by have := hneg x0 hx0; omega⟩
    · rename_i hall
      simp only [hall, if_false]
      exact hfinish (fun v hv => ⟨by have := hpos v hv; omega, (hr v hv).2⟩)
        ⟨x0, hx0, by have := hpos x0 hx0; omega⟩

/-! ## Results of `balance` -/

theorem balanceCore_success (equation : ChemicalEquation)
    (h : (balanceCore equation).1.result = .SUCCESS) :
    equation.isBalanced = false ∧ solutionOf equation ≠ [] ∧
    (∀ c ∈ reduceToIntegers (solutionOf equation), 0 < c) ∧
    ∃ equation1, equation.setCoefficients (reduceToIntegers (solutionOf equation)) = .ok equation1 ∧
      validateAtomConservation equation1 = true ∧
      balanceCore equation = (⟨.SUCCESS, reduceToIntegers (solutionOf equation),
        "Equation balanced successfully", getAtomBalance equation1, true⟩, equation1) := by
  unfold balanceCore at h ⊢
  split at h
  · simp at h
  · rename_i hb
    split at h
    · simp at h
    · rename_i he
      split at h
      · simp at h
      · rename_i hany
        split at h
        · simp at h
        · rename_i eq1 hset
          split at h
          · rename_i hv
            refine ⟨by simpa using hb, by simpa using he, ?_, eq1, hset, hv, ?_⟩
            · intro c hc
              by_contra hc0
              apply hany
              rw [List.any_eq_true]
              exact ⟨c, hc, by simpa using hc0⟩
            · simp [hb, he, hany, hv]
          · simp at h

theorem setCoefficients_ok (equation equation1 : ChemicalEquation) (coefficients : List Int)
    (h : equation.setCoefficients coefficients = .ok equation1) :
    coefficients.length = equation.getTotalCompounds ∧
    equation1.reactants_.map (fun reactant => reactant.1)
      = equation.reactants_.map (fun reactant => reactant.1) ∧
    equation1.products_.map (fun product => product.1)
      = equation.products_.map (fun product => product.1) ∧
    equation1.reactants_.map (fun reactant => reactant.2) ++
      equation1.products_.map (fun product => product.2) = coefficients := by
  unfold ChemicalEquation.setCoefficients at h
  split at h
  · cases h
  · rename_i hlen
    have hlen1 : coefficients.length = equation.reactants_.length + equation.products_.length := by
      simpa [ChemicalEquation.getTotalCompounds] using hlen
    injection h with h
    subst h
    have h1 : (coefficients.take equation.reactants_.length).length = equation.reactants_.length := by
      rw [List.length_take]; omega
    have h2 : (coefficients.drop equation.reactants_.length).length = equation.products_.length := by
      rw [List.length_drop]; omega
    have key : ∀ (l : List (ChemicalCompound × Int)) (cs : List Int), cs.length = l.length →
        (List.zipWith (fun x c => (x.1, c)) l cs).map (fun x => x.1) = l.map (fun x => x.1) ∧
        (List.zipWith (fun x c => (x.1, c)) l cs).map (fun x => x.2) = cs := by
      intro l
      induction l with
      | nil => intro cs hcs; cases cs with
        | nil => simp
        | cons c cs => simp at hcs
      | cons x l ih => intro cs hcs; cases cs with
        | nil => simp at hcs
        | cons c cs =>
          have := ih cs (by simpa using hcs)
          simp [this.1, this.2]
    refine ⟨hlen1, ?_, ?_, ?_⟩
    · exact (key _ _ h1).1
    · exact (key _ _ h2).1
    · simp only [ChemicalEquation.checkBalance]
      rw [(key _ _ h1).2, (key _ _ h2).2, List.take_append_drop]

theorem tdiv_range (x d : Int) (hd : 0 < d) (hx : -2147483648 ≤ x ∧ x ≤ 2147483647) :
    -2147483648 ≤ Int.tdiv x d ∧ Int.tdiv x d ≤ 2147483647 := by
  by_cases h0 : 0 ≤ x
  · rw [Int.tdiv_eq_ediv h0 (le_of_lt hd)]
    have h1 : 0 ≤ x / d := Int.ediv_nonneg h0 (le_of_lt hd)
    have h2 : x / d ≤ x := Int.ediv_le_self d h0
    omega
  · have hx1 : 0 ≤ -x := by omega
    have h3 : Int.tdiv x d = -Int.tdiv (-x) d := by rw [Int.neg_tdiv, neg_neg]
    rw [h3, Int.tdiv_eq_ediv hx1 (le_of_lt hd)]
    have h1 : 0 ≤ -x / d := Int.ediv_nonneg hx1 (le_of_lt hd)
    have h2 : -x / d ≤ -x := Int.ediv_le_self d hx1
    omega

theorem searchFraction_den (coef : ℚ) :
    ∀ (n : Nat) (denom num d : Int), searchFraction coef n denom = some (num, d) →
      denom ≤ d ∧ d < denom + n := by
  intro n
  induction n with
  | zero => intro denom num d h; cases h
  | succ n ih =>
    intro denom num d h
    unfold searchFraction at h
    split at h
    · injection h with h
      injection h with h1 h2
      subst h2
      push_cast
      omega
    · have := ih _ _ _ h
      push_cast
      omega

/-- Every denominator that `reduceToIntegers` pushes lies between `1` and `1000`. -/
theorem toFraction_den (coef : ℚ) : 1 ≤ (toFraction coef).2 ∧ (toFraction coef).2 ≤ 1000 := by
  unfold toFraction
  cases h : searchFraction coef 1000 1 with
  | some fraction =>
    obtain ⟨num, d⟩ := fraction
    have := searchFraction_den coef 1000 1 num d h
    simp only []
    push_cast at this
    omega
  | none => simp

/-- Every entry that `reduceToIntegers` hands to the block "Find GCD and reduce" is an
`int`. -/
theorem zipWith_tdiv_range (coefficients : List ℚ) (lcmValue : Int) :
    ∀ v ∈ List.zipWith
        (fun numerator denominator => Int.tdiv (wrapInt (numerator * lcmValue)) denominator)
        ((coefficients.map toFraction).map (fun fraction => fraction.1))
        ((coefficients.map toFraction).map (fun fraction => fraction.2)),
      -2147483648 ≤ v ∧ v ≤ 2147483647 := by
  intro v hv
  obtain ⟨i, hi, rfl⟩ := List.mem_iff_getElem.mp hv
  rw [List.getElem_zipWith]
  apply tdiv_range _ _ _ (wrapInt_range _)
  have hlen : i < coefficients.length := by
    simp only [List.length_zipWith, List.length_map] at hi
    omega
  simp only [List.getElem_map]
  have := (toFraction_den (coefficients.get ⟨i, hlen⟩)).1
  simp only [List.get_eq_getElem] at this
  omega

/-- If `reduceToIntegers` returns a non-empty vector of positive entries, their greatest
common divisor is `1`. -/
theorem listGcd_reduceToIntegers (coefficients : List ℚ)
    (hne : reduceToIntegers coefficients ≠ [])
    (hpos : ∀ c ∈ reduceToIntegers coefficients, 0 < c) :
    listGcd (reduceToIntegers coefficients) = 1 := by
  unfold reduceToIntegers at hne hpos ⊢
  simp only [] at hne hpos ⊢
  have hr := zipWith_tdiv_range coefficients
    (((coefficients.map toFraction).map (fun fraction => fraction.2)).tail.foldl lcm
      (((coefficients.map toFraction).map (fun fraction => fraction.2)).headD 0))
  generalize List.zipWith _ _ _ = result at hne hpos hr ⊢
  apply listGcd_makePositive_divideByGcd result _ hr hpos
  intro hnil
  apply hne
  rw [hnil]
  decide

/-! ## The atom balance as a sum -/

theorem ElementMap.mem_of_find (m : ElementMap) (key : List Char) (value : Int)
    (h : ElementMap.find m key = some value) : (key, value) ∈ m := by
  induction m with
  | nil => simp [ElementMap.find] at h
  | cons p rest ih =>
    obtain ⟨k, v⟩ := p
    simp only [ElementMap.find] at h
    split at h
    · rename_i hk
      injection h with h
      rw [hk, h]
      exact List.mem_cons_self _ _
    · exact List.mem_cons_of_mem _ (ih h)

theorem ElementMap.count_eq_zero_of_all (m : ElementMap)
    (h : m.all (fun element => element.2 == 0) = true) (key : List Char) : m.count key = 0 := by
  unfold ElementMap.count
  cases hf : ElementMap.find m key with
  | none => rfl
  | some v =>
    have hmem := ElementMap.mem_of_find m key v hf
    have := List.all_eq_true.mp h (key, v) hmem
    simpa using this

/-- Adding `count * c` for every entry of a compound's element map. -/
theorem fold_addToExact_entries (entries : ElementMap) (c : Int) (m : ElementMap) (hs : m.Sorted)
    (element : List Char) :
    (entries.foldl (fun m entry => m.addToExact entry.1 (entry.2 * c)) m).Sorted ∧
    (entries.foldl (fun m entry => m.addToExact entry.1 (entry.2 * c)) m).count element
      = m.count element + entries.atoms element * c := by
  induction entries generalizing m with
  | nil => simp [ElementMap.atoms, hs]
  | cons e entries ih =>
    have hs1 := ElementMap.addToExact_sorted m hs e.1 (e.2 * c)
    have := ih (m.addToExact e.1 (e.2 * c)) hs1
    refine ⟨this.1, ?_⟩
    rw [List.foldl_cons, this.2, ElementMap.count_addToExact m hs]
    simp only [ElementMap.atoms, List.map_cons, List.sum_cons]
    by_cases h : element = e.1
    · subst h
      simp only [if_true]; ring
    · have h1 : ¬ e.1 = element := fun h2 => h h2.symm
      simp only [h, h1, if_false]; ring

theorem fold_subFromExact_entries (entries : ElementMap) (c : Int) (m : ElementMap) (hs : m.Sorted)
    (element : List Char) :
    (entries.foldl (fun m entry => m.addToExact entry.1 (-(entry.2 * c))) m).Sorted ∧
    (entries.foldl (fun m entry => m.addToExact entry.1 (-(entry.2 * c))) m).count element
      = m.count element - entries.atoms element * c := by
  have h := fold_addToExact_entries entries (-c) m hs element
  have e : (fun (m : ElementMap) (entry : List Char × Int) => m.addToExact entry.1 (entry.2 * -c))
      = (fun m entry => m.addToExact entry.1 (-(entry.2 * c))) := by
    funext m entry; rw [mul_neg]
  rw [e] at h
  refine ⟨h.1, ?_⟩
  rw [h.2]; ring

theorem fold_compoundsExact_add (compounds : List (ChemicalCompound × Int)) (m : ElementMap)
    (hs : m.Sorted) (element : List Char) :
    (compounds.foldl (fun m compound => compound.1.getElementCount.foldl
      (fun m entry => m.addToExact entry.1 (entry.2 * compound.2)) m) m).Sorted ∧
    (compounds.foldl (fun m compound => compound.1.getElementCount.foldl
      (fun m entry => m.addToExact entry.1 (entry.2 * compound.2)) m) m).count element
      = m.count element +
        (compounds.map (fun compound => compound.1.getElementCount.atoms element * compound.2)).sum := by
  induction compounds generalizing m with
  | nil => simp [hs]
  | cons x compounds ih =>
    have h1 := fold_addToExact_entries x.1.getElementCount x.2 m hs element
    have h2 := ih _ h1.1
    refine ⟨h2.1, ?_⟩
    rw [List.foldl_cons, h2.2, h1.2, List.map_cons, List.sum_cons]; ring

theorem fold_compoundsExact_sub (compounds : List (ChemicalCompound × Int)) (m : ElementMap)
    (hs : m.Sorted) (element : List Char) :
    (compounds.foldl (fun m compound => compound.1.getElementCount.foldl
      (fun m entry => m.addToExact entry.1 (-(entry.2 * compound.2))) m) m).Sorted ∧
    (compounds.foldl (fun m compound => compound.1.getElementCount.foldl
      (fun m entry => m.addToExact entry.1 (-(entry.2 * compound.2))) m) m).count element
      = m.count element -
        (compounds.map (fun compound => compound.1.getElementCount.atoms element * compound.2)).sum := by
  induction compounds generalizing m with
  | nil => simp [hs]
  | cons x compounds ih =>
    have h1 := fold_subFromExact_entries x.1.getElementCount x.2 m hs element
    have h2 := ih _ h1.1
    refine ⟨h2.1, ?_⟩
    rw [List.foldl_cons, h2.2, h1.2, List.map_cons, List.sum_cons]; ring

/-- The map of `getAtomBalance`, read with unbounded integers, is sorted and holds, under each
element, the imbalance. -/
theorem getAtomBalanceExact_count (equation : ChemicalEquation) (element : List Char) :
    (getAtomBalanceExact equation).Sorted ∧
    (getAtomBalanceExact equation).count element = imbalance equation element := by
  unfold getAtomBalanceExact imbalance
  have h1 := fold_compoundsExact_add equation.reactants_ [] ElementMap.sorted_nil element
  have h2 := fold_compoundsExact_sub equation.products_ _ h1.1 element
  refine ⟨h2.1, ?_⟩
  simp only []
  rw [h2.2, h1.2]
  simp [ElementMap.count, ElementMap.find]

/-! ### The atom balance on `int` -/

theorem fold_entries_wrap (entries : ElementMap) (c : Int) (m : ElementMap) :
    entries.foldl (fun m entry => m.addTo entry.1 (wrapInt (entry.2 * c))) (ElementMap.wrap m)
      = ElementMap.wrap (entries.foldl (fun m entry => m.addToExact entry.1 (entry.2 * c)) m) := by
  induction entries generalizing m with
  | nil => rfl
  | cons e entries ih =>
    rw [List.foldl_cons, List.foldl_cons,
      ElementMap.addTo_wrap m e.1 _ (e.2 * c) (wrapInt_wrapInt _)]
    exact ih _

theorem fold_entries_neg_wrap (entries : ElementMap) (c : Int) (m : ElementMap) :
    entries.foldl (fun m entry => m.addTo entry.1 (wrapInt (-(wrapInt (entry.2 * c)))))
        (ElementMap.wrap m)
      = ElementMap.wrap
          (entries.foldl (fun m entry => m.addToExact entry.1 (-(entry.2 * c))) m) := by
  induction entries generalizing m with
  | nil => rfl
  | cons e entries ih =>
    rw [List.foldl_cons, List.foldl_cons,
      ElementMap.addTo_wrap m e.1 _ (-(e.2 * c)) (by rw [wrapInt_wrapInt, wrapInt_neg])]
    exact ih _

theorem fold_compounds_wrap (compounds : List (ChemicalCompound × Int)) (m : ElementMap) :
    compounds.foldl (fun m compound => compound.1.getElementCount.foldl
        (fun m entry => m.addTo entry.1 (wrapInt (entry.2 * compound.2))) m) (ElementMap.wrap m)
      = ElementMap.wrap (compounds.foldl (fun m compound => compound.1.getElementCount.foldl
          (fun m entry => m.addToExact entry.1 (entry.2 * compound.2)) m) m) := by
  induction compounds generalizing m with
  | nil => rfl
  | cons x compounds ih =>
    rw [List.foldl_cons, List.foldl_cons, fold_entries_wrap]
    exact ih _

theorem fold_compounds_neg_wrap (compounds : List (ChemicalCompound × Int)) (m : ElementMap) :
    compounds.foldl (fun m compound => compound.1.getElementCount.foldl
        (fun m entry => m.addTo entry.1 (wrapInt (-(wrapInt (entry.2 * compound.2))))) m)
        (ElementMap.wrap m)
      = ElementMap.wrap (compounds.foldl (fun m compound => compound.1.getElementCount.foldl
          (fun m entry => m.addToExact entry.1 (-(entry.2 * compound.2))) m) m) := by
  induction compounds generalizing m with
  | nil => rfl
  | cons x compounds ih =>
    rw [List.foldl_cons, List.foldl_cons, fold_entries_neg_wrap]
    exact ih _

/-- The map of `getAtomBalance` holds the values of its reading with unbounded integers, each
reduced to an `int`. -/
theorem getAtomBalance_wrap (equation : ChemicalEquation) :
    getAtomBalance equation = ElementMap.wrap (getAtomBalanceExact equation) := by
  unfold getAtomBalance getAtomBalanceExact
  simp only []
  rw [← fold_compounds_neg_wrap, ← fold_compounds_wrap]
  rfl

/-- The map of `getAtomBalance` is sorted and holds, under each element, the imbalance reduced
to an `int`. -/
theorem getAtomBalance_count (equation : ChemicalEquation) (element : List Char) :
    (getAtomBalance equation).Sorted ∧
    (getAtomBalance equation).count element = wrapInt (imbalance equation element) := by
  rw [getAtomBalance_wrap]
  have h := getAtomBalanceExact_count equation element
  exact ⟨ElementMap.wrap_sorted _ h.1, by rw [ElementMap.count_wrap, h.2]⟩

/-! ## Contract of a `SUCCESS` result -/

theorem balance_success (b : EquationBalancer) (equation : ChemicalEquation)
    (h : (b.balance equation).1.result = .SUCCESS) :
    solutionOf equation ≠ [] ∧
    (∀ c ∈ reduceToIntegers (solutionOf equation), 0 < c) ∧
    equation.setCoefficients (reduceToIntegers (solutionOf equation))
      = .ok (b.balance equation).2.2 ∧
    validateAtomConservation (b.balance equation).2.2 = true ∧
    (b.balance equation).1 = ⟨.SUCCESS, reduceToIntegers (solutionOf equation),
      "Equation balanced successfully", getAtomBalance (b.balance equation).2.2, true⟩ := by
  have hcore := balance_eq_core b equation
  have h1 : (b.balance equation).1 = (balanceCore equation).1 := congrArg Prod.fst hcore
  have h2 : (b.balance equation).2.2 = (balanceCore equation).2 := congrArg Prod.snd hcore
  rw [h1] at h
  obtain ⟨_, hne, hpos, eq1, hset, hv, heq⟩ := balanceCore_success equation h
  rw [h1, h2, heq]
  exact ⟨hne, hpos, hset, hv, rfl⟩

/-- What a `SUCCESS` result guarantees: `conservationVerified` is true, the equation left is
the given one with the returned coefficients installed, the returned `atomBalance` is the map
of `getAtomBalance` on it with every entry zero, and the imbalance of every element is zero
modulo `2^32` (so it is zero when it lies between `-2^32` and `2^32`). -/
theorem balance_success_atom_balance (b : EquationBalancer) (equation : ChemicalEquation)
    (h : (b.balance equation).1.result = .SUCCESS) :
    (b.balance equation).1.conservationVerified = true ∧
    equation.setCoefficients (b.balance equation).1.coefficients
      = .ok (b.balance equation).2.2 ∧
    (b.balance equation).1.atomBalance = getAtomBalance (b.balance equation).2.2 ∧
    (∀ entry ∈ (b.balance equation).1.atomBalance, entry.2 = 0) ∧
    (∀ element, wrapInt (imbalance (b.balance equation).2.2 element) = 0) ∧
    (∀ element, -4294967296 < imbalance (b.balance equation).2.2 element →
      imbalance (b.balance equation).2.2 element < 4294967296 →
      imbalance (b.balance equation).2.2 element = 0) := by
  obtain ⟨_, _, hset, hv, hinfo⟩ := balance_success b equation h
  have hcoef : (b.balance equation).1.coefficients = reduceToIntegers (solutionOf equation) := by
    rw [hinfo]
  have hbal : (b.balance equation).1.atomBalance = getAtomBalance (b.balance equation).2.2 := by
    rw [hinfo]
  have hzero : ∀ element, wrapInt (imbalance (b.balance equation).2.2 element) = 0 := by
    intro element
    rw [← (getAtomBalance_count _ element).2]
    exact ElementMap.count_eq_zero_of_all _ hv element
  refine ⟨by rw [hinfo], by rw [hcoef]; exact hset, hbal, ?_, hzero, ?_⟩
  · intro entry hentry
    rw [hbal] at hentry
    have := List.all_eq_true.mp hv entry hentry
    simpa using this
  · intro element hlo hhi
    exact eq_zero_of_wrapInt_eq_zero _ (hzero element) hlo hhi

/-- C1 (defect of the code): `balance` returns `SUCCESS` for `A2 + B4 -> A1073741827B`, with
the coefficients `6, 1, 4`, with `conservationVerified` true and with an all-zero
`atomBalance`; yet under these coefficients the imbalance of `A`, the sum over the reactants
of count times coefficient minus the sum over the products, is `2 * 6 - 1073741827 * 4`, which
is `-4294967296` and does not fit an `int`: the sums of `getAtomBalance` and of `checkBalance`
wrap around to `0`. -/
theorem C1_success_without_conservation :
    parseEquationString "A2 + B4 -> A1073741827B".toList = .ok overflowEquation ∧
    (EquationBalancer.balance ⟨⟨[]⟩, []⟩ overflowEquation).1.result = .SUCCESS ∧
    (EquationBalancer.balance ⟨⟨[]⟩, []⟩ overflowEquation).1.coefficients = [6, 1, 4] ∧
    (EquationBalancer.balance ⟨⟨[]⟩, []⟩ overflowEquation).1.conservationVerified = true ∧
    (EquationBalancer.balance ⟨⟨[]⟩, []⟩ overflowEquation).1.atomBalance
      = [("A".toList, 0), ("B".toList, 0)] ∧
    imbalance (EquationBalancer.balance ⟨⟨[]⟩, []⟩ overflowEquation).2.2 "A".toList
      = -4294967296 ∧
    imbalance (EquationBalancer.balance ⟨⟨[]⟩, []⟩ overflowEquation).2.2 "A".toList ≠ 0 := by
  refine ⟨by decide!, by decide!, by decide!, by decide!, by decide!, by decide!, by decide!⟩

/-- C4: if `balance` returns `SUCCESS` then the coefficient list has one entry per compound,
entry by entry the coefficients of the reactants and then of the products of the equation it
leaves, and every entry is at least `1`. -/
theorem C4_success_positive (b : EquationBalancer) (equation : ChemicalEquation)
    (h : (b.balance equation).1.result = .SUCCESS) :
    (b.balance equation).1.coefficients.length = equation.getTotalCompounds ∧
    (b.balance equation).2.2.reactants_.map (fun reactant => reactant.2) ++
      (b.balance equation).2.2.products_.map (fun product => product.2)
      = (b.balance equation).1.coefficients ∧
    (b.balance equation).2.2.reactants_.length = equation.reactants_.length ∧
    (b.balance equation).2.2.products_.length = equation.products_.length ∧
    (∀ c ∈ (b.balance equation).1.coefficients, 1 ≤ c) := by
  obtain ⟨_, hpos, hset, _, hinfo⟩ := balance_success b equation h
  have hok := setCoefficients_ok _ _ _ hset
  have hcoef : (b.balance equation).1.coefficients = reduceToIntegers (solutionOf equation) := by
    rw [hinfo]
  rw [hcoef]
  refine ⟨hok.1, hok.2.2.2, ?_, ?_, fun c hc => hpos c hc⟩
  · have := congrArg List.length hok.2.1
    simpa using this
  · have := congrArg List.length hok.2.2.1
    simpa using this

/-- C4 at `H2 + O2 -> H2O`. -/
theorem C4_success_positive_witness :
    (EquationBalancer.balance ⟨⟨[]⟩, []⟩ waterEquation).1.result = .SUCCESS ∧
    (EquationBalancer.balance ⟨⟨[]⟩, []⟩ waterEquation).1.coefficients.length = 3 ∧
    (∀ c ∈ (EquationBalancer.balance ⟨⟨[]⟩, []⟩ waterEquation).1.coefficients, 1 ≤ c) :=
  ⟨by decide!,
    (C4_success_positive ⟨⟨[]⟩, []⟩ waterEquation (by decide!)).1,
    (C4_success_positive ⟨⟨[]⟩, []⟩ waterEquation (by decide!)).2.2.2.2⟩

/-- C5: if `balance` returns `SUCCESS` then the greatest common divisor of all returned
coefficients is `1`. -/
theorem C5_success_minimal (b : EquationBalancer) (equation : ChemicalEquation)
    (h : (b.balance equation).1.result = .SUCCESS) :
    listGcd (b.balance equation).1.coefficients = 1 := by
  obtain ⟨hne, hpos, hset, _, hinfo⟩ := balance_success b equation h
  have hok := setCoefficients_ok _ _ _ hset
  have hcoef : (b.balance equation).1.coefficients = reduceToIntegers (solutionOf equation) := by
    rw [hinfo]
  rw [hcoef]
  apply listGcd_reduceToIntegers _ _ hpos
  intro hnil
  apply hne
  have hlen : (reduceToIntegers (solutionOf equation)).length = (solutionOf equation).length := by
    unfold reduceToIntegers makePositive divideByGcd
    simp only []
    split <;> split <;> simp
  rw [hnil] at hlen
  exact List.length_eq_zero.mp hlen.symm

/-- C5 at `H2 + O2 -> H2O`. -/
theorem C5_success_minimal_witness :
    (EquationBalancer.balance ⟨⟨[]⟩, []⟩ waterEquation).1.result = .SUCCESS ∧
    listGcd (EquationBalancer.balance ⟨⟨[]⟩, []⟩ waterEquation).1.coefficients = 1 :=
  ⟨by decide!, C5_success_minimal ⟨⟨[]⟩, []⟩ waterEquation (by decide!)⟩

/-! ## The loops of `parseGroupExact` on a known text -/

theorem charAt_append (pre : List Char) (c : Char) (rest : List Char) :
    charAt (pre ++ c :: rest) pre.length = .ok c := by
  unfold charAt
  rw [List.getElem?_append_right (le_refl _)]
  simp

theorem lowerLoop_run (lowers : List Char) (hl : ∀ c ∈ lowers, c.isLower = true)
    (pre rest : List Char) (n : Nat) (element : List Char) (hn : lowers.length ≤ n)
    (hstop : n = lowers.length ∨ ∃ c r, rest = c :: r ∧ c.isLower = false) :
    lowerLoop (pre ++ lowers ++ rest) n pre.length element
      = .ok (pre.length + lowers.length, element ++ lowers) := by
  induction lowers generalizing pre n element with
  | nil =>
    cases n with
    | zero => simp [lowerLoop]
    | succ n =>
      rcases hstop with h | ⟨c, r, hr, hc⟩
      · simp at h
      · subst hr
        simp only [List.append_nil, lowerLoop, charAt_append, hc, Bool.false_eq_true, if_false,
          List.length_nil, Nat.add_zero]
  | cons a lowers ih =>
    cases n with
    | zero => simp at hn
    | succ n =>
      have ha : a.isLower = true := hl a (List.mem_cons_self _ _)
      have hrest : ∀ c ∈ lowers, c.isLower = true := fun c hc => hl c (List.mem_cons_of_mem _ hc)
      have e : pre ++ a :: lowers ++ rest = (pre ++ [a]) ++ lowers ++ rest := by simp
      have e2 : pre ++ a :: lowers ++ rest = pre ++ a :: (lowers ++ rest) := by simp
      unfold lowerLoop
      rw [e2, charAt_append]
      simp only [ha, if_true]
      rw [← e2, e]
      have hlen : (pre ++ [a]).length = pre.length + 1 := by simp
      rw [← hlen, ih hrest (pre ++ [a]) n (element ++ [a]) (by simpa using hn)
        (by rcases hstop with h | h
            · left; simpa using h
            · right; exact h)]
      simp [Nat.add_assoc, Nat.add_comm 1]

theorem digitLoopExact_run (digits : List Char) (hd : ∀ c ∈ digits, c.isDigit = true)
    (pre rest : List Char) (n : Nat) (count : Int) (hn : digits.length ≤ n)
    (hstop : n = digits.length ∨ ∃ c r, rest = c :: r ∧ c.isDigit = false) :
    digitLoopExact (pre ++ digits ++ rest) n pre.length count
      = .ok (pre.length + digits.length,
          digits.foldl (fun value c => value * 10 + ((c.toNat : Int) - 48)) count) := by
  induction digits generalizing pre n count with
  | nil =>
    cases n with
    | zero => simp [digitLoopExact]
    | succ n =>
      rcases hstop with h | ⟨c, r, hr, hc⟩
      · simp at h
      · subst hr
        simp only [List.append_nil, digitLoopExact, charAt_append, hc, Bool.false_eq_true, if_false,
          List.length_nil, Nat.add_zero, List.foldl_nil]
  | cons a digits ih =>
    cases n with
    | zero => simp at hn
    | succ n =>
      have ha : a.isDigit = true := hd a (List.mem_cons_self _ _)
      have hrest : ∀ c ∈ digits, c.isDigit = true := fun c hc => hd c (List.mem_cons_of_mem _ hc)
      have e : pre ++ a :: digits ++ rest = (pre ++ [a]) ++ digits ++ rest := by simp
      have e2 : pre ++ a :: digits ++ rest = pre ++ a :: (digits ++ rest) := by simp
      unfold digitLoopExact
      rw [e2, charAt_append]
      simp only [ha, if_true]
      rw [← e2, e]
      have hlen : (pre ++ [a]).length = pre.length + 1 := by simp
      rw [← hlen, ih hrest (pre ++ [a]) n _ (by simpa using hn)
        (by rcases hstop with h | h
            · left; simpa using h
            · right; exact h)]
      simp [Nat.add_assoc, Nat.add_comm 1]

/-- `readCountExact` on a count of the grammar: it ends behind the digits with the count's value. -/
theorem readCountExact_run (digits : List Char) (hd : ∀ c ∈ digits, c.isDigit = true)
    (pre rest : List Char) (end_ : Nat) (hn : pre.length + digits.length ≤ end_)
    (hstop : end_ = pre.length + digits.length ∨ ∃ c r, rest = c :: r ∧ c.isDigit = false) :
    readCountExact (pre ++ digits ++ rest) end_ pre.length
      = .ok (pre.length + digits.length, countValue digits) := by
  unfold readCountExact
  cases digits with
  | nil =>
    simp only [List.append_nil, List.length_nil, Nat.add_zero, countValue, if_true]
    split
    · rename_i hlt
      rcases hstop with h | ⟨c, r, hr, hc⟩
      · simp at h; omega
      · subst hr
        simp only [charAt_append, hc, Bool.false_eq_true, if_false]
    · rfl
  | cons a digits =>
    have ha : a.isDigit = true := hd a (List.mem_cons_self _ _)
    have hlt : pre.length < end_ := by simp at hn; omega
    have e2 : pre ++ a :: digits ++ rest = pre ++ a :: (digits ++ rest) := by simp
    simp only [hlt, if_true]
    rw [e2, charAt_append]
    simp only [ha, if_true]
    rw [← e2, digitLoopExact_run (a :: digits) hd pre rest (end_ - pre.length) 0 (by omega)
      (by rcases hstop with h | h
          · left; omega
          · right; exact h)]
    simp [countValue, decimalValue]

/-! ## Parentheses and the depth-counting loop -/

theorem parenDepth_nil : parenDepth [] = 0 := rfl

theorem parenDepth_cons (c : Char) (w : List Char) :
    parenDepth (c :: w) = parenStep c + parenDepth w := by
  unfold parenDepth parenStep
  rw [List.count_cons, List.count_cons]
  by_cases h1 : c = '('
  · subst h1; simp; ring
  · by_cases h2 : c = ')'
    · subst h2; simp; ring
    · simp [h1, h2]

theorem parenDepth_append (a w : List Char) :
    parenDepth (a ++ w) = parenDepth a + parenDepth w := by
  induction a with
  | nil => simp [parenDepth_nil]
  | cons c a ih => rw [List.cons_append, parenDepth_cons, parenDepth_cons, ih]; ring

theorem depth_update (c : Char) (depth : Int) :
    (if c = '(' then depth + 1 else if c = ')' then depth - 1 else depth)
      = depth + parenStep c := by
  unfold parenStep
  split
  · rfl
  · split
    · ring
    · ring

/-- The depth-counting loop runs over a text on which the depth stays positive. -/
theorem depthLoop_skip (w : List Char) (pre rest : List Char) (n : Nat) (depth : Int)
    (hn : w.length ≤ n)
    (hpos : ∀ k, k < w.length → 0 < depth + parenDepth (w.take k)) :
    depthLoop (pre ++ w ++ rest) n pre.length depth
      = depthLoop (pre ++ w ++ rest) (n - w.length) (pre.length + w.length)
          (depth + parenDepth w) := by
  induction w generalizing pre n depth with
  | nil => simp [parenDepth_nil]
  | cons c w ih =>
    cases n with
    | zero => simp at hn
    | succ n =>
      have h0 : 0 < depth := by
        have := hpos 0 (by simp)
        simpa [parenDepth_nil] using this
      have e : pre ++ c :: w ++ rest = (pre ++ [c]) ++ w ++ rest := by simp
      have e2 : pre ++ c :: w ++ rest = pre ++ c :: (w ++ rest) := by simp
      conv => lhs; unfold depthLoop
      rw [e2, charAt_append]
      simp only [gt_iff_lt, h0, if_true]
      rw [← e2, e, depth_update]
      have hlen : (pre ++ [c]).length = pre.length + 1 := by simp
      rw [← hlen, ih (pre ++ [c]) n _ (by simpa using hn)
        (by
          intro k hk
          have := hpos (k + 1) (by simpa using hk)
          rw [List.take_succ_cons, parenDepth_cons] at this
          linarith)]
      rw [parenDepth_cons]
      simp only [List.length_cons, hlen]
      congr 1
      · omega
      · omega
      · ring

/-! ## The text of a grammar formula -/

theorem parenStep_of_alnum (c : Char)
    (h : c.isUpper = true ∨ c.isLower = true ∨ c.isDigit = true) : parenStep c = 0 := by
  unfold parenStep
  have h1 : c ≠ '(' := by
    intro hc; subst hc; revert h; decide
  have h2 : c ≠ ')' := by
    intro hc; subst hc; revert h; decide
  simp [h1, h2]

theorem parenDepth_of_alnum (w : List Char)
    (h : ∀ c ∈ w, c.isUpper = true ∨ c.isLower = true ∨ c.isDigit = true) : parenDepth w = 0 := by
  induction w with
  | nil => rfl
  | cons c w ih =>
    rw [parenDepth_cons, parenStep_of_alnum c (h c (List.mem_cons_self _ _)),
      ih (fun d hd => h d (List.mem_cons_of_mem _ hd))]
    rfl

theorem parenDepth_take_of_alnum (w : List Char)
    (h : ∀ c ∈ w, c.isUpper = true ∨ c.isLower = true ∨ c.isDigit = true) (k : Nat) :
    parenDepth (w.take k) = 0 :=
  parenDepth_of_alnum _ (fun c hc => h c (List.mem_of_mem_take hc))

/-- What the prefixes of a concatenation look like. -/
theorem parenDepth_take_append (a w : List Char) (k : Nat) :
    parenDepth ((a ++ w).take k) = parenDepth (a.take k) + parenDepth (w.take (k - a.length)) := by
  rw [List.take_append_eq_append_take, parenDepth_append]

/-- The text of a grammar formula has balanced parentheses. -/
theorem Formula.render_balanced (F : Formula) (hF : F.wellFormed = true) :
    parenDepth F.render = 0 ∧ ∀ k, 0 ≤ parenDepth (F.render.take k) := by
  induction F with
  | nil => exact ⟨rfl, fun k => by simp [Formula.render, parenDepth_nil]⟩
  | element upper lowers count rest ih =>
    simp only [Formula.wellFormed, Bool.and_eq_true, List.all_eq_true] at hF
    obtain ⟨⟨⟨hu, hl⟩, hc⟩, hr⟩ := hF
    have ih1 := ih hr
    have hsym : ∀ c ∈ upper :: lowers ++ count,
        c.isUpper = true ∨ c.isLower = true ∨ c.isDigit = true := by
      intro c hc1
      rcases List.mem_append.mp hc1 with h | h
      · rcases List.mem_cons.mp h with h | h
        · left; rw [h]; exact hu
        · right; left; exact hl c h
      · right; right; exact hc c h
    have e : Formula.render (.element upper lowers count rest)
        = (upper :: lowers ++ count) ++ rest.render := by
      simp [Formula.render]
    rw [e]
    refine ⟨?_, fun k => ?_⟩
    · rw [parenDepth_append, parenDepth_of_alnum _ hsym, ih1.1]; rfl
    · rw [parenDepth_take_append, parenDepth_take_of_alnum _ hsym]
      have := ih1.2 (k - (upper :: lowers ++ count).length)
      linarith
  | group inner count rest ih1 ih2 =>
    simp only [Formula.wellFormed, Bool.and_eq_true, List.all_eq_true] at hF
    obtain ⟨⟨hi, hc⟩, hr⟩ := hF
    have hin := ih1 hi
    have hre := ih2 hr
    have hcnt : ∀ c ∈ count, c.isUpper = true ∨ c.isLower = true ∨ c.isDigit = true :=
      fun c h => Or.inr (Or.inr (hc c h))
    have e : Formula.render (.group inner count rest)
        = ['('] ++ (inner.render ++ ([')'] ++ (count ++ rest.render))) := by
      simp [Formula.render]
    have hopen : parenDepth ['('] = 1 := by decide
    have hclose : parenDepth [')'] = -1 := by decide
    have hopen_take : ∀ k, 0 ≤ parenDepth (['('].take k) ∧ (1 ≤ k → parenDepth (['('].take k) = 1) := by
      intro k
      cases k with
      | zero => simp [parenDepth_nil]
      | succ k => simp [hopen]
    have hclose_take : ∀ k, -1 ≤ parenDepth ([')'].take k) := by
      intro k
      cases k with
      | zero => simp [parenDepth_nil]
      | succ k => simp [hclose]
    rw [e]
    refine ⟨?_, fun k => ?_⟩
    · rw [parenDepth_append, parenDepth_append, parenDepth_append, parenDepth_append, hopen,
        hclose, hin.1, hre.1, parenDepth_of_alnum _ hcnt]
      rfl
    · rw [parenDepth_take_append, parenDepth_take_append, parenDepth_take_append,
        parenDepth_take_append, parenDepth_take_of_alnum _ hcnt]
      by_cases hk : 1 ≤ k
      · rw [(hopen_take k).2 hk]
        have h1 := hin.2 (k - ['('].length)
        have h2 := hclose_take (k - ['('].length - inner.render.length)
        have h3 := hre.2 (k - ['('].length - inner.render.length - [')'].length - count.length)
        linarith
      · have hk0 : k = 0 := by omega
        subst hk0
        simp [parenDepth_nil]

/-- A non-empty grammar text starts with an uppercase letter or with `(`. -/
theorem Formula.render_head (F : Formula) (hF : F.wellFormed = true) (c : Char) (r : List Char)
    (h : F.render = c :: r) : c.isUpper = true ∨ c = '(' := by
  cases F with
  | nil => simp [Formula.render] at h
  | element upper lowers count rest =>
    simp only [Formula.wellFormed, Bool.and_eq_true] at hF
    simp only [Formula.render, List.cons_append, List.cons.injEq] at h
    left; rw [← h.1]; exact hF.1.1.1
  | group inner count rest =>
    simp only [Formula.render, List.cons_append, List.cons.injEq] at h
    right; exact h.1.symm

theorem not_lower_of_head (c : Char) (h : c.isUpper = true ∨ c = '(') : c.isLower = false := by
  rcases h with h | h
  · simp only [Char.isUpper, Char.isLower, Bool.and_eq_true, decide_eq_true_eq,
      Bool.and_eq_false_imp] at h ⊢
    intro h1
    have : c.val ≤ 90 := h.2
    have h2 : (97 : UInt32) ≤ c.val := h1
    simp only [decide_eq_false_iff_not, not_le, gt_iff_lt]
    exfalso
    have h3 := UInt32.le_trans h2 this
    exact absurd h3 (by decide)
  · subst h; decide

theorem not_digit_of_head (c : Char) (h : c.isUpper = true ∨ c = '(') : c.isDigit = false := by
  rcases h with h | h
  · simp only [Char.isUpper, Char.isDigit, Bool.and_eq_true, decide_eq_true_eq,
      Bool.and_eq_false_imp] at h ⊢
    intro _
    have h1 : (65 : UInt32) ≤ c.val := h.1
    simp only [decide_eq_false_iff_not, not_le, gt_iff_lt]
    intro h2
    have h3 := UInt32.le_trans h1 h2
    exact absurd h3 (by decide)
  · subst h; decide

theorem not_lower_of_digit (c : Char) (h : c.isDigit = true) : c.isLower = false := by
  simp only [Char.isDigit, Char.isLower, Bool.and_eq_true, decide_eq_true_eq,
    Bool.and_eq_false_imp] at h ⊢
  intro h1
  have h2 : c.val ≤ 57 := h.2
  have h3 : (97 : UInt32) ≤ c.val := h1
  exfalso
  exact absurd (UInt32.le_trans h3 h2) (by decide)

/-! ## `parseGroupExact` on a grammar formula -/

theorem depthLoop_zero (s : List Char) (n i : Nat) : depthLoop s n i 0 = .ok i := by
  cases n with
  | zero => rfl
  | succ n => simp [depthLoop]

/-- The depth-counting loop, started behind a `(`, stops behind the matching `)`. -/
theorem depthLoop_group (inner : Formula) (hi : inner.wellFormed = true) (pre rest : List Char)
    (n : Nat) (hn : inner.render.length + 1 ≤ n) :
    depthLoop (pre ++ inner.render ++ ')' :: rest) n pre.length 1
      = .ok (pre.length + inner.render.length + 1) := by
  have hb := Formula.render_balanced inner hi
  have h1 := depthLoop_skip inner.render pre (')' :: rest) n 1 (by omega)
    (fun k _ => by have := hb.2 k; linarith)
  rw [h1, hb.1]
  obtain ⟨m, hm⟩ : ∃ m, n - inner.render.length = m + 1 := ⟨n - inner.render.length - 1, by omega⟩
  rw [hm]
  unfold depthLoop
  have e : pre ++ inner.render ++ ')' :: rest = (pre ++ inner.render) ++ ')' :: rest := by simp
  have hlen : pre.length + inner.render.length = (pre ++ inner.render).length := by simp
  rw [hlen, charAt_append]
  simp [depthLoop_zero]

/-- Parsing the text of a grammar formula, wherever it stands in the string, succeeds and
leaves the element map of `accumulate`. -/
theorem parseGroupAuxExact_formula (F : Formula) (hF : F.wellFormed = true) :
    ∀ (pre rest : List Char) (fuel : Nat) (multiplier : Int) (elements : ElementMap),
      F.render.length ≤ fuel →
      parseGroupAuxExact (pre ++ F.render ++ rest) fuel pre.length (pre.length + F.render.length)
        multiplier elements = (.ok (), F.accumulate multiplier elements) := by
  induction F with
  | nil =>
    intro pre rest fuel multiplier elements _
    cases fuel with
    | zero => simp [parseGroupAuxExact, Formula.render, Formula.accumulate]
    | succ fuel => simp [parseGroupAuxExact, Formula.render, Formula.accumulate]
  | element upper lowers count restF ih =>
    intro pre rest fuel multiplier elements hfuel
    simp only [Formula.wellFormed, Bool.and_eq_true, List.all_eq_true] at hF
    obtain ⟨⟨⟨hu, hl⟩, hc⟩, hr⟩ := hF
    have hlenF : (Formula.render (.element upper lowers count restF)).length
        = 1 + lowers.length + count.length + restF.render.length := by
      simp [Formula.render]; omega
    cases fuel with
    | zero => omega
    | succ fuel =>
      generalize hs : pre ++ Formula.render (.element upper lowers count restF) ++ rest = s
      generalize hend : pre.length + (Formula.render (.element upper lowers count restF)).length
        = end_
      have hend1 : end_ = pre.length + (1 + lowers.length + count.length + restF.render.length) := by
        rw [← hend, hlenF]
      have hfuel1 : lowers.length + count.length + restF.render.length ≤ fuel := by
        rw [hlenF] at hfuel; omega
      clear hend hfuel
      have hs1 : s = pre ++ upper :: (lowers ++ count ++ restF.render ++ rest) := by
        rw [← hs]; simp [Formula.render]
      have hs2 : s = (pre ++ [upper]) ++ lowers ++ (count ++ restF.render ++ rest) := by
        rw [← hs]; simp [Formula.render]
      have hs3 : s = (pre ++ upper :: lowers) ++ count ++ (restF.render ++ rest) := by
        rw [← hs]; simp [Formula.render]
      have hs4 : s = (pre ++ upper :: lowers ++ count) ++ restF.render ++ rest := by
        rw [← hs]; simp [Formula.render]
      have hchar : charAt s pre.length = .ok upper := by rw [hs1, charAt_append]
      have hhead : ∀ c r, restF.render = c :: r → c.isUpper = true ∨ c = '(' :=
        fun c r h => Formula.render_head restF hr c r h
      have hlower : lowerLoop s (end_ - (pre.length + 1)) (pre.length + 1) [upper]
          = .ok (pre.length + 1 + lowers.length, upper :: lowers) := by
        have := lowerLoop_run lowers hl (pre ++ [upper]) (count ++ restF.render ++ rest)
          (end_ - (pre.length + 1)) [upper] (by omega)
          (by
            cases hcnt : count with
            | cons d ds =>
              right
              exact ⟨d, ds ++ restF.render ++ rest, by simp,
                not_lower_of_digit d (hc d (by rw [hcnt]; exact List.mem_cons_self _ _))⟩
            | nil =>
              cases hre : restF.render with
              | nil => left; rw [hcnt, hre] at hend1; simp at hend1; omega
              | cons d ds =>
                right
                exact ⟨d, ds ++ rest, by simp, not_lower_of_head d (hhead d ds hre)⟩)
        rw [← hs2] at this
        simpa using this
      have hcount : readCountExact s end_ (pre.length + 1 + lowers.length)
          = .ok (pre.length + 1 + lowers.length + count.length, countValue count) := by
        have := readCountExact_run count hc (pre ++ upper :: lowers) (restF.render ++ rest) end_
          (by simp; omega)
          (by
            cases hre : restF.render with
            | nil => left; rw [hre] at hend1; simp at hend1 ⊢; omega
            | cons d ds =>
              right
              exact ⟨d, ds ++ rest, by simp, not_digit_of_head d (hhead d ds hre)⟩)
        have e1 : (pre ++ upper :: lowers).length = pre.length + 1 + lowers.length := by
          simp; omega
        rw [← hs3, e1] at this
        exact this
      have hrest := ih hr (pre ++ upper :: lowers ++ count) rest fuel multiplier
        (elements.addToExact (upper :: lowers) (countValue count * multiplier)) (by omega)
      rw [← hs4] at hrest
      have hend2 : (pre ++ upper :: lowers ++ count).length + restF.render.length = end_ := by
        rw [hend1]; simp; omega
      have hi2 : (pre ++ upper :: lowers ++ count).length
          = pre.length + 1 + lowers.length + count.length := by simp; omega
      rw [hend2, hi2] at hrest
      unfold parseGroupAuxExact
      have hlt : pre.length < end_ := by omega
      simp only [hlt, if_true, hchar, hu, hlower, hcount]
      rw [hrest]
      rfl
  | group inner count restF ih1 ih2 =>
    intro pre rest fuel multiplier elements hfuel
    simp only [Formula.wellFormed, Bool.and_eq_true, List.all_eq_true] at hF
    obtain ⟨⟨hi, hc⟩, hr⟩ := hF
    have hlenF : (Formula.render (.group inner count restF)).length
        = 1 + inner.render.length + 1 + count.length + restF.render.length := by
      simp [Formula.render]; omega
    cases fuel with
    | zero => omega
    | succ fuel =>
      generalize hs : pre ++ Formula.render (.group inner count restF) ++ rest = s
      generalize hend : pre.length + (Formula.render (.group inner count restF)).length = end_
      have hend1 : end_
          = pre.length + (1 + inner.render.length + 1 + count.length + restF.render.length) := by
        rw [← hend, hlenF]
      have hfuel1 : inner.render.length + 1 + count.length + restF.render.length ≤ fuel := by
        rw [hlenF] at hfuel; omega
      clear hend hfuel
      have hs1 : s = pre ++ '(' :: (inner.render ++ ')' :: count ++ restF.render ++ rest) := by
        rw [← hs]; simp [Formula.render]
      have hs2 : s = (pre ++ ['(']) ++ inner.render ++ ')' :: (count ++ restF.render ++ rest) := by
        rw [← hs]; simp [Formula.render]
      have hs3 : s = (pre ++ '(' :: inner.render ++ [')']) ++ count ++ (restF.render ++ rest) := by
        rw [← hs]; simp [Formula.render]
      have hs4 : s = (pre ++ '(' :: inner.render ++ ')' :: count) ++ restF.render ++ rest := by
        rw [← hs]; simp [Formula.render]
      have hs5 : s = (pre ++ ['(']) ++ inner.render ++ (')' :: count ++ restF.render ++ rest) := by
        rw [← hs]; simp [Formula.render]
      have hchar : charAt s pre.length = .ok '(' := by rw [hs1, charAt_append]
      have hhead : ∀ c r, restF.render = c :: r → c.isUpper = true ∨ c = '(' :=
        fun c r h => Formula.render_head restF hr c r h
      have hdepth : depthLoop s (end_ - (pre.length + 1)) (pre.length + 1) 1
          = .ok (pre.length + 1 + inner.render.length + 1) := by
        have := depthLoop_group inner hi (pre ++ ['(']) (count ++ restF.render ++ rest)
          (end_ - (pre.length + 1)) (by omega)
        rw [← hs2] at this
        simpa using this
      have hcount : readCountExact s end_ (pre.length + 1 + inner.render.length + 1)
          = .ok (pre.length + 1 + inner.render.length + 1 + count.length, countValue count) := by
        have := readCountExact_run count hc (pre ++ '(' :: inner.render ++ [')']) (restF.render ++ rest)
          end_ (by simp; omega)
          (by
            cases hre : restF.render with
            | nil => left; rw [hre] at hend1; simp at hend1 ⊢; omega
            | cons d ds =>
              right
              exact ⟨d, ds ++ rest, by simp, not_digit_of_head d (hhead d ds hre)⟩)
        have e1 : (pre ++ '(' :: inner.render ++ [')']).length
            = pre.length + 1 + inner.render.length + 1 := by
          simp; omega
        rw [← hs3, e1] at this
        exact this
      have hinner := ih1 hi (pre ++ ['(']) (')' :: count ++ restF.render ++ rest) fuel
        (multiplier * countValue count) elements (by omega)
      rw [← hs5] at hinner
      have hi1 : (pre ++ ['(']).length = pre.length + 1 := by simp
      rw [hi1] at hinner
      have hrest := ih2 hr (pre ++ '(' :: inner.render ++ ')' :: count) rest fuel multiplier
        (inner.accumulate (multiplier * countValue count) elements) (by omega)
      rw [← hs4] at hrest
      have hend2 : (pre ++ '(' :: inner.render ++ ')' :: count).length + restF.render.length
          = end_ := by
        rw [hend1]; simp; omega
      have hi2 : (pre ++ '(' :: inner.render ++ ')' :: count).length
          = pre.length + 1 + inner.render.length + 1 + count.length := by simp; omega
      rw [hend2, hi2] at hrest
      unfold parseGroupAuxExact
      have hlt : pre.length < end_ := by omega
      have hnu : Char.isUpper '(' = false := by decide
      simp only [hlt, if_true, hchar, hnu, Bool.false_eq_true, if_false, hdepth, hcount,
        Nat.add_sub_cancel]
      rw [hinner]
      simp only []
      rw [hrest]
      rfl

/-! ## Cleaning leaves a grammar text unchanged -/

theorem removeStateTags_of_none (fuel : Nat) (w : List Char)
    (h : ∀ a b, w = a ++ b → matchStateTag b = none) : removeStateTags fuel w = w := by
  induction fuel generalizing w with
  | zero => rfl
  | succ fuel ih =>
    cases w with
    | nil => rfl
    | cons c rest =>
      unfold removeStateTags
      rw [h [] (c :: rest) rfl]
      simp only []
      rw [ih rest (fun a b hab => h (c :: a) b (by rw [hab]; rfl))]

theorem matchStateTag_of_head (c : Char) (t : List Char) (hs : isspace c = false)
    (hc : c ≠ '(') : matchStateTag (c :: t) = none := by
  unfold matchStateTag
  rw [List.dropWhile_cons_of_neg (by simp [hs])]
  split
  · rename_i x rest heq
    simp only [List.cons.injEq] at heq
    exact absurd heq.1 hc
  · rfl

theorem matchStateTag_of_second (x : Char) (t : List Char) (hx : x ∉ stateChars) :
    matchStateTag ('(' :: x :: t) = none := by
  unfold matchStateTag
  rw [List.dropWhile_cons_of_neg (by decide)]
  split
  · rename_i y rest heq
    simp only [List.cons.injEq, true_and] at heq
    rw [← heq.1]
    simp [hx]
  · rfl

theorem alnum_head (c : Char)
    (h : c.isUpper = true ∨ c.isLower = true ∨ c.isDigit = true) :
    isspace c = false ∧ c ≠ '(' ∧ c ≠ ')' := by
  refine ⟨?_, ?_, ?_⟩
  · rcases h with h | h | h <;>
    · simp only [Char.isUpper, Char.isLower, Char.isDigit, Bool.and_eq_true,
        decide_eq_true_eq] at h
      have h1 := h.1
      have h2 := h.2
      simp only [isspace, Bool.or_eq_false_iff, beq_eq_false_iff_ne, ne_eq]
      have hv : ∀ d : Char, c = d → c.val = d.val := fun d hd => by rw [hd]
      refine ⟨⟨⟨⟨⟨?_, ?_⟩, ?_⟩, ?_⟩, ?_⟩, ?_⟩ <;> intro hc <;>
        (have h3 := hv _ hc; rw [h3] at h1 h2; revert h1 h2; decide)
  · intro hc; subst hc; revert h; decide
  · intro hc; subst hc; revert h; decide

theorem not_state_of_head (c : Char) (h : c.isUpper = true ∨ c = '(') : c ∉ stateChars := by
  have hl := not_lower_of_head c h
  intro hm
  simp only [stateChars, List.mem_cons, List.mem_singleton, List.not_mem_nil, or_false] at hm
  rcases hm with h1 | h1 | h1 | h1 | h1 <;>
  · subst h1; revert hl; decide

theorem matchStateTag_suffix_alnum (w : List Char)
    (hw : ∀ c ∈ w, c.isUpper = true ∨ c.isLower = true ∨ c.isDigit = true)
    (a b k : List Char) (hab : w = a ++ b) (hb : b ≠ []) : matchStateTag (b ++ k) = none := by
  cases b with
  | nil => exact absurd rfl hb
  | cons c t =>
    have hc := hw c (by rw [hab]; simp)
    have := alnum_head c hc
    exact matchStateTag_of_head c (t ++ k) this.1 this.2.1

/-- No state tag starts anywhere inside the text of a grammar formula. -/
theorem Formula.render_no_tag (F : Formula) (hF : F.wellFormed = true) :
    ∀ (k a b : List Char), F.render = a ++ b → b ≠ [] → matchStateTag (b ++ k) = none := by
  induction F with
  | nil =>
    intro k a b hab hb
    simp only [Formula.render] at hab
    have := List.append_eq_nil.mp hab.symm
    exact absurd this.2 hb
  | element upper lowers count rest ih =>
    intro k a b hab hb
    simp only [Formula.wellFormed, Bool.and_eq_true, List.all_eq_true] at hF
    obtain ⟨⟨⟨hu, hl⟩, hc⟩, hr⟩ := hF
    have hsym : ∀ c ∈ upper :: lowers ++ count,
        c.isUpper = true ∨ c.isLower = true ∨ c.isDigit = true := by
      intro c hc1
      rcases List.mem_append.mp hc1 with h | h
      · rcases List.mem_cons.mp h with h | h
        · left; rw [h]; exact hu
        · right; left; exact hl c h
      · right; right; exact hc c h
    have e : Formula.render (.element upper lowers count rest)
        = (upper :: lowers ++ count) ++ rest.render := by
      simp [Formula.render]
    rw [e] at hab
    rcases List.append_eq_append_iff.mp hab with ⟨a1, ha1, hb1⟩ | ⟨c1, hc1, hb1⟩
    · -- `b` lies inside the rest
      exact ih hr k a1 b hb1 hb
    · -- `b` starts inside the symbol and its count
      by_cases hc1n : c1 = []
      · subst hc1n
        simp only [List.nil_append] at hb1
        rw [hb1]
        exact ih hr k [] rest.render rfl (by rw [← hb1]; exact hb)
      · rw [hb1, List.append_assoc]
        exact matchStateTag_suffix_alnum _ hsym a c1 (rest.render ++ k) hc1 hc1n
  | group inner count rest ih1 ih2 =>
    intro k a b hab hb
    simp only [Formula.wellFormed, Bool.and_eq_true, List.all_eq_true] at hF
    obtain ⟨⟨hi, hc⟩, hr⟩ := hF
    have hcnt : ∀ c ∈ count, c.isUpper = true ∨ c.isLower = true ∨ c.isDigit = true :=
      fun c h => Or.inr (Or.inr (hc c h))
    have e : Formula.render (.group inner count rest)
        = '(' :: (inner.render ++ (')' :: (count ++ rest.render))) := by
      simp [Formula.render]
    rw [e] at hab
    cases a with
    | nil =>
      -- `b` is the whole group
      simp only [List.nil_append] at hab
      rw [← hab]
      cases hin : inner.render with
      | nil =>
        simp only [List.nil_append, List.cons_append]
        exact matchStateTag_of_second ')' _ (by decide)
      | cons x t =>
        simp only [List.cons_append]
        exact matchStateTag_of_second x _ (not_state_of_head x (Formula.render_head inner hi x t hin))
    | cons a0 a =>
      simp only [List.cons_append, List.cons.injEq] at hab
      rcases List.append_eq_append_iff.mp hab.2 with ⟨a1, ha1, hb1⟩ | ⟨c1, hc1, hb1⟩
      · -- `b` lies behind the group's text
        cases a1 with
        | nil =>
          simp only [List.nil_append] at hb1
          rw [← hb1]
          exact matchStateTag_of_head ')' _ (by decide) (by decide)
        | cons a2 a3 =>
          simp only [List.cons_append, List.cons.injEq] at hb1
          rcases List.append_eq_append_iff.mp hb1.2 with ⟨a4, ha4, hb4⟩ | ⟨c4, hc4, hb4⟩
          · exact ih2 hr k a4 b hb4 hb
          · by_cases hc4n : c4 = []
            · subst hc4n
              simp only [List.nil_append] at hb4
              rw [hb4]
              exact ih2 hr k [] rest.render rfl (by rw [← hb4]; exact hb)
            · rw [hb4, List.append_assoc]
              exact matchStateTag_suffix_alnum _ hcnt a3 c4 (rest.render ++ k) hc4 hc4n
      · -- `b` starts inside the group's text
        by_cases hc1n : c1 = []
        · subst hc1n
          simp only [List.nil_append] at hb1
          rw [hb1]
          exact matchStateTag_of_head ')' _ (by decide) (by decide)
        · rw [hb1, List.append_assoc]
          exact ih1 hi _ a c1 hc1 hc1n

theorem Formula.render_no_space (F : Formula) (hF : F.wellFormed = true) :
    ∀ c ∈ F.render, isspace c = false := by
  induction F with
  | nil => intro c hc; simp [Formula.render] at hc
  | element upper lowers count rest ih =>
    simp only [Formula.wellFormed, Bool.and_eq_true, List.all_eq_true] at hF
    obtain ⟨⟨⟨hu, hl⟩, hc⟩, hr⟩ := hF
    intro c hc1
    simp only [Formula.render, List.cons_append, List.mem_cons, List.mem_append] at hc1
    rcases hc1 with h | (h | h) | h
    · rw [h]; exact (alnum_head upper (Or.inl hu)).1
    · exact (alnum_head c (Or.inr (Or.inl (hl c h)))).1
    · exact (alnum_head c (Or.inr (Or.inr (hc c h)))).1
    · exact ih hr c h
  | group inner count rest ih1 ih2 =>
    simp only [Formula.wellFormed, Bool.and_eq_true, List.all_eq_true] at hF
    obtain ⟨⟨hi, hc⟩, hr⟩ := hF
    intro c hc1
    simp only [Formula.render, List.cons_append, List.mem_cons, List.mem_append] at hc1
    rcases hc1 with h | (h | h | h) | h
    · rw [h]; decide
    · exact ih1 hi c h
    · rw [h]; decide
    · exact (alnum_head c (Or.inr (Or.inr (hc c h)))).1
    · exact ih2 hr c h

/-- The cleaned form of a grammar text is the text itself. -/
theorem cleanFormula_render (F : Formula) (hF : F.wellFormed = true) :
    cleanFormula F.render = F.render := by
  unfold cleanFormula
  rw [removeStateTags_of_none]
  · rw [List.filter_eq_self]
    intro c hc
    simp [Formula.render_no_space F hF c hc]
  · intro a b hab
    by_cases hb : b = []
    · subst hb; rfl
    · have := Formula.render_no_tag F hF [] a b hab hb
      simpa using this

/-! ## The parser with unbounded integers agrees with manual expansion -/

theorem Formula.accumulate_count (F : Formula) :
    ∀ (multiplier : Int) (elements : ElementMap), elements.Sorted →
      (F.accumulate multiplier elements).Sorted ∧
      ∀ symbol, (F.accumulate multiplier elements).count symbol
        = elements.count symbol + F.expand multiplier symbol := by
  induction F with
  | nil =>
    intro multiplier elements hs
    exact ⟨hs, fun symbol => by simp [Formula.accumulate, Formula.expand]⟩
  | element upper lowers count rest ih =>
    intro multiplier elements hs
    have hs1 := ElementMap.addToExact_sorted elements hs (upper :: lowers) (countValue count * multiplier)
    have h := ih multiplier _ hs1
    refine ⟨h.1, fun symbol => ?_⟩
    simp only [Formula.accumulate, Formula.expand]
    rw [h.2 symbol, ElementMap.count_addToExact elements hs]
    by_cases hsym : symbol = upper :: lowers
    · subst hsym
      simp only [if_true]; ring
    · have hsym1 : ¬ upper :: lowers = symbol := fun h1 => hsym h1.symm
      simp only [hsym, hsym1, if_false]; ring
  | group inner count rest ih1 ih2 =>
    intro multiplier elements hs
    have h1 := ih1 (multiplier * countValue count) elements hs
    have h2 := ih2 multiplier _ h1.1
    refine ⟨h2.1, fun symbol => ?_⟩
    simp only [Formula.accumulate, Formula.expand]
    rw [h2.2 symbol, h1.2 symbol]; ring

theorem parseFormulaExact_render (F : Formula) (hF : F.wellFormed = true) :
    parseFormulaExact F.render = (.ok F.render, F.accumulate 1 []) := by
  unfold parseFormulaExact
  simp only [cleanFormula_render F hF]
  unfold parseGroupExact
  have := parseGroupAuxExact_formula F hF [] [] (F.render.length - 0) 1 [] (by omega)
  simp only [List.nil_append, List.append_nil, List.length_nil, Nat.zero_add] at this
  rw [this]

/-! ## Parenthesis depth of a range of indices -/

theorem segDepth_self (s : List Char) (a : Nat) : segDepth s a a = 0 := by
  unfold segDepth
  have : (s.take a).drop a = [] := by
    apply List.drop_eq_nil_of_le
    simp
  rw [this]; rfl

theorem segDepth_succ (s : List Char) (a b : Nat) (c : Char) (hab : a ≤ b)
    (hc : s[b]? = some c) : segDepth s a (b + 1) = segDepth s a b + parenStep c := by
  unfold segDepth
  have hb : b < s.length := by
    rcases Nat.lt_or_ge b s.length with h | h
    · exact h
    · rw [List.getElem?_eq_none h] at hc; cases hc
  have h1 : s.take (b + 1) = s.take b ++ [c] := by
    rw [List.take_succ, hc]; rfl
  have h2 : (s.take b).length = b := by rw [List.length_take]; omega
  rw [h1, List.drop_append_of_le_length (by omega), parenDepth_append, parenDepth_cons,
    parenDepth_nil]
  ring

theorem segDepth_add (s : List Char) (a b c : Nat) (hab : a ≤ b) (hbc : b ≤ c)
    (hc : c ≤ s.length) : segDepth s a c = segDepth s a b + segDepth s b c := by
  induction c, hbc using Nat.le_induction with
  | base => rw [segDepth_self]; ring
  | succ c hbc ih =>
    have hlt : c < s.length := by omega
    have hget : s[c]? = some s[c] := List.getElem?_eq_getElem hlt
    rw [segDepth_succ s a c _ (by omega) hget, segDepth_succ s b c _ hbc hget, ih (by omega)]
    ring

/-- A range without parentheses has depth `0`. -/
theorem segDepth_of_flat (s : List Char) (a b : Nat) (hab : a ≤ b)
    (h : ∀ k, a ≤ k → k < b → ∃ c, s[k]? = some c ∧ parenStep c = 0) : segDepth s a b = 0 := by
  induction b, hab using Nat.le_induction with
  | base => exact segDepth_self s a
  | succ b hab ih =>
    obtain ⟨c, hc, hc0⟩ := h b hab (by omega)
    rw [segDepth_succ s a b c hab hc, hc0, ih (fun k hk hkb => h k hk (by omega))]
    rfl

theorem charAt_of_lt (s : List Char) (i : Nat) (h : i < s.length) :
    ∃ c, charAt s i = .ok c ∧ s[i]? = some c := by
  refine ⟨s[i], ?_, List.getElem?_eq_getElem h⟩
  unfold charAt
  rw [List.getElem?_eq_getElem h]

/-! ## The loops of `parseGroup` on any text -/

theorem lowerLoop_shape (s : List Char) (n i : Nat) (element : List Char)
    (h : i + n ≤ s.length) :
    ∃ i1 element1, lowerLoop s n i element = .ok (i1, element1) ∧ i ≤ i1 ∧ i1 ≤ i + n ∧
      ∀ k, i ≤ k → k < i1 → ∃ c, s[k]? = some c ∧ c.isLower = true := by
  induction n generalizing i element with
  | zero => exact ⟨i, element, rfl, le_refl _, le_refl _, fun k h1 h2 => by omega⟩
  | succ n ih =>
    obtain ⟨c, hc, hget⟩ := charAt_of_lt s i (by omega)
    unfold lowerLoop
    rw [hc]
    simp only []
    by_cases hl : c.isLower = true
    · simp only [hl, if_true]
      obtain ⟨i1, e1, h1, h2, h3, h4⟩ := ih (i + 1) (element ++ [c]) (by omega)
      refine ⟨i1, e1, h1, by omega, by omega, fun k hk hk1 => ?_⟩
      by_cases hki : k = i
      · subst hki; exact ⟨c, hget, hl⟩
      · exact h4 k (by omega) hk1
    · simp only [hl, if_false]
      exact ⟨i, element, rfl, le_refl _, by omega, fun k h1 h2 => by omega⟩

theorem digitLoop_shape (s : List Char) (n i : Nat) (count : Int)
    (h : i + n ≤ s.length) :
    ∃ i1 count1, digitLoop s n i count = .ok (i1, count1) ∧ i ≤ i1 ∧ i1 ≤ i + n ∧
      ∀ k, i ≤ k → k < i1 → ∃ c, s[k]? = some c ∧ c.isDigit = true := by
  induction n generalizing i count with
  | zero => exact ⟨i, count, rfl, le_refl _, le_refl _, fun k h1 h2 => by omega⟩
  | succ n ih =>
    obtain ⟨c, hc, hget⟩ := charAt_of_lt s i (by omega)
    unfold digitLoop
    rw [hc]
    simp only []
    by_cases hl : c.isDigit = true
    · simp only [hl, if_true]
      obtain ⟨i1, e1, h1, h2, h3, h4⟩ := ih (i + 1) _ (by omega)
      refine ⟨i1, e1, h1, by omega, by omega, fun k hk hk1 => ?_⟩
      by_cases hki : k = i
      · subst hki; exact ⟨c, hget, hl⟩
      · exact h4 k (by omega) hk1
    · simp only [hl, if_false]
      exact ⟨i, count, rfl, le_refl _, by omega, fun k h1 h2 => by omega⟩

theorem readCount_shape (s : List Char) (end_ i : Nat) (h : end_ ≤ s.length) (hi : i ≤ end_) :
    ∃ i1 count, readCount s end_ i = .ok (i1, count) ∧ i ≤ i1 ∧ i1 ≤ end_ ∧
      ∀ k, i ≤ k → k < i1 → ∃ c, s[k]? = some c ∧ c.isDigit = true := by
  unfold readCount
  by_cases hlt : i < end_
  · simp only [hlt, if_true]
    obtain ⟨c, hc, hget⟩ := charAt_of_lt s i (by omega)
    rw [hc]
    simp only []
    by_cases hd : c.isDigit = true
    · simp only [hd, if_true]
      obtain ⟨i1, c1, h1, h2, h3, h4⟩ := digitLoop_shape s (end_ - i) i 0 (by omega)
      exact ⟨i1, c1, h1, h2, by omega, h4⟩
    · simp only [hd, if_false]
      exact ⟨i, 1, rfl, le_refl _, hi, fun k h1 h2 => by omega⟩
  · simp only [hlt, if_false]
    exact ⟨i, 1, rfl, le_refl _, hi, fun k h1 h2 => by omega⟩

theorem depthLoop_shape (s : List Char) (n a : Nat) (depth : Int) (h : a + n ≤ s.length) :
    ∃ i1, depthLoop s n a depth = .ok i1 ∧ a ≤ i1 ∧ i1 ≤ a + n ∧
      (∀ k, a ≤ k → k < i1 → 0 < depth + segDepth s a k) ∧
      (i1 = a + n ∨ depth + segDepth s a i1 ≤ 0) := by
  induction n generalizing a depth with
  | zero => exact ⟨a, rfl, le_refl _, le_refl _, fun k h1 h2 => by omega, Or.inl rfl⟩
  | succ n ih =>
    unfold depthLoop
    by_cases hd : depth > 0
    · simp only [hd, if_true]
      obtain ⟨c, hc, hget⟩ := charAt_of_lt s a (by omega)
      rw [hc]
      simp only []
      rw [depth_update]
      obtain ⟨i1, h1, h2, h3, h4, h5⟩ := ih (a + 1) (depth + parenStep c) (by omega)
      have hstep : segDepth s a (a + 1) = parenStep c := by
        rw [segDepth_succ s a a c (le_refl _) hget, segDepth_self]; ring
      have hsplit : ∀ k, a + 1 ≤ k → k ≤ s.length →
          segDepth s a k = parenStep c + segDepth s (a + 1) k := by
        intro k hk hks
        rw [segDepth_add s a (a + 1) k (by omega) hk hks, hstep]
      refine ⟨i1, h1, by omega, by omega, fun k hk hk1 => ?_, ?_⟩
      · by_cases hka : k = a
        · subst hka; rw [segDepth_self]; linarith
        · have := h4 k (by omega) hk1
          rw [hsplit k (by omega) (by omega)]
          linarith
      · rcases h5 with h5 | h5
        · left; omega
        · right
          rw [hsplit i1 h2 (by omega)]
          linarith
    · simp only [hd, if_false]
      refine ⟨a, rfl, le_refl _, by omega, fun k h1 h2 => by omega, Or.inr ?_⟩
      rw [segDepth_self]; linarith

/-! ## `parseGroup` ends, with a result or with `invalid_argument` -/

/-- With the budget that `parseGroup` passes and a range inside the string, `parseGroup`
returns normally or throws `std::invalid_argument`: the budget never runs out and no read
leaves the string. -/
theorem parseGroupAux_total (s : List Char) :
    ∀ (fuel i end_ : Nat) (multiplier : Int) (elements : ElementMap),
      end_ ≤ s.length → end_ - i ≤ fuel →
      (parseGroupAux s fuel i end_ multiplier elements).1 = .ok () ∨
      ∃ what, (parseGroupAux s fuel i end_ multiplier elements).1
        = .error (.invalidArgument what) := by
  intro fuel
  induction fuel with
  | zero =>
    intro i end_ multiplier elements _ hf
    have : ¬ i < end_ := by omega
    left
    simp [parseGroupAux, this]
  | succ fuel ih =>
    intro i end_ multiplier elements hend hf
    unfold parseGroupAux
    by_cases hlt : i < end_
    · simp only [hlt, if_true]
      obtain ⟨c, hc, _⟩ := charAt_of_lt s i (by omega)
      rw [hc]
      simp only []
      by_cases hu : c.isUpper = true
      · simp only [hu, if_true]
        obtain ⟨i1, e1, h1, h2, h3, _⟩ := lowerLoop_shape s (end_ - (i + 1)) (i + 1) [c] (by omega)
        rw [h1]
        simp only []
        obtain ⟨i2, c2, h4, h5, h6, _⟩ := readCount_shape s end_ i1 hend (by omega)
        rw [h4]
        simp only []
        exact ih i2 end_ multiplier _ hend (by omega)
      · simp only [hu, if_false]
        by_cases hp : c = '('
        · simp only [hp, if_true]
          obtain ⟨i1, h1, h2, h3, _⟩ := depthLoop_shape s (end_ - (i + 1)) (i + 1) 1 (by omega)
          rw [h1]
          simp only []
          obtain ⟨i2, c2, h4, h5, h6, _⟩ := readCount_shape s end_ i1 hend (by omega)
          rw [h4]
          simp only []
          have hin := ih (i + 1) (i1 - 1) (wrapInt (multiplier * c2)) elements (by omega) (by omega)
          rcases hres : parseGroupAux s fuel (i + 1) (i1 - 1) (wrapInt (multiplier * c2)) elements
            with ⟨r, els1⟩
          rw [hres] at hin
          cases r with
          | error e =>
            simp only []
            exact hin
          | ok u =>
            simp only []
            exact ih i2 end_ multiplier els1 hend (by omega)
        · simp only [hp, if_false]
          right
          exact ⟨_, rfl⟩
    · simp only [hlt, if_false]
      left; trivial

theorem parenStep_of_lower (c : Char) (h : c.isLower = true) : parenStep c = 0 :=
  parenStep_of_alnum c (Or.inr (Or.inl h))

theorem parenStep_of_digit (c : Char) (h : c.isDigit = true) : parenStep c = 0 :=
  parenStep_of_alnum c (Or.inr (Or.inr h))

/-- If the characters from `i` to `j` have balanced parentheses and `s[j]` is a `)`, then
`parseGroup` from `i` on throws `std::invalid_argument`. -/
theorem parseGroupAux_unmatched_close (s : List Char) (j : Nat) (hj : s[j]? = some ')') :
    ∀ (fuel i end_ : Nat) (multiplier : Int) (elements : ElementMap),
      i ≤ j → j < end_ → end_ ≤ s.length → end_ - i ≤ fuel →
      (∀ k, i ≤ k → k ≤ j → 0 ≤ segDepth s i k) → segDepth s i j = 0 →
      ∃ what, (parseGroupAux s fuel i end_ multiplier elements).1
        = .error (.invalidArgument what) := by
  intro fuel
  induction fuel with
  | zero =>
    intro i end_ multiplier elements hij hje hend hf _ _
    omega
  | succ fuel ih =>
    intro i end_ multiplier elements hij hje hend hf hpre htot
    unfold parseGroupAux
    have hlt : i < end_ := by omega
    simp only [hlt, if_true]
    obtain ⟨c, hc, hget⟩ := charAt_of_lt s i (by omega)
    rw [hc]
    simp only []
    have hstep : segDepth s i (i + 1) = parenStep c := by
      rw [segDepth_succ s i i c (le_refl _) hget, segDepth_self]; ring
    -- moving the start of the range over characters of total depth `0`
    have hmove : ∀ i2, i ≤ i2 → i2 ≤ j → segDepth s i i2 = 0 →
        (∀ k, i2 ≤ k → k ≤ j → 0 ≤ segDepth s i2 k) ∧ segDepth s i2 j = 0 := by
      intro i2 h1 h2 h0
      refine ⟨fun k hk hkj => ?_, ?_⟩
      · have := segDepth_add s i i2 k h1 hk (by omega)
        have := hpre k (by omega) hkj
        linarith
      · have := segDepth_add s i i2 j h1 h2 (by omega)
        linarith
    by_cases hu : c.isUpper = true
    · simp only [hu, if_true]
      have hilt : i < j := by
        rcases Nat.lt_or_ge i j with h | h
        · exact h
        · have hij2 : i = j := by omega
          subst hij2
          rw [hget] at hj
          injection hj with hj
          subst hj
          exact absurd hu (by decide)
      obtain ⟨i1, e1, h1, h2, h3, hlow⟩ :=
        lowerLoop_shape s (end_ - (i + 1)) (i + 1) [c] (by omega)
      rw [h1]
      simp only []
      have hi1 : i1 ≤ j := by
        by_contra hcon
        obtain ⟨d, hd, hdl⟩ := hlow j (by omega) (by omega)
        rw [hj] at hd
        injection hd with hd
        subst hd
        revert hdl; decide
      obtain ⟨i2, c2, h4, h5, h6, hdig⟩ := readCount_shape s end_ i1 hend (by omega)
      rw [h4]
      simp only []
      have hi2 : i2 ≤ j := by
        by_contra hcon
        obtain ⟨d, hd, hdl⟩ := hdig j (by omega) (by omega)
        rw [hj] at hd
        injection hd with hd
        subst hd
        revert hdl; decide
      have hflat : segDepth s i i2 = 0 := by
        apply segDepth_of_flat s i i2 (by omega)
        intro k hk hk2
        by_cases hki : k = i
        · subst hki; exact ⟨c, hget, parenStep_of_alnum c (Or.inl hu)⟩
        · by_cases hk1 : k < i1
          · obtain ⟨d, hd, hdl⟩ := hlow k (by omega) hk1
            exact ⟨d, hd, parenStep_of_lower d hdl⟩
          · obtain ⟨d, hd, hdl⟩ := hdig k (by omega) hk2
            exact ⟨d, hd, parenStep_of_digit d hdl⟩
      have hm := hmove i2 (by omega) hi2 hflat
      exact ih i2 end_ multiplier _ hi2 hje hend (by omega) hm.1 hm.2
    · simp only [hu, if_false]
      by_cases hp : c = '('
      · simp only [hp, if_true]
        subst hp
        have hilt : i < j := by
          rcases Nat.lt_or_ge i j with h | h
          · exact h
          · have hij2 : i = j := by omega
            subst hij2
            rw [hget] at hj
            injection hj with hj
            exact absurd hj (by decide)
        have hstep1 : segDepth s i (i + 1) = 1 := by rw [hstep]; rfl
        have hsplit : ∀ k, i + 1 ≤ k → k ≤ s.length →
            segDepth s i k = 1 + segDepth s (i + 1) k := by
          intro k hk hks
          rw [segDepth_add s i (i + 1) k (by omega) hk hks, hstep1]
        obtain ⟨i1, h1, h2, h3, hposd, hstop⟩ :=
          depthLoop_shape s (end_ - (i + 1)) (i + 1) 1 (by omega)
        rw [h1]
        simp only []
        have hi1 : i1 ≤ j := by
          by_contra hcon
          have := hposd j (by omega) (by omega)
          rw [← hsplit j (by omega) (by omega), htot] at this
          exact lt_irrefl _ this
        have hzero1 : segDepth s i i1 = 0 := by
          rcases hstop with h | h
          · omega
          · rw [← hsplit i1 h2 (by omega)] at h
            have := hpre i1 (by omega) hi1
            linarith
        obtain ⟨i2, c2, h4, h5, h6, hdig⟩ := readCount_shape s end_ i1 hend (by omega)
        rw [h4]
        simp only []
        have hi2 : i2 ≤ j := by
          by_contra hcon
          obtain ⟨d, hd, hdl⟩ := hdig j (by omega) (by omega)
          rw [hj] at hd
          injection hd with hd
          subst hd
          revert hdl; decide
        have hflat : segDepth s i i2 = 0 := by
          rw [segDepth_add s i i1 i2 (by omega) h5 (by omega), hzero1]
          rw [segDepth_of_flat s i1 i2 h5
            (fun k hk hk2 => by
              obtain ⟨d, hd, hdl⟩ := hdig k hk hk2
              exact ⟨d, hd, parenStep_of_digit d hdl⟩)]
          rfl
        have hm := hmove i2 (by omega) hi2 hflat
        have hin := parseGroupAux_total s fuel (i + 1) (i1 - 1) (wrapInt (multiplier * c2)) elements
          (by omega) (by omega)
        rcases hres : parseGroupAux s fuel (i + 1) (i1 - 1) (wrapInt (multiplier * c2)) elements
          with ⟨r, els1⟩
        rw [hres] at hin
        cases r with
        | error e =>
          simp only []
          rcases hin with hin | hin
          · cases hin
          · exact hin
        | ok u =>
          simp only []
          exact ih i2 end_ multiplier els1 hi2 hje hend (by omega) hm.1 hm.2
      · simp only [hp, if_false]
        exact ⟨_, rfl⟩

/-! ## An unmatched closing parenthesis is rejected -/

theorem segDepth_zero_left (s : List Char) (k : Nat) : segDepth s 0 k = parenDepth (s.take k) := by
  unfold segDepth; simp

theorem parenStep_neg (c : Char) (h : parenStep c < 0) : c = ')' := by
  unfold parenStep at h
  by_cases h1 : c = '('
  · simp [h1] at h
  · by_cases h2 : c = ')'
    · exact h2
    · simp [h1, h2] at h

theorem parenStep_ge (c : Char) : -1 ≤ parenStep c := by
  unfold parenStep
  split
  · decide
  · split <;> decide

theorem parseFormula_unmatched_close (formula : List Char)
    (h : ∃ k, parenDepth ((cleanFormula formula).take k) < 0) :
    ∃ what, (parseFormula formula).1 = .error (.invalidArgument what) := by
  classical
  generalize hw : cleanFormula formula = w at h
  have hmin : ∀ m, m < Nat.find h → ¬ parenDepth (w.take m) < 0 := fun m hm => Nat.find_min h hm
  have hspec := Nat.find_spec h
  generalize Nat.find h = k0 at hmin hspec
  have hk0 : k0 ≠ 0 := by
    intro h0; subst h0
    simp [parenDepth_nil] at hspec
  have hk0len : k0 ≤ w.length := by
    by_contra hcon
    have hlt : w.length < k0 := by omega
    apply hmin w.length hlt
    rw [List.take_of_length_le (le_refl _)]
    rw [List.take_of_length_le (by omega)] at hspec
    exact hspec
  obtain ⟨j, hj⟩ : ∃ j, k0 = j + 1 := ⟨k0 - 1, by omega⟩
  subst hj
  have hjlt : j < w.length := by omega
  have hget : w[j]? = some w[j] := List.getElem?_eq_getElem hjlt
  have hpre : ∀ k, k ≤ j → 0 ≤ segDepth w 0 k := by
    intro k hk
    rw [segDepth_zero_left]
    have := hmin k (by omega)
    linarith
  have hstep := segDepth_succ w 0 j _ (Nat.zero_le _) hget
  rw [segDepth_zero_left, segDepth_zero_left] at hstep
  have hge := parenStep_ge w[j]
  have hj0 := hpre j (le_refl _)
  rw [segDepth_zero_left] at hj0
  have hneg : parenStep w[j] < 0 := by linarith
  have hclose : w[j]? = some ')' := by rw [hget, parenStep_neg _ hneg]
  have htot : segDepth w 0 j = 0 := by
    rw [segDepth_zero_left]; linarith
  obtain ⟨what, hwhat⟩ := parseGroupAux_unmatched_close w j hclose (w.length - 0) 0 w.length 1 []
    (Nat.zero_le _) hjlt (le_refl _) (le_refl _) (fun k _ hk => hpre k hk) htot
  refine ⟨what, ?_⟩
  unfold parseFormula
  simp only [hw]
  unfold parseGroup
  rcases hres : parseGroupAux w (w.length - 0) 0 w.length 1 [] with ⟨r, els⟩
  rw [hres] at hwhat
  simp only [] at hwhat
  subst hwhat
  rfl

/-- C10: if some beginning of the cleaned formula holds more `)` than `(`, then `parseFormula`
throws `std::invalid_argument` and the compound is invalid. -/
theorem C10_unmatched_close_rejected (formula : List Char)
    (h : ∃ k, parenDepth ((cleanFormula formula).take k) < 0) :
    (ChemicalCompound.create formula).isValid = false ∧
    ∃ what, (parseFormula formula).1 = .error (.invalidArgument what) := by
  obtain ⟨what, hwhat⟩ := parseFormula_unmatched_close formula h
  refine ⟨?_, what, hwhat⟩
  unfold ChemicalCompound.create
  rcases hres : parseFormula formula with ⟨r, els⟩
  rw [hres] at hwhat
  simp only [] at hwhat
  subst hwhat
  rfl

/-- C10 at `H2O)`. -/
theorem C10_unmatched_close_rejected_witness :
    parenDepth ((cleanFormula "H2O)".toList).take 4) < 0 ∧
    (ChemicalCompound.create "H2O)".toList).isValid = false :=
  ⟨by decide, (C10_unmatched_close_rejected "H2O)".toList ⟨4, by decide⟩).1⟩

/-! ## The parser follows its reading with unbounded integers, modulo `2^32` -/

theorem digitLoop_wrap (formula : List Char) :
    ∀ (n i : Nat) (count count1 : Int), count1 = wrapInt count →
      digitLoop formula n i count1
        = (digitLoopExact formula n i count).map (fun r => (r.1, wrapInt r.2)) := by
  intro n
  induction n with
  | zero =>
    intro i count count1 h
    simp only [digitLoop, digitLoopExact, Except.map, h]
  | succ n ih =>
    intro i count count1 h
    unfold digitLoop digitLoopExact
    cases charAt formula i with
    | error e => rfl
    | ok c =>
      simp only []
      split
      · apply ih
        rw [h, wrapInt_mul_left, wrapInt_add_left]
      · simp only [Except.map, h]

theorem readCount_wrap (formula : List Char) (end_ i : Nat) :
    readCount formula end_ i
      = (readCountExact formula end_ i).map (fun r => (r.1, wrapInt r.2)) := by
  unfold readCount readCountExact
  split
  · cases charAt formula i with
    | error e => rfl
    | ok c =>
      simp only []
      split
      · exact digitLoop_wrap formula _ _ 0 0 wrapInt_zero.symm
      · rfl
  · rfl

theorem parseGroupAux_wrap (formula : List Char) :
    ∀ (fuel i end_ : Nat) (multiplier multiplier1 : Int) (elements : ElementMap),
      multiplier1 = wrapInt multiplier →
      parseGroupAux formula fuel i end_ multiplier1 (ElementMap.wrap elements)
        = ((parseGroupAuxExact formula fuel i end_ multiplier elements).1,
            ElementMap.wrap (parseGroupAuxExact formula fuel i end_ multiplier elements).2) := by
  intro fuel
  induction fuel with
  | zero =>
    intro i end_ multiplier multiplier1 elements _
    unfold parseGroupAux parseGroupAuxExact
    split <;> rfl
  | succ fuel ih =>
    intro i end_ multiplier multiplier1 elements hm
    unfold parseGroupAux parseGroupAuxExact
    split
    · cases charAt formula i with
      | error e => rfl
      | ok c =>
        simp only []
        split
        · cases lowerLoop formula (end_ - (i + 1)) (i + 1) [c] with
          | error e => rfl
          | ok r =>
            obtain ⟨i1, element⟩ := r
            simp only []
            rw [readCount_wrap]
            cases readCountExact formula end_ i1 with
            | error e => rfl
            | ok r2 =>
              obtain ⟨i2, count⟩ := r2
              simp only [Except.map]
              rw [ElementMap.addTo_wrap elements element _ (count * multiplier)
                (by rw [wrapInt_wrapInt, hm, wrapInt_mul])]
              exact ih _ _ _ _ _ hm
        · split
          · cases depthLoop formula (end_ - (i + 1)) (i + 1) 1 with
            | error e => rfl
            | ok i1 =>
              simp only []
              rw [readCount_wrap]
              cases readCountExact formula end_ i1 with
              | error e => rfl
              | ok r2 =>
                obtain ⟨i2, groupMultiplier⟩ := r2
                simp only [Except.map]
                rw [ih (i + 1) (i1 - 1) (multiplier * groupMultiplier) _ elements
                  (by rw [hm, wrapInt_mul])]
                rcases hres : parseGroupAuxExact formula fuel (i + 1) (i1 - 1)
                  (multiplier * groupMultiplier) elements with ⟨r, elements1⟩
                cases r with
                | error e => rfl
                | ok u =>
                  cases u
                  simp only []
                  exact ih _ _ _ _ _ hm
          · rfl
    · rfl

/-- The parser stores the counts of its reading with unbounded integers, each reduced to an
`int`; it accepts and rejects the same formulas, with the same exception. -/
theorem parseFormula_wrap (formula : List Char) :
    parseFormula formula
      = ((parseFormulaExact formula).1, ElementMap.wrap (parseFormulaExact formula).2) := by
  unfold parseFormula parseFormulaExact parseGroup parseGroupExact
  simp only []
  have h := parseGroupAux_wrap (cleanFormula formula) ((cleanFormula formula).length - 0) 0
    (cleanFormula formula).length 1 1 [] wrapInt_one.symm
  rw [ElementMap.wrap_nil] at h
  rw [h]
  rcases parseGroupAuxExact (cleanFormula formula) ((cleanFormula formula).length - 0) 0
    (cleanFormula formula).length 1 [] with ⟨r, elements⟩
  cases r with
  | error e => rfl
  | ok u =>
    cases u
    rfl

/-- The parser accepts the text of every formula of the grammar and stores, for each symbol,
the count of the reading with unbounded integers reduced to an `int`. -/
theorem parseFormula_render (F : Formula) (hF : F.wellFormed = true) :
    parseFormula F.render = (.ok F.render, ElementMap.wrap (F.accumulate 1 [])) := by
  rw [parseFormula_wrap, parseFormulaExact_render F hF]

/-- For every formula of the grammar, the compound built from its text is valid, and its
element count map holds, for each symbol, the manual expansion reduced to an `int`. -/
theorem create_render (F : Formula) (hF : F.wellFormed = true) :
    (ChemicalCompound.create F.render).isValid = true ∧
    ∀ symbol, (ChemicalCompound.create F.render).getElementCount.count symbol
      = wrapInt (F.expand 1 symbol) := by
  unfold ChemicalCompound.create
  rw [parseFormula_render F hF]
  refine ⟨rfl, fun symbol => ?_⟩
  have := (Formula.accumulate_count F 1 [] ElementMap.sorted_nil).2 symbol
  simp only [ChemicalCompound.getElementCount]
  rw [ElementMap.count_wrap, this]
  simp [ElementMap.count, ElementMap.find]

/-- The compound of `Mg(OH)2` holds the counts of the manual expansion. -/
theorem create_render_magnesiumHydroxide :
    magnesiumHydroxide.wellFormed = true ∧
    magnesiumHydroxide.render = "Mg(OH)2".toList ∧
    (ChemicalCompound.create magnesiumHydroxide.render).isValid = true ∧
    (∀ symbol, (ChemicalCompound.create magnesiumHydroxide.render).getElementCount.count symbol
      = wrapInt (magnesiumHydroxide.expand 1 symbol)) ∧
    magnesiumHydroxide.expand 1 "H".toList = 2 :=
  ⟨by decide, by decide, (create_render magnesiumHydroxide (by decide)).1,
    (create_render magnesiumHydroxide (by decide)).2, by decide⟩

/-- C6 (defect of the code): `H2147483648` is a formula of the grammar (the symbol `H` with
the count `2147483648`), the compound built from its text is valid, and the manual expansion
gives `2147483648` atoms of `H`, but `getElementCount()` holds `-2147483648` for `H`: the
`int` that accumulates the digits, `count = count * 10 + digit`, wraps around.  For
`(H100000)100000` the manual expansion gives `10000000000` atoms of `H` and
`getElementCount()` holds `1410065408`: the product `count * multiplier` wraps around. -/
theorem C6_count_overflow_breaks_expansion :
    overflowFormula.wellFormed = true ∧
    overflowFormula.render = "H2147483648".toList ∧
    (ChemicalCompound.create overflowFormula.render).isValid = true ∧
    overflowFormula.expand 1 "H".toList = 2147483648 ∧
    (ChemicalCompound.create overflowFormula.render).getElementCount
      = [("H".toList, -2147483648)] ∧
    (ChemicalCompound.create overflowFormula.render).getElementCount.count "H".toList
      ≠ overflowFormula.expand 1 "H".toList ∧
    overflowGroupFormula.wellFormed = true ∧
    overflowGroupFormula.render = "(H100000)100000".toList ∧
    (ChemicalCompound.create overflowGroupFormula.render).isValid = true ∧
    overflowGroupFormula.expand 1 "H".toList = 10000000000 ∧
    (ChemicalCompound.create overflowGroupFormula.render).getElementCount
      = [("H".toList, 1410065408)] := by
  refine ⟨by decide, by decide, by decide!, by decide!, by decide!, by decide!, by decide,
    by decide, by decide!, by decide!, by decide!⟩

/-! ## The solver without its trace -/

theorem foldl_snd {σ τ ι : Type} (f : σ × τ → ι → σ × τ) (g : τ → ι → τ)
    (h : ∀ st i, (f st i).2 = g st.2 i) (l : List ι) (st : σ × τ) :
    (l.foldl f st).2 = l.foldl g st.2 := by
  induction l generalizing st with
  | nil => rfl
  | cons i l ih => rw [List.foldl_cons, List.foldl_cons, ih, h]

theorem eliminateColumnBy_snd (zero : ℚ → Bool) (st : MatrixSolver × Matrix) (pivot rows : Nat) :
    (eliminateColumnBy zero st pivot rows).2 = eliminateColumnM zero st.2 pivot rows := by
  unfold eliminateColumnBy eliminateColumnM
  apply foldl_snd
  intro st row
  by_cases h : zero (entry st.2 row pivot) = true
  · simp [h]
  · simp [h, MatrixSolver.addRowToRow]

theorem forwardStepBy_snd (zero : ℚ → Bool) (rows : Nat) (st : MatrixSolver × Matrix)
    (pivot : Nat) :
    (forwardStepBy zero rows st pivot).2 = forwardStepM zero rows st.2 pivot := by
  unfold forwardStepBy forwardStepM
  simp only []
  have h1 : (if findPivotRow st.2 pivot rows ≠ pivot then
        st.1.swapRows st.2 pivot (findPivotRow st.2 pivot rows) else st).2
      = (if findPivotRow st.2 pivot rows ≠ pivot then
        swapRowsM st.2 pivot (findPivotRow st.2 pivot rows) else st.2) := by
    by_cases h : findPivotRow st.2 pivot rows = pivot
    · simp [h]
    · have h2 : pivot ≠ findPivotRow st.2 pivot rows := fun h3 => h h3.symm
      simp [h, h2, MatrixSolver.swapRows]
  rw [← h1]
  generalize (if findPivotRow st.2 pivot rows ≠ pivot then
        st.1.swapRows st.2 pivot (findPivotRow st.2 pivot rows) else st) = st1
  by_cases hz : zero (entry st1.2 pivot pivot) = true
  · simp only [hz, if_true]
  · simp only [hz, if_false, Bool.false_eq_true]
    rw [eliminateColumnBy_snd]

/-- The vector and the matrix that `gaussianEliminationBy` returns. -/
theorem gaussianEliminationBy_eq (zero : ℚ → Bool) (self : MatrixSolver) (matrix : Matrix)
    (h1 : matrix ≠ []) (h2 : matrix.getD 0 [] ≠ []) :
    (self.gaussianEliminationBy zero matrix).1
      = backSubstitution zero (forwardEliminationM zero matrix) ∧
    (self.gaussianEliminationBy zero matrix).2.2 = forwardEliminationM zero matrix := by
  unfold MatrixSolver.gaussianEliminationBy
  have e1 : matrix.isEmpty = false := by
    cases matrix with
    | nil => exact absurd rfl h1
    | cons r m => rfl
  have e2 : (matrix.getD 0 []).isEmpty = false := by
    cases h : matrix.getD 0 [] with
    | nil => exact absurd h h2
    | cons r m => rfl
  simp only [e1, e2, Bool.or_self, Bool.false_eq_true, if_false]
  have hfwd : ((List.range (min matrix.length (matrix.getD 0 []).length)).foldl
      (forwardStepBy zero matrix.length)
      (MatrixSolver.addStep ⟨[]⟩ matrix "initial", matrix)).2 = forwardEliminationM zero matrix := by
    unfold forwardEliminationM
    rw [foldl_snd (forwardStepBy zero matrix.length) (forwardStepM zero matrix.length)
      (forwardStepBy_snd zero matrix.length)]
  refine ⟨?_, hfwd⟩
  simp only [MatrixSolver.solveHomogeneousBy]
  rw [hfwd]
  rfl

/-! ## Rows and entries of a matrix -/

theorem getD_set {α : Type} (l : List α) (j : Nat) (v d : α) (k : Nat) :
    (l.set j v).getD k d = if j = k ∧ j < l.length then v else l.getD k d := by
  rw [List.getD_eq_getElem?_getD, List.getD_eq_getElem?_getD, List.getElem?_set]
  by_cases h1 : j = k
  · subst h1
    by_cases h2 : j < l.length
    · simp [h2]
    · simp [h2, List.getElem?_eq_none (not_lt.mp h2)]
  · simp [h1]

theorem getD_mem {α : Type} (l : List α) (k : Nat) (d : α) (h : k < l.length) :
    l.getD k d ∈ l := by
  rw [List.getD_eq_getElem?_getD, List.getElem?_eq_getElem h]
  exact List.getElem_mem h

theorem getD_of_le {α : Type} (l : List α) (k : Nat) (d : α) (h : l.length ≤ k) :
    l.getD k d = d := by
  rw [List.getD_eq_getElem?_getD, List.getElem?_eq_none h]; rfl

theorem mem_set {α : Type} (l : List α) (j : Nat) (v x : α) (h : x ∈ l.set j v) :
    x = v ∨ x ∈ l := by
  rcases List.mem_iff_getElem?.mp h with ⟨k, hk⟩
  rw [List.getElem?_set] at hk
  by_cases h1 : j = k
  · rw [if_pos h1] at hk
    by_cases h2 : j < l.length
    · rw [if_pos h2] at hk
      injection hk with hk
      left; exact hk.symm
    · rw [if_neg h2] at hk; cases hk
  · rw [if_neg h1] at hk
    right; exact List.mem_iff_getElem?.mpr ⟨k, hk⟩

theorem Rect.getD_length {matrix : Matrix} {n : Nat} (h : Rect matrix n) (r : Nat)
    (hr : r < matrix.length) : (matrix.getD r []).length = n :=
  h _ (getD_mem matrix r [] hr)

theorem entry_of_row_le (matrix : Matrix) (r j : Nat) (h : matrix.length ≤ r) :
    entry matrix r j = 0 := by
  unfold entry
  rw [getD_of_le matrix r [] h]
  rfl

/-! ### Row swap -/

theorem swapRowsM_length (matrix : Matrix) (a b : Nat) :
    (swapRowsM matrix a b).length = matrix.length := by
  simp [swapRowsM]

theorem swapRowsM_getD (matrix : Matrix) (a b r : Nat) (ha : a < matrix.length)
    (hb : b < matrix.length) :
    (swapRowsM matrix a b).getD r []
      = matrix.getD (if r = b then a else if r = a then b else r) [] := by
  unfold swapRowsM
  rw [getD_set, getD_set]
  simp only [List.length_set]
  by_cases h1 : b = r
  · subst h1; simp [hb]
  · have h1' : ¬ r = b := fun h => h1 h.symm
    simp only [h1, h1', false_and, if_false]
    by_cases h2 : a = r
    · subst h2; simp [ha]
    · have h2' : ¬ r = a := fun h => h2 h.symm
      simp [h2, h2']

theorem swapRowsM_entry (matrix : Matrix) (a b r j : Nat) (ha : a < matrix.length)
    (hb : b < matrix.length) :
    entry (swapRowsM matrix a b) r j
      = entry matrix (if r = b then a else if r = a then b else r) j := by
  unfold entry
  rw [swapRowsM_getD matrix a b r ha hb]

theorem swapRowsM_rect (matrix : Matrix) (n a b : Nat) (h : Rect matrix n)
    (ha : a < matrix.length) (hb : b < matrix.length) : Rect (swapRowsM matrix a b) n := by
  intro row hrow
  unfold swapRowsM at hrow
  rcases mem_set _ _ _ _ hrow with h1 | h1
  · rw [h1]; exact h.getD_length a ha
  · rcases mem_set _ _ _ _ h1 with h2 | h2
    · rw [h2]; exact h.getD_length b hb
    · exact h row h2

/-! ### Adding a multiple of a row to another row -/

theorem addScaled_length (factor : ℚ) (t s : List ℚ) (h : s.length ≤ t.length) :
    (addScaled factor t s).length = t.length := by
  induction t generalizing s with
  | nil =>
    cases s with
    | nil => rfl
    | cons a s => simp at h
  | cons b t ih =>
    cases s with
    | nil => rfl
    | cons a s =>
      simp only [addScaled, List.length_cons]
      rw [ih s (by simpa using h)]

theorem addScaled_getD (factor : ℚ) (t s : List ℚ) (h : s.length = t.length) (j : Nat) :
    (addScaled factor t s).getD j 0 = t.getD j 0 + factor * s.getD j 0 := by
  induction t generalizing s j with
  | nil =>
    cases s with
    | nil => simp [addScaled]
    | cons a s => simp at h
  | cons b t ih =>
    cases s with
    | nil => simp at h
    | cons a s =>
      cases j with
      | zero => simp [addScaled]
      | succ j =>
        simp only [addScaled, List.getD_cons_succ]
        exact ih s (by simpa using h) j

theorem addRowToRowM_length (matrix : Matrix) (src tgt : Nat) (factor : ℚ) :
    (addRowToRowM matrix src tgt factor).length = matrix.length := by
  simp [addRowToRowM]

theorem addRowToRowM_entry (matrix : Matrix) (n src tgt : Nat) (factor : ℚ) (h : Rect matrix n)
    (hs : src < matrix.length) (ht : tgt < matrix.length) (r j : Nat) :
    entry (addRowToRowM matrix src tgt factor) r j
      = if r = tgt then entry matrix tgt j + factor * entry matrix src j else entry matrix r j := by
  unfold entry addRowToRowM
  rw [getD_set]
  by_cases h1 : tgt = r
  · subst h1
    simp only [ht, and_self, if_true]
    rw [addScaled_getD _ _ _ (by rw [h.getD_length src hs, h.getD_length tgt ht])]
  · have h1' : ¬ r = tgt := fun h2 => h1 h2.symm
    simp [h1, h1']

theorem addRowToRowM_rect (matrix : Matrix) (n src tgt : Nat) (factor : ℚ) (h : Rect matrix n)
    (hs : src < matrix.length) (ht : tgt < matrix.length) :
    Rect (addRowToRowM matrix src tgt factor) n := by
  intro row hrow
  unfold addRowToRowM at hrow
  rcases mem_set _ _ _ _ hrow with h1 | h1
  · rw [h1, addScaled_length _ _ _ (by rw [h.getD_length src hs, h.getD_length tgt ht])]
    exact h.getD_length tgt ht
  · exact h row h1

/-! ## Row operations keep the null space -/

theorem dotF_congr (n : Nat) (m1 m2 : Matrix) (r1 r2 : Nat) (x : Nat → ℚ)
    (h : ∀ j, j < n → entry m1 r1 j = entry m2 r2 j) : dotF n m1 r1 x = dotF n m2 r2 x := by
  unfold dotF
  apply Finset.sum_congr rfl
  intro j hj
  rw [h j (Finset.mem_range.mp hj)]

theorem NullF_swapRowsM (n : Nat) (matrix : Matrix) (a b : Nat) (ha : a < matrix.length)
    (hb : b < matrix.length) (x : Nat → ℚ) :
    NullF n (swapRowsM matrix a b) x ↔ NullF n matrix x := by
  have hrow : ∀ r, dotF n (swapRowsM matrix a b) r x
      = dotF n matrix (if r = b then a else if r = a then b else r) x :=
    fun r => dotF_congr n _ _ _ _ x (fun j _ => swapRowsM_entry matrix a b r j ha hb)
  unfold NullF
  rw [swapRowsM_length]
  constructor
  · intro h r hr
    by_cases h1 : r = a
    · have := h b hb
      rw [hrow] at this
      simpa [h1] using this
    · by_cases h2 : r = b
      · have := h a ha
        rw [hrow] at this
        by_cases h3 : a = b
        · subst h2; simpa [h3] using this
        · subst h2; simpa [h3] using this
      · have := h r hr
        rw [hrow] at this
        simpa [h1, h2] using this
  · intro h r hr
    rw [hrow]
    by_cases h2 : r = b
    · simp only [h2, if_true]; exact h a ha
    · by_cases h1 : r = a
      · simp only [h2, h1, if_true, if_false]
        rw [if_neg (by rw [← h1]; exact h2)]
        exact h b hb
      · simp only [h2, h1, if_false]; exact h r hr

theorem dotF_addRowToRowM (n : Nat) (matrix : Matrix) (src tgt : Nat) (factor : ℚ)
    (h : Rect matrix n) (hs : src < matrix.length) (ht : tgt < matrix.length) (r : Nat)
    (x : Nat → ℚ) :
    dotF n (addRowToRowM matrix src tgt factor) r x
      = if r = tgt then dotF n matrix tgt x + factor * dotF n matrix src x
        else dotF n matrix r x := by
  unfold dotF
  by_cases h1 : r = tgt
  · subst h1
    simp only [if_true]
    rw [Finset.mul_sum, ← Finset.sum_add_distrib]
    apply Finset.sum_congr rfl
    intro j _
    rw [addRowToRowM_entry matrix n src r factor h hs ht]
    simp only [if_true]
    ring
  · simp only [h1, if_false]
    apply Finset.sum_congr rfl
    intro j _
    rw [addRowToRowM_entry matrix n src tgt factor h hs ht]
    simp only [h1, if_false]

theorem NullF_addRowToRowM (n : Nat) (matrix : Matrix) (src tgt : Nat) (factor : ℚ)
    (h : Rect matrix n) (hs : src < matrix.length) (ht : tgt < matrix.length)
    (hne : src ≠ tgt) (x : Nat → ℚ) :
    NullF n (addRowToRowM matrix src tgt factor) x ↔ NullF n matrix x := by
  unfold NullF
  rw [addRowToRowM_length]
  constructor
  · intro hn r hr
    have hsrc := hn src hs
    rw [dotF_addRowToRowM n matrix src tgt factor h hs ht, if_neg hne] at hsrc
    by_cases h1 : r = tgt
    · have := hn tgt ht
      rw [dotF_addRowToRowM n matrix src tgt factor h hs ht, if_pos rfl, hsrc] at this
      rw [h1]; linarith
    · have := hn r hr
      rw [dotF_addRowToRowM n matrix src tgt factor h hs ht, if_neg h1] at this
      exact this
  · intro hn r hr
    rw [dotF_addRowToRowM n matrix src tgt factor h hs ht]
    by_cases h1 : r = tgt
    · rw [if_pos h1, hn tgt ht, hn src hs]; ring
    · rw [if_neg h1]; exact hn r hr

/-! ## The pivot search -/

theorem findPivot_fold (e : Nat → ℚ) (l : List Nat) (init : Nat) :
    (l.foldl (fun pivotRow row => if abs (e row) > abs (e pivotRow) then row else pivotRow) init
        = init ∨
      l.foldl (fun pivotRow row => if abs (e row) > abs (e pivotRow) then row else pivotRow) init
        ∈ l) ∧
    abs (e init) ≤ abs (e (l.foldl
      (fun pivotRow row => if abs (e row) > abs (e pivotRow) then row else pivotRow) init)) ∧
    ∀ r ∈ l, abs (e r) ≤ abs (e (l.foldl
      (fun pivotRow row => if abs (e row) > abs (e pivotRow) then row else pivotRow) init)) := by
  induction l generalizing init with
  | nil => exact ⟨Or.inl rfl, le_refl _, fun r hr => by cases hr⟩
  | cons a l ih =>
    rw [List.foldl_cons]
    by_cases h : abs (e a) > abs (e init)
    · rw [if_pos h]
      obtain ⟨h1, h2, h3⟩ := ih a
      refine ⟨?_, le_trans (le_of_lt h) h2, fun r hr => ?_⟩
      · rcases h1 with h1 | h1
        · right; rw [h1]; exact List.mem_cons_self _ _
        · right; exact List.mem_cons_of_mem _ h1
      · rcases List.mem_cons.mp hr with hr | hr
        · rw [hr]; exact h2
        · exact h3 r hr
    · rw [if_neg h]
      obtain ⟨h1, h2, h3⟩ := ih init
      refine ⟨?_, h2, fun r hr => ?_⟩
      · rcases h1 with h1 | h1
        · left; exact h1
        · right; exact List.mem_cons_of_mem _ h1
      · rcases List.mem_cons.mp hr with hr | hr
        · rw [hr]; exact le_trans (not_lt.mp h) h2
        · exact h3 r hr

/-- The pivot search returns a row from `pivot` on whose entry in the pivot column has the
largest absolute value. -/
theorem findPivotRow_spec (matrix : Matrix) (pivot rows : Nat) (hp : pivot < rows) :
    pivot ≤ findPivotRow matrix pivot rows ∧ findPivotRow matrix pivot rows < rows ∧
    ∀ r, pivot ≤ r → r < rows →
      abs (entry matrix r pivot) ≤ abs (entry matrix (findPivotRow matrix pivot rows) pivot) := by
  unfold findPivotRow
  obtain ⟨h1, h2, h3⟩ := findPivot_fold (fun r => entry matrix r pivot)
    (List.range' (pivot + 1) (rows - (pivot + 1))) pivot
  refine ⟨?_, ?_, fun r hr hrr => ?_⟩
  · rcases h1 with h1 | h1
    · rw [h1]
    · rcases List.mem_range'.mp h1 with ⟨i, _, hi⟩
      rw [hi]; omega
  · rcases h1 with h1 | h1
    · rw [h1]; exact hp
    · rcases List.mem_range'.mp h1 with ⟨i, hi1, hi⟩
      rw [hi]; omega
  · by_cases hrp : r = pivot
    · rw [hrp]; exact h2
    · apply h3
      rw [List.mem_range']
      exact ⟨r - (pivot + 1), by omega, by omega⟩

/-! ## Forward elimination, one pivot at a time -/

theorem Echelon.mono {matrix : Matrix} {p k : Nat} (h : Echelon matrix p) (hk : k ≤ p) :
    Echelon matrix k :=
  fun q hq => h q (by omega)

theorem isExactZero_iff (v : ℚ) : isExactZero v = true ↔ v = 0 := by
  simp [isExactZero]

theorem ElimState.swap {n rows p : Nat} {original m : Matrix} (h : ElimState n rows p original m)
    (hp : p < rows) (pr : Nat) (hpr1 : p ≤ pr) (hpr2 : pr < rows) :
    ElimState n rows p original (swapRowsM m p pr) := by
  obtain ⟨hlen, hrect, hech, hnull⟩ := h
  have ha : p < m.length := by omega
  have hb : pr < m.length := by omega
  refine ⟨by rw [swapRowsM_length, hlen], swapRowsM_rect m n p pr hrect ha hb, ?_, ?_⟩
  · intro q hq
    have e1 : entry (swapRowsM m p pr) q q = entry m q q := by
      rw [swapRowsM_entry m p pr q q ha hb]
      rw [if_neg (by omega), if_neg (by omega)]
    refine ⟨by rw [e1]; exact (hech q hq).1, fun r hr hrl => ?_⟩
    rw [swapRowsM_length] at hrl
    rw [swapRowsM_entry m p pr r q ha hb]
    apply (hech q hq).2
    · split
      · omega
      · split <;> omega
    · split
      · omega
      · split <;> omega
  · intro x
    rw [NullF_swapRowsM n m p pr ha hb, hnull]

theorem eliminateColumn_fold (n rows p : Nat) (original : Matrix) (hp : p < rows)
    (l : List Nat) (hl : ∀ r ∈ l, p < r ∧ r < rows) :
    ∀ m, ElimState n rows p original m → entry m p p ≠ 0 →
      ElimState n rows p original
        (l.foldl (fun m row =>
          if !isExactZero (entry m row p) then
            addRowToRowM m p row (-(entry m row p) / entry m p p)
          else m) m) ∧
      entry (l.foldl (fun m row =>
          if !isExactZero (entry m row p) then
            addRowToRowM m p row (-(entry m row p) / entry m p p)
          else m) m) p p ≠ 0 ∧
      ∀ r, p < r → (r ∈ l ∨ entry m r p = 0) →
        entry (l.foldl (fun m row =>
          if !isExactZero (entry m row p) then
            addRowToRowM m p row (-(entry m row p) / entry m p p)
          else m) m) r p = 0 := by
  induction l with
  | nil =>
    intro m hm hpiv
    refine ⟨hm, hpiv, fun r _ hr => ?_⟩
    rcases hr with hr | hr
    · cases hr
    · exact hr
  | cons r0 l ih =>
    intro m hm hpiv
    have hr0 := hl r0 (List.mem_cons_self _ _)
    have hl1 : ∀ r ∈ l, p < r ∧ r < rows := fun r hr => hl r (List.mem_cons_of_mem _ hr)
    rw [List.foldl_cons]
    by_cases hz : entry m r0 p = 0
    · have hz1 : isExactZero (entry m r0 p) = true := (isExactZero_iff _).mpr hz
      simp only [hz1, Bool.not_true, Bool.false_eq_true, if_false]
      obtain ⟨h1, h2, h3⟩ := ih hl1 m hm hpiv
      refine ⟨h1, h2, fun r hr hcase => ?_⟩
      apply h3 r hr
      rcases hcase with hcase | hcase
      · rcases List.mem_cons.mp hcase with hc | hc
        · right; rw [hc]; exact hz
        · left; exact hc
      · right; exact hcase
    · have hz1 : isExactZero (entry m r0 p) = false := by
        rw [← Bool.not_eq_true, isExactZero_iff]; exact hz
      simp only [hz1, Bool.not_false, if_true]
      obtain ⟨hlen, hrect, hech, hnull⟩ := hm
      have hs : p < m.length := by omega
      have ht : r0 < m.length := by omega
      have hent := addRowToRowM_entry m n p r0 (-(entry m r0 p) / entry m p p) hrect hs ht
      have hm1 : ElimState n rows p original
          (addRowToRowM m p r0 (-(entry m r0 p) / entry m p p)) := by
        refine ⟨by rw [addRowToRowM_length, hlen], addRowToRowM_rect m n p r0 _ hrect hs ht,
          ?_, ?_⟩
        · intro q hq
          refine ⟨?_, fun r hr hrl => ?_⟩
          · rw [hent, if_neg (by omega)]; exact (hech q hq).1
          · rw [addRowToRowM_length] at hrl
            rw [hent]
            by_cases hrr : r = r0
            · rw [if_pos hrr, (hech q hq).2 r0 (by omega) ht, (hech q hq).2 p hq hs]
              ring
            · rw [if_neg hrr]; exact (hech q hq).2 r hr hrl
        · intro x
          rw [NullF_addRowToRowM n m p r0 _ hrect hs ht (by omega), hnull]
      have hpiv1 : entry (addRowToRowM m p r0 (-(entry m r0 p) / entry m p p)) p p ≠ 0 := by
        rw [hent, if_neg (by omega)]; exact hpiv
      have hzero : entry (addRowToRowM m p r0 (-(entry m r0 p) / entry m p p)) r0 p = 0 := by
        rw [hent, if_pos rfl]
        field_simp
      obtain ⟨h1, h2, h3⟩ := ih hl1 _ hm1 hpiv1
      refine ⟨h1, h2, fun r hr hcase => ?_⟩
      apply h3 r hr
      by_cases hrr : r = r0
      · right; rw [hrr]; exact hzero
      · rcases hcase with hcase | hcase
        · rcases List.mem_cons.mp hcase with hc | hc
          · exact absurd hc hrr
          · left; exact hc
        · right; rw [hent, if_neg hrr]; exact hcase

/-- Eliminating a column whose pivot is not zero extends the eliminated part by that column. -/
theorem ElimState.eliminate {n rows p : Nat} {original m : Matrix}
    (h : ElimState n rows p original m) (hp : p < rows) (hpiv : entry m p p ≠ 0) :
    ElimState n rows (p + 1) original (eliminateColumnM isExactZero m p rows) := by
  unfold eliminateColumnM
  obtain ⟨h1, h2, h3⟩ := eliminateColumn_fold n rows p original hp
    (List.range' (p + 1) (rows - (p + 1)))
    (fun r hr => by
      rcases List.mem_range'.mp hr with ⟨i, hi, hri⟩
      omega)
    m h hpiv
  obtain ⟨hlen, hrect, hech, hnull⟩ := h1
  refine ⟨hlen, hrect, ?_, hnull⟩
  intro q hq
  by_cases hqp : q = p
  · subst hqp
    refine ⟨h2, fun r hr hrl => ?_⟩
    apply h3 r hr
    left
    rw [List.mem_range']
    exact ⟨r - (q + 1), by omega, by omega⟩
  · exact hech q (by omega)

/-! ## A triangular system can be solved -/

theorem entry_ne_zero_lt (matrix : Matrix) (r j : Nat) (h : entry matrix r j ≠ 0) :
    r < matrix.length := by
  by_contra hcon
  exact h (entry_of_row_le matrix r j (by omega))

/-- With the first `p` columns eliminated, the first `p` rows can be satisfied whatever the
coordinates from `p` on are. -/
theorem triangular_solve (n : Nat) (matrix : Matrix) (p : Nat) (hp : p ≤ n)
    (hech : Echelon matrix p) (y : Nat → ℚ) :
    ∃ x : Nat → ℚ, (∀ j, p ≤ j → x j = y j) ∧ ∀ r, r < p → dotF n matrix r x = 0 := by
  induction p generalizing y with
  | zero => exact ⟨y, fun j _ => rfl, fun r hr => by omega⟩
  | succ p ih =>
    have hech1 : Echelon matrix p := hech.mono (by omega)
    have hpp : entry matrix p p ≠ 0 := (hech p (by omega)).1
    have hplen : p < matrix.length := entry_ne_zero_lt matrix p p hpp
    obtain ⟨x, hx1, hx2⟩ := ih (by omega) hech1
      (Function.update y p
        (-(∑ j ∈ Finset.range n, if p < j then entry matrix p j * y j else 0) / entry matrix p p))
    refine ⟨x, fun j hj => ?_, fun r hr => ?_⟩
    · rw [hx1 j (by omega), Function.update_noteq (by omega)]
    · by_cases hrp : r = p
      · subst hrp
        unfold dotF
        have hpt : ∀ j ∈ Finset.range n, entry matrix r j * x j
            = (if r < j then entry matrix r j * y j else 0)
              + (if j = r then entry matrix r r * x r else 0) := by
          intro j _
          rcases Nat.lt_trichotomy j r with h | h | h
          · rw [if_neg (by omega), if_neg (by omega),
              (hech j (by omega)).2 r h hplen]
            ring
          · subst h
            rw [if_neg (by omega), if_pos rfl]; ring
          · rw [if_pos h, if_neg (by omega), hx1 j (by omega),
              Function.update_noteq (by omega)]
            ring
        rw [Finset.sum_congr rfl hpt, Finset.sum_add_distrib, Finset.sum_ite_eq']
        rw [if_pos (Finset.mem_range.mpr (by omega)), hx1 r (le_refl _), Function.update_same]
        field_simp
        ring
      · exact hx2 r (by omega)

/-- While fewer than `n - 1` columns are eliminated, the next column cannot be zero from the
diagonal down: a null vector with last coordinate `0` and coordinate `p` equal to `1` would
exist. -/
theorem no_zero_column (n rows p : Nat) (original m : Matrix)
    (hst : ElimState n rows p original m) (hpn : p + 1 < n)
    (hcol : ∀ r, p ≤ r → r < rows → entry m r p = 0)
    (hN : ∀ x : Nat → ℚ, NullF n original x → x (n - 1) = 0 → ∀ j, j < n → x j = 0) :
    False := by
  obtain ⟨hlen, hrect, hech, hnull⟩ := hst
  obtain ⟨x, hx1, hx2⟩ := triangular_solve n m p (by omega) hech
    (fun j => if j = p then 1 else 0)
  have hx : NullF n m x := by
    intro r hr
    by_cases hrp : r < p
    · exact hx2 r hrp
    · unfold dotF
      apply Finset.sum_eq_zero
      intro j _
      rcases Nat.lt_trichotomy j p with h | h | h
      · rw [(hech j h).2 r (by omega) hr]; ring
      · rw [h, hcol r (by omega) (by omega)]; ring
      · rw [hx1 j (by omega), if_neg (by omega)]; ring
  have h0 := hN x ((hnull x).mp hx)
    (by rw [hx1 (n - 1) (by omega), if_neg (by omega)]) p (by omega)
  rw [hx1 p (le_refl _), if_pos rfl] at h0
  exact one_ne_zero h0

/-- One iteration of forward elimination, when every null vector with last coordinate `0`
vanishes: columns before the last are eliminated one after the other. -/
theorem forwardStep_state (n rows p : Nat) (original m : Matrix)
    (hst : ElimState n rows (min p (n - 1)) original m) (hp : p < rows) (hpn : p < n)
    (hN : ∀ x : Nat → ℚ, NullF n original x → x (n - 1) = 0 → ∀ j, j < n → x j = 0) :
    ElimState n rows (min (p + 1) (n - 1)) original (forwardStepM isExactZero rows m p) := by
  have hmin : min p (n - 1) = p := by omega
  rw [hmin] at hst
  obtain ⟨hpr1, hpr2, hmax⟩ := findPivotRow_spec m p rows hp
  unfold forwardStepM
  simp only []
  generalize hm1 : (if findPivotRow m p rows ≠ p then swapRowsM m p (findPivotRow m p rows)
    else m) = m1
  have hlenm : m.length = rows := hst.1
  have hst1 : ElimState n rows p original m1 := by
    rw [← hm1]
    split
    · exact hst.swap hp _ hpr1 hpr2
    · exact hst
  have hcolumn : ∀ r, p ≤ r → r < rows →
      abs (entry m1 r p) ≤ abs (entry m1 p p) := by
    intro r hr hrr
    rw [← hm1]
    split
    · rw [swapRowsM_entry m p _ r p (by omega) (by omega),
        swapRowsM_entry m p _ p p (by omega) (by omega)]
      have e : (if p = findPivotRow m p rows then p
          else if p = p then findPivotRow m p rows else p) = findPivotRow m p rows := by
        split
        · rename_i h; exact h
        · simp
      rw [e]
      apply hmax
      · split
        · omega
        · split <;> omega
      · split
        · omega
        · split <;> omega
    · rename_i h
      have h1 : findPivotRow m p rows = p := by
        by_contra hcon; exact h hcon
      have := hmax r hr hrr
      rw [h1] at this
      exact this
  by_cases hz : entry m1 p p = 0
  · have hz1 : isExactZero (entry m1 p p) = true := (isExactZero_iff _).mpr hz
    rw [if_pos hz1]
    by_cases hlast : p + 1 < n
    · exfalso
      apply no_zero_column n rows p original m1 hst1 hlast _ hN
      intro r hr hrr
      have := hcolumn r hr hrr
      rw [hz, abs_zero] at this
      exact abs_eq_zero.mp (le_antisymm this (abs_nonneg _))
    · have : min (p + 1) (n - 1) = p := by omega
      rw [this]; exact hst1
  · have hz1 : ¬ isExactZero (entry m1 p p) = true := by
      rw [isExactZero_iff]; exact hz
    rw [if_neg hz1]
    have hel := hst1.eliminate hp hz
    obtain ⟨h1, h2, h3, h4⟩ := hel
    exact ⟨h1, h2, h3.mono (by omega), h4⟩

/-- Forward elimination with the exact zero test: the first `n - 1` columns end eliminated,
the null space is kept, and there are at least `n - 1` rows. -/
theorem forwardElimination_state (n : Nat) (original : Matrix) (hn : 1 ≤ n)
    (hrows : 1 ≤ original.length) (hrect : Rect original n)
    (hN : ∀ x : Nat → ℚ, NullF n original x → x (n - 1) = 0 → ∀ j, j < n → x j = 0) :
    ElimState n original.length (n - 1) original (forwardEliminationM isExactZero original) ∧
    n - 1 ≤ original.length := by
  have hcols : (original.getD 0 []).length = n := hrect.getD_length 0 (by omega)
  have hloop : ∀ k, k ≤ min original.length n →
      ElimState n original.length (min k (n - 1)) original
        ((List.range k).foldl (forwardStepM isExactZero original.length) original) := by
    intro k
    induction k with
    | zero =>
      intro _
      exact ⟨rfl, hrect, fun q hq => by simp at hq, fun x => Iff.rfl⟩
    | succ k ih =>
      intro hk
      rw [List.range_succ, List.foldl_append, List.foldl_cons, List.foldl_nil]
      exact forwardStep_state n original.length k original _ (ih (by omega)) (by omega)
        (by omega) hN
  have hfinal := hloop (min original.length n) (le_refl _)
  have hfe : forwardEliminationM isExactZero original
      = (List.range (min original.length n)).foldl
          (forwardStepM isExactZero original.length) original := by
    unfold forwardEliminationM
    rw [hcols]
  rw [← hfe] at hfinal
  have hge : n - 1 ≤ original.length := by
    by_contra hcon
    have hm : min (min original.length n) (n - 1) = original.length := by omega
    rw [hm] at hfinal
    exact no_zero_column n original.length original.length original _ hfinal (by omega)
      (fun r hr hrr => by omega) hN
  refine ⟨?_, hge⟩
  have hm : min (min original.length n) (n - 1) = n - 1 := by omega
  rw [hm] at hfinal
  exact hfinal

/-! ## Back substitution -/

theorem find_range'_some (p : Nat → Bool) (a : Nat) (hpa : p a = true) :
    ∀ (k s : Nat), s ≤ a → a < s + k → (∀ j, s ≤ j → j < a → p j = false) →
      (List.range' s k).find? p = some a := by
  intro k
  induction k with
  | zero => intro s h1 h2 _; omega
  | succ k ih =>
    intro s h1 h2 h3
    rw [List.range'_succ, List.find?_cons]
    by_cases hs : s = a
    · subst hs; rw [hpa]
    · rw [h3 s (le_refl _) (by omega)]
      exact ih (s + 1) (by omega) (by omega) (fun j hj hja => h3 j (by omega) hja)

theorem find_range'_none (p : Nat → Bool) :
    ∀ (k s : Nat), (∀ j, s ≤ j → j < s + k → p j = false) → (List.range' s k).find? p = none := by
  intro k
  induction k with
  | zero => intro s _; rfl
  | succ k ih =>
    intro s h
    rw [List.range'_succ, List.find?_cons, h s (le_refl _) (by omega)]
    exact ih (s + 1) (fun j hj hjk => h j (by omega) (by omega))

theorem foldl_sum_range' (f : Nat → ℚ) :
    ∀ (k s : Nat) (init : ℚ),
      (List.range' s k).foldl (fun sum col => sum + f col) init
        = init + ∑ i ∈ Finset.range k, f (s + i) := by
  intro k
  induction k with
  | zero => intro s init; simp
  | succ k ih =>
    intro s init
    rw [List.range'_succ, List.foldl_cons, ih, Finset.sum_range_succ']
    have : ∀ i, f (s + 1 + i) = f (s + (i + 1)) := fun i => by rw [Nat.add_assoc, Nat.add_comm 1]
    simp only [this, Nat.add_zero]
    ring

/-- The sum that `solveHomogeneous` forms for a row, as a sum over all columns. -/
theorem backStep_sum (n a : Nat) (ha : a < n) (f : Nat → ℚ) :
    (List.range' (a + 1) (n - (a + 1))).foldl (fun sum col => sum + f col) 0
      = ∑ j ∈ Finset.range n, if a < j then f j else 0 := by
  rw [foldl_sum_range']
  have hn : n = (a + 1) + (n - (a + 1)) := by omega
  conv => rhs; rw [hn, Finset.sum_range_add]
  have h1 : ∑ j ∈ Finset.range (a + 1), (if a < j then f j else 0) = 0 := by
    apply Finset.sum_eq_zero
    intro j hj
    rw [if_neg (by have := Finset.mem_range.mp hj; omega)]
  have h2 : ∀ i ∈ Finset.range (n - (a + 1)),
      (if a < a + 1 + i then f (a + 1 + i) else 0) = f (a + 1 + i) := by
    intro i _
    rw [if_pos (by omega)]
  rw [h1, Finset.sum_congr rfl h2]

/-- One row of back substitution: the rows from `a` on are satisfied afterwards. -/
theorem backStep_state (n a : Nat) (matrix : Matrix) (hn : 1 ≤ n) (ha : a < matrix.length)
    (_hrect : Rect matrix n) (hech : Echelon matrix (n - 1))
    (hzero : ∀ r, n - 1 ≤ r → r < matrix.length → ∀ j, j < n → entry matrix r j = 0)
    (sol : List ℚ) (hlen : sol.length = n) (hlast : sol.getD (n - 1) 0 = 1)
    (hrows : ∀ r, a + 1 ≤ r → r < matrix.length →
      dotF n matrix r (fun j => sol.getD j 0) = 0) :
    (backStepBy isExactZero matrix n sol a).length = n ∧
    (backStepBy isExactZero matrix n sol a).getD (n - 1) 0 = 1 ∧
    ∀ r, a ≤ r → r < matrix.length →
      dotF n matrix r (fun j => (backStepBy isExactZero matrix n sol a).getD j 0) = 0 := by
  unfold backStepBy firstNonZeroBy
  have hrange : List.range n = List.range' 0 n := List.range_eq_range' n
  by_cases hbig : n - 1 ≤ a
  · -- a row of zeros
    have hnone : (List.range n).find? (fun col => !isExactZero ((matrix.getD a []).getD col 0))
        = none := by
      rw [hrange]
      apply find_range'_none
      intro j _ hj
      show (!isExactZero (entry matrix a j)) = false
      rw [hzero a hbig ha j (by omega)]
      simp [isExactZero]
    rw [hnone]
    refine ⟨hlen, hlast, fun r hr hrl => ?_⟩
    by_cases hra : r = a
    · unfold dotF
      apply Finset.sum_eq_zero
      intro j hj
      rw [hzero r (by omega) hrl j (Finset.mem_range.mp hj)]
      ring
    · exact hrows r (by omega) hrl
  · -- a row with its pivot on the diagonal
    have han : a < n - 1 := by omega
    have hpiv : entry matrix a a ≠ 0 := (hech a han).1
    have hsome : (List.range n).find? (fun col => !isExactZero ((matrix.getD a []).getD col 0))
        = some a := by
      rw [hrange]
      apply find_range'_some _ a _ n 0 (Nat.zero_le _) (by omega)
      · intro j _ hja
        show (!isExactZero (entry matrix a j)) = false
        rw [(hech j (by omega)).2 a hja ha]
        simp [isExactZero]
      · show (!isExactZero (entry matrix a a)) = true
        simp [isExactZero, hpiv]
    rw [hsome]
    simp only []
    have hnz : (!isExactZero (entry matrix a a)) = true := by
      simp [isExactZero, hpiv]
    rw [if_pos hnz]
    rw [backStep_sum n a (by omega) (fun col => entry matrix a col * sol.getD col 0)]
    generalize hS : (∑ j ∈ Finset.range n,
      if a < j then entry matrix a j * sol.getD j 0 else 0) = S
    have hget : ∀ j, (sol.set a (-S / entry matrix a a)).getD j 0
        = if j = a then -S / entry matrix a a else sol.getD j 0 := by
      intro j
      rw [getD_set]
      by_cases hja : j = a
      · subst hja; simp [hlen]; omega
      · have : ¬ a = j := fun h => hja h.symm
        simp [hja, this]
    refine ⟨by rw [List.length_set]; exact hlen, ?_, fun r hr hrl => ?_⟩
    · rw [hget, if_neg (by omega)]; exact hlast
    · by_cases hra : r = a
      · subst hra
        unfold dotF
        have hpt : ∀ j ∈ Finset.range n,
            entry matrix r j * (sol.set r (-S / entry matrix r r)).getD j 0
            = (if r < j then entry matrix r j * sol.getD j 0 else 0)
              + (if j = r then entry matrix r r * (-S / entry matrix r r) else 0) := by
          intro j _
          rw [hget]
          rcases Nat.lt_trichotomy j r with h | h | h
          · rw [if_neg (by omega), if_neg (by omega), if_neg (by omega),
              (hech j (by omega)).2 r h ha]
            ring
          · subst h
            rw [if_pos rfl, if_neg (by omega), if_pos rfl]; ring
          · rw [if_neg (by omega), if_pos h, if_neg (by omega)]; ring
        rw [Finset.sum_congr rfl hpt, Finset.sum_add_distrib, Finset.sum_ite_eq', hS,
          if_pos (Finset.mem_range.mpr (by omega))]
        field_simp
        ring
      · have hold := hrows r (by omega) hrl
        refine Eq.trans ?_ hold
        unfold dotF
        apply Finset.sum_congr rfl
        intro j _
        simp only []
        rw [hget]
        by_cases hja : j = a
        · rw [if_pos hja, hja]
          have hraz : entry matrix r a = 0 := by
            by_cases hrn : r < n - 1
            · exact (hech a han).2 r (by omega) hrl
            · exact hzero r (by omega) hrl a (by omega)
          rw [hraz]; ring
        · rw [if_neg hja]

/-- Back substitution on an eliminated matrix returns a null vector with last entry `1`. -/
theorem backSubstitution_null (n : Nat) (matrix : Matrix) (hn : 1 ≤ n)
    (hrows : 1 ≤ matrix.length) (hrect : Rect matrix n) (hech : Echelon matrix (n - 1))
    (hzero : ∀ r, n - 1 ≤ r → r < matrix.length → ∀ j, j < n → entry matrix r j = 0) :
    (backSubstitution isExactZero matrix).length = n ∧
    (backSubstitution isExactZero matrix).getD (n - 1) 0 = 1 ∧
    NullF n matrix (fun j => (backSubstitution isExactZero matrix).getD j 0) := by
  have hcols : (matrix.getD 0 []).length = n := hrect.getD_length 0 (by omega)
  unfold backSubstitution
  rw [hcols]
  have hloop : ∀ k, k ≤ matrix.length → ∀ sol : List ℚ,
      (sol.length = n ∧ sol.getD (n - 1) 0 = 1 ∧
        ∀ r, k ≤ r → r < matrix.length → dotF n matrix r (fun j => sol.getD j 0) = 0) →
      (((List.range k).reverse.foldl (backStepBy isExactZero matrix n) sol).length = n ∧
        ((List.range k).reverse.foldl (backStepBy isExactZero matrix n) sol).getD (n - 1) 0 = 1 ∧
        ∀ r, 0 ≤ r → r < matrix.length →
          dotF n matrix r (fun j =>
            ((List.range k).reverse.foldl (backStepBy isExactZero matrix n) sol).getD j 0) = 0) := by
    intro k
    induction k with
    | zero => intro _ sol h; simpa using h
    | succ k ih =>
      intro hk sol h
      rw [List.range_succ, List.reverse_append, List.reverse_singleton, List.singleton_append,
        List.foldl_cons]
      apply ih (by omega)
      exact backStep_state n k matrix hn (by omega) hrect hech hzero sol h.1 h.2.1 h.2.2
  have h0 := hloop matrix.length (le_refl _)
    ((List.replicate n (0 : ℚ)).set (n - 1) 1)
    ⟨by simp, by rw [getD_set]; simp; omega, fun r hr hrl => by omega⟩
  exact ⟨h0.1, h0.2.1, fun r hr => h0.2.2 r (Nat.zero_le _) hr⟩

/-! ## The exact solver finds the null vector -/

theorem dotF_sub_smul (n : Nat) (matrix : Matrix) (r : Nat) (x y : Nat → ℚ) (t : ℚ) :
    dotF n matrix r (fun j => x j - t * y j) = dotF n matrix r x - t * dotF n matrix r y := by
  unfold dotF
  rw [Finset.mul_sum, ← Finset.sum_sub_distrib]
  apply Finset.sum_congr rfl
  intro j _
  ring

/-- With the exact zero test, on a matrix whose null vectors with last coordinate `0` vanish
and which has a null vector `c` with last coordinate not `0`, the solver returns `c` divided
by its last coordinate. -/
theorem exact_solver_solution (n : Nat) (matrix : Matrix) (self : MatrixSolver) (hn : 1 ≤ n)
    (hrows : 1 ≤ matrix.length) (hrect : Rect matrix n) (c : Nat → ℚ)
    (hc : NullF n matrix c) (hclast : c (n - 1) ≠ 0)
    (hN : ∀ x : Nat → ℚ, NullF n matrix x → x (n - 1) = 0 → ∀ j, j < n → x j = 0) :
    (self.gaussianEliminationBy isExactZero matrix).1.length = n ∧
    ∀ j, j < n → (self.gaussianEliminationBy isExactZero matrix).1.getD j 0
      = c j / c (n - 1) := by
  have hne1 : matrix ≠ [] := by
    intro h; rw [h] at hrows; simp at hrows
  have hcols : (matrix.getD 0 []).length = n := hrect.getD_length 0 (by omega)
  have hne2 : matrix.getD 0 [] ≠ [] := by
    intro h; rw [h] at hcols; simp at hcols; omega
  rw [(gaussianEliminationBy_eq isExactZero self matrix hne1 hne2).1]
  obtain ⟨⟨hlen, hrectf, hech, hnull⟩, hge⟩ :=
    forwardElimination_state n matrix hn hrows hrect hN
  generalize forwardEliminationM isExactZero matrix = mf at hlen hrectf hech hnull
  have hcf : NullF n mf c := (hnull c).mpr hc
  have hzero : ∀ r, n - 1 ≤ r → r < mf.length → ∀ j, j < n → entry mf r j = 0 := by
    intro r hr hrl j hj
    by_cases hjn : j < n - 1
    · exact (hech j hjn).2 r (by omega) hrl
    · have hjeq : j = n - 1 := by omega
      have hdot := hcf r hrl
      unfold dotF at hdot
      rw [Finset.sum_eq_single (n - 1)
        (fun k _ hk => by
          rw [(hech k (by have := Finset.mem_range.mp ‹k ∈ Finset.range n›; omega)).2 r
            (by have := Finset.mem_range.mp ‹k ∈ Finset.range n›; omega) hrl]
          ring)
        (fun h => absurd (Finset.mem_range.mpr (by omega)) h)] at hdot
      rw [hjeq]
      rcases mul_eq_zero.mp hdot with h | h
      · exact h
      · exact absurd h hclast
  obtain ⟨hsl, hslast, hsnull⟩ :=
    backSubstitution_null n mf hn (by omega) hrectf hech hzero
  refine ⟨hsl, fun j hj => ?_⟩
  have hsn : NullF n matrix (fun j => (backSubstitution isExactZero mf).getD j 0) :=
    (hnull _).mp hsnull
  have hx : NullF n matrix (fun j => (backSubstitution isExactZero mf).getD j 0
      - (1 / c (n - 1)) * c j) := by
    intro r hr
    rw [dotF_sub_smul, hsn r hr, hc r hr]
    ring
  have h0 : (backSubstitution isExactZero mf).getD (n - 1) 0 - (1 / c (n - 1)) * c (n - 1) = 0 := by
    rw [hslast]; field_simp
  have h1 : (backSubstitution isExactZero mf).getD j 0 - (1 / c (n - 1)) * c j = 0 :=
    hN _ hx h0 j hj
  field_simp at h1 ⊢
  linarith

/-! ## The fraction search of `reduceToIntegers` -/

theorem floor_int_add_half (k : Int) : Rat.floor ((k : ℚ) + 1 / 2) = k := by
  show ⌊(k : ℚ) + 1 / 2⌋ = k
  rw [Int.floor_eq_iff]
  constructor <;> linarith

theorem stdRound_intCast (k : Int) : stdRound (k : ℚ) = k := by
  unfold stdRound
  split
  · exact floor_int_add_half k
  · have := floor_int_add_half (-k)
    push_cast at this
    rw [this]; ring

/-- A rational whose denominator does not divide `d` is at least `1 / den` away from every
integer when multiplied by `d`. -/
theorem far_from_integers (q : ℚ) (d : Int) (hd : ¬ (q.den : Int) ∣ d) (m : Int) :
    1 / (q.den : ℚ) ≤ abs (q * d - m) := by
  have hden : (0 : ℚ) < q.den := by exact_mod_cast q.den_pos
  have hq : q = (q.num : ℚ) / q.den := (Rat.num_div_den q).symm
  have hne : q.num * d - m * q.den ≠ 0 := by
    intro h
    apply hd
    have h1 : (q.den : Int) ∣ q.num * d := ⟨m, by linarith⟩
    have h2 : (q.den : Int).natAbs ∣ (q.num * d).natAbs := Int.natAbs_dvd_natAbs.mpr h1
    rw [Int.natAbs_mul, Int.natAbs_ofNat] at h2
    have h3 : q.den ∣ d.natAbs := (Nat.Coprime.dvd_of_dvd_mul_left q.reduced.symm h2)
    exact Int.natCast_dvd.mpr h3
  have habs : (1 : ℚ) ≤ abs ((q.num * d - m * q.den : Int) : ℚ) := by
    rw [← Int.cast_abs]
    have : (1 : Int) ≤ abs (q.num * d - m * q.den) := Int.one_le_abs hne
    exact_mod_cast this
  have e : q * d - m = ((q.num * d - m * q.den : Int) : ℚ) / q.den := by
    push_cast
    field_simp
    have h := Rat.mul_den_eq_num q
    linear_combination (d : ℚ) * h
  rw [e, abs_div, abs_of_pos hden]
  exact div_le_div_of_nonneg_right habs (le_of_lt hden)

/-- The search finds the denominator of the coefficient in lowest terms, if it is at most
`1000`, and the matching numerator. -/
theorem searchFractionExact_rat (q : ℚ) :
    ∀ (n : Nat) (denom : Nat), 1 ≤ denom → denom ≤ q.den → q.den < denom + n → q.den ≤ 1000 →
      searchFractionExact q n denom = some (q.num, (q.den : Int)) := by
  intro n
  induction n with
  | zero => intro denom _ h2 h3 _; omega
  | succ n ih =>
    intro denom h1 h2 h3 h4
    unfold searchFractionExact
    by_cases hd : denom = q.den
    · have e : q * ((denom : Int) : ℚ) = ((q.num : Int) : ℚ) := by
        rw [hd]; exact_mod_cast Rat.mul_den_eq_num q
      rw [e, stdRound_intCast, hd]
      simp [TOLERANCE]
    · have hlt : denom < q.den := by omega
      have hnd : ¬ (q.den : Int) ∣ (denom : Int) := by
        intro h
        have := Int.natCast_dvd_natCast.mp h
        have := Nat.le_of_dvd (by omega) this
        omega
      have hfar := far_from_integers q denom hnd (stdRound (q * ((denom : Int) : ℚ)))
      have hden : (0 : ℚ) < q.den := by exact_mod_cast q.den_pos
      have hbig : TOLERANCE < 1 / (q.den : ℚ) := by
        unfold TOLERANCE
        have h5 : (q.den : ℚ) ≤ 1000 := by exact_mod_cast h4
        rw [div_lt_div_iff₀ (by norm_num) hden]
        linarith
      have hnot : ¬ abs (q * ((denom : Int) : ℚ) - stdRound (q * ((denom : Int) : ℚ)))
          < TOLERANCE := by
        intro h; linarith
      rw [if_neg hnot]
      have := ih (denom + 1) (by omega) (by omega) (by omega) h4
      simpa using this

theorem toFractionExact_rat (q : ℚ) (h : q.den ≤ 1000) : toFractionExact q = (q.num, (q.den : Int)) := by
  unfold toFractionExact
  have := searchFractionExact_rat q 1000 1 (le_refl _) q.den_pos (by omega) h
  simp only [Nat.cast_one] at this
  rw [this]

/-! ## `reduceToIntegersExact` returns the minimal integer vector -/

theorem lcmExact_eq (a b : Int) : lcmExact a b = (Int.lcm a b : Int) := by
  unfold lcmExact
  rw [gcdExact_eq, Int.tdiv_eq_ediv (abs_nonneg _) (Int.natCast_nonneg _), Int.lcm_def, Nat.lcm,
    Int.natCast_div, Int.gcd_eq_natAbs]
  congr 1
  rw [Int.abs_eq_natAbs, Int.natAbs_mul]

theorem foldl_lcmExact_spec (l : List Int) (hl : ∀ x ∈ l, 0 < x) (init : Int) (hinit : 0 < init) :
    0 < l.foldl lcmExact init ∧ init ∣ l.foldl lcmExact init ∧ ∀ x ∈ l, x ∣ l.foldl lcmExact init := by
  induction l generalizing init with
  | nil => exact ⟨hinit, dvd_refl _, fun x hx => by cases hx⟩
  | cons a l ih =>
    have ha : 0 < a := hl a (List.mem_cons_self _ _)
    have hpos : 0 < lcmExact init a := by
      rw [lcmExact_eq]
      have : 0 < Int.lcm init a := by
        rw [Int.lcm_def]
        exact Nat.lcm_pos (Int.natAbs_pos.mpr (ne_of_gt hinit)) (Int.natAbs_pos.mpr (ne_of_gt ha))
      exact_mod_cast this
    obtain ⟨h1, h2, h3⟩ := ih (fun x hx => hl x (List.mem_cons_of_mem _ hx)) (lcmExact init a) hpos
    rw [List.foldl_cons]
    refine ⟨h1, ?_, fun x hx => ?_⟩
    · refine dvd_trans ?_ h2
      rw [lcmExact_eq]; exact Int.dvd_lcm_left
    · rcases List.mem_cons.mp hx with hx | hx
      · rw [hx]
        refine dvd_trans ?_ h2
        rw [lcmExact_eq]; exact Int.dvd_lcm_right
      · exact h3 x hx

theorem listGcd_map_mul (k : Nat) (l : List Int) :
    listGcd (l.map (fun x => (k : Int) * x)) = k * listGcd l := by
  induction l with
  | nil => simp [listGcd]
  | cons v l ih =>
    rw [List.map_cons, listGcd_cons, listGcd_cons, ih]
    have : ((k * listGcd l : Nat) : Int) = (k : Int) * (listGcd l : Int) := by push_cast; rfl
    rw [this, Int.gcd_mul_left]
    simp

theorem zipWith_map_map {α β γ δ : Type} (g : β → γ → δ) (f1 : α → β) (f2 : α → γ)
    (l : List α) :
    List.zipWith g (l.map f1) (l.map f2) = l.map (fun x => g (f1 x) (f2 x)) := by
  induction l with
  | nil => rfl
  | cons a l ih => simp [ih]

/-- The numerator and denominator found for `c / d`, with `1 ≤ d ≤ 1000`. -/
theorem toFractionExact_div (ci d : Int) (hd : 0 < d) (hd1 : d ≤ 1000) :
    0 < (toFractionExact ((ci : ℚ) / d)).2 ∧
    d * (toFractionExact ((ci : ℚ) / d)).1 = ci * (toFractionExact ((ci : ℚ) / d)).2 := by
  have hden : (((ci : ℚ) / d).den : Int) ∣ d := by
    have := Rat.den_dvd ci d
    rw [Rat.divInt_eq_div] at this
    exact this
  have hle : (((ci : ℚ) / d).den : Int) ≤ d := Int.le_of_dvd hd hden
  have hle2 : ((ci : ℚ) / d).den ≤ 1000 := by
    have : (((ci : ℚ) / d).den : Int) ≤ 1000 := le_trans hle hd1
    exact_mod_cast this
  rw [toFractionExact_rat _ hle2]
  refine ⟨Int.natCast_pos.mpr (Rat.den_pos _), ?_⟩
  have h := Rat.mul_den_eq_num ((ci : ℚ) / d)
  have hdq : (d : ℚ) ≠ 0 := by exact_mod_cast (ne_of_gt hd)
  have h2 : ((d * ((ci : ℚ) / d).num : Int) : ℚ) = ((ci * (((ci : ℚ) / d).den : Int) : Int) : ℚ) := by
    push_cast
    rw [← h]
    field_simp
  exact_mod_cast h2

/-- For a vector `c` of positive integers with greatest common divisor `1` and last entry at
most `1000`, `reduceToIntegersExact` turns `c` divided by its last entry back into `c`. -/
theorem reduceToIntegersExact_scaled (c : List Int) (d : Int) (hc : c ≠ [])
    (hpos : ∀ ci ∈ c, 1 ≤ ci) (hgcd : listGcd c = 1) (hd : 0 < d) (hd1 : d ≤ 1000) :
    reduceToIntegersExact (c.map (fun ci : Int => (ci : ℚ) / d)) = c := by
  have hform : reduceToIntegersExact (c.map (fun ci : Int => (ci : ℚ) / d))
      = makePositiveExact (divideByGcdExact (c.map (fun ci : Int =>
          Int.tdiv ((toFractionExact ((ci : ℚ) / d)).1 *
            ((c.map (fun ci : Int => (toFractionExact ((ci : ℚ) / d)).2)).tail.foldl lcmExact
              ((c.map (fun ci : Int => (toFractionExact ((ci : ℚ) / d)).2)).headD 0)))
            (toFractionExact ((ci : ℚ) / d)).2))) := by
    unfold reduceToIntegersExact
    simp only [List.map_map]
    rw [zipWith_map_map]
    rfl
  rw [hform]
  -- the common multiple of the denominators
  generalize hL : (c.map (fun ci : Int => (toFractionExact ((ci : ℚ) / d)).2)).tail.foldl lcmExact
    ((c.map (fun ci : Int => (toFractionExact ((ci : ℚ) / d)).2)).headD 0) = L
  have hLspec : 0 < L ∧ ∀ ci ∈ c, (toFractionExact ((ci : ℚ) / d)).2 ∣ L := by
    rw [← hL]
    cases c with
    | nil => exact absurd rfl hc
    | cons a c1 =>
      rw [List.map_cons, List.tail_cons, List.headD_cons]
      obtain ⟨h1, h2, h3⟩ := foldl_lcmExact_spec
        (c1.map (fun ci : Int => (toFractionExact ((ci : ℚ) / d)).2))
        (fun x hx => by
          rcases List.mem_map.mp hx with ⟨ci, _, rfl⟩
          exact (toFractionExact_div ci d hd hd1).1)
        (toFractionExact ((a : ℚ) / d)).2 (toFractionExact_div a d hd hd1).1
      refine ⟨h1, fun ci hci => ?_⟩
      rcases List.mem_cons.mp hci with h | h
      · rw [h]; exact h2
      · exact h3 _ (List.mem_map.mpr ⟨ci, h, rfl⟩)
  obtain ⟨hLpos, hLdvd⟩ := hLspec
  -- every entry, multiplied by `d`, is the entry of `c` multiplied by `L`
  have hentry : ∀ ci ∈ c,
      d * Int.tdiv ((toFractionExact ((ci : ℚ) / d)).1 * L) (toFractionExact ((ci : ℚ) / d)).2 = L * ci := by
    intro ci hci
    obtain ⟨hden, heq⟩ := toFractionExact_div ci d hd hd1
    obtain ⟨k, hk⟩ := hLdvd ci hci
    rw [hk, ← mul_assoc, mul_comm _ (toFractionExact ((ci : ℚ) / d)).2, mul_assoc,
      Int.mul_tdiv_cancel_left _ (ne_of_gt hden), ← mul_assoc, heq]
    ring
  generalize hres : c.map (fun ci : Int => Int.tdiv ((toFractionExact ((ci : ℚ) / d)).1 * L)
    (toFractionExact ((ci : ℚ) / d)).2) = result
  have hmul : result.map (fun x => d * x) = c.map (fun x => L * x) := by
    rw [← hres, List.map_map]
    apply List.map_congr_left
    intro ci hci
    exact hentry ci hci
  obtain ⟨dn, rfl⟩ := Int.eq_ofNat_of_zero_le (le_of_lt hd)
  obtain ⟨Ln, rfl⟩ := Int.eq_ofNat_of_zero_le (le_of_lt hLpos)
  have hG : dn * listGcd result = Ln := by
    have h1 := listGcd_map_mul dn result
    have h2 := listGcd_map_mul Ln c
    rw [hmul, h2, hgcd] at h1
    omega
  have hdn : 0 < dn := by exact_mod_cast hd
  have hGpos : 0 < listGcd result := by
    rcases Nat.eq_zero_or_pos (listGcd result) with h | h
    · rw [h] at hG
      have : 0 < Ln := by exact_mod_cast hLpos
      omega
    · exact h
  have hresult : result = c.map (fun ci => (listGcd result : Int) * ci) := by
    have h1 : result.map (fun x => ((dn : Int)) * x)
        = (c.map (fun ci => (listGcd result : Int) * ci)).map (fun x => (dn : Int) * x) := by
      rw [hmul, List.map_map]
      apply List.map_congr_left
      intro ci _
      simp only [Function.comp_apply]
      rw [← hG]; push_cast; ring
    have hinj : Function.Injective (fun x : Int => (dn : Int) * x) := by
      intro x y hxy
      simp only [] at hxy
      have hne : (dn : Int) ≠ 0 := by exact_mod_cast (ne_of_gt hdn)
      exact mul_left_cancel₀ hne hxy
    exact List.map_injective_iff.mpr hinj h1
  have hdiv : divideByGcdExact result = c := by
    unfold divideByGcdExact
    simp only [gcdValueExact_eq]
    generalize listGcd result = G at hresult hGpos
    subst hresult
    have hGne : (G : Int) ≠ 0 := by exact_mod_cast (ne_of_gt hGpos)
    split
    · rw [List.map_map]
      conv => rhs; rw [← List.map_id c]
      apply List.map_congr_left
      intro ci _
      simp only [Function.comp_apply, id]
      exact Int.mul_tdiv_cancel_left _ hGne
    · rename_i hle
      have h1 : G = 1 := by
        have : ¬ 1 < G := by exact_mod_cast hle
        omega
      rw [h1]
      conv => rhs; rw [← List.map_id c]
      apply List.map_congr_left
      intro ci _
      simp
  rw [hdiv]
  unfold makePositiveExact
  simp only []
  have hnot : c.all (fun value => !decide (value > 0)) = false := by
    rcases List.exists_mem_of_ne_nil c hc with ⟨x, hx⟩
    rw [← Bool.not_eq_true, List.all_eq_true]
    intro hall
    have := hall x hx
    have hx1 := hpos x hx
    simp at this
    omega
  rw [hnot]
  rfl

/-! ## The fraction search in general -/

/-- Rounding returns the integer that lies within `1/2` of the number. -/
theorem stdRound_near (x : ℚ) (m : Int) (h : abs (x - m) < 1 / 2) : stdRound x = m := by
  have h1 := abs_lt.mp h
  unfold stdRound
  split
  · show ⌊x + 1 / 2⌋ = m
    rw [Int.floor_eq_iff]
    constructor <;> linarith [h1.1, h1.2]
  · have : ⌊-x + 1 / 2⌋ = -m := by
      rw [Int.floor_eq_iff]
      push_cast
      constructor <;> linarith [h1.1, h1.2]
    show -⌊-x + 1 / 2⌋ = m
    rw [this]
    ring

/-- The test of the fraction search, `abs(num - round(num)) < TOLERANCE`, holds exactly when
`num` is within `TOLERANCE` of some integer. -/
theorem near_integer_iff (x : ℚ) :
    abs (x - stdRound x) < TOLERANCE ↔ ∃ m : Int, abs (x - m) < TOLERANCE := by
  constructor
  · intro h
    exact ⟨stdRound x, h⟩
  · rintro ⟨m, hm⟩
    have hhalf : abs (x - m) < 1 / 2 := by
      unfold TOLERANCE at hm
      linarith
    rw [stdRound_near x m hhalf]
    exact hm

theorem searchFractionExact_first (coef : ℚ) :
    ∀ (n : Nat) (denom d : Int), denom ≤ d → d < denom + n →
      abs (coef * d - stdRound (coef * d)) < TOLERANCE →
      (∀ d1 : Int, denom ≤ d1 → d1 < d →
        ¬ abs (coef * d1 - stdRound (coef * d1)) < TOLERANCE) →
      searchFractionExact coef n denom = some (stdRound (coef * d), d) := by
  intro n
  induction n with
  | zero =>
    intro denom d h1 h2 _ _
    simp at h2
    omega
  | succ n ih =>
    intro denom d h1 h2 hq hmin
    unfold searchFractionExact
    by_cases hd : denom = d
    · subst hd
      rw [if_pos hq]
    · rw [if_neg (hmin denom (le_refl _) (by omega))]
      apply ih (denom + 1) d (by omega) (by push_cast at h2 ⊢; omega) hq
      intro d1 hd1 hd2
      exact hmin d1 (by omega) hd2

theorem searchFractionExact_none (coef : ℚ) :
    ∀ (n : Nat) (denom : Int),
      (∀ d : Int, denom ≤ d → d < denom + n →
        ¬ abs (coef * d - stdRound (coef * d)) < TOLERANCE) →
      searchFractionExact coef n denom = none := by
  intro n
  induction n with
  | zero => intro denom _; rfl
  | succ n ih =>
    intro denom h
    unfold searchFractionExact
    rw [if_neg (h denom (le_refl _) (by push_cast; omega))]
    apply ih
    intro d hd1 hd2
    exact h d (by omega) (by push_cast; omega)

/-- A coefficient whose lowest-terms denominator lies between `1001` and `1000000` passes no
test of the search: the fallback pair is chosen. -/
theorem toFractionExact_fallback (q : ℚ) (h1 : 1000 < q.den) (h2 : q.den ≤ 1000000) :
    toFractionExact q = (stdRound (q * 1000), 1000) := by
  have hnone : searchFractionExact q 1000 1 = none := by
    apply searchFractionExact_none
    intro d hd1 hd2
    have hdvd : ¬ (q.den : Int) ∣ d := by
      intro hdiv
      have := Int.le_of_dvd (by omega) hdiv
      omega
    have hfar := far_from_integers q d hdvd (stdRound (q * d))
    have hden : (0 : ℚ) < q.den := by exact_mod_cast q.den_pos
    have hle : (q.den : ℚ) ≤ 1000000 := by exact_mod_cast h2
    have htol : TOLERANCE ≤ 1 / (q.den : ℚ) := by
      unfold TOLERANCE
      exact one_div_le_one_div_of_le hden hle
    intro hlt
    linarith
  unfold toFractionExact
  rw [hnone]

/-! ## The integer reducer in general -/

/-- The vector that `reduceToIntegersExact` computes, written with one map over the coefficients:
`L` is the common multiple of the chosen denominators. -/
theorem reduceToIntegersExact_form (v : List ℚ) :
    reduceToIntegersExact v
      = makePositiveExact (divideByGcdExact (v.map (fun q =>
          Int.tdiv ((toFractionExact q).1 *
            ((v.map (fun q => (toFractionExact q).2)).tail.foldl lcmExact
              ((v.map (fun q => (toFractionExact q).2)).headD 0)))
            (toFractionExact q).2))) := by
  unfold reduceToIntegersExact
  simp only [List.map_map]
  rw [zipWith_map_map]
  rfl

/-- The common multiple of the chosen denominators is positive and a multiple of each. -/
theorem denominators_lcm (v : List ℚ) (hne : v ≠ [])
    (hpos : ∀ q ∈ v, 0 < (toFractionExact q).2) :
    0 < (v.map (fun q => (toFractionExact q).2)).tail.foldl lcmExact
        ((v.map (fun q => (toFractionExact q).2)).headD 0) ∧
    ∀ q ∈ v, (toFractionExact q).2 ∣ (v.map (fun q => (toFractionExact q).2)).tail.foldl lcmExact
        ((v.map (fun q => (toFractionExact q).2)).headD 0) := by
  cases v with
  | nil => exact absurd rfl hne
  | cons a v1 =>
    rw [List.map_cons, List.tail_cons, List.headD_cons]
    obtain ⟨h1, h2, h3⟩ := foldl_lcmExact_spec (v1.map (fun q => (toFractionExact q).2))
      (fun x hx => by
        rcases List.mem_map.mp hx with ⟨q, hq, rfl⟩
        exact hpos q (List.mem_cons_of_mem _ hq))
      (toFractionExact a).2 (hpos a (List.mem_cons_self _ _))
    refine ⟨h1, fun q hq => ?_⟩
    rcases List.mem_cons.mp hq with h | h
    · rw [h]; exact h2
    · exact h3 _ (List.mem_map.mpr ⟨q, h, rfl⟩)

/-- The block "Find GCD and reduce" divides every entry by one positive integer. -/
theorem divideByGcdExact_mul (result : List Int) :
    ∃ g : Int, 0 < g ∧ (divideByGcdExact result).map (fun x => g * x) = result := by
  unfold divideByGcdExact
  simp only [gcdValueExact_eq]
  split
  · rename_i hg
    refine ⟨(listGcd result : Int), by omega, ?_⟩
    rw [List.map_map]
    conv => rhs; rw [← List.map_id result]
    apply List.map_congr_left
    intro x hx
    obtain ⟨t, ht⟩ := listGcd_dvd result x hx
    simp only [Function.comp, id]
    rw [ht, Int.mul_tdiv_cancel_left _ (by omega)]
  · refine ⟨1, by omega, ?_⟩
    conv => rhs; rw [← List.map_id result]
    apply List.map_congr_left
    intro x _
    simp

/-- The block "Make sure all coefficients are positive" multiplies every entry by `1`, or by
`-1` when no entry is positive. -/
theorem makePositiveExact_sign (result : List Int) :
    ∃ s : Int, (s = 1 ∨ s = -1) ∧ makePositiveExact result = result.map (fun x => s * x) ∧
      ((∃ x ∈ result, 0 < x) → s = 1) ∧ ((∀ x ∈ result, x ≤ 0) → s = -1) := by
  unfold makePositiveExact
  simp only []
  split
  · rename_i hall
    rw [List.all_eq_true] at hall
    refine ⟨-1, Or.inr rfl, ?_, ?_, fun _ => rfl⟩
    · apply List.map_congr_left
      intro x _
      ring
    · rintro ⟨x, hx, hpos⟩
      have := hall x hx
      simp at this
      omega
  · rename_i hall
    refine ⟨1, Or.inl rfl, ?_, fun _ => rfl, ?_⟩
    · conv => lhs; rw [← List.map_id result]
      apply List.map_congr_left
      intro x _
      simp
    · intro hle
      exfalso
      apply hall
      rw [List.all_eq_true]
      intro x hx
      have := hle x hx
      simp
      omega

/-- The entry that `reduceToIntegersExact` computes before the division by the greatest common
divisor, for a coefficient whose chosen fraction is exact: the coefficient times the common
multiple. -/
theorem scaled_entry (q : ℚ) (L : Int) (hpos : 0 < (toFractionExact q).2)
    (hdvd : (toFractionExact q).2 ∣ L)
    (hexact : q * ((toFractionExact q).2 : ℚ) = ((toFractionExact q).1 : ℚ)) :
    ((Int.tdiv ((toFractionExact q).1 * L) (toFractionExact q).2 : Int) : ℚ) = q * L := by
  obtain ⟨t, ht⟩ := hdvd
  have hne : ((toFractionExact q).2 : ℚ) ≠ 0 := by
    have : (0 : ℚ) < ((toFractionExact q).2 : ℚ) := by exact_mod_cast hpos
    exact ne_of_gt this
  rw [ht, ← mul_assoc, mul_comm (toFractionExact q).1 (toFractionExact q).2, mul_assoc,
    Int.mul_tdiv_cancel_left _ (ne_of_gt hpos)]
  push_cast
  rw [← hexact]
  ring

/-- For coefficients with denominators at most `1000`, `reduceToIntegersExact` returns the vector
times one rational factor. -/
theorem reduceToIntegersExact_proportional (v : List ℚ) (hne : v ≠ [])
    (hden : ∀ q ∈ v, q.den ≤ 1000) :
    ∃ k : ℚ, k ≠ 0 ∧ ((∃ q ∈ v, 0 < q) → 0 < k) ∧ ((∀ q ∈ v, q ≤ 0) → k < 0) ∧
      (reduceToIntegersExact v).map (fun w : Int => (w : ℚ)) = v.map (fun q => k * q) := by
  have hfrac : ∀ q ∈ v, toFractionExact q = (q.num, (q.den : Int)) :=
    fun q hq => toFractionExact_rat q (hden q hq)
  have hpos : ∀ q ∈ v, 0 < (toFractionExact q).2 := by
    intro q hq
    rw [hfrac q hq]
    exact Int.natCast_pos.mpr q.den_pos
  have hexact : ∀ q ∈ v, q * ((toFractionExact q).2 : ℚ) = ((toFractionExact q).1 : ℚ) := by
    intro q hq
    rw [hfrac q hq]
    exact_mod_cast Rat.mul_den_eq_num q
  obtain ⟨hLpos, hLdvd⟩ := denominators_lcm v hne hpos
  rw [reduceToIntegersExact_form]
  generalize (v.map (fun q => (toFractionExact q).2)).tail.foldl lcmExact
    ((v.map (fun q => (toFractionExact q).2)).headD 0) = L at hLpos hLdvd
  generalize hres : v.map (fun q => Int.tdiv ((toFractionExact q).1 * L) (toFractionExact q).2) = result
  have hcast : result.map (fun w : Int => (w : ℚ)) = v.map (fun q => q * (L : ℚ)) := by
    rw [← hres, List.map_map]
    apply List.map_congr_left
    intro q hq
    exact scaled_entry q L (hpos q hq) (hLdvd q hq) (hexact q hq)
  obtain ⟨g, hg, hdiv⟩ := divideByGcdExact_mul result
  obtain ⟨s, hs, hsign, hs1, hs2⟩ := makePositiveExact_sign (divideByGcdExact result)
  have hLq : (0 : ℚ) < (L : ℚ) := by exact_mod_cast hLpos
  have hgq : (0 : ℚ) < (g : ℚ) := by exact_mod_cast hg
  have hsq : (s : ℚ) = 1 ∨ (s : ℚ) = -1 := by
    rcases hs with h | h
    · left; rw [h]; norm_num
    · right; rw [h]; norm_num
  have hlist : (divideByGcdExact result).map (fun x : Int => (g : ℚ) * (x : ℚ))
      = v.map (fun q => q * (L : ℚ)) := by
    have h1 : (divideByGcdExact result).map (fun x : Int => (g : ℚ) * (x : ℚ))
        = ((divideByGcdExact result).map (fun x => g * x)).map (fun w : Int => (w : ℚ)) := by
      rw [List.map_map]
      apply List.map_congr_left
      intro x _
      simp
    rw [h1, hdiv, hcast]
  have hmem : ∀ q ∈ v, ∃ x ∈ divideByGcdExact result, (g : ℚ) * (x : ℚ) = q * (L : ℚ) := by
    intro q hq
    have h1 : q * (L : ℚ) ∈ v.map (fun q => q * (L : ℚ)) := List.mem_map.mpr ⟨q, hq, rfl⟩
    rw [← hlist] at h1
    obtain ⟨x, hx, hxq⟩ := List.mem_map.mp h1
    exact ⟨x, hx, hxq⟩
  have hmem2 : ∀ x ∈ divideByGcdExact result, ∃ q ∈ v, (g : ℚ) * (x : ℚ) = q * (L : ℚ) := by
    intro x hx
    have h1 : (g : ℚ) * (x : ℚ) ∈ (divideByGcdExact result).map (fun x : Int => (g : ℚ) * (x : ℚ)) :=
      List.mem_map.mpr ⟨x, hx, rfl⟩
    rw [hlist] at h1
    obtain ⟨q, hq, hxq⟩ := List.mem_map.mp h1
    exact ⟨q, hq, hxq.symm⟩
  refine ⟨(s : ℚ) * L / g, ?_, ?_, ?_, ?_⟩
  · rcases hsq with h | h <;> rw [h]
    · exact ne_of_gt (by positivity)
    · apply ne_of_lt
      apply div_neg_of_neg_of_pos _ hgq
      linarith
  · rintro ⟨q, hq, hq0⟩
    obtain ⟨x, hx, hxq⟩ := hmem q hq
    have hxpos : 0 < x := by
      have h1 : (0 : ℚ) < (g : ℚ) * (x : ℚ) := by rw [hxq]; positivity
      have h2 : (0 : ℚ) < (x : ℚ) := by
        rcases (mul_pos_iff.mp h1) with h | h
        · exact h.2
        · linarith [h.1]
      exact_mod_cast h2
    have := hs1 ⟨x, hx, hxpos⟩
    rw [this]
    push_cast
    positivity
  · intro hle
    have := hs2 (fun x hx => by
      obtain ⟨q, hq, hxq⟩ := hmem2 x hx
      have h1 : (g : ℚ) * (x : ℚ) ≤ 0 := by
        rw [hxq]
        exact mul_nonpos_of_nonpos_of_nonneg (hle q hq) (le_of_lt hLq)
      have h2 : (x : ℚ) ≤ 0 := by
        by_contra hcon
        push_neg at hcon
        have : (0 : ℚ) < (g : ℚ) * (x : ℚ) := mul_pos hgq hcon
        linarith
      exact_mod_cast h2)
    rw [this]
    push_cast
    apply div_neg_of_neg_of_pos _ hgq
    linarith
  · rw [hsign, List.map_map]
    have h2 := congrArg (List.map (fun y : ℚ => (s : ℚ) / g * y)) hlist
    rw [List.map_map, List.map_map] at h2
    have hl : (divideByGcdExact result).map ((fun w : Int => (w : ℚ)) ∘ fun x => s * x)
        = (divideByGcdExact result).map ((fun y : ℚ => (s : ℚ) / g * y) ∘
            fun x : Int => (g : ℚ) * (x : ℚ)) := by
      apply List.map_congr_left
      intro x _
      simp only [Function.comp]
      push_cast
      field_simp
      ring
    have hr : v.map ((fun y : ℚ => (s : ℚ) / g * y) ∘ fun q => q * (L : ℚ))
        = v.map (fun q => (s : ℚ) * L / g * q) := by
      apply List.map_congr_left
      intro q _
      simp only [Function.comp]
      ring
    rw [hl, h2, hr]

/-- The entries that `reduceToIntegersExact` returns have greatest common divisor `1` when some
coefficient with denominator at most `1000` is not zero. -/
theorem reduceToIntegersExact_gcd (v : List ℚ) (hne : v ≠ []) (hden : ∀ q ∈ v, q.den ≤ 1000)
    (hnz : ∃ q ∈ v, q ≠ 0) : listGcd (reduceToIntegersExact v) = 1 := by
  obtain ⟨k, hk, _, _, hprop⟩ := reduceToIntegersExact_proportional v hne hden
  have hsome : ∃ w ∈ reduceToIntegersExact v, w ≠ 0 := by
    obtain ⟨q, hq, hq0⟩ := hnz
    have h1 : k * q ∈ v.map (fun q => k * q) := List.mem_map.mpr ⟨q, hq, rfl⟩
    rw [← hprop] at h1
    obtain ⟨w, hw, hwq⟩ := List.mem_map.mp h1
    refine ⟨w, hw, ?_⟩
    intro hw0
    rw [hw0] at hwq
    have : k * q = 0 := by rw [← hwq]; norm_num
    rcases mul_eq_zero.mp this with h | h
    · exact hk h
    · exact hq0 h
  rw [reduceToIntegersExact_form] at hsome ⊢
  generalize v.map (fun q => Int.tdiv ((toFractionExact q).1 *
    ((v.map (fun q => (toFractionExact q).2)).tail.foldl lcmExact
      ((v.map (fun q => (toFractionExact q).2)).headD 0))) (toFractionExact q).2) = result at hsome ⊢
  apply listGcd_makePositiveExact
  by_contra hall
  have hall1 : ∀ x ∈ result, x = 0 := by
    intro x hx
    by_contra hx0
    exact hall ⟨x, hx, hx0⟩
  obtain ⟨w, hw, hw0⟩ := hsome
  exact hw0 (makePositiveExact_divideByGcd_zero result hall1 w hw)

/-! ## Sign normalization -/

theorem stdRound_neg (x : ℚ) : stdRound (-x) = -stdRound x := by
  have hzero : stdRound (0 : ℚ) = 0 := by
    have := stdRound_intCast 0
    simpa using this
  by_cases h2 : x = 0
  · subst h2
    rw [neg_zero, hzero]
    rfl
  unfold stdRound
  by_cases h1 : 0 ≤ x
  · by_cases h2 : x = 0
    · exact absurd h2 ‹¬ x = 0›
    · have h3 : ¬ 0 ≤ -x := by
        intro h
        apply h2
        linarith
      rw [if_neg h3, if_pos h1, neg_neg]
  · have h3 : 0 ≤ -x := by linarith
    rw [if_pos h3, if_neg h1, neg_neg]

theorem stdRound_nonpos (x : ℚ) (h : x ≤ 0) : stdRound x ≤ 0 := by
  by_cases h0 : x = 0
  · subst h0
    have := stdRound_intCast 0
    simp only [Int.cast_zero] at this
    rw [this]
  · unfold stdRound
    rw [if_neg (by intro hx; exact h0 (le_antisymm h hx))]
    have : (0 : Int) ≤ ⌊-x + 1 / 2⌋ := by
      rw [Int.le_floor]
      push_cast
      linarith
    show -⌊-x + 1 / 2⌋ ≤ 0
    omega

theorem stdRound_le_neg_one (x : ℚ) (h : x ≤ -1 / 2) : stdRound x ≤ -1 := by
  unfold stdRound
  rw [if_neg (by intro hx; linarith)]
  have : (1 : Int) ≤ ⌊-x + 1 / 2⌋ := by
    rw [Int.le_floor]
    push_cast
    linarith
  show -⌊-x + 1 / 2⌋ ≤ -1
  omega

theorem searchFractionExact_neg (coef : ℚ) :
    ∀ (n : Nat) (denom : Int),
      searchFractionExact (-coef) n denom
        = (searchFractionExact coef n denom).map (fun fraction => (-fraction.1, fraction.2)) := by
  intro n
  induction n with
  | zero => intro denom; rfl
  | succ n ih =>
    intro denom
    unfold searchFractionExact
    have e : -coef * (denom : ℚ) = -(coef * denom) := by ring
    have habs : abs (-coef * (denom : ℚ) - stdRound (-coef * (denom : ℚ)))
        = abs (coef * denom - stdRound (coef * denom)) := by
      rw [e, stdRound_neg]
      push_cast
      rw [← abs_neg]
      congr 1
      ring
    rw [habs]
    split
    · rw [e, stdRound_neg]
      rfl
    · exact ih (denom + 1)

/-- The fraction chosen for `-coef` is the fraction chosen for `coef` with the numerator
negated. -/
theorem toFractionExact_neg (coef : ℚ) :
    toFractionExact (-coef) = (-(toFractionExact coef).1, (toFractionExact coef).2) := by
  unfold toFractionExact
  rw [searchFractionExact_neg]
  cases searchFractionExact coef 1000 1 with
  | some fraction => rfl
  | none =>
    simp only [Option.map_none']
    have e : -coef * 1000 = -(coef * 1000) := by ring
    rw [e, stdRound_neg]

theorem searchFractionExact_some (coef : ℚ) :
    ∀ (n : Nat) (denom num d : Int), searchFractionExact coef n denom = some (num, d) →
      denom ≤ d ∧ d < denom + n ∧ num = stdRound (coef * d) ∧
      abs (coef * d - stdRound (coef * d)) < TOLERANCE := by
  intro n
  induction n with
  | zero => intro denom num d h; cases h
  | succ n ih =>
    intro denom num d h
    unfold searchFractionExact at h
    split at h
    · rename_i hq
      simp only [Option.some.injEq, Prod.mk.injEq] at h
      rw [← h.2, ← h.1]
      exact ⟨le_refl _, by push_cast; omega, rfl, hq⟩
    · obtain ⟨h1, h2, h3, h4⟩ := ih (denom + 1) num d h
      exact ⟨by omega, by push_cast; omega, h3, h4⟩

/-- What the fraction search chooses, for any coefficient: a denominator between `1` and
`1000` and the rounded product as numerator; the product is within the tolerance of the
numerator, or the denominator is the fallback `1000`. -/
theorem toFractionExact_spec (coef : ℚ) :
    1 ≤ (toFractionExact coef).2 ∧ (toFractionExact coef).2 ≤ 1000 ∧
    (toFractionExact coef).1 = stdRound (coef * ((toFractionExact coef).2 : ℚ)) ∧
    (abs (coef * ((toFractionExact coef).2 : ℚ) - (toFractionExact coef).1) < TOLERANCE ∨
      (toFractionExact coef).2 = 1000) := by
  unfold toFractionExact
  cases h : searchFractionExact coef 1000 1 with
  | some fraction =>
    obtain ⟨num, d⟩ := fraction
    obtain ⟨h1, h2, h3, h4⟩ := searchFractionExact_some coef 1000 1 num d h
    simp only []
    refine ⟨h1, by push_cast at h2; omega, h3, Or.inl ?_⟩
    rw [h3]
    exact h4
  | none =>
    have h1 : (1 : Int) ≤ 1000 := by omega
    have h2 : (1000 : Int) ≤ 1000 := le_refl _
    refine ⟨h1, h2, ?_, Or.inr rfl⟩
    norm_num

/-- The numerator chosen for a negative coefficient is not positive, and it is negative when
the coefficient is at most `-1/2000`. -/
theorem toFractionExact_numerator (coef : ℚ) (hneg : coef < 0) :
    (toFractionExact coef).1 ≤ 0 ∧ (coef ≤ -1 / 2000 → (toFractionExact coef).1 ≤ -1) := by
  obtain ⟨h1, h2, h3, h4⟩ := toFractionExact_spec coef
  have hd : (1 : ℚ) ≤ ((toFractionExact coef).2 : ℚ) := by exact_mod_cast h1
  have hprod : coef * ((toFractionExact coef).2 : ℚ) ≤ 0 := by nlinarith
  have hle : (toFractionExact coef).1 ≤ 0 := by
    rw [h3]
    exact stdRound_nonpos _ hprod
  refine ⟨hle, fun hsmall => ?_⟩
  have hprod2 : coef * ((toFractionExact coef).2 : ℚ) ≤ -1 / 2000 := by nlinarith
  rcases h4 with h4 | h4
  · by_contra hcon
    have hzero : (toFractionExact coef).1 = 0 := by omega
    rw [hzero] at h4
    simp only [Int.cast_zero, sub_zero] at h4
    rw [abs_of_nonpos hprod] at h4
    unfold TOLERANCE at h4
    linarith
  · rw [h3]
    apply stdRound_le_neg_one
    rw [h4] at hprod2 ⊢
    push_cast at hprod2 ⊢
    linarith

theorem divideByGcdExact_map_neg (result : List Int) :
    divideByGcdExact (result.map (fun x => -x)) = (divideByGcdExact result).map (fun x => -x) := by
  unfold divideByGcdExact
  simp only [gcdValueExact_eq, listGcd_map_neg]
  split
  · rw [List.map_map, List.map_map]
    apply List.map_congr_left
    intro x _
    simp only [Function.comp]
    exact Int.neg_tdiv _ _
  · rfl

/-- Sign normalization: on a vector without positive entry, `makePositiveExact` returns the same
as on the negated vector. -/
theorem makePositiveExact_map_neg (result : List Int) (h : ∀ x ∈ result, x ≤ 0) :
    makePositiveExact (result.map (fun x => -x)) = makePositiveExact result ∧
    makePositiveExact result = result.map (fun x => -x) := by
  have h2 : makePositiveExact result = result.map (fun x => -x) := by
    unfold makePositiveExact
    simp only []
    rw [if_pos]
    rw [List.all_eq_true]
    intro x hx
    have := h x hx
    simp
    omega
  refine ⟨?_, h2⟩
  rw [h2]
  unfold makePositiveExact
  simp only []
  split
  · rename_i hall
    rw [List.all_eq_true] at hall
    rw [List.map_map]
    apply List.map_congr_left
    intro x hx
    have h3 := hall (-x) (List.mem_map.mpr ⟨x, hx, rfl⟩)
    have h4 := h x hx
    simp at h3
    simp only [Function.comp]
    omega
  · rfl
theorem tdiv_scaled (num L den : Int) (hden : 0 < den) (hL : 0 < L) (hdvd : den ∣ L) :
    ∃ t : Int, 1 ≤ t ∧ Int.tdiv (num * L) den = num * t := by
  obtain ⟨t, ht⟩ := hdvd
  refine ⟨t, ?_, ?_⟩
  · by_contra hcon
    have h1 : t ≤ 0 := by omega
    have h2 : den * t ≤ 0 := Int.mul_nonpos_of_nonneg_of_nonpos (le_of_lt hden) h1
    omega
  · rw [ht, ← mul_assoc, mul_comm num den, mul_assoc, Int.mul_tdiv_cancel_left _ (ne_of_gt hden)]

/-- The reduced vector of the negated coefficients, before the sign normalization, is the
negated reduced vector. -/
theorem reduce_map_neg (v : List ℚ) :
    reduceToIntegersExact (v.map (fun q => -q))
      = makePositiveExact ((divideByGcdExact (v.map (fun q =>
          Int.tdiv ((toFractionExact q).1 *
            ((v.map (fun q => (toFractionExact q).2)).tail.foldl lcmExact
              ((v.map (fun q => (toFractionExact q).2)).headD 0)))
            (toFractionExact q).2))).map (fun x => -x)) := by
  rw [reduceToIntegersExact_form, ← divideByGcdExact_map_neg]
  have hdens : (v.map (fun q => -q)).map (fun q => (toFractionExact q).2)
      = v.map (fun q => (toFractionExact q).2) := by
    rw [List.map_map]
    apply List.map_congr_left
    intro q _
    simp only [Function.comp]
    rw [toFractionExact_neg]
  rw [hdens, List.map_map, List.map_map]
  congr 2
  apply List.map_congr_left
  intro q _
  simp only [Function.comp]
  rw [toFractionExact_neg]
  simp only []
  rw [Int.neg_mul, Int.neg_tdiv]

/-! ## The integer reducer on `int`: without overflow it follows the exact reading -/

theorem searchFraction_cast (coef : ℚ) :
    ∀ (n : Nat) (denom : Int),
      searchFraction coef n denom
        = (searchFractionExact coef n denom).map (fun fraction => (castToInt fraction.1, fraction.2)) := by
  intro n
  induction n with
  | zero => intro denom; rfl
  | succ n ih =>
    intro denom
    unfold searchFraction searchFractionExact
    split
    · rfl
    · exact ih _

/-- The fraction that `reduceToIntegers` pushes is the fraction of the exact reading with its
numerator converted to `int`. -/
theorem toFraction_cast (coef : ℚ) :
    toFraction coef = (castToInt (toFractionExact coef).1, (toFractionExact coef).2) := by
  unfold toFraction toFractionExact
  rw [searchFraction_cast]
  cases searchFractionExact coef 1000 1 with
  | some fraction => rfl
  | none => rfl

theorem toFractionExact_den (coef : ℚ) :
    1 ≤ (toFractionExact coef).2 ∧ (toFractionExact coef).2 ≤ 1000 := by
  have h := toFraction_den coef
  rw [toFraction_cast] at h
  exact h

/-- Without overflow of the product, `lcm` returns the least common multiple. -/
theorem lcm_exact (a b : Int) (ha : 0 < a) (hb : 0 < b) (hab : a * b ≤ 2147483647) :
    lcm a b = lcmExact a b := by
  have ha1 : a ≤ a * b := le_mul_of_one_le_right (le_of_lt ha) (by omega)
  have hb1 : b ≤ a * b := le_mul_of_one_le_left (le_of_lt hb) (by omega)
  have hpos : 0 < a * b := Int.mul_pos ha hb
  have hgcd : gcd a b = gcdExact a b := by
    rw [gcd_eq a b ⟨by omega, by omega⟩ ⟨by omega, by omega⟩, gcdExact_eq]
  unfold lcm lcmExact
  rw [wrapInt_of_range (a * b) (by omega) hab, absInt_of_range (a * b) (by omega) hab, hgcd,
    abs_of_pos hpos]
  apply wrapInt_of_range
  · have h1 : 0 ≤ Int.tdiv (a * b) (gcdExact a b) := by
      rw [gcdExact_eq]
      exact Int.tdiv_nonneg (le_of_lt hpos) (Int.natCast_nonneg _)
    omega
  · have h2 : (Int.tdiv (a * b) (gcdExact a b)).natAbs ≤ (a * b).natAbs := by
      rw [Int.natAbs_tdiv]
      exact Nat.div_le_self _ _
    omega

theorem foldl_lcm_exact (l : List Int) (hl : ∀ x ∈ l, 0 < x) (init : Int) (hinit : 0 < init)
    (hfit : lcmFits init l = true) : l.foldl lcm init = l.foldl lcmExact init := by
  induction l generalizing init with
  | nil => rfl
  | cons b l ih =>
    have hb : 0 < b := hl b (List.mem_cons_self _ _)
    simp only [lcmFits, Bool.and_eq_true, decide_eq_true_eq] at hfit
    rw [List.foldl_cons, List.foldl_cons, lcm_exact init b hinit hb hfit.1]
    apply ih (fun x hx => hl x (List.mem_cons_of_mem _ hx)) _ _ hfit.2
    exact (foldl_lcmExact_spec [b] (fun x hx => by
      rw [List.mem_singleton] at hx; rw [hx]; exact hb) init hinit).1

theorem divideByGcd_exact (result : List Int)
    (hr : ∀ v ∈ result, -2147483648 < v ∧ v ≤ 2147483647) :
    divideByGcd result = divideByGcdExact result := by
  unfold divideByGcd divideByGcdExact
  simp only [gcdValue_eq result hr, gcdValueExact_eq]

theorem makePositive_exact (result : List Int)
    (hr : ∀ v ∈ result, -2147483648 < v ∧ v ≤ 2147483647) :
    makePositive result = makePositiveExact result := by
  unfold makePositive makePositiveExact
  simp only []
  split
  · apply List.map_congr_left
    intro v hv
    exact wrapInt_of_range _ (by have := hr v hv; omega) (by have := hr v hv; omega)
  · rfl

theorem tdiv_natAbs_le (x d : Int) : (Int.tdiv x d).natAbs ≤ x.natAbs := by
  rw [Int.natAbs_tdiv]
  exact Nat.div_le_self _ _

theorem divideByGcdExact_range (result : List Int)
    (hr : ∀ v ∈ result, -2147483648 < v ∧ v ≤ 2147483647) :
    ∀ v ∈ divideByGcdExact result, -2147483648 < v ∧ v ≤ 2147483647 := by
  unfold divideByGcdExact
  simp only []
  split
  · intro v hv
    obtain ⟨x, hx, rfl⟩ := List.mem_map.mp hv
    have h1 := tdiv_natAbs_le x (result.tail.foldl (fun g value => gcdExact g (abs value))
      (abs (result.headD 0)))
    have h2 := hr x hx
    omega
  · exact hr

/-- When no `int` computation overflows, `reduceToIntegers` returns what its reading with
unbounded integers returns. -/
theorem reduceToIntegers_exact (v : List ℚ) (hfit : reduceFits v = true) :
    reduceToIntegers v = reduceToIntegersExact v := by
  unfold reduceFits at hfit
  simp only [Bool.and_eq_true, List.all_eq_true, decide_eq_true_eq] at hfit
  obtain ⟨hlcm, hprod⟩ := hfit
  have hden : ∀ fraction ∈ v.map toFractionExact, 0 < fraction.2 := by
    intro fraction hf
    obtain ⟨q, _, rfl⟩ := List.mem_map.mp hf
    have := (toFractionExact_den q).1
    omega
  have hcast : v.map toFraction
      = (v.map toFractionExact).map (fun fraction => (castToInt fraction.1, fraction.2)) := by
    rw [List.map_map]
    apply List.map_congr_left
    intro q _
    exact toFraction_cast q
  unfold reduceToIntegers reduceToIntegersExact
  simp only []
  rw [hcast]
  generalize v.map toFractionExact = fractions at hlcm hprod hden ⊢
  cases fractions with
  | nil => decide
  | cons first others =>
    have hdens : ∀ x ∈ ((first :: others).map (fun fraction => fraction.2)).tail, 0 < x := by
      intro x hx
      simp only [List.map_cons, List.tail_cons] at hx
      obtain ⟨fraction, hf, rfl⟩ := List.mem_map.mp hx
      exact hden fraction (List.mem_cons_of_mem _ hf)
    have hfirst : 0 < ((first :: others).map (fun fraction => fraction.2)).headD 0 :=
      hden first (List.mem_cons_self _ _)
    have hLpos := (foldl_lcmExact_spec _ hdens _ hfirst).1
    have hL := foldl_lcm_exact _ hdens _ hfirst hlcm
    generalize hLdef : ((first :: others).map (fun fraction => fraction.2)).tail.foldl lcmExact
      (((first :: others).map (fun fraction => fraction.2)).headD 0) = L at hprod hLpos hL
    have hsnd : ((first :: others).map
          (fun fraction => (castToInt fraction.1, fraction.2))).map (fun fraction => fraction.2)
        = (first :: others).map (fun fraction => fraction.2) := by
      rw [List.map_map]
      rfl
    rw [hsnd, hL]
    generalize first :: others = fractions at hprod ⊢
    have hbound : ∀ fraction ∈ fractions, abs (fraction.1 * L) ≤ 2147483647 := by
      intro fraction hf
      rw [abs_mul, abs_of_pos hLpos]
      exact hprod fraction hf
    have hres : List.zipWith
          (fun numerator denominator => Int.tdiv (wrapInt (numerator * L)) denominator)
          ((fractions.map (fun fraction => (castToInt fraction.1, fraction.2))).map
            (fun fraction => fraction.1))
          (fractions.map (fun fraction => fraction.2))
        = List.zipWith (fun numerator denominator => Int.tdiv (numerator * L) denominator)
          (fractions.map (fun fraction => fraction.1))
          (fractions.map (fun fraction => fraction.2)) := by
      rw [List.map_map, zipWith_map_map, zipWith_map_map]
      apply List.map_congr_left
      intro fraction hf
      have h1 := hprod fraction hf
      have h2 := hbound fraction hf
      have h3 : abs fraction.1 ≤ abs fraction.1 * L :=
        le_mul_of_one_le_right (abs_nonneg _) (by omega)
      have h4 := neg_abs_le fraction.1
      have h5 := le_abs_self fraction.1
      have h6 := neg_abs_le (fraction.1 * L)
      have h7 := le_abs_self (fraction.1 * L)
      simp only [Function.comp]
      rw [castToInt_of_range _ (by omega) (by omega), wrapInt_of_range _ (by omega) (by omega)]
    rw [hres]
    have hrange : ∀ x ∈ List.zipWith
        (fun numerator denominator => Int.tdiv (numerator * L) denominator)
        (fractions.map (fun fraction => fraction.1))
        (fractions.map (fun fraction => fraction.2)),
        -2147483648 < x ∧ x ≤ 2147483647 := by
      rw [zipWith_map_map]
      intro x hx
      obtain ⟨fraction, hf, rfl⟩ := List.mem_map.mp hx
      have h2 := hbound fraction hf
      have h3 := tdiv_natAbs_le (fraction.1 * L) fraction.2
      have h4 := neg_abs_le (fraction.1 * L)
      have h5 := le_abs_self (fraction.1 * L)
      omega
    rw [divideByGcd_exact _ hrange, makePositive_exact _ (divideByGcdExact_range _ hrange)]

/-! ## The integer reducer on a scaled integer vector -/

theorem foldl_lcmExact_dvd (l : List Int) (d : Int) (hl : ∀ x ∈ l, x ∣ d) (init : Int)
    (hinit : init ∣ d) : l.foldl lcmExact init ∣ d := by
  induction l generalizing init with
  | nil => exact hinit
  | cons b l ih =>
    rw [List.foldl_cons]
    apply ih (fun x hx => hl x (List.mem_cons_of_mem _ hx))
    rw [lcmExact_eq]
    exact Int.lcm_dvd hinit (hl b (List.mem_cons_self _ _))

theorem lcmFits_of_dvd (l : List Int) (d : Int) (hd : 0 < d) (hd1 : d ≤ 1000)
    (hl : ∀ x ∈ l, 0 < x ∧ x ∣ d) (init : Int) (hinit : 0 < init ∧ init ∣ d) :
    lcmFits init l = true := by
  induction l generalizing init with
  | nil => rfl
  | cons b l ih =>
    have hb := hl b (List.mem_cons_self _ _)
    have h1 : init ≤ d := Int.le_of_dvd hd hinit.2
    have h2 : b ≤ d := Int.le_of_dvd hd hb.2
    have h3 : init * b ≤ 1000 * 1000 :=
      Int.mul_le_mul (by omega) (by omega) (by omega) (by omega)
    simp only [lcmFits, Bool.and_eq_true, decide_eq_true_eq]
    refine ⟨by omega, ih (fun x hx => hl x (List.mem_cons_of_mem _ hx)) _ ⟨?_, ?_⟩⟩
    · exact (foldl_lcmExact_spec [b] (fun x hx => by
        rw [List.mem_singleton] at hx; rw [hx]; exact hb.1) init hinit.1).1
    · rw [lcmExact_eq]
      exact Int.lcm_dvd hinit.2 hb.2

/-- The fraction found for `c / d`, with `1 ≤ c` and `1 ≤ d ≤ 1000`: its denominator divides
`d`, and `d` times its numerator is the least common multiple of `c` and `d`. -/
theorem toFractionExact_lcm (ci d : Int) (hc : 1 ≤ ci) (hd : 0 < d) (hd1 : d ≤ 1000) :
    0 < (toFractionExact ((ci : ℚ) / d)).2 ∧ (toFractionExact ((ci : ℚ) / d)).2 ∣ d ∧
    0 ≤ (toFractionExact ((ci : ℚ) / d)).1 ∧
    d * (toFractionExact ((ci : ℚ) / d)).1 = (Int.lcm ci d : Int) := by
  obtain ⟨h1, h2⟩ := toFractionExact_div ci d hd hd1
  have hden : (((ci : ℚ) / d).den : Int) ∣ d := by
    have := Rat.den_dvd ci d
    rw [Rat.divInt_eq_div] at this
    exact this
  have hle2 : ((ci : ℚ) / d).den ≤ 1000 := by
    have : (((ci : ℚ) / d).den : Int) ≤ 1000 := le_trans (Int.le_of_dvd hd hden) hd1
    exact_mod_cast this
  have hform := toFractionExact_rat _ hle2
  have hdenval : ((ci : ℚ) / d).den = d.natAbs / Int.gcd ci d := by
    rw [← Rat.divInt_eq_div, Rat.den_mk, if_neg (by omega)]
  have h2nd : (toFractionExact ((ci : ℚ) / d)).2 = ((d.natAbs / Int.gcd ci d : Nat) : Int) := by
    rw [hform, hdenval]
  have hgd : Int.gcd ci d ∣ d.natAbs := by
    rw [Int.gcd_eq_natAbs]
    exact Nat.gcd_dvd_right _ _
  have hlcm : ci * (toFractionExact ((ci : ℚ) / d)).2 = (Int.lcm ci d : Int) := by
    rw [h2nd, Int.lcm_def, Nat.lcm, Int.gcd_eq_natAbs]
    have hci : ci = (ci.natAbs : Int) := by omega
    rw [Int.gcd_eq_natAbs] at hgd
    conv_lhs => rw [hci]
    rw [← Nat.cast_mul, Nat.mul_div_assoc _ hgd]
    simp only [Int.natAbs_ofNat]
  refine ⟨h1, ?_, ?_, by rw [h2, hlcm]⟩
  · rw [hform]
    exact hden
  · have hp : 0 < d * (toFractionExact ((ci : ℚ) / d)).1 := by
      rw [h2]
      exact Int.mul_pos (by omega) h1
    by_contra hneg
    have : d * (toFractionExact ((ci : ℚ) / d)).1 ≤ 0 :=
      Int.mul_nonpos_of_nonneg_of_nonpos (le_of_lt hd) (by omega)
    omega

/-- On a vector of positive integers divided by `d`, with `1 ≤ d ≤ 1000`, no `int` computation
of `reduceToIntegers` overflows when the least common multiple of every entry with `d` is at
most `INT_MAX`. -/
theorem reduceFits_scaled (c : List Int) (d : Int) (hpos : ∀ ci ∈ c, 1 ≤ ci) (hd : 0 < d)
    (hd1 : d ≤ 1000) (hfit : ∀ ci ∈ c, (Int.lcm ci d : Int) ≤ 2147483647) :
    reduceFits (c.map (fun ci : Int => (ci : ℚ) / d)) = true := by
  unfold reduceFits
  simp only [Bool.and_eq_true, List.all_eq_true, decide_eq_true_eq, List.map_map]
  have hdens : ∀ x ∈ c.map ((fun fraction : Int × Int => fraction.2) ∘ toFractionExact ∘
      (fun ci : Int => (ci : ℚ) / d)), 0 < x ∧ x ∣ d := by
    intro x hx
    obtain ⟨ci, hci, rfl⟩ := List.mem_map.mp hx
    obtain ⟨h1, h2, _, _⟩ := toFractionExact_lcm ci d (hpos ci hci) hd hd1
    exact ⟨h1, h2⟩
  generalize c.map ((fun fraction : Int × Int => fraction.2) ∘ toFractionExact ∘
      (fun ci : Int => (ci : ℚ) / d)) = dens at hdens ⊢
  cases dens with
  | nil =>
    refine ⟨rfl, ?_⟩
    intro fraction hf
    obtain ⟨ci, hci, rfl⟩ := List.mem_map.mp hf
    simp
  | cons first others =>
    have hfirst := hdens first (List.mem_cons_self _ _)
    have hothers : ∀ x ∈ others, 0 < x ∧ x ∣ d :=
      fun x hx => hdens x (List.mem_cons_of_mem _ hx)
    simp only [List.headD_cons, List.tail_cons]
    refine ⟨lcmFits_of_dvd others d hd hd1 hothers first hfirst, ?_⟩
    have hLdvd := foldl_lcmExact_dvd others d (fun x hx => (hothers x hx).2) first hfirst.2
    have hLpos := (foldl_lcmExact_spec others (fun x hx => (hothers x hx).1) first hfirst.1).1
    generalize others.foldl lcmExact first = L at hLdvd hLpos ⊢
    have hLle : L ≤ d := Int.le_of_dvd hd hLdvd
    intro fraction hf
    obtain ⟨ci, hci, rfl⟩ := List.mem_map.mp hf
    obtain ⟨_, _, h3, h4⟩ := toFractionExact_lcm ci d (hpos ci hci) hd hd1
    simp only [Function.comp]
    rw [abs_of_nonneg h3]
    have h5 : (toFractionExact ((ci : ℚ) / d)).1 * L ≤ (toFractionExact ((ci : ℚ) / d)).1 * d :=
      Int.mul_le_mul_of_nonneg_left hLle h3
    have h6 := hfit ci hci
    rw [mul_comm] at h4
    omega

/-- For a vector `c` of positive integers with greatest common divisor `1`, divided by a
number `d` between `1` and `1000`, such that the least common multiple of every entry with `d`
is at most `INT_MAX`, `reduceToIntegers` turns `c / d` back into `c`. -/
theorem reduceToIntegers_scaled (c : List Int) (d : Int) (hc : c ≠ [])
    (hpos : ∀ ci ∈ c, 1 ≤ ci) (hgcd : listGcd c = 1) (hd : 0 < d) (hd1 : d ≤ 1000)
    (hfit : ∀ ci ∈ c, (Int.lcm ci d : Int) ≤ 2147483647) :
    reduceToIntegers (c.map (fun ci : Int => (ci : ℚ) / d)) = c := by
  rw [reduceToIntegers_exact _ (reduceFits_scaled c d hpos hd hd1 hfit)]
  exact reduceToIntegersExact_scaled c d hc hpos hgcd hd hd1

/-! ## The stoichiometric matrix, entry by entry -/

theorem setEntry_length (matrix : Matrix) (r c : Nat) (v : ℚ) :
    (setEntry matrix r c v).length = matrix.length := by
  simp [setEntry]

theorem setEntry_rect (matrix : Matrix) (n r c : Nat) (v : ℚ) (h : Rect matrix n)
    (hr : r < matrix.length) : Rect (setEntry matrix r c v) n := by
  intro row hrow
  unfold setEntry at hrow
  rcases mem_set _ _ _ _ hrow with h1 | h1
  · rw [h1, List.length_set]
    exact h.getD_length r hr
  · exact h row h1

theorem setEntry_entry (matrix : Matrix) (n r c : Nat) (v : ℚ) (h : Rect matrix n)
    (hr : r < matrix.length) (hc : c < n) (i j : Nat) :
    entry (setEntry matrix r c v) i j = if i = r ∧ j = c then v else entry matrix i j := by
  unfold entry setEntry
  rw [getD_set]
  by_cases h1 : r = i
  · subst h1
    simp only [hr, and_self, if_true, true_and]
    rw [getD_set, h.getD_length r hr]
    by_cases h2 : c = j
    · subst h2; simp [hc]
    · have : ¬ j = c := fun h3 => h2 h3.symm
      simp [h2, this]
  · have : ¬ i = r := fun h3 => h1 h3.symm
    simp [h1, this]

/-- Filling one column: the inner loop of `buildStoichiometricMatrix` over the elements. -/
theorem fillColumn_spec (n col : Nat) (hcol : col < n) (g : List Char → Option Int)
    (f : Int → ℚ) (elements : List (List Char)) :
    ∀ (k : Nat) (m : Matrix), Rect m n → k + elements.length ≤ m.length →
      ((elements.enumFrom k).foldl (fun matrix element =>
          match g element.2 with
          | some count => setEntry matrix element.1 col (f count)
          | none => matrix) m).length = m.length ∧
      Rect ((elements.enumFrom k).foldl (fun matrix element =>
          match g element.2 with
          | some count => setEntry matrix element.1 col (f count)
          | none => matrix) m) n ∧
      ∀ i j, entry ((elements.enumFrom k).foldl (fun matrix element =>
          match g element.2 with
          | some count => setEntry matrix element.1 col (f count)
          | none => matrix) m) i j
        = if j = col ∧ k ≤ i ∧ i < k + elements.length then
            (match g (elements.getD (i - k) []) with
              | some count => f count
              | none => entry m i j)
          else entry m i j := by
  induction elements with
  | nil =>
    intro k m hrect _
    refine ⟨rfl, hrect, fun i j => ?_⟩
    simp only [List.enumFrom_nil, List.foldl_nil, List.length_nil, Nat.add_zero]
    rw [if_neg (by omega)]
  | cons e elements ih =>
    intro k m hrect hlen
    simp only [List.length_cons] at hlen
    rw [List.enumFrom_cons, List.foldl_cons]
    cases hg : g e with
    | none =>
      simp only [hg]
      obtain ⟨h1, h2, h3⟩ := ih (k + 1) m hrect (by omega)
      refine ⟨h1, h2, fun i j => ?_⟩
      rw [h3]
      by_cases hik : i = k
      · rw [hik, if_neg (by omega)]
        by_cases hj : j = col <;> simp [hj, hg]
      · by_cases hc : j = col ∧ k + 1 ≤ i ∧ i < k + 1 + elements.length
        · rw [if_pos hc, if_pos ⟨hc.1, by omega, by simp only [List.length_cons]; omega⟩]
          have : i - k = (i - (k + 1)) + 1 := by omega
          rw [this, List.getD_cons_succ]
        · rw [if_neg hc, if_neg (by
            simp only [List.length_cons]
            intro hcon
            exact hc ⟨hcon.1, by omega, by omega⟩)]
    | some count =>
      simp only [hg]
      have hk : k < m.length := by omega
      obtain ⟨h1, h2, h3⟩ := ih (k + 1) (setEntry m k col (f count))
        (setEntry_rect m n k col _ hrect hk) (by rw [setEntry_length]; omega)
      rw [setEntry_length] at h1
      refine ⟨h1, h2, fun i j => ?_⟩
      rw [h3, setEntry_entry m n k col _ hrect hk hcol]
      by_cases hik : i = k
      · rw [hik, if_neg (by omega)]
        by_cases hj : j = col <;> simp [hj, hg]
      · have hne : ¬ (i = k ∧ j = col) := fun h => hik h.1
        simp only [hne, if_false]
        by_cases hc : j = col ∧ k + 1 ≤ i ∧ i < k + 1 + elements.length
        · rw [if_pos hc, if_pos ⟨hc.1, by omega, by simp only [List.length_cons]; omega⟩]
          have : i - k = (i - (k + 1)) + 1 := by omega
          rw [this, List.getD_cons_succ]
        · rw [if_neg hc, if_neg (by
            simp only [List.length_cons]
            intro hcon
            exact hc ⟨hcon.1, by omega, by omega⟩)]

/-- Filling the columns of a list of compounds: the outer loops of
`buildStoichiometricMatrix`. -/
theorem fillColumns_spec (n base : Nat) (f : Int → ℚ) (elements : List (List Char))
    (compounds : List (ChemicalCompound × Int)) :
    ∀ (k : Nat) (m : Matrix), Rect m n → m.length = elements.length →
      base + k + compounds.length ≤ n →
      ((compounds.enumFrom k).foldl (fun matrix compound =>
          (elements.enumFrom 0).foldl (fun matrix element =>
            match compound.2.1.getElementCount.find element.2 with
            | some count => setEntry matrix element.1 (base + compound.1) (f count)
            | none => matrix) matrix) m).length = elements.length ∧
      Rect ((compounds.enumFrom k).foldl (fun matrix compound =>
          (elements.enumFrom 0).foldl (fun matrix element =>
            match compound.2.1.getElementCount.find element.2 with
            | some count => setEntry matrix element.1 (base + compound.1) (f count)
            | none => matrix) matrix) m) n ∧
      ∀ i j, entry ((compounds.enumFrom k).foldl (fun matrix compound =>
          (elements.enumFrom 0).foldl (fun matrix element =>
            match compound.2.1.getElementCount.find element.2 with
            | some count => setEntry matrix element.1 (base + compound.1) (f count)
            | none => matrix) matrix) m) i j
        = if i < elements.length ∧ base + k ≤ j ∧ j < base + k + compounds.length then
            (match (compounds.getD (j - (base + k)) (⟨[], 0, [], false⟩, 0)).1.getElementCount.find
                (elements.getD i []) with
              | some count => f count
              | none => entry m i j)
          else entry m i j := by
  induction compounds with
  | nil =>
    intro k m hrect hlen _
    refine ⟨hlen, hrect, fun i j => ?_⟩
    simp only [List.enumFrom_nil, List.foldl_nil, List.length_nil, Nat.add_zero]
    rw [if_neg (by omega)]
  | cons cpd compounds ih =>
    intro k m hrect hlen hn
    simp only [List.length_cons] at hn
    rw [List.enumFrom_cons, List.foldl_cons]
    obtain ⟨h1, h2, h3⟩ := fillColumn_spec n (base + k) (by omega)
      (fun e => cpd.1.getElementCount.find e) f elements 0 m hrect (by omega)
    obtain ⟨h4, h5, h6⟩ := ih (k + 1) _ h2 (by rw [h1, hlen]) (by omega)
    refine ⟨h4, h5, fun i j => ?_⟩
    refine (h6 i j).trans ?_
    have h3ij := h3 i j
    simp only [Nat.zero_add, Nat.sub_zero, Nat.zero_le, true_and] at h3ij
    rw [h3ij]
    simp only [List.length_cons]
    by_cases hi : i < elements.length
    · by_cases hj : j = base + k
      · rw [if_neg (by omega), if_pos ⟨hj, hi⟩, if_pos ⟨hi, by omega, by omega⟩]
        have : j - (base + k) = 0 := by omega
        rw [this, List.getD_cons_zero]
      · have hne : ¬ (j = base + k ∧ i < elements.length) := fun h => hj h.1
        simp only [hne, if_false]
        by_cases hc : base + (k + 1) ≤ j ∧ j < base + (k + 1) + compounds.length
        · rw [if_pos ⟨hi, hc⟩, if_pos ⟨hi, by omega, by omega⟩]
          have : j - (base + k) = (j - (base + (k + 1))) + 1 := by omega
          rw [this, List.getD_cons_succ]
        · rw [if_neg (fun h => hc h.2), if_neg (fun h => hc ⟨by omega, by omega⟩)]
    · rw [if_neg (fun h => hi h.1), if_neg (fun h => hi h.2), if_neg (fun h => hi h.1)]

theorem getD_map {α β : Type} (f : α → β) (l : List α) (i : Nat) (d : α) (d1 : β)
    (h : i < l.length) : (l.map f).getD i d1 = f (l.getD i d) := by
  rw [List.getD_eq_getElem?_getD, List.getD_eq_getElem?_getD, List.getElem?_map,
    List.getElem?_eq_getElem h]
  rfl

theorem getD_append_left {α : Type} (l1 l2 : List α) (i : Nat) (d : α) (h : i < l1.length) :
    (l1 ++ l2).getD i d = l1.getD i d := by
  rw [List.getD_eq_getElem?_getD, List.getD_eq_getElem?_getD, List.getElem?_append_left h]

theorem getD_append_right {α : Type} (l1 l2 : List α) (i : Nat) (d : α) (h : l1.length ≤ i) :
    (l1 ++ l2).getD i d = l2.getD (i - l1.length) d := by
  rw [List.getD_eq_getElem?_getD, List.getD_eq_getElem?_getD, List.getElem?_append_right h]

theorem stoichiometricRow_length (equation : ChemicalEquation) (element : List Char) :
    (stoichiometricRow equation element).length = equation.getTotalCompounds := by
  simp [stoichiometricRow, ChemicalEquation.getTotalCompounds]

/-- The stoichiometric matrix has one row per element and one column per compound, and its
entries are the signed atom counts. -/
theorem stoichiometricMatrix_spec (equation : ChemicalEquation) :
    (stoichiometricMatrix equation).length = equation.getAllElements.length ∧
    Rect (stoichiometricMatrix equation) equation.getTotalCompounds ∧
    ∀ i j, i < equation.getAllElements.length → j < equation.getTotalCompounds →
      entry (stoichiometricMatrix equation) i j
        = (stoichiometricRow equation (equation.getAllElements.getD i [])).getD j 0 := by
  have hzero : Rect (List.replicate equation.getAllElements.length
      (List.replicate (equation.reactants_.length + equation.products_.length) (0 : ℚ)))
      (equation.reactants_.length + equation.products_.length) := by
    intro row hrow
    rw [List.eq_of_mem_replicate hrow, List.length_replicate]
  have hzero_entry : ∀ i j, entry (List.replicate equation.getAllElements.length
      (List.replicate (equation.reactants_.length + equation.products_.length) (0 : ℚ))) i j
      = 0 := by
    intro i j
    unfold entry
    by_cases hi : i < equation.getAllElements.length
    · by_cases hj : j < equation.reactants_.length + equation.products_.length
      · simp [List.getD_eq_getElem?_getD, List.getElem?_replicate, hi, hj]
      · simp [List.getD_eq_getElem?_getD, List.getElem?_replicate, hi, hj]
    · simp [List.getD_eq_getElem?_getD, List.getElem?_replicate, hi]
  obtain ⟨h1, h2, h3⟩ := fillColumns_spec
    (equation.reactants_.length + equation.products_.length) 0 (fun count => (count : ℚ))
    equation.getAllElements equation.reactants_ 0 _ hzero (by simp) (by omega)
  obtain ⟨h4, h5, h6⟩ := fillColumns_spec
    (equation.reactants_.length + equation.products_.length) equation.reactants_.length
    (fun count => ((wrapInt (-count) : Int) : ℚ))
    equation.getAllElements equation.products_ 0 _ h2 h1 (by omega)
  have hM : stoichiometricMatrix equation
      = (equation.products_.enumFrom 0).foldl (fun matrix compound =>
          (equation.getAllElements.enumFrom 0).foldl (fun matrix element =>
            match compound.2.1.getElementCount.find element.2 with
            | some count => setEntry matrix element.1 (equation.reactants_.length + compound.1)
                ((fun count : Int => ((wrapInt (-count) : Int) : ℚ)) count)
            | none => matrix) matrix)
          ((equation.reactants_.enumFrom 0).foldl (fun matrix compound =>
            (equation.getAllElements.enumFrom 0).foldl (fun matrix element =>
              match compound.2.1.getElementCount.find element.2 with
              | some count => setEntry matrix element.1 (0 + compound.1)
                  ((fun count : Int => (count : ℚ)) count)
              | none => matrix) matrix)
            (List.replicate equation.getAllElements.length
              (List.replicate (equation.reactants_.length + equation.products_.length)
                (0 : ℚ)))) := by
    simp only [Nat.zero_add]
    rfl
  rw [hM]
  refine ⟨h4, h5, fun i j hi hj => ?_⟩
  rw [h6, h3]
  simp only [Nat.add_zero, Nat.zero_add, Nat.sub_zero, Nat.zero_le, true_and, hzero_entry]
  unfold stoichiometricRow
  unfold ChemicalEquation.getTotalCompounds at hj
  by_cases hjr : j < equation.reactants_.length
  · rw [if_neg (by omega), if_pos ⟨hi, hjr⟩,
      getD_append_left _ _ _ _ (by rw [List.length_map]; exact hjr),
      getD_map _ _ _ (⟨[], 0, [], false⟩, 0) _ hjr]
    cases (equation.reactants_.getD j (⟨[], 0, [], false⟩, 0)).1.getElementCount.find
      (equation.getAllElements.getD i []) <;> simp
  · rw [if_pos ⟨hi, by omega, by omega⟩,
      getD_append_right _ _ _ _ (by rw [List.length_map]; omega), List.length_map,
      getD_map _ _ _ (⟨[], 0, [], false⟩, 0) _ (by omega), if_neg (by omega)]
    cases (equation.products_.getD (j - equation.reactants_.length)
      (⟨[], 0, [], false⟩, 0)).1.getElementCount.find (equation.getAllElements.getD i []) <;> simp [wrapInt_zero]

/-- In a sorted map a stored entry is the one that `find` returns. -/
theorem ElementMap.find_of_mem (m : ElementMap) (hs : m.Sorted) (key : List Char) (value : Int)
    (h : (key, value) ∈ m) : m.find key = some value := by
  induction m with
  | nil => simp at h
  | cons p rest ih =>
    obtain ⟨k, v⟩ := p
    unfold ElementMap.Sorted at hs
    rw [List.pairwise_cons] at hs
    simp only [ElementMap.find]
    rcases List.mem_cons.mp h with h1 | h1
    · simp only [Prod.mk.injEq] at h1
      rw [if_pos h1.1, h1.2]
    · have hlt := hs.1 (key, value) h1
      have hne : key ≠ k := fun e => by
        rw [e] at hlt
        exact lt_irrefl _ hlt
      rw [if_neg hne]
      exact ih hs.2 h1

/-- In a sorted map the number of atoms of an element is the value that `find` returns. -/
theorem ElementMap.atoms_eq_count (m : ElementMap) (hs : m.Sorted) (element : List Char) :
    m.atoms element = m.count element := by
  induction m with
  | nil => rfl
  | cons p rest ih =>
    obtain ⟨k, v⟩ := p
    unfold ElementMap.Sorted at hs
    rw [List.pairwise_cons] at hs
    have ih1 := ih hs.2
    unfold ElementMap.atoms ElementMap.count at ih1 ⊢
    simp only [List.map_cons, List.sum_cons, ElementMap.find]
    by_cases h : element = k
    · rw [if_pos h.symm, if_pos h, ih1]
      have hnone : ElementMap.find rest element = none := by
        apply ElementMap.find_eq_none_of_lt
        intro p hp
        rw [h]
        exact hs.1 p hp
      rw [hnone]
      simp
    · rw [if_neg (fun e => h e.symm), if_neg h, ih1]
      simp

theorem mem_setInsert (s : List (List Char)) (x y : List Char) :
    y ∈ setInsert s x ↔ y = x ∨ y ∈ s := by
  induction s with
  | nil => simp [setInsert]
  | cons z zs ih =>
    simp only [setInsert]
    split
    · rename_i h
      rw [h]
      simp
    · split
      · simp
      · simp only [List.mem_cons, ih]
        tauto

theorem mem_fold_setInsert (entries : ElementMap) (s : List (List Char)) (y : List Char) :
    y ∈ entries.foldl (fun s element => setInsert s element.1) s
      ↔ y ∈ s ∨ ∃ p ∈ entries, p.1 = y := by
  induction entries generalizing s with
  | nil => simp
  | cons p rest ih =>
    rw [List.foldl_cons, ih, mem_setInsert]
    simp only [List.mem_cons, exists_eq_or_imp]
    constructor
    · rintro ((h | h) | h)
      · exact Or.inr (Or.inl h.symm)
      · exact Or.inl h
      · exact Or.inr (Or.inr h)
    · rintro (h | h | h)
      · exact Or.inl (Or.inr h)
      · exact Or.inl (Or.inl h.symm)
      · exact Or.inr h

theorem mem_fold_compounds (compounds : List (ChemicalCompound × Int)) (s : List (List Char))
    (y : List Char) :
    y ∈ compounds.foldl (fun s compound =>
        compound.1.getElementCount.foldl (fun s element => setInsert s element.1) s) s
      ↔ y ∈ s ∨ ∃ compound ∈ compounds, ∃ p ∈ compound.1.getElementCount, p.1 = y := by
  induction compounds generalizing s with
  | nil => simp
  | cons cpd rest ih =>
    rw [List.foldl_cons, ih, mem_fold_setInsert]
    simp only [List.mem_cons, exists_eq_or_imp]
    constructor
    · rintro ((h | h) | h)
      · exact Or.inl h
      · exact Or.inr (Or.inl h)
      · exact Or.inr (Or.inr h)
    · rintro (h | h | h)
      · exact Or.inl (Or.inl h)
      · exact Or.inl (Or.inr h)
      · exact Or.inr h

/-- The elements of an equation are the symbols that occur in one of its compounds. -/
theorem mem_getAllElements (equation : ChemicalEquation) (y : List Char) :
    y ∈ equation.getAllElements
      ↔ ∃ compound ∈ equation.reactants_ ++ equation.products_,
          ∃ p ∈ compound.1.getElementCount, p.1 = y := by
  unfold ChemicalEquation.getAllElements
  simp only []
  rw [mem_fold_compounds, mem_fold_compounds]
  simp only [List.not_mem_nil, false_or, List.mem_append]
  constructor
  · rintro (⟨compound, h1, h2⟩ | ⟨compound, h1, h2⟩)
    · exact ⟨compound, Or.inl h1, h2⟩
    · exact ⟨compound, Or.inr h1, h2⟩
  · rintro ⟨compound, h1 | h1, h2⟩
    · exact Or.inl ⟨compound, h1, h2⟩
    · exact Or.inr ⟨compound, h1, h2⟩

/-- A symbol that is not an element of the equation occurs in none of its compounds. -/
theorem find_eq_none_of_not_mem (equation : ChemicalEquation) (y : List Char)
    (hy : y ∉ equation.getAllElements) (compound : ChemicalCompound × Int)
    (hc : compound ∈ equation.reactants_ ++ equation.products_) :
    compound.1.getElementCount.find y = none := by
  cases hf : compound.1.getElementCount.find y with
  | none => rfl
  | some v =>
    exfalso
    apply hy
    rw [mem_getAllElements]
    exact ⟨compound, hc, (y, v), ElementMap.mem_of_find _ _ _ hf, rfl⟩

theorem list_ext_getD {α : Type} (l1 l2 : List α) (d : α) (hlen : l1.length = l2.length)
    (h : ∀ j, j < l1.length → l1.getD j d = l2.getD j d) : l1 = l2 := by
  apply List.ext_getElem hlen
  intro j h1 h2
  have := h j h1
  rw [List.getD_eq_getElem _ _ h1, List.getD_eq_getElem _ _ h2] at this
  exact this

/-- The stoichiometric matrix, row by row. -/
theorem stoichiometricMatrix_eq (equation : ChemicalEquation) :
    stoichiometricMatrix equation
      = equation.getAllElements.map (stoichiometricRow equation) := by
  obtain ⟨h1, h2, h3⟩ := stoichiometricMatrix_spec equation
  apply list_ext_getD _ _ []
  · rw [h1, List.length_map]
  · intro i hi
    rw [h1] at hi
    rw [getD_map _ _ _ [] _ hi]
    have hmem : (stoichiometricMatrix equation).getD i [] ∈ stoichiometricMatrix equation := by
      rw [List.getD_eq_getElem _ _ (by rw [h1]; exact hi)]
      exact List.getElem_mem _
    apply list_ext_getD _ _ 0
    · rw [h2 _ hmem, stoichiometricRow_length]
    · intro j hj
      rw [h2 _ hmem] at hj
      exact h3 i j hi hj

/-- The product of a row with a vector of the same length, as a sum over the columns. -/
theorem dot_eq_sum (row x : List ℚ) (h : row.length = x.length) :
    dot row x = ∑ j ∈ Finset.range row.length, row.getD j 0 * x.getD j 0 := by
  induction row generalizing x with
  | nil => simp [dot]
  | cons a row ih =>
    cases x with
    | nil => simp at h
    | cons b x =>
      simp only [List.length_cons, Nat.add_right_cancel_iff] at h
      have ih1 := ih x h
      unfold dot at ih1 ⊢
      rw [List.zipWith_cons_cons, List.sum_cons, ih1, List.length_cons, Finset.sum_range_succ']
      simp only [List.getD_cons_succ, List.getD_cons_zero]
      ring

/-- The two readings of "null vector" agree on a rectangular matrix. -/
theorem isNull_iff_nullF (n : Nat) (matrix : Matrix) (hrect : Rect matrix n) (x : List ℚ)
    (hx : x.length = n) : IsNull matrix x ↔ NullF n matrix (fun j => x.getD j 0) := by
  have key : ∀ r, r < matrix.length →
      dotF n matrix r (fun j => x.getD j 0) = dot (matrix.getD r []) x := by
    intro r hr
    have hmem : matrix.getD r [] ∈ matrix := by
      rw [List.getD_eq_getElem _ _ hr]
      exact List.getElem_mem _
    rw [dot_eq_sum _ _ (by rw [hrect _ hmem, hx]), hrect _ hmem]
    rfl
  constructor
  · intro h r hr
    rw [key r hr]
    apply h
    rw [List.getD_eq_getElem _ _ hr]
    exact List.getElem_mem _
  · intro h row hrow
    obtain ⟨r, hr, rfl⟩ := List.getElem_of_mem hrow
    have := h r hr
    rw [key r hr, List.getD_eq_getElem _ _ hr] at this
    exact this

theorem sum_map_intCast (l : List Int) : ((l.sum : Int) : ℚ) = (l.map (fun v : Int => (v : ℚ))).sum := by
  induction l with
  | nil => simp
  | cons a l ih => simp [ih]

theorem sum_map_neg_rat {α : Type} (l : List α) (g : α → ℚ) :
    (l.map (fun x => -g x)).sum = -(l.map g).sum := by
  induction l with
  | nil => simp
  | cons a l ih => simp [ih]; ring

/-- A sum of products in which every first factor is negated as an `int` differs from the
negated sum by a multiple of `2^32`. -/
theorem sum_wrapInt_neg {α : Type} (l : List α) (f g : α → Int) :
    ∃ k : Int, (l.map (fun p => wrapInt (-(f p)) * g p)).sum
      = -(l.map (fun p => f p * g p)).sum + 4294967296 * k := by
  induction l with
  | nil => exact ⟨0, by simp⟩
  | cons a l ih =>
    obtain ⟨k, hk⟩ := ih
    have hm : ∃ m : Int, wrapInt (-(f a)) = -(f a) + 4294967296 * m :=
      ⟨-((-(f a) + 2147483648) / 4294967296), by unfold wrapInt; omega⟩
    obtain ⟨m, hm⟩ := hm
    refine ⟨m * g a + k, ?_⟩
    simp only [List.map_cons, List.sum_cons]
    rw [hk, hm]
    ring

/-- A sum of products in which every first factor is negated as an `int` is the negated sum
when no first factor is `INT_MIN`. -/
theorem sum_wrapInt_neg_of_range {α : Type} (l : List α) (f g : α → Int)
    (h : ∀ p ∈ l, -2147483647 ≤ f p ∧ f p ≤ 2147483647) :
    (l.map (fun p => wrapInt (-(f p)) * g p)).sum = -(l.map (fun p => f p * g p)).sum := by
  induction l with
  | nil => simp
  | cons a l ih =>
    obtain ⟨hlo, hhi⟩ := h a (List.mem_cons_self _ _)
    simp only [List.map_cons, List.sum_cons]
    rw [ih (fun p hp => h p (List.mem_cons_of_mem _ hp)),
      wrapInt_of_range (-(f a)) (by omega) (by omega)]
    ring

/-- The product of an element's matrix row with the equation's own coefficients, as a sum of
integers: the counts of the products enter negated as `int` values. -/
theorem dot_stoichiometricRow_sum (equation : ChemicalEquation)
    (hmaps : ∀ compound ∈ equation.reactants_ ++ equation.products_,
      compound.1.getElementCount.Sorted) (element : List Char) :
    dot (stoichiometricRow equation element)
      ((equation.reactants_.map (fun reactant => reactant.2) ++
        equation.products_.map (fun product => product.2)).map (fun v : Int => (v : ℚ)))
      = (((equation.reactants_.map
            (fun reactant => reactant.1.getElementCount.atoms element * reactant.2)).sum +
          (equation.products_.map
            (fun product => wrapInt (-(product.1.getElementCount.atoms element)) * product.2)).sum
          : Int) : ℚ) := by
  unfold dot stoichiometricRow
  rw [List.map_append, List.zipWith_append _ _ _ _ _ (by simp), List.sum_append, List.map_map,
    List.map_map, zipWith_map_map, zipWith_map_map, Int.cast_add, sum_map_intCast,
    sum_map_intCast, List.map_map, List.map_map]
  congr 1
  · congr 1
    apply List.map_congr_left
    intro r hr
    simp only [Function.comp]
    rw [ElementMap.atoms_eq_count _ (hmaps r (List.mem_append.mpr (Or.inl hr)))]
    unfold ElementMap.count
    push_cast
    rfl
  · congr 1
    apply List.map_congr_left
    intro r hr
    simp only [Function.comp]
    rw [ElementMap.atoms_eq_count _ (hmaps r (List.mem_append.mpr (Or.inr hr)))]
    unfold ElementMap.count
    push_cast
    rfl

/-- The product of an element's matrix row with the equation's own coefficients is the
imbalance of that element, up to a multiple of `2^32`. -/
theorem dot_stoichiometricRow (equation : ChemicalEquation)
    (hmaps : ∀ compound ∈ equation.reactants_ ++ equation.products_,
      compound.1.getElementCount.Sorted) (element : List Char) :
    ∃ k : Int, dot (stoichiometricRow equation element)
      ((equation.reactants_.map (fun reactant => reactant.2) ++
        equation.products_.map (fun product => product.2)).map (fun v : Int => (v : ℚ)))
      = ((imbalance equation element + 4294967296 * k : Int) : ℚ) := by
  obtain ⟨k, hk⟩ := sum_wrapInt_neg equation.products_
    (fun product => product.1.getElementCount.atoms element) (fun product => product.2)
  refine ⟨k, ?_⟩
  rw [dot_stoichiometricRow_sum equation hmaps element, hk]
  unfold imbalance
  congr 1
  ring

/-- The product of an element's matrix row with the equation's own coefficients is the
imbalance of that element when no product holds the count `INT_MIN` for it. -/
theorem dot_stoichiometricRow_of_range (equation : ChemicalEquation)
    (hmaps : ∀ compound ∈ equation.reactants_ ++ equation.products_,
      compound.1.getElementCount.Sorted) (element : List Char)
    (hrange : ∀ product ∈ equation.products_,
      -2147483647 ≤ product.1.getElementCount.atoms element ∧
        product.1.getElementCount.atoms element ≤ 2147483647) :
    dot (stoichiometricRow equation element)
      ((equation.reactants_.map (fun reactant => reactant.2) ++
        equation.products_.map (fun product => product.2)).map (fun v : Int => (v : ℚ)))
      = ((imbalance equation element : Int) : ℚ) := by
  rw [dot_stoichiometricRow_sum equation hmaps element,
    sum_wrapInt_neg_of_range equation.products_
      (fun product => product.1.getElementCount.atoms element) (fun product => product.2) hrange]
  unfold imbalance
  rw [sub_eq_add_neg]

theorem getLastD_eq_getD (l : List Int) : l.getLastD 0 = l.getD (l.length - 1) 0 := by
  rw [List.getLastD_eq_getLast?, List.getLast?_eq_getElem?, List.getD_eq_getElem?_getD]

theorem NullF_congr (n : Nat) (matrix : Matrix) (x y : Nat → ℚ) (h : ∀ j, j < n → x j = y j)
    (hx : NullF n matrix x) : NullF n matrix y := by
  intro r hr
  have := hx r hr
  unfold dotF at this ⊢
  rw [← this]
  apply Finset.sum_congr rfl
  intro j hj
  rw [h j (Finset.mem_range.mp hj)]

theorem dot_zero_row (row x : List ℚ) (h : ∀ a ∈ row, a = 0) : dot row x = 0 := by
  induction row generalizing x with
  | nil => simp [dot]
  | cons a row ih =>
    cases x with
    | nil => simp [dot]
    | cons b x =>
      have ih1 := ih x (fun a1 ha1 => h a1 (List.mem_cons_of_mem _ ha1))
      unfold dot at ih1 ⊢
      rw [List.zipWith_cons_cons, List.sum_cons, ih1, h a (List.mem_cons_self _ _)]
      simp

/-- The matrix row of an element depends on the compounds only, not on the coefficients. -/
theorem stoichiometricRow_congr (equation equation1 : ChemicalEquation)
    (h1 : equation1.reactants_.map (fun reactant => reactant.1)
      = equation.reactants_.map (fun reactant => reactant.1))
    (h2 : equation1.products_.map (fun product => product.1)
      = equation.products_.map (fun product => product.1)) (element : List Char) :
    stoichiometricRow equation1 element = stoichiometricRow equation element := by
  have key : ∀ (l : List (ChemicalCompound × Int)) (F : ChemicalCompound → ℚ),
      l.map (fun r => F r.1) = (l.map (fun r => r.1)).map F := by
    intro l F
    rw [List.map_map]
    rfl
  unfold stoichiometricRow
  rw [key equation1.reactants_ (fun cpd => (((cpd.getElementCount.find element).getD 0 : Int) : ℚ)),
    key equation1.products_
      (fun cpd => ((wrapInt (-((cpd.getElementCount.find element).getD 0)) : Int) : ℚ)),
    key equation.reactants_ (fun cpd => (((cpd.getElementCount.find element).getD 0 : Int) : ℚ)),
    key equation.products_
      (fun cpd => ((wrapInt (-((cpd.getElementCount.find element).getD 0)) : Int) : ℚ)),
    h1, h2]

/-- Installing a null vector of the stoichiometric matrix as coefficients conserves every
element. -/
theorem validate_of_null (equation equation1 : ChemicalEquation) (c : List Int)
    (hmaps : ∀ compound ∈ equation.reactants_ ++ equation.products_,
      compound.1.getElementCount.Sorted)
    (hset : equation.setCoefficients c = .ok equation1)
    (hnull : IsNull (stoichiometricMatrix equation) (c.map (fun v : Int => (v : ℚ)))) :
    validateAtomConservation equation1 = true := by
  obtain ⟨_, hr, hp, hcoef⟩ := setCoefficients_ok equation equation1 c hset
  have hmaps1 : ∀ compound ∈ equation1.reactants_ ++ equation1.products_,
      compound.1.getElementCount.Sorted := by
    intro compound hc
    rcases List.mem_append.mp hc with h | h
    · have : compound.1 ∈ equation1.reactants_.map (fun reactant => reactant.1) :=
        List.mem_map.mpr ⟨compound, h, rfl⟩
      rw [hr] at this
      obtain ⟨compound0, h0, e0⟩ := List.mem_map.mp this
      rw [← e0]
      exact hmaps compound0 (List.mem_append.mpr (Or.inl h0))
    · have : compound.1 ∈ equation1.products_.map (fun product => product.1) :=
        List.mem_map.mpr ⟨compound, h, rfl⟩
      rw [hp] at this
      obtain ⟨compound0, h0, e0⟩ := List.mem_map.mp this
      rw [← e0]
      exact hmaps compound0 (List.mem_append.mpr (Or.inr h0))
  have hzero : ∀ element, wrapInt (imbalance equation1 element) = 0 := by
    intro element
    obtain ⟨k, hdot⟩ := dot_stoichiometricRow equation1 hmaps1 element
    rw [hcoef, stoichiometricRow_congr equation equation1 hr hp] at hdot
    have : ((imbalance equation1 element + 4294967296 * k : Int) : ℚ) = 0 := by
      rw [← hdot]
      by_cases he : element ∈ equation.getAllElements
      · apply hnull
        rw [stoichiometricMatrix_eq]
        exact List.mem_map.mpr ⟨element, he, rfl⟩
      · apply dot_zero_row
        intro a ha
        unfold stoichiometricRow at ha
        rcases List.mem_append.mp ha with h | h
        · obtain ⟨compound, h0, e0⟩ := List.mem_map.mp h
          rw [find_eq_none_of_not_mem equation element he compound
            (List.mem_append.mpr (Or.inl h0))] at e0
          rw [← e0]
          simp
        · obtain ⟨compound, h0, e0⟩ := List.mem_map.mp h
          rw [find_eq_none_of_not_mem equation element he compound
            (List.mem_append.mpr (Or.inr h0))] at e0
          rw [← e0]
          simp [wrapInt_zero]
    have hint : imbalance equation1 element + 4294967296 * k = 0 := by exact_mod_cast this
    exact (wrapInt_eq_zero_iff _).mpr ⟨-k, by omega⟩
  unfold validateAtomConservation
  rw [List.all_eq_true]
  intro p hp1
  obtain ⟨hs, hcount⟩ := getAtomBalance_count equation1 p.1
  have hfind := ElementMap.find_of_mem _ hs p.1 p.2 hp1
  unfold ElementMap.count at hcount
  rw [hfind, hzero] at hcount
  simp only [Option.getD_some] at hcount
  simp [hcount]

/-- When the null space of the stoichiometric matrix is the line through a vector `c` of
positive integers, the solver with exact zero tests returns `c` divided by its last entry. -/
theorem exactSolution_of_null (equation : ChemicalEquation) (c : List Int)
    (helements : equation.getAllElements ≠ [])
    (hlen : c.length = equation.getTotalCompounds) (hcompounds : 1 ≤ equation.getTotalCompounds)
    (hpos : ∀ ci ∈ c, 1 ≤ ci)
    (hnull : ∀ x : List ℚ, x.length = c.length →
      (IsNull (stoichiometricMatrix equation) x ↔ ∃ t : ℚ, x = c.map (fun ci : Int => t * ci))) :
    exactSolutionOf equation = c.map (fun ci : Int => (ci : ℚ) / (c.getLastD 0 : Int)) := by
  obtain ⟨hMlen, hrect, _⟩ := stoichiometricMatrix_spec equation
  have hrows : 1 ≤ (stoichiometricMatrix equation).length := by
    rw [hMlen]
    exact List.length_pos.mpr helements
  have hlastmem : c.getD (c.length - 1) 0 ∈ c := by
    rw [List.getD_eq_getElem _ _ (by omega)]
    exact List.getElem_mem _
  have hlastpos : (1 : Int) ≤ c.getD (c.length - 1) 0 := hpos _ hlastmem
  have hcq : IsNull (stoichiometricMatrix equation) (c.map (fun ci : Int => (1 : ℚ) * ci)) :=
    (hnull _ (by simp)).mpr ⟨1, rfl⟩
  have hc : NullF equation.getTotalCompounds (stoichiometricMatrix equation)
      (fun j => ((c.getD j 0 : Int) : ℚ)) := by
    have h1 := (isNull_iff_nullF _ _ hrect _ (by simp [hlen])).mp hcq
    apply NullF_congr _ _ _ _ _ h1
    intro j hj
    rw [getD_map _ _ _ (0 : Int) _ (by omega)]
    simp
  have hclast : (fun j => ((c.getD j 0 : Int) : ℚ)) (equation.getTotalCompounds - 1) ≠ 0 := by
    simp only []
    rw [← hlen]
    have : (0 : ℚ) < ((c.getD (c.length - 1) 0 : Int) : ℚ) := by exact_mod_cast hlastpos
    exact ne_of_gt this
  have hN : ∀ x : Nat → ℚ, NullF equation.getTotalCompounds (stoichiometricMatrix equation) x →
      x (equation.getTotalCompounds - 1) = 0 → ∀ j, j < equation.getTotalCompounds → x j = 0 := by
    intro x hx hx0 j hj
    have hget : ∀ i, i < equation.getTotalCompounds →
        ((List.range equation.getTotalCompounds).map x).getD i 0 = x i := by
      intro i hi
      rw [getD_map _ _ _ 0 _ (by simp [hi]), List.getD_eq_getElem _ _ (by simp [hi])]
      simp
    have h1 : NullF equation.getTotalCompounds (stoichiometricMatrix equation)
        (fun i => ((List.range equation.getTotalCompounds).map x).getD i 0) :=
      NullF_congr _ _ _ _ (fun i hi => (hget i hi).symm) hx
    have h2 := (isNull_iff_nullF _ _ hrect _ (by simp)).mpr h1
    obtain ⟨t, ht⟩ := (hnull _ (by simp [hlen])).mp h2
    have hentry : ∀ i, i < equation.getTotalCompounds → x i = t * ((c.getD i 0 : Int) : ℚ) := by
      intro i hi
      rw [← hget i hi, ht, getD_map _ _ _ (0 : Int) _ (by omega)]
    have ht0 : t = 0 := by
      have h3 := hentry (equation.getTotalCompounds - 1) (by omega)
      rw [hx0, ← hlen] at h3
      have : ((c.getD (c.length - 1) 0 : Int) : ℚ) ≠ 0 := by
        have : (0 : ℚ) < ((c.getD (c.length - 1) 0 : Int) : ℚ) := by exact_mod_cast hlastpos
        exact ne_of_gt this
      rcases mul_eq_zero.mp h3.symm with h | h
      · exact h
      · exact absurd h this
    rw [hentry j hj, ht0, zero_mul]
  obtain ⟨hslen, hsget⟩ := exact_solver_solution equation.getTotalCompounds
    (stoichiometricMatrix equation) ⟨[]⟩ hcompounds hrows hrect _ hc hclast hN
  unfold exactSolutionOf
  apply list_ext_getD _ _ 0
  · rw [hslen, List.length_map, hlen]
  · intro j hj
    rw [hslen] at hj
    rw [hsget j hj, getD_map _ _ _ (0 : Int) _ (by omega), getLastD_eq_getD, hlen]

/-! ## Completeness of `balance` -/

/-- The last stretch of `balance`: when the reduced solution is a list `c` of positive
integers, one per compound, that conserves every element, the result is `SUCCESS` with `c`. -/
theorem balanceCore_complete (equation : ChemicalEquation) (c : List Int)
    (hbalanced : equation.isBalanced = false) (hsolution : solutionOf equation ≠ [])
    (hreduce : reduceToIntegers (solutionOf equation) = c)
    (hlen : c.length = equation.getTotalCompounds) (hpos : ∀ ci ∈ c, 1 ≤ ci)
    (hvalid : ∀ equation1, equation.setCoefficients c = .ok equation1 →
      validateAtomConservation equation1 = true) :
    (balanceCore equation).1.result = .SUCCESS ∧ (balanceCore equation).1.coefficients = c := by
  have hempty : (solutionOf equation).isEmpty = false := by
    cases h : solutionOf equation with
    | nil => exact absurd h hsolution
    | cons a l => rfl
  have hany : c.any (fun coeff => decide (coeff ≤ 0)) = false := by
    rw [List.any_eq_false]
    intro ci hci
    have := hpos ci hci
    simp only [decide_eq_true_eq]
    omega
  have hset : ∃ equation1, equation.setCoefficients c = .ok equation1 := by
    unfold ChemicalEquation.setCoefficients
    rw [if_neg (by rw [hlen]; exact fun h => h rfl)]
    exact ⟨_, rfl⟩
  obtain ⟨equation1, hset1⟩ := hset
  have hv := hvalid equation1 hset1
  unfold balanceCore
  rw [hreduce]
  simp [hbalanced, hempty, hany, hset1, hv]

/-- C2, amended: let the equation have at least one compound and at least one element, its
balanced flag be false, and its compounds hold proper element maps (keys strictly increasing,
as in a `std::map`). Let the null space of its stoichiometric matrix be the line through an
integer vector `c` with one entry per compound, every entry at least `1`, the entries having
greatest common divisor `1`, and the last entry at most `1000`. If moreover the solver's
tolerance tests decide as exact zero tests do on this matrix (the solver returns the same
vector with either), and the least common multiple of every entry of `c` with the last entry
is at most `INT_MAX` (it is the product that `reduceToIntegers` computes for the entry, so no
`int` overflows), then `balance` returns `SUCCESS` with the coefficients `c`. -/
theorem C2_complete_when_tolerance_exact (b : EquationBalancer) (equation : ChemicalEquation)
    (c : List Int)
    (hmaps : ∀ compound ∈ equation.reactants_ ++ equation.products_,
      compound.1.getElementCount.Sorted)
    (hbalanced : equation.isBalanced = false)
    (hcompounds : 1 ≤ equation.getTotalCompounds)
    (helements : equation.getAllElements ≠ [])
    (hlen : c.length = equation.getTotalCompounds)
    (hpos : ∀ ci ∈ c, 1 ≤ ci) (hgcd : listGcd c = 1) (hlast : c.getLastD 0 ≤ 1000)
    (hnull : ∀ x : List ℚ, x.length = c.length →
      (IsNull (stoichiometricMatrix equation) x ↔ ∃ t : ℚ, x = c.map (fun ci : Int => t * ci)))
    (hexact : solutionOf equation = exactSolutionOf equation)
    (hfit : ∀ ci ∈ c, (Int.lcm ci (c.getLastD 0) : Int) ≤ 2147483647) :
    (b.balance equation).1.result = .SUCCESS ∧ (b.balance equation).1.coefficients = c := by
  have hne : c ≠ [] := by
    intro h
    rw [h] at hlen
    simp at hlen
    omega
  have hlastmem : c.getD (c.length - 1) 0 ∈ c := by
    have : 0 < c.length := List.length_pos.mpr hne
    rw [List.getD_eq_getElem _ _ (by omega)]
    exact List.getElem_mem _
  have hlastpos : 0 < c.getLastD 0 := by
    rw [getLastD_eq_getD]
    have := hpos _ hlastmem
    omega
  have hsol := exactSolution_of_null equation c helements hlen hcompounds hpos hnull
  rw [← hexact] at hsol
  have hsolution : solutionOf equation ≠ [] := by
    rw [hsol]
    intro h
    exact hne (List.map_eq_nil_iff.mp h)
  have hreduce : reduceToIntegers (solutionOf equation) = c := by
    rw [hsol]
    exact reduceToIntegers_scaled c (c.getLastD 0) hne hpos hgcd hlastpos hlast hfit
  have hnullc : IsNull (stoichiometricMatrix equation) (c.map (fun v : Int => (v : ℚ))) := by
    apply (hnull _ (by simp)).mpr
    exact ⟨1, by simp⟩
  have hcore := balance_eq_core b equation
  have h1 : (b.balance equation).1 = (balanceCore equation).1 := congrArg Prod.fst hcore
  rw [h1]
  exact balanceCore_complete equation c hbalanced hsolution hreduce hlen hpos
    (fun equation1 hset => validate_of_null equation equation1 c hmaps hset hnullc)

theorem list_length_four (x : List ℚ) (h : x.length = 4) :
    ∃ x0 x1 x2 x3, x = [x0, x1, x2, x3] := by
  match x, h with
  | [x0, x1, x2, x3], _ => exact ⟨x0, x1, x2, x3, rfl⟩

theorem list_length_three (x : List ℚ) (h : x.length = 3) : ∃ x0 x1 x2, x = [x0, x1, x2] := by
  match x, h with
  | [x0, x1, x2], _ => exact ⟨x0, x1, x2, rfl⟩

theorem list_length_one (x : List ℚ) (h : x.length = 1) : ∃ x0, x = [x0] := by
  match x, h with
  | [x0], _ => exact ⟨x0, rfl⟩

/-- The null space of the matrix of `H2 + O2 -> H2O` is the line through `(2, 1, 2)`. -/
theorem waterEquation_null (x : List ℚ) (h : x.length = ([2, 1, 2] : List Int).length) :
    IsNull (stoichiometricMatrix waterEquation) x
      ↔ ∃ t : ℚ, x = ([2, 1, 2] : List Int).map (fun ci : Int => t * ci) := by
  have hM : stoichiometricMatrix waterEquation = [[2, 0, -2], [0, 2, -1]] := by decide!
  obtain ⟨x0, x1, x2, rfl⟩ := list_length_three x h
  rw [hM]
  simp only [IsNull, dot, List.mem_cons, List.mem_singleton, List.not_mem_nil, or_false,
    forall_eq_or_imp, forall_eq, List.zipWith_cons_cons, List.zipWith_nil_right, List.sum_cons,
    List.sum_nil, List.map_cons, List.map_nil, List.cons.injEq, and_true]
  constructor
  · rintro ⟨h1, h2⟩
    refine ⟨x1, ?_, ?_, ?_⟩ <;> push_cast <;> linarith
  · rintro ⟨t, h0, h1, h2⟩
    push_cast at h0 h1 h2
    constructor <;> linarith

/-- The null space of the matrix of `C1000000O + CH1000000 + H -> C1000001H1000001O` is the
line through `(1, 1, 1, 1)`. -/
theorem heavyEquation_null (x : List ℚ) (h : x.length = ([1, 1, 1, 1] : List Int).length) :
    IsNull (stoichiometricMatrix heavyEquation) x
      ↔ ∃ t : ℚ, x = ([1, 1, 1, 1] : List Int).map (fun ci : Int => t * ci) := by
  have hM : stoichiometricMatrix heavyEquation
      = [[1000000, 1, 0, -1000001], [0, 1000000, 1, -1000001], [1, 0, 0, -1]] := by decide!
  obtain ⟨x0, x1, x2, x3, rfl⟩ := list_length_four x h
  rw [hM]
  simp only [IsNull, dot, List.mem_cons, List.mem_singleton, List.not_mem_nil, or_false,
    forall_eq_or_imp, forall_eq, List.zipWith_cons_cons, List.zipWith_nil_right, List.sum_cons,
    List.sum_nil, List.map_cons, List.map_nil, List.cons.injEq, and_true]
  constructor
  · rintro ⟨h1, h2, h3⟩
    refine ⟨x3, ?_, ?_, ?_, ?_⟩ <;> push_cast <;> linarith
  · rintro ⟨t, h0, h1, h2, h3⟩
    push_cast at h0 h1 h2 h3
    refine ⟨?_, ?_, ?_⟩ <;> linarith

/-- The null space of the matrix of `A2 + B4 -> A1073741827B` is the line through
`(2147483654, 1, 4)`. -/
theorem overflowEquation_null (x : List ℚ)
    (h : x.length = ([2147483654, 1, 4] : List Int).length) :
    IsNull (stoichiometricMatrix overflowEquation) x
      ↔ ∃ t : ℚ, x = ([2147483654, 1, 4] : List Int).map (fun ci : Int => t * ci) := by
  have hM : stoichiometricMatrix overflowEquation = [[2, 0, -1073741827], [0, 4, -1]] := by
    decide!
  obtain ⟨x0, x1, x2, rfl⟩ := list_length_three x h
  rw [hM]
  simp only [IsNull, dot, List.mem_cons, List.mem_singleton, List.not_mem_nil, or_false,
    forall_eq_or_imp, forall_eq, List.zipWith_cons_cons, List.zipWith_nil_right, List.sum_cons,
    List.sum_nil, List.map_cons, List.map_nil, List.cons.injEq, and_true]
  constructor
  · rintro ⟨h1, h2⟩
    refine ⟨x1, ?_, ?_, ?_⟩ <;> push_cast <;> linarith
  · rintro ⟨t, h0, h1, h2⟩
    push_cast at h0 h1 h2
    constructor <;> linarith

/-- The matrix of the equation `()` has no row, so every vector is a null vector. -/
theorem emptyGroupEquation_null (x : List ℚ) (h : x.length = ([1] : List Int).length) :
    IsNull (stoichiometricMatrix emptyGroupEquation) x
      ↔ ∃ t : ℚ, x = ([1] : List Int).map (fun ci : Int => t * ci) := by
  have hM : stoichiometricMatrix emptyGroupEquation = [] := by decide!
  obtain ⟨x0, rfl⟩ := list_length_one x h
  rw [hM]
  constructor
  · intro _
    exact ⟨x0, by simp⟩
  · intro _ row hrow
    simp at hrow

/-- C2 fails as stated. For `C1000000O + CH1000000 + H -> C1000001H1000001O`, which
`parseEquationString` accepts, the balanced flag is false, the compounds are valid, and the
null space of the stoichiometric matrix is the line through `c = (1, 1, 1, 1)` (entries at
least `1`, greatest common divisor `1`, last entry at most `1000`), yet `balance` returns
`NO_SOLUTION`: elimination reaches a pivot smaller than the tolerance `1e-10` and takes it for
zero, so the solver returns a vector with a zero entry, while the solver with exact zero
tests returns `(1, 1, 1, 1)`. For the equation whose only compound is `()`, a valid compound
with no element, the matrix has no row, its null space is the line through `c = (1)`, and
`balance` returns `NO_SOLUTION` as well. For `A2 + B4 -> A1073741827B` the null space is the
line through `c = (2147483654, 1, 4)` and the tolerance tests decide as exact tests do, yet
`balance` returns `SUCCESS` with the coefficients `(6, 1, 4)`: the first entry of `c` is not
an `int`, and the product `1073741827 * 4` that `reduceToIntegers` computes wraps around. -/
theorem C2_tolerance_no_element_or_overflow_fails :
    (parseEquationString "C1000000O + CH1000000 + H -> C1000001H1000001O".toList
        = .ok heavyEquation ∧
      1 ≤ heavyEquation.getTotalCompounds ∧ heavyEquation.isBalanced = false ∧
      (∀ compound ∈ heavyEquation.reactants_ ++ heavyEquation.products_,
        compound.1.isValid = true ∧ compound.1.getElementCount.Sorted) ∧
      ([1, 1, 1, 1] : List Int).length = heavyEquation.getTotalCompounds ∧
      (∀ ci ∈ ([1, 1, 1, 1] : List Int), 1 ≤ ci) ∧ listGcd [1, 1, 1, 1] = 1 ∧
      ([1, 1, 1, 1] : List Int).getLastD 0 ≤ 1000 ∧
      (∀ x : List ℚ, x.length = ([1, 1, 1, 1] : List Int).length →
        (IsNull (stoichiometricMatrix heavyEquation) x
          ↔ ∃ t : ℚ, x = ([1, 1, 1, 1] : List Int).map (fun ci : Int => t * ci))) ∧
      solutionOf heavyEquation = [999999999999 / 1000000000000, 1000001 / 1000000, 0, 1] ∧
      exactSolutionOf heavyEquation = [1, 1, 1, 1] ∧
      ∀ b : EquationBalancer, (b.balance heavyEquation).1.result = .NO_SOLUTION ∧
        (b.balance heavyEquation).1.coefficients = []) ∧
    (1 ≤ emptyGroupEquation.getTotalCompounds ∧ emptyGroupEquation.isBalanced = false ∧
      (∀ compound ∈ emptyGroupEquation.reactants_ ++ emptyGroupEquation.products_,
        compound.1.isValid = true ∧ compound.1.getElementCount.Sorted) ∧
      emptyGroupEquation.getAllElements = [] ∧
      ([1] : List Int).length = emptyGroupEquation.getTotalCompounds ∧
      (∀ ci ∈ ([1] : List Int), 1 ≤ ci) ∧ listGcd [1] = 1 ∧ ([1] : List Int).getLastD 0 ≤ 1000 ∧
      (∀ x : List ℚ, x.length = ([1] : List Int).length →
        (IsNull (stoichiometricMatrix emptyGroupEquation) x
          ↔ ∃ t : ℚ, x = ([1] : List Int).map (fun ci : Int => t * ci))) ∧
      ∀ b : EquationBalancer, (b.balance emptyGroupEquation).1.result = .NO_SOLUTION ∧
        (b.balance emptyGroupEquation).1.coefficients = []) ∧
    (parseEquationString "A2 + B4 -> A1073741827B".toList = .ok overflowEquation ∧
      1 ≤ overflowEquation.getTotalCompounds ∧ overflowEquation.isBalanced = false ∧
      (∀ compound ∈ overflowEquation.reactants_ ++ overflowEquation.products_,
        compound.1.isValid = true ∧ compound.1.getElementCount.Sorted) ∧
      overflowEquation.getAllElements ≠ [] ∧
      ([2147483654, 1, 4] : List Int).length = overflowEquation.getTotalCompounds ∧
      (∀ ci ∈ ([2147483654, 1, 4] : List Int), 1 ≤ ci) ∧ listGcd [2147483654, 1, 4] = 1 ∧
      ([2147483654, 1, 4] : List Int).getLastD 0 ≤ 1000 ∧
      (∀ x : List ℚ, x.length = ([2147483654, 1, 4] : List Int).length →
        (IsNull (stoichiometricMatrix overflowEquation) x
          ↔ ∃ t : ℚ, x = ([2147483654, 1, 4] : List Int).map (fun ci : Int => t * ci))) ∧
      solutionOf overflowEquation = exactSolutionOf overflowEquation ∧
      ∀ b : EquationBalancer, (b.balance overflowEquation).1.result = .SUCCESS ∧
        (b.balance overflowEquation).1.coefficients = [6, 1, 4]) := by
  refine ⟨⟨by decide!, by decide!, by decide!, by decide!, by decide!, by decide!, by decide!,
    by decide!, heavyEquation_null, by decide!, by decide!, fun b => ?_⟩,
    ⟨by decide!, by decide!, by decide!, by decide!, by decide!, by decide!, by decide!,
      by decide!, emptyGroupEquation_null, fun b => ?_⟩,
    ⟨by decide!, by decide!, by decide!, by decide!, by decide!, by decide!, by decide!,
      by decide!, by decide!, overflowEquation_null, by decide!, fun b => ?_⟩⟩
  · rw [balance_eq_of_fresh]
    exact ⟨by decide!, by decide!⟩
  · rw [balance_eq_of_fresh]
    exact ⟨by decide!, by decide!⟩
  · rw [balance_eq_of_fresh]
    exact ⟨by decide!, by decide!⟩

/-- C2 (amended) at `H2 + O2 -> H2O` with `c = (2, 1, 2)`. -/
theorem C2_complete_when_tolerance_exact_witness :
    (∀ x : List ℚ, x.length = ([2, 1, 2] : List Int).length →
      (IsNull (stoichiometricMatrix waterEquation) x
        ↔ ∃ t : ℚ, x = ([2, 1, 2] : List Int).map (fun ci : Int => t * ci))) ∧
    solutionOf waterEquation = exactSolutionOf waterEquation ∧
    (EquationBalancer.balance ⟨⟨[]⟩, []⟩ waterEquation).1.result = .SUCCESS ∧
    (EquationBalancer.balance ⟨⟨[]⟩, []⟩ waterEquation).1.coefficients = [2, 1, 2] :=
  ⟨waterEquation_null, by decide!,
    C2_complete_when_tolerance_exact ⟨⟨[]⟩, []⟩ waterEquation [2, 1, 2] (by decide!) (by decide!)
      (by decide!) (by decide!) (by decide!) (by decide!) (by decide!) (by decide!)
      waterEquation_null (by decide!) (by decide)⟩

/-! ## The branches of `balance` that end before the coefficients are installed -/

/-- The stoichiometric matrix of an equation without elements has no row. -/
theorem stoichiometricMatrix_of_no_element (equation : ChemicalEquation)
    (h : equation.getAllElements = []) : stoichiometricMatrix equation = [] := by
  have hlen := (stoichiometricMatrix_spec equation).1
  rw [h] at hlen
  exact List.length_eq_zero.mp hlen

/-- An equation without compounds has no element. -/
theorem getAllElements_of_no_compound (equation : ChemicalEquation)
    (h : equation.getTotalCompounds = 0) : equation.getAllElements = [] := by
  unfold ChemicalEquation.getTotalCompounds at h
  have h1 : equation.reactants_ = [] := List.length_eq_zero.mp (by omega)
  have h2 : equation.products_ = [] := List.length_eq_zero.mp (by omega)
  unfold ChemicalEquation.getAllElements
  rw [h1, h2]
  rfl

/-- The branch of `balance` on an empty solver result. -/
theorem balanceCore_of_empty_solution (equation : ChemicalEquation)
    (hbalanced : equation.isBalanced = false) (hsolution : solutionOf equation = []) :
    balanceCore equation
      = (⟨.NO_SOLUTION, [], "No solution exists for this equation", [], false⟩, equation) := by
  unfold balanceCore
  rw [hsolution]
  simp [hbalanced]

/-- The branch of `balance` on a coefficient that is zero or negative. -/
theorem balanceCore_of_bad_coefficient (equation : ChemicalEquation)
    (hbalanced : equation.isBalanced = false) (hsolution : solutionOf equation ≠ [])
    (hbad : ∃ c ∈ reduceToIntegers (solutionOf equation), c ≤ 0) :
    balanceCore equation
      = (⟨.NO_SOLUTION, [], "Invalid coefficients found (zero or negative)", [], false⟩,
          equation) := by
  have hempty : (solutionOf equation).isEmpty = false := by
    cases h : solutionOf equation with
    | nil => exact absurd h hsolution
    | cons a l => rfl
  have hany : (reduceToIntegers (solutionOf equation)).any (fun coeff => decide (coeff ≤ 0))
      = true := by
    rw [List.any_eq_true]
    obtain ⟨c, hc, hle⟩ := hbad
    exact ⟨c, hc, by simpa using hle⟩
  unfold balanceCore
  simp [hbalanced, hempty, hany]

/-- C12 fails as stated. The equation `4H2 + 2O2 -> 4H2O`, as `parseEquationString` builds
it, conserves every element with its current coefficients `4, 2, 4` (every entry of
`getAtomBalance` is zero), but its balanced flag is false, because `addReactant` and
`addProduct` reset it; `balance` runs the solver (its trace is not empty), returns `SUCCESS`
with the coefficients `2, 1, 2`, and changes the equation. -/
theorem C12_conserving_equation_is_solved_again :
    parseEquationString "4H2 + 2O2 -> 4H2O".toList = .ok doubledWaterEquation ∧
    doubledWaterEquation.reactants_.map (fun reactant => reactant.2) ++
      doubledWaterEquation.products_.map (fun product => product.2) = [4, 2, 4] ∧
    (∀ element ∈ getAtomBalance doubledWaterEquation, element.2 = 0) ∧
    (∀ element, imbalance doubledWaterEquation element = 0) ∧
    doubledWaterEquation.isBalanced = false ∧
    ∀ b : EquationBalancer,
      (b.balance doubledWaterEquation).1.result = .SUCCESS ∧
      (b.balance doubledWaterEquation).1.coefficients = [2, 1, 2] ∧
      (b.balance doubledWaterEquation).2.2 ≠ doubledWaterEquation ∧
      (b.balance doubledWaterEquation).2.1.solver_.steps_ ≠ [] := by
  have hv : (getAtomBalanceExact doubledWaterEquation).all (fun element => element.2 == 0)
      = true := by decide!
  refine ⟨by decide!, by decide!, by decide!, ?_, by decide!, fun b => ?_⟩
  · intro element
    rw [← (getAtomBalanceExact_count _ element).2]
    exact ElementMap.count_eq_zero_of_all _ hv element
  · rw [balance_eq_of_fresh]
    refine ⟨by decide!, by decide!, by decide!, by decide!⟩

/-- C12, amended: for every equation whose balanced flag is true (the flag that
`checkBalance` sets, at the end of `setCoefficients`, exactly when every element's imbalance
is zero, and that `addReactant` and `addProduct` reset), `balance` returns `ALREADY_BALANCED`
with the equation's current coefficients (reactants, then products) and
`conservationVerified = true`, leaves the equation unchanged, and leaves the solver trace
empty. -/
theorem C12_balanced_flag_short_circuits (b : EquationBalancer) (equation : ChemicalEquation)
    (h : equation.isBalanced = true) :
    (b.balance equation).1.result = .ALREADY_BALANCED ∧
    (b.balance equation).1.coefficients
      = equation.reactants_.map (fun reactant => reactant.2) ++
        equation.products_.map (fun product => product.2) ∧
    (b.balance equation).1.conservationVerified = true ∧
    (b.balance equation).1.atomBalance = getAtomBalance equation ∧
    (b.balance equation).2.2 = equation ∧
    (b.balance equation).2.1.solver_.steps_ = [] ∧
    ∀ equation0 : ChemicalEquation,
      equation0.checkBalance.isBalanced = validateAtomConservation equation0 ∧
      equation0.checkBalance.reactants_ = equation0.reactants_ ∧
      equation0.checkBalance.products_ = equation0.products_ := by
  have hb : b.balance equation
      = (⟨.ALREADY_BALANCED,
          equation.reactants_.map (fun reactant => reactant.2) ++
            equation.products_.map (fun product => product.2),
          "Equation is already balanced", getAtomBalance equation, true⟩,
        ((⟨b.solver_.clearSteps, []⟩ : EquationBalancer).addBalancingStep
          "Starting equation balancing process").addBalancingStep "Original equation: ",
        equation) := by
    unfold EquationBalancer.balance
    simp only [h, if_true]
  rw [hb]
  exact ⟨rfl, rfl, rfl, rfl, rfl, rfl, fun equation0 => ⟨rfl, rfl, rfl⟩⟩

/-- C12 (amended) at `H2 + O2 -> H2O` after `setCoefficients({2, 1, 2})`. -/
theorem C12_balanced_flag_short_circuits_witness :
    waterEquation.setCoefficients [2, 1, 2] = .ok balancedWaterEquation ∧
    balancedWaterEquation.isBalanced = true ∧
    (EquationBalancer.balance ⟨⟨[]⟩, []⟩ balancedWaterEquation).1.result = .ALREADY_BALANCED ∧
    (EquationBalancer.balance ⟨⟨[]⟩, []⟩ balancedWaterEquation).1.coefficients = [2, 1, 2] ∧
    (EquationBalancer.balance ⟨⟨[]⟩, []⟩ balancedWaterEquation).2.2 = balancedWaterEquation :=
  ⟨by decide!, by decide!,
    (C12_balanced_flag_short_circuits ⟨⟨[]⟩, []⟩ balancedWaterEquation (by decide!)).1,
    (C12_balanced_flag_short_circuits ⟨⟨[]⟩, []⟩ balancedWaterEquation (by decide!)).2.1,
    (C12_balanced_flag_short_circuits ⟨⟨[]⟩, []⟩ balancedWaterEquation (by decide!)).2.2.2.2.1⟩

/-- The solver returns the empty vector for an equation without elements. -/
theorem solutionOf_of_no_element (equation : ChemicalEquation)
    (h : equation.getAllElements = []) : solutionOf equation = [] := by
  unfold solutionOf
  rw [stoichiometricMatrix_of_no_element equation h]
  rfl

/-- C14 fails as stated. A freshly constructed `ChemicalEquation` (no compound, balanced
flag false) and the equation whose only compound is `()` (one compound, no element) both
make `balance` return `NO_SOLUTION`, with the message of an empty solver result, and not
`PARSING_ERROR`. -/
theorem C14_empty_equation_gives_no_solution :
    ChemicalEquation.create.getTotalCompounds = 0 ∧
    ChemicalEquation.create.isBalanced = false ∧
    (∀ b : EquationBalancer,
      (b.balance ChemicalEquation.create).1.result = .NO_SOLUTION ∧
      (b.balance ChemicalEquation.create).1.result ≠ .PARSING_ERROR ∧
      (b.balance ChemicalEquation.create).1.message = "No solution exists for this equation") ∧
    emptyGroupEquation.getTotalCompounds = 1 ∧
    emptyGroupEquation.getAllElements = [] ∧
    emptyGroupEquation.isBalanced = false ∧
    (∀ b : EquationBalancer,
      (b.balance emptyGroupEquation).1.result = .NO_SOLUTION ∧
      (b.balance emptyGroupEquation).1.result ≠ .PARSING_ERROR) := by
  refine ⟨by decide, by decide, fun b => ?_, by decide, by decide, by decide, fun b => ?_⟩
  · rw [balance_eq_of_fresh]
    exact ⟨by decide, by decide, by decide⟩
  · rw [balance_eq_of_fresh]
    exact ⟨by decide!, by decide!⟩

/-- C14, amended: for every equation whose balanced flag is false and whose compound list
is empty or whose set of distinct elements is empty, `balance` returns `NO_SOLUTION` (the
solver returns the empty vector for the matrix without rows), with an empty coefficient
list, the message "No solution exists for this equation" and the equation unchanged. -/
theorem C14_empty_equation_no_solution (b : EquationBalancer) (equation : ChemicalEquation)
    (hbalanced : equation.isBalanced = false)
    (hempty : equation.getTotalCompounds = 0 ∨ equation.getAllElements = []) :
    (b.balance equation).1.result = .NO_SOLUTION ∧
    (b.balance equation).1.coefficients = [] ∧
    (b.balance equation).1.message = "No solution exists for this equation" ∧
    (b.balance equation).1.conservationVerified = false ∧
    (b.balance equation).2.2 = equation := by
  have helements : equation.getAllElements = [] := by
    rcases hempty with h | h
    · exact getAllElements_of_no_compound equation h
    · exact h
  have hcore := balance_eq_core b equation
  rw [balanceCore_of_empty_solution equation hbalanced
    (solutionOf_of_no_element equation helements)] at hcore
  have h1 := congrArg Prod.fst hcore
  have h2 := congrArg Prod.snd hcore
  simp only [] at h1 h2
  rw [h1, h2]
  exact ⟨rfl, rfl, rfl, rfl, rfl⟩

/-- C14 (amended) at a freshly constructed equation. -/
theorem C14_empty_equation_no_solution_witness :
    ChemicalEquation.create.isBalanced = false ∧
    ChemicalEquation.create.getTotalCompounds = 0 ∧
    (EquationBalancer.balance ⟨⟨[]⟩, []⟩ ChemicalEquation.create).1.result = .NO_SOLUTION :=
  ⟨rfl, rfl,
    (C14_empty_equation_no_solution ⟨⟨[]⟩, []⟩ ChemicalEquation.create rfl (Or.inl rfl)).1⟩

/-- C15: for every equation whose balanced flag is false, if the solver returns a non-empty
vector and some entry of the output of `reduceToIntegers` is zero or negative, `balance`
returns `NO_SOLUTION` with an empty coefficient list and `conservationVerified = false`, and
the equation (its compounds, coefficients and balanced flag) is as before the call. -/
theorem C15_bad_coefficient_no_solution (b : EquationBalancer) (equation : ChemicalEquation)
    (hbalanced : equation.isBalanced = false) (hsolution : solutionOf equation ≠ [])
    (hbad : ∃ c ∈ reduceToIntegers (solutionOf equation), c ≤ 0) :
    (b.balance equation).1.result = .NO_SOLUTION ∧
    (b.balance equation).1.coefficients = [] ∧
    (b.balance equation).1.conservationVerified = false ∧
    (b.balance equation).2.2 = equation ∧
    solutionOf equation
      = (b.solver_.gaussianElimination (b.buildStoichiometricMatrix equation).1).1 := by
  have hcore := balance_eq_core b equation
  rw [balanceCore_of_bad_coefficient equation hbalanced hsolution hbad] at hcore
  have h1 := congrArg Prod.fst hcore
  have h2 := congrArg Prod.snd hcore
  simp only [] at h1 h2
  rw [h1, h2]
  exact ⟨rfl, rfl, rfl, rfl, rfl⟩

/-- C15 at `H2 + O2 -> H2`, where the solver returns `(1, 0, 1)`. -/
theorem C15_bad_coefficient_no_solution_witness :
    solutionOf oxygenLostEquation = [1, 0, 1] ∧
    reduceToIntegers (solutionOf oxygenLostEquation) = [1, 0, 1] ∧
    (EquationBalancer.balance ⟨⟨[]⟩, []⟩ oxygenLostEquation).1.result = .NO_SOLUTION ∧
    (EquationBalancer.balance ⟨⟨[]⟩, []⟩ oxygenLostEquation).2.2 = oxygenLostEquation :=
  ⟨by decide!, by decide!,
    (C15_bad_coefficient_no_solution ⟨⟨[]⟩, []⟩ oxygenLostEquation (by decide!) (by decide!)
      ⟨0, by decide!, by decide⟩).1,
    (C15_bad_coefficient_no_solution ⟨⟨[]⟩, []⟩ oxygenLostEquation (by decide!) (by decide!)
      ⟨0, by decide!, by decide⟩).2.2.2.1⟩

/-! ## Compounds built from rejected formulas and from unknown symbols -/

/-- What the constructor leaves for a formula that `parseFormula` rejects: not valid, molar
mass `0`, and the element counts accumulated before the exception. -/
theorem create_of_rejected (formula : List Char) (e : Exn)
    (h : (parseFormula formula).1 = .error e) :
    (ChemicalCompound.create formula).isValid = false ∧
    (ChemicalCompound.create formula).molarMass_ = 0 ∧
    (ChemicalCompound.create formula).getElementCount = (parseFormula formula).2 := by
  unfold ChemicalCompound.create ChemicalCompound.isValid ChemicalCompound.getElementCount
  rcases hp : parseFormula formula with ⟨outcome, elements⟩
  rw [hp] at h
  simp only [] at h
  subst h
  exact ⟨rfl, rfl, rfl⟩

/-- What the constructor leaves for a formula that `parseFormula` accepts: valid, with the
parsed element counts and the molar mass computed from them. -/
theorem create_of_accepted (formula clean : List Char)
    (h : (parseFormula formula).1 = .ok clean) :
    (ChemicalCompound.create formula).isValid = true ∧
    (ChemicalCompound.create formula).molarMass_
      = calculateMolarMass (parseFormula formula).2 ∧
    (ChemicalCompound.create formula).getElementCount = (parseFormula formula).2 := by
  unfold ChemicalCompound.create ChemicalCompound.isValid ChemicalCompound.getElementCount
  rcases hp : parseFormula formula with ⟨outcome, elements⟩
  rw [hp] at h
  simp only [] at h
  subst h
  exact ⟨rfl, rfl, rfl⟩

/-- C19 (the code at the failing input): `parseFormula` rejects `H2$O` at the character `$`,
after `H2` has been counted; the compound built from it is not valid and has molar mass `0`,
but its element map is not empty: it holds `H: 2`. -/
theorem C19_rejected_formula_keeps_counts :
    (parseFormula "H2$O".toList).1
      = .error (.invalidArgument "Invalid character in formula: $".toList) ∧
    (ChemicalCompound.create "H2$O".toList).isValid = false ∧
    (ChemicalCompound.create "H2$O".toList).molarMass_ = 0 ∧
    (ChemicalCompound.create "H2$O".toList).getElementCount = [("H".toList, 2)] ∧
    (ChemicalCompound.create "H2$O".toList).getElementCount ≠ [] := by
  refine ⟨by decide, by decide, by decide!, by decide, by decide⟩

theorem foldl_add_eq_sum {α : Type} (f : α → ℚ) (l : List α) (init : ℚ) :
    l.foldl (fun mass element => mass + f element) init = init + (l.map f).sum := by
  induction l generalizing init with
  | nil => simp
  | cons a l ih => rw [List.foldl_cons, ih, List.map_cons, List.sum_cons]; ring

/-- The molar mass as a sum over the element map. -/
theorem calculateMolarMass_eq_sum (elements : ElementMap) :
    calculateMolarMass elements
      = (elements.map (fun element => getAtomicMass element.1 * element.2)).sum := by
  unfold calculateMolarMass
  rw [foldl_add_eq_sum (fun element : List Char × Int => getAtomicMass element.1 * element.2)]
  ring

/-- An element symbol that is not in the table has atomic mass `0.0`. -/
theorem getAtomicMass_of_absent (symbol : List Char)
    (h : ∀ entry ∈ atomicMassTable, entry.1.toList ≠ symbol) : getAtomicMass symbol = 0 := by
  unfold getAtomicMass
  have hnone : atomicMassTable.find? (fun entry => entry.1.toList = symbol) = none := by
    rw [List.find?_eq_none]
    intro entry hentry
    simpa using h entry hentry
  rw [hnone]

theorem sum_map_filter_of_zero {α : Type} (f : α → ℚ) (p : α → Bool) (l : List α)
    (h : ∀ a ∈ l, p a = false → f a = 0) : (l.map f).sum = ((l.filter p).map f).sum := by
  induction l with
  | nil => rfl
  | cons a l ih =>
    have ih1 := ih (fun a1 ha1 => h a1 (List.mem_cons_of_mem _ ha1))
    rw [List.map_cons, List.sum_cons, List.filter_cons]
    cases hp : p a with
    | true => simp only [if_true, List.map_cons, List.sum_cons, ih1]
    | false =>
      rw [h a (List.mem_cons_self _ _) hp, ih1]
      simp

/-- C20 fails as stated. `Xx2O` is accepted by the parser and references the symbol `Xx`,
which is not in the table (`getAtomicMass` returns `0.0` for it); the compound built from it
is valid, and its molar mass is `15.999`, the mass of the oxygen atom, not `0`. -/
theorem C20_unknown_symbol_compound_is_valid :
    (parseFormula "Xx2O".toList).1 = .ok "Xx2O".toList ∧
    (ChemicalCompound.create "Xx2O".toList).getElementCount
      = [("O".toList, 1), ("Xx".toList, 2)] ∧
    (∀ entry ∈ atomicMassTable, entry.1.toList ≠ "Xx".toList) ∧
    getAtomicMass "Xx".toList = 0 ∧
    (ChemicalCompound.create "Xx2O".toList).isValid = true ∧
    (ChemicalCompound.create "Xx2O".toList).molarMass_ = 15999 / 1000 ∧
    (ChemicalCompound.create "Xx2O".toList).molarMass_ ≠ 0 := by
  refine ⟨by decide, by decide, by decide, by decide!, by decide, by decide!, by decide!⟩

/-- C20, amended: for every formula that the parser accepts and that references an element
symbol absent from the reference table, construction does not fail and the compound is
reported valid (`isValid() = true`); `getAtomicMass` returns `0` for the absent symbol, so
the molar mass is the sum, over the element map, of atomic mass times count, to which the
absent symbol contributes `0`. -/
theorem C20_unknown_symbol_counts_zero (formula clean symbol : List Char)
    (haccept : (parseFormula formula).1 = .ok clean)
    (hsymbol : ∃ count, (symbol, count) ∈ (ChemicalCompound.create formula).getElementCount)
    (habsent : ∀ entry ∈ atomicMassTable, entry.1.toList ≠ symbol) :
    (ChemicalCompound.create formula).isValid = true ∧
    getAtomicMass symbol = 0 ∧
    (∃ element ∈ (ChemicalCompound.create formula).getElementCount,
      element.1 = symbol ∧ getAtomicMass element.1 * element.2 = 0) ∧
    (ChemicalCompound.create formula).molarMass_
      = ((ChemicalCompound.create formula).getElementCount.map
          (fun element => getAtomicMass element.1 * element.2)).sum ∧
    (ChemicalCompound.create formula).molarMass_
      = (((ChemicalCompound.create formula).getElementCount.filter
          (fun element => decide (element.1 ≠ symbol))).map
          (fun element => getAtomicMass element.1 * element.2)).sum := by
  obtain ⟨hvalid, hmass, hcount⟩ := create_of_accepted formula clean haccept
  have hzero := getAtomicMass_of_absent symbol habsent
  have hsum : (ChemicalCompound.create formula).molarMass_
      = ((ChemicalCompound.create formula).getElementCount.map
          (fun element => getAtomicMass element.1 * element.2)).sum := by
    rw [hmass, hcount, calculateMolarMass_eq_sum]
  obtain ⟨count, hmem⟩ := hsymbol
  refine ⟨hvalid, hzero, ⟨(symbol, count), hmem, rfl, by simp [hzero]⟩, hsum, ?_⟩
  rw [hsum]
  apply sum_map_filter_of_zero
  intro element _ hp
  have he : element.1 = symbol := by simpa using hp
  rw [he, hzero, zero_mul]

/-- C20 (amended) at `Xx2O` with the absent symbol `Xx`. -/
theorem C20_unknown_symbol_counts_zero_witness :
    (ChemicalCompound.create "Xx2O".toList).isValid = true ∧
    getAtomicMass "Xx".toList = 0 ∧
    (ChemicalCompound.create "Xx2O".toList).molarMass_
      = ((ChemicalCompound.create "Xx2O".toList).getElementCount.map
          (fun element => getAtomicMass element.1 * element.2)).sum :=
  ⟨(C20_unknown_symbol_counts_zero "Xx2O".toList "Xx2O".toList "Xx".toList (by decide)
      ⟨2, by decide⟩ (by decide)).1,
    (C20_unknown_symbol_counts_zero "Xx2O".toList "Xx2O".toList "Xx".toList (by decide)
      ⟨2, by decide⟩ (by decide)).2.1,
    (C20_unknown_symbol_counts_zero "Xx2O".toList "Xx2O".toList "Xx".toList (by decide)
      ⟨2, by decide⟩ (by decide)).2.2.2.1⟩

/-! ## Validity is checked by `parseEquationString`, not by `balance` -/

/-- The loops "Parse reactants" and "Parse products" add valid compounds only. -/
theorem addCompounds_valid (isProduct : Bool) (compounds : List (List Char)) :
    ∀ (equation equation1 : ChemicalEquation),
      (∀ compound ∈ equation.reactants_ ++ equation.products_, compound.1.isValid = true) →
      addCompounds isProduct compounds equation = .ok equation1 →
      ∀ compound ∈ equation1.reactants_ ++ equation1.products_, compound.1.isValid = true := by
  induction compounds with
  | nil =>
    intro equation equation1 hvalid h
    simp only [addCompounds, Except.ok.injEq] at h
    rw [← h]
    exact hvalid
  | cons compoundStr rest ih =>
    intro equation equation1 hvalid h
    unfold addCompounds at h
    cases hp : parseCompoundWithCoefficient compoundStr with
    | error e => rw [hp] at h; cases h
    | ok parsed =>
      obtain ⟨formula, coeff⟩ := parsed
      rw [hp] at h
      simp only [] at h
      cases hv : (ChemicalCompound.create formula).isValid with
      | false => rw [hv] at h; simp at h
      | true =>
        rw [hv] at h
        simp only [Bool.not_true, Bool.false_eq_true, if_false] at h
        apply ih _ equation1 _ h
        intro compound hc
        cases isProduct with
        | false =>
          simp only [Bool.false_eq_true, if_false, ChemicalEquation.addReactant,
            List.mem_append, List.mem_singleton] at hc
          rcases hc with (hc | hc) | hc
          · exact hvalid compound (List.mem_append.mpr (Or.inl hc))
          · rw [hc]; exact hv
          · exact hvalid compound (List.mem_append.mpr (Or.inr hc))
        | true =>
          simp only [if_true, ChemicalEquation.addProduct, List.mem_append,
            List.mem_singleton] at hc
          rcases hc with hc | hc | hc
          · exact hvalid compound (List.mem_append.mpr (Or.inl hc))
          · exact hvalid compound (List.mem_append.mpr (Or.inr hc))
          · rw [hc]; exact hv

/-- C13 fails as stated. The equation with the reactants `H2$O` and `O2` and the product
`H2O` contains a compound with `isValid() = false` (built from `H2$O`, which keeps the count
`H: 2` read before the rejected character); `balance` does not look at `isValid()`: it runs
the solver (its trace is not empty) and returns `SUCCESS` with the coefficients `2, 1, 2`.
The validity check is in `parseEquationString`, which throws for the strings
`H2$O + O2 -> H2O` and `h2O + O2 -> H2O`. -/
theorem C13_invalid_compound_is_balanced :
    (ChemicalCompound.create "H2$O".toList).isValid = false ∧
    (ChemicalCompound.create "H2$O".toList, 1) ∈ invalidCompoundEquation.reactants_ ∧
    (∀ b : EquationBalancer,
      (b.balance invalidCompoundEquation).1.result = .SUCCESS ∧
      (b.balance invalidCompoundEquation).1.result ≠ .PARSING_ERROR ∧
      (b.balance invalidCompoundEquation).1.coefficients = [2, 1, 2] ∧
      (b.balance invalidCompoundEquation).2.1.solver_.steps_ ≠ []) ∧
    parseEquationString "H2$O + O2 -> H2O".toList
      = .error (.invalidArgument "Invalid compound format: H2$O".toList) ∧
    parseEquationString "h2O + O2 -> H2O".toList
      = .error (.invalidArgument "Invalid reactant: h2O".toList) := by
  refine ⟨by decide, by decide, fun b => ?_, by decide, by decide⟩
  rw [balance_eq_of_fresh]
  exact ⟨by decide!, by decide!, by decide!, by decide!⟩

/-- C13, amended: every equation that `parseEquationString` returns contains valid compounds
only; for an equation string in which some compound is built with `isValid() = false`, it
throws instead of returning an equation, so that no such equation reaches `balance` and the
solver is not run on it.  (`balance` itself does not check `isValid()`.) -/
theorem C13_parsed_equation_has_valid_compounds (equationStr : List Char)
    (equation : ChemicalEquation) (h : parseEquationString equationStr = .ok equation) :
    ∀ compound ∈ equation.reactants_ ++ equation.products_, compound.1.isValid = true := by
  unfold parseEquationString at h
  simp only [] at h
  split at h
  · rename_i reactantSide productSide _
    cases h1 : addCompounds false (splitCompounds reactantSide) ChemicalEquation.create with
    | error e => rw [h1] at h; cases h
    | ok equation0 =>
      rw [h1] at h
      simp only [] at h
      have hv0 := addCompounds_valid false _ ChemicalEquation.create equation0
        (by intro compound hc; simp [ChemicalEquation.create] at hc) h1
      exact addCompounds_valid true _ equation0 equation hv0 h
  · cases h

/-- C13 (amended) at `H2 + O2 -> H2O`. -/
theorem C13_parsed_equation_has_valid_compounds_witness :
    parseEquationString "H2 + O2 -> H2O".toList = .ok waterEquation ∧
    ∀ compound ∈ waterEquation.reactants_ ++ waterEquation.products_,
      compound.1.isValid = true :=
  ⟨by decide!,
    C13_parsed_equation_has_valid_compounds "H2 + O2 -> H2O".toList waterEquation (by decide!)⟩

/-! ## Cleaning in one pass -/

theorem stripTags_nil : stripTags [] = [] := by
  unfold stripTags
  rfl

theorem stripTags_cons (c : Char) (rest : List Char) :
    stripTags (c :: rest)
      = if startsWithTag (c :: rest) then stripTags (rest.drop 2)
        else if isspace c then stripTags rest
        else c :: stripTags rest := by
  conv => lhs; unfold stripTags

theorem startsWithTag_iff (s : List Char) :
    startsWithTag s = true ↔ ∃ x rest, x ∈ stateChars ∧ s = '(' :: x :: ')' :: rest := by
  constructor
  · intro h
    unfold startsWithTag at h
    split at h
    · rename_i x rest
      exact ⟨x, rest, by simpa using h, rfl⟩
    · cases h
  · rintro ⟨x, rest, hx, rfl⟩
    simp [startsWithTag, hx]

theorem startsWithTag_of_space (c : Char) (rest : List Char) (h : isspace c = true) :
    startsWithTag (c :: rest) = false := by
  cases hs : startsWithTag (c :: rest) with
  | false => rfl
  | true =>
    obtain ⟨x, r, _, he⟩ := (startsWithTag_iff _).mp hs
    simp only [List.cons.injEq] at he
    rw [he.1] at h
    exact absurd h (by decide)

theorem stripTags_tag (x : Char) (rest : List Char) (hx : x ∈ stateChars) :
    stripTags ('(' :: x :: ')' :: rest) = stripTags rest := by
  rw [stripTags_cons, (startsWithTag_iff _).mpr ⟨x, rest, hx, rfl⟩]
  rfl

theorem stripTags_space (c : Char) (rest : List Char) (h : isspace c = true) :
    stripTags (c :: rest) = stripTags rest := by
  rw [stripTags_cons, startsWithTag_of_space c rest h, h]
  rfl

theorem stripTags_char (c : Char) (rest : List Char) (h : isspace c = false)
    (ht : startsWithTag (c :: rest) = false) : stripTags (c :: rest) = c :: stripTags rest := by
  rw [stripTags_cons, ht, h]
  rfl

/-- Leading whitespace does not matter to `stripTags`. -/
theorem stripTags_dropWhile (s : List Char) : stripTags (s.dropWhile isspace) = stripTags s := by
  induction s with
  | nil => rfl
  | cons c rest ih =>
    cases h : isspace c with
    | true => rw [List.dropWhile_cons_of_pos h, ih, stripTags_space c rest h]
    | false => rw [List.dropWhile_cons_of_neg (by simp [h])]

theorem dropWhile_length_le (p : Char → Bool) (s : List Char) :
    (s.dropWhile p).length ≤ s.length := by
  induction s with
  | nil => simp
  | cons c rest ih =>
    rw [List.dropWhile_cons]
    split
    · simp only [List.length_cons]; omega
    · exact le_refl _

/-- A match of the state regex at the head: what is left is shorter and strips to the same
text. -/
theorem matchStateTag_some (s rest1 : List Char) (h : matchStateTag s = some rest1) :
    rest1.length + 3 ≤ s.length ∧ stripTags s = stripTags rest1 := by
  unfold matchStateTag at h
  split at h
  · rename_i x rest heq
    split at h
    · rename_i hx
      simp only [Option.some.injEq] at h
      subst h
      constructor
      · have h1 := dropWhile_length_le isspace s
        have h2 := dropWhile_length_le isspace rest
        rw [heq] at h1
        simp only [List.length_cons] at h1
        omega
      · rw [← stripTags_dropWhile s, heq, stripTags_tag x rest hx, stripTags_dropWhile]
    · cases h
  · cases h

/-- No match of the state regex at a head that is not whitespace: no state tag there. -/
theorem startsWithTag_of_no_match (c : Char) (rest : List Char) (hc : isspace c = false)
    (h : matchStateTag (c :: rest) = none) : startsWithTag (c :: rest) = false := by
  cases hs : startsWithTag (c :: rest) with
  | false => rfl
  | true =>
    exfalso
    obtain ⟨x, r, hx, he⟩ := (startsWithTag_iff _).mp hs
    unfold matchStateTag at h
    rw [List.dropWhile_cons_of_neg (by simp [hc]), he] at h
    simp [hx] at h

/-- The two regex replacements of `parseFormula` remove the state tags and the whitespace. -/
theorem removeStateTags_filter (fuel : Nat) :
    ∀ s : List Char, s.length ≤ fuel →
      (removeStateTags fuel s).filter (fun c => !isspace c) = stripTags s := by
  induction fuel with
  | zero =>
    intro s hs
    have : s = [] := List.length_eq_zero.mp (by omega)
    subst this
    rw [stripTags_nil]
    rfl
  | succ fuel ih =>
    intro s hs
    cases s with
    | nil =>
      rw [stripTags_nil]
      rfl
    | cons c rest =>
      simp only [List.length_cons] at hs
      unfold removeStateTags
      cases hm : matchStateTag (c :: rest) with
      | some rest1 =>
        obtain ⟨hlen, hstrip⟩ := matchStateTag_some _ _ hm
        simp only [List.length_cons] at hlen
        simp only []
        rw [ih rest1 (by omega), hstrip]
      | none =>
        simp only []
        rw [List.filter_cons]
        cases hc : isspace c with
        | true =>
          simp only [Bool.not_true, Bool.false_eq_true, if_false]
          rw [ih rest (by omega), stripTags_space c rest hc]
        | false =>
          simp only [Bool.not_false, if_true]
          rw [ih rest (by omega),
            stripTags_char c rest hc (startsWithTag_of_no_match c rest hc hm)]

theorem cleanFormula_eq_stripTags (formula : List Char) :
    cleanFormula formula = stripTags formula :=
  removeStateTags_filter formula.length formula (le_refl _)

/-! ## Whitespace and state tags -/

theorem parseFormula_congr (formula1 formula2 : List Char)
    (h : cleanFormula formula1 = cleanFormula formula2) :
    parseFormula formula1 = parseFormula formula2 := by
  unfold parseFormula
  rw [h]

theorem create_congr (formula1 formula2 : List Char)
    (h : cleanFormula formula1 = cleanFormula formula2) :
    (ChemicalCompound.create formula1).isValid = (ChemicalCompound.create formula2).isValid ∧
    (ChemicalCompound.create formula1).getElementCount
      = (ChemicalCompound.create formula2).getElementCount ∧
    (ChemicalCompound.create formula1).molarMass_
      = (ChemicalCompound.create formula2).molarMass_ := by
  unfold ChemicalCompound.create ChemicalCompound.isValid ChemicalCompound.getElementCount
  rw [parseFormula_congr formula1 formula2 h]
  rcases parseFormula formula2 with ⟨outcome, elements⟩
  cases outcome <;> exact ⟨rfl, rfl, rfl⟩

theorem not_space_of_stateChar (x : Char) (hx : x ∈ stateChars) :
    isspace x = false ∧ x ≠ '(' := by
  simp only [stateChars, List.mem_cons, List.mem_singleton, List.not_mem_nil, or_false] at hx
  rcases hx with h | h | h | h | h <;> subst h <;> exact ⟨by decide, by decide⟩

/-- A character of the spaced string that is neither whitespace nor `(` was copied. -/
theorem SpacedOutsideTags.head {formula spaced : List Char} {c : Char}
    (h : SpacedOutsideTags formula (c :: spaced)) (hs : isspace c = false) (hc : c ≠ '(') :
    ∃ formula1, formula = c :: formula1 ∧ SpacedOutsideTags formula1 spaced := by
  cases h with
  | space w hw h1 => rw [hw] at hs; cases hs
  | keep c _ h1 => exact ⟨_, rfl, h1⟩
  | tag x _ h1 => exact absurd rfl hc

/-- Whitespace inserted outside the state tags does not change the stripped text. -/
theorem SpacedOutsideTags.stripTags_eq {formula spaced : List Char}
    (h : SpacedOutsideTags formula spaced) : stripTags spaced = stripTags formula := by
  induction h with
  | done => rfl
  | space w hw _ ih => rw [stripTags_space w _ hw, ih]
  | tag x hx _ ih => rw [stripTags_tag x _ hx, stripTags_tag x _ hx, ih]
  | @keep c formula spaced ht h1 ih =>
    have hts : startsWithTag (c :: spaced) = false := by
      cases hs : startsWithTag (c :: spaced) with
      | false => rfl
      | true =>
        exfalso
        obtain ⟨x, r, hx, he⟩ := (startsWithTag_iff _).mp hs
        simp only [List.cons.injEq] at he
        obtain ⟨hc, hsp⟩ := he
        subst hsp
        obtain ⟨hxs, hxp⟩ := not_space_of_stateChar x hx
        obtain ⟨formula1, hf1, h2⟩ := SpacedOutsideTags.head h1 hxs hxp
        obtain ⟨formula2, hf2, _⟩ := SpacedOutsideTags.head h2 (by decide) (by decide)
        rw [hf1, hf2, hc, (startsWithTag_iff _).mpr ⟨x, formula2, hx, rfl⟩] at ht
        cases ht
    rw [stripTags_cons, stripTags_cons, ht, hts, ih]
    simp

/-- Appending a state tag `(x)` does not change the stripped text. -/
theorem stripTags_append_tag (x : Char) (hx : x ∈ stateChars) (n : Nat) :
    ∀ formula : List Char, formula.length ≤ n →
      stripTags (formula ++ ['(', x, ')']) = stripTags formula := by
  induction n with
  | zero =>
    intro formula hlen
    have : formula = [] := List.length_eq_zero.mp (by omega)
    subst this
    rw [List.nil_append, stripTags_tag x [] hx]
  | succ n ih =>
    intro formula hlen
    cases formula with
    | nil => rw [List.nil_append, stripTags_tag x [] hx]
    | cons c rest =>
      simp only [List.length_cons] at hlen
      cases ht : startsWithTag (c :: rest) with
      | true =>
        obtain ⟨y, r, hy, he⟩ := (startsWithTag_iff _).mp ht
        rw [he]
        simp only [List.cons_append]
        rw [stripTags_tag y _ hy, stripTags_tag y _ hy]
        apply ih
        have : rest.length = r.length + 2 := by
          simp only [List.cons.injEq] at he
          rw [he.2]
          rfl
        omega
      | false =>
        have hts : startsWithTag (c :: rest ++ ['(', x, ')']) = false := by
          cases hs : startsWithTag (c :: rest ++ ['(', x, ')']) with
          | false => rfl
          | true =>
            exfalso
            obtain ⟨y, r, hy, he⟩ := (startsWithTag_iff _).mp hs
            obtain ⟨hys, hyp⟩ := not_space_of_stateChar y hy
            simp only [List.cons_append, List.cons.injEq] at he
            obtain ⟨hc, hrest⟩ := he
            cases rest with
            | nil =>
              simp only [List.nil_append, List.cons.injEq] at hrest
              exact hyp hrest.1.symm
            | cons a rest1 =>
              cases rest1 with
              | nil =>
                simp only [List.cons_append, List.nil_append, List.cons.injEq] at hrest
                exact absurd hrest.2.1 (by decide)
              | cons a1 rest2 =>
                simp only [List.cons_append, List.cons.injEq] at hrest
                rw [hc, hrest.1, hrest.2.1,
                  (startsWithTag_iff _).mpr ⟨y, rest2, hy, rfl⟩] at ht
                cases ht
        simp only [List.cons_append] at hts ⊢
        rw [stripTags_cons, stripTags_cons, ht, hts, ih rest (by omega)]
        simp

theorem SpacedOutsideTags.spaced {formula spaced : List Char}
    (h : SpacedOutsideTags formula spaced) : Spaced formula spaced := by
  induction h with
  | done => exact Spaced.done
  | space w hw _ ih => exact Spaced.space w hw ih
  | keep c _ _ ih => exact Spaced.keep c ih
  | tag x _ _ ih => exact Spaced.keep '(' (Spaced.keep x (Spaced.keep ')' ih))

/-- C17 (the code at the failing input): the state regex `\s*\([slgaq]\)\s*` removes a
parenthesised single letter, so for every formula the tags `(s)`, `(l)` and `(g)` are
stripped: the formula followed by one of them is cleaned to the same text, hence accepted
exactly when the formula is, with the same element counts.  The tag `(aq)` is not matched:
`NaCl` is valid with counts `Cl: 1, Na: 1`, while `NaCl(aq)` is cleaned to itself and
rejected at the character `a`. -/
theorem C17_aq_tag_not_stripped :
    (∀ (formula : List Char) (x : Char), x ∈ ['s', 'l', 'g'] →
      cleanFormula (formula ++ ['(', x, ')']) = cleanFormula formula ∧
      (ChemicalCompound.create (formula ++ ['(', x, ')'])).isValid
        = (ChemicalCompound.create formula).isValid ∧
      (ChemicalCompound.create (formula ++ ['(', x, ')'])).getElementCount
        = (ChemicalCompound.create formula).getElementCount) ∧
    (ChemicalCompound.create "NaCl".toList).isValid = true ∧
    (ChemicalCompound.create "NaCl".toList).getElementCount
      = [("Cl".toList, 1), ("Na".toList, 1)] ∧
    matchStateTag "(aq)".toList = none ∧
    cleanFormula "NaCl(aq)".toList = "NaCl(aq)".toList ∧
    (parseFormula "NaCl(aq)".toList).1
      = .error (.invalidArgument "Invalid character in formula: a".toList) ∧
    (ChemicalCompound.create "NaCl(aq)".toList).isValid = false := by
  refine ⟨fun formula x hx => ?_, by decide, by decide, by decide, by decide, by decide,
    by decide⟩
  have hstate : x ∈ stateChars := by
    simp only [List.mem_cons, List.mem_singleton, List.not_mem_nil, or_false] at hx
    rcases hx with h | h | h <;> subst h <;> decide
  have hclean : cleanFormula (formula ++ ['(', x, ')']) = cleanFormula formula := by
    rw [cleanFormula_eq_stripTags, cleanFormula_eq_stripTags]
    exact stripTags_append_tag x hstate formula.length formula (le_refl _)
  have hc := create_congr _ _ hclean
  exact ⟨hclean, hc.1, hc.2.1⟩

/-- C18 fails as stated. `H2O( s)` is `H2O(s)` with one space inserted; `H2O(s)` is cleaned
to `H2O` and accepted, while in `H2O( s)` the state regex, which runs before the whitespace
is removed, finds no tag: the text is cleaned to `H2O(s)` and rejected at the character
`s`. -/
theorem C18_space_inside_tag_rejected :
    Spaced "H2O(s)".toList "H2O( s)".toList ∧
    cleanFormula "H2O(s)".toList = "H2O".toList ∧
    (ChemicalCompound.create "H2O(s)".toList).isValid = true ∧
    (ChemicalCompound.create "H2O(s)".toList).getElementCount
      = [("H".toList, 2), ("O".toList, 1)] ∧
    cleanFormula "H2O( s)".toList = "H2O(s)".toList ∧
    (parseFormula "H2O( s)".toList).1
      = .error (.invalidArgument "Invalid character in formula: s".toList) ∧
    (ChemicalCompound.create "H2O( s)".toList).isValid = false := by
  refine ⟨?_, by decide, by decide, by decide, by decide, by decide, by decide⟩
  show Spaced ['H', '2', 'O', '(', 's', ')'] ['H', '2', 'O', '(', ' ', 's', ')']
  exact Spaced.keep 'H' (Spaced.keep '2' (Spaced.keep 'O' (Spaced.keep '('
    (Spaced.space ' ' (by decide) (Spaced.keep 's' (Spaced.keep ')' Spaced.done))))))

/-- C18, amended: for every formula string `F` and every string `F'` obtained from `F` by
inserting whitespace characters at arbitrary positions other than between the parentheses of
a state tag `(x)` of `F` (`x` one of `s`, `l`, `g`, `a`, `q`), `F'` is cleaned to the same
text as `F`, so it is accepted exactly when `F` is, and both yield the same element counts
(and the same outcome of `parseFormula`, and the same molar mass). -/
theorem C18_whitespace_outside_tags (formula spaced : List Char)
    (h : SpacedOutsideTags formula spaced) :
    Spaced formula spaced ∧
    cleanFormula spaced = cleanFormula formula ∧
    parseFormula spaced = parseFormula formula ∧
    (ChemicalCompound.create spaced).isValid = (ChemicalCompound.create formula).isValid ∧
    (ChemicalCompound.create spaced).getElementCount
      = (ChemicalCompound.create formula).getElementCount ∧
    (ChemicalCompound.create spaced).molarMass_
      = (ChemicalCompound.create formula).molarMass_ := by
  have hclean : cleanFormula spaced = cleanFormula formula := by
    rw [cleanFormula_eq_stripTags, cleanFormula_eq_stripTags]
    exact h.stripTags_eq
  have hc := create_congr _ _ hclean
  exact ⟨h.spaced, hclean, parseFormula_congr _ _ hclean, hc.1, hc.2.1, hc.2.2⟩

/-- C18 (amended) at `H2O(s)` and ` H2 O (s) `. -/
theorem C18_whitespace_outside_tags_witness :
    SpacedOutsideTags ['H', '2', 'O', '(', 's', ')']
      [' ', 'H', '2', ' ', 'O', ' ', '(', 's', ')', ' '] ∧
    (ChemicalCompound.create [' ', 'H', '2', ' ', 'O', ' ', '(', 's', ')', ' ']).isValid
      = (ChemicalCompound.create ['H', '2', 'O', '(', 's', ')']).isValid ∧
    (ChemicalCompound.create [' ', 'H', '2', ' ', 'O', ' ', '(', 's', ')', ' ']).getElementCount
      = (ChemicalCompound.create ['H', '2', 'O', '(', 's', ')']).getElementCount :=
  ⟨SpacedOutsideTags.space ' ' (by decide) (SpacedOutsideTags.keep 'H' (by decide)
      (SpacedOutsideTags.keep '2' (by decide) (SpacedOutsideTags.space ' ' (by decide)
      (SpacedOutsideTags.keep 'O' (by decide) (SpacedOutsideTags.space ' ' (by decide)
      (SpacedOutsideTags.tag 's' (by decide) (SpacedOutsideTags.space ' ' (by decide)
      SpacedOutsideTags.done))))))),
    (C18_whitespace_outside_tags ['H', '2', 'O', '(', 's', ')']
      [' ', 'H', '2', ' ', 'O', ' ', '(', 's', ')', ' ']
      (SpacedOutsideTags.space ' ' (by decide) (SpacedOutsideTags.keep 'H' (by decide)
      (SpacedOutsideTags.keep '2' (by decide) (SpacedOutsideTags.space ' ' (by decide)
      (SpacedOutsideTags.keep 'O' (by decide) (SpacedOutsideTags.space ' ' (by decide)
      (SpacedOutsideTags.tag 's' (by decide) (SpacedOutsideTags.space ' ' (by decide)
      SpacedOutsideTags.done))))))))).2.2.2.1,
    (C18_whitespace_outside_tags ['H', '2', 'O', '(', 's', ')']
      [' ', 'H', '2', ' ', 'O', ' ', '(', 's', ')', ' ']
      (SpacedOutsideTags.space ' ' (by decide) (SpacedOutsideTags.keep 'H' (by decide)
      (SpacedOutsideTags.keep '2' (by decide) (SpacedOutsideTags.space ' ' (by decide)
      (SpacedOutsideTags.keep 'O' (by decide) (SpacedOutsideTags.space ' ' (by decide)
      (SpacedOutsideTags.tag 's' (by decide) (SpacedOutsideTags.space ' ' (by decide)
      SpacedOutsideTags.done))))))))).2.2.2.2.1⟩

/-! ## The reads and the recursive calls of `parseGroup` -/

theorem lowerLoopLog_fst (formula : List Char) (start end_ : Nat) (n i : Nat)
    (element : List Char) :
    (lowerLoopLog formula start end_ n i element).1 = lowerLoop formula n i element := by
  induction n generalizing i element with
  | zero => rfl
  | succ n ih =>
    unfold lowerLoopLog lowerLoop
    cases charAt formula i with
    | error e => rfl
    | ok c =>
      simp only []
      split
      · exact ih _ _
      · rfl

theorem digitLoopLog_fst (formula : List Char) (start end_ : Nat) (n i : Nat) (count : Int) :
    (digitLoopLog formula start end_ n i count).1 = digitLoop formula n i count := by
  induction n generalizing i count with
  | zero => rfl
  | succ n ih =>
    unfold digitLoopLog digitLoop
    cases charAt formula i with
    | error e => rfl
    | ok c =>
      simp only []
      split
      · exact ih _ _
      · rfl

theorem readCountLog_fst (formula : List Char) (start end_ i : Nat) :
    (readCountLog formula start end_ i).1 = readCount formula end_ i := by
  unfold readCountLog readCount
  split
  · cases charAt formula i with
    | error e => rfl
    | ok c =>
      simp only []
      split
      · exact digitLoopLog_fst _ _ _ _ _ _
      · rfl
  · rfl

theorem depthLoopLog_fst (formula : List Char) (start end_ : Nat) (n i : Nat) (depth : Int) :
    (depthLoopLog formula start end_ n i depth).1 = depthLoop formula n i depth := by
  induction n generalizing i depth with
  | zero => rfl
  | succ n ih =>
    unfold depthLoopLog depthLoop
    split
    · cases charAt formula i with
      | error e => rfl
      | ok c => exact ih _ _
    · rfl

theorem lowerLoopLog_inBounds (formula : List Char) (start end_ : Nat)
    (hend : end_ ≤ formula.length) (n i : Nat) (element : List Char) (hi : start ≤ i)
    (hn : i + n ≤ end_) :
    ∀ a ∈ (lowerLoopLog formula start end_ n i element).2, a.inBounds formula := by
  induction n generalizing i element with
  | zero => intro a ha; simp [lowerLoopLog] at ha
  | succ n ih =>
    have hread : (Access.read start end_ i).inBounds formula := ⟨hi, by omega, hend⟩
    unfold lowerLoopLog
    cases charAt formula i with
    | error e =>
      intro a ha
      simp only [List.mem_singleton] at ha
      rw [ha]; exact hread
    | ok c =>
      simp only []
      split
      · intro a ha
        rcases List.mem_cons.mp ha with h | h
        · rw [h]; exact hread
        · exact ih (i + 1) _ (by omega) (by omega) a h
      · intro a ha
        simp only [List.mem_singleton] at ha
        rw [ha]; exact hread

theorem digitLoopLog_inBounds (formula : List Char) (start end_ : Nat)
    (hend : end_ ≤ formula.length) (n i : Nat) (count : Int) (hi : start ≤ i)
    (hn : i + n ≤ end_) :
    ∀ a ∈ (digitLoopLog formula start end_ n i count).2, a.inBounds formula := by
  induction n generalizing i count with
  | zero => intro a ha; simp [digitLoopLog] at ha
  | succ n ih =>
    have hread : (Access.read start end_ i).inBounds formula := ⟨hi, by omega, hend⟩
    unfold digitLoopLog
    cases charAt formula i with
    | error e =>
      intro a ha
      simp only [List.mem_singleton] at ha
      rw [ha]; exact hread
    | ok c =>
      simp only []
      split
      · intro a ha
        rcases List.mem_cons.mp ha with h | h
        · rw [h]; exact hread
        · exact ih (i + 1) _ (by omega) (by omega) a h
      · intro a ha
        simp only [List.mem_singleton] at ha
        rw [ha]; exact hread

theorem readCountLog_inBounds (formula : List Char) (start end_ : Nat)
    (hend : end_ ≤ formula.length) (i : Nat) (hi : start ≤ i) :
    ∀ a ∈ (readCountLog formula start end_ i).2, a.inBounds formula := by
  unfold readCountLog
  split
  · rename_i hlt
    have hread : (Access.read start end_ i).inBounds formula := ⟨hi, hlt, hend⟩
    cases charAt formula i with
    | error e =>
      intro a ha
      simp only [List.mem_singleton] at ha
      rw [ha]; exact hread
    | ok c =>
      simp only []
      split
      · intro a ha
        rcases List.mem_cons.mp ha with h | h
        · rw [h]; exact hread
        · exact digitLoopLog_inBounds formula start end_ hend _ i 0 hi (by omega) a h
      · intro a ha
        simp only [List.mem_singleton] at ha
        rw [ha]; exact hread
  · intro a ha; simp at ha

theorem depthLoopLog_inBounds (formula : List Char) (start end_ : Nat)
    (hend : end_ ≤ formula.length) (n i : Nat) (depth : Int) (hi : start ≤ i)
    (hn : i + n ≤ end_) :
    ∀ a ∈ (depthLoopLog formula start end_ n i depth).2, a.inBounds formula := by
  induction n generalizing i depth with
  | zero => intro a ha; simp [depthLoopLog] at ha
  | succ n ih =>
    have hread : (Access.read start end_ i).inBounds formula := ⟨hi, by omega, hend⟩
    unfold depthLoopLog
    split
    · cases charAt formula i with
      | error e =>
        intro a ha
        simp only [List.mem_singleton] at ha
        rw [ha]; exact hread
      | ok c =>
        intro a ha
        rcases List.mem_cons.mp ha with h | h
        · rw [h]; exact hread
        · exact ih (i + 1) _ (by omega) (by omega) a h
    · intro a ha; simp at ha

/-- Erasing the log of `parseGroupAuxLog` gives `parseGroupAux`. -/
theorem parseGroupAuxLog_fst (formula : List Char) :
    ∀ (fuel start i end_ : Nat) (multiplier : Int) (elements : ElementMap),
      (parseGroupAuxLog formula fuel start i end_ multiplier elements).1
        = parseGroupAux formula fuel i end_ multiplier elements := by
  intro fuel
  induction fuel with
  | zero =>
    intro start i end_ multiplier elements
    unfold parseGroupAuxLog parseGroupAux
    rfl
  | succ fuel ih =>
    intro start i end_ multiplier elements
    unfold parseGroupAuxLog parseGroupAux
    by_cases hlt : i < end_
    · simp only [hlt, if_true]
      cases charAt formula i with
      | error e => rfl
      | ok c =>
        simp only []
        by_cases hu : c.isUpper = true
        · simp only [hu, if_true]
          have h1 := lowerLoopLog_fst formula start end_ (end_ - (i + 1)) (i + 1) [c]
          rcases hl : lowerLoopLog formula start end_ (end_ - (i + 1)) (i + 1) [c]
            with ⟨res1, log1⟩
          rw [hl] at h1
          simp only [] at h1
          rw [← h1]
          cases res1 with
          | error e => rfl
          | ok p1 =>
            obtain ⟨i1, element⟩ := p1
            simp only []
            have h2 := readCountLog_fst formula start end_ i1
            rcases hr : readCountLog formula start end_ i1 with ⟨res2, log2⟩
            rw [hr] at h2
            simp only [] at h2
            rw [← h2]
            cases res2 with
            | error e => rfl
            | ok p2 =>
              obtain ⟨i2, count⟩ := p2
              simp only []
              exact ih _ _ _ _ _
        · simp only [hu, if_false]
          by_cases hp : c = '('
          · simp only [hp, if_true]
            have h1 := depthLoopLog_fst formula start end_ (end_ - (i + 1)) (i + 1) 1
            rcases hl : depthLoopLog formula start end_ (end_ - (i + 1)) (i + 1) 1
              with ⟨res1, log1⟩
            rw [hl] at h1
            simp only [] at h1
            rw [← h1]
            cases res1 with
            | error e => rfl
            | ok i1 =>
              simp only []
              have h2 := readCountLog_fst formula start end_ i1
              rcases hr : readCountLog formula start end_ i1 with ⟨res2, log2⟩
              rw [hr] at h2
              simp only [] at h2
              rw [← h2]
              cases res2 with
              | error e => rfl
              | ok p2 =>
                obtain ⟨i2, groupMultiplier⟩ := p2
                simp only []
                have h3 := ih (i + 1) (i + 1) (i1 - 1) (wrapInt (multiplier * groupMultiplier)) elements
                rcases hg : parseGroupAuxLog formula fuel (i + 1) (i + 1) (i1 - 1)
                  (wrapInt (multiplier * groupMultiplier)) elements with ⟨res3, log3⟩
                rw [hg] at h3
                simp only [] at h3
                rw [← h3]
                obtain ⟨outcome, elements1⟩ := res3
                cases outcome with
                | error e => rfl
                | ok u =>
                  cases u
                  simp only []
                  exact ih _ _ _ _ _
          · simp only [hp, if_false, Bool.false_eq_true]
    · simp only [hlt, if_false]

/-- Every read and every recursive call that `parseGroupAuxLog` logs is within bounds. -/
theorem parseGroupAuxLog_inBounds (formula : List Char) :
    ∀ (fuel start i end_ : Nat) (multiplier : Int) (elements : ElementMap),
      start ≤ i → end_ ≤ formula.length →
      ∀ a ∈ (parseGroupAuxLog formula fuel start i end_ multiplier elements).2,
        a.inBounds formula := by
  intro fuel
  induction fuel with
  | zero =>
    intro start i end_ multiplier elements _ _ a ha
    simp [parseGroupAuxLog] at ha
  | succ fuel ih =>
    intro start i end_ multiplier elements hi hend
    unfold parseGroupAuxLog
    by_cases hlt : i < end_
    · simp only [hlt, if_true]
      have hread : (Access.read start end_ i).inBounds formula := ⟨hi, hlt, hend⟩
      cases charAt formula i with
      | error e =>
        intro a ha
        simp only [List.mem_singleton] at ha
        rw [ha]; exact hread
      | ok c =>
        simp only []
        by_cases hu : c.isUpper = true
        · simp only [hu, if_true]
          have h1 := lowerLoopLog_fst formula start end_ (end_ - (i + 1)) (i + 1) [c]
          have hb1 := lowerLoopLog_inBounds formula start end_ hend (end_ - (i + 1)) (i + 1) [c]
            (by omega) (by omega)
          obtain ⟨j1, e1, hs1, hge1, hle1, _⟩ :=
            lowerLoop_shape formula (end_ - (i + 1)) (i + 1) [c] (by omega)
          rcases hl : lowerLoopLog formula start end_ (end_ - (i + 1)) (i + 1) [c]
            with ⟨res1, log1⟩
          rw [hl] at h1 hb1
          simp only [] at h1 hb1
          rw [hs1] at h1
          subst h1
          simp only []
          have h2 := readCountLog_fst formula start end_ j1
          have hb2 := readCountLog_inBounds formula start end_ hend j1 (by omega)
          obtain ⟨j2, count, hs2, hge2, _, _⟩ := readCount_shape formula end_ j1 hend (by omega)
          rcases hr : readCountLog formula start end_ j1 with ⟨res2, log2⟩
          rw [hr] at h2 hb2
          simp only [] at h2 hb2
          rw [hs2] at h2
          subst h2
          simp only []
          intro a ha
          rcases List.mem_cons.mp ha with h | h
          · rw [h]; exact hread
          · rcases List.mem_append.mp h with h | h
            · rcases List.mem_append.mp h with h | h
              · exact hb1 a h
              · exact hb2 a h
            · exact ih _ _ _ _ _ (by omega) hend a h
        · simp only [hu, if_false]
          by_cases hp : c = '('
          · simp only [hp, if_true]
            have h1 := depthLoopLog_fst formula start end_ (end_ - (i + 1)) (i + 1) 1
            have hb1 := depthLoopLog_inBounds formula start end_ hend (end_ - (i + 1)) (i + 1) 1
              (by omega) (by omega)
            obtain ⟨j1, hs1, hge1, hle1, _⟩ :=
              depthLoop_shape formula (end_ - (i + 1)) (i + 1) 1 (by omega)
            rcases hl : depthLoopLog formula start end_ (end_ - (i + 1)) (i + 1) 1
              with ⟨res1, log1⟩
            rw [hl] at h1 hb1
            simp only [] at h1 hb1
            rw [hs1] at h1
            subst h1
            simp only []
            have h2 := readCountLog_fst formula start end_ j1
            have hb2 := readCountLog_inBounds formula start end_ hend j1 (by omega)
            obtain ⟨j2, count, hs2, hge2, _, _⟩ :=
              readCount_shape formula end_ j1 hend (by omega)
            rcases hr : readCountLog formula start end_ j1 with ⟨res2, log2⟩
            rw [hr] at h2 hb2
            simp only [] at h2 hb2
            rw [hs2] at h2
            subst h2
            simp only []
            have hcall : (Access.call start end_ (i + 1) (j1 - 1)).inBounds formula :=
              ⟨by omega, by omega⟩
            have hb3 := ih (i + 1) (i + 1) (j1 - 1) (wrapInt (multiplier * count)) elements (le_refl _)
              (by omega)
            rcases hg : parseGroupAuxLog formula fuel (i + 1) (i + 1) (j1 - 1)
              (wrapInt (multiplier * count)) elements with ⟨res3, log3⟩
            rw [hg] at hb3
            simp only [] at hb3
            obtain ⟨outcome, elements1⟩ := res3
            cases outcome with
            | error e =>
              simp only []
              intro a ha
              rcases List.mem_cons.mp ha with h | h
              · rw [h]; exact hread
              · rcases List.mem_append.mp h with h | h
                · rcases List.mem_append.mp h with h | h
                  · exact hb1 a h
                  · exact hb2 a h
                · rcases List.mem_cons.mp h with h | h
                  · rw [h]; exact hcall
                  · exact hb3 a h
            | ok u =>
              cases u
              simp only []
              intro a ha
              rcases List.mem_cons.mp ha with h | h
              · rw [h]; exact hread
              · rcases List.mem_append.mp h with h | h
                · rcases List.mem_append.mp h with h | h
                  · rcases List.mem_append.mp h with h | h
                    · exact hb1 a h
                    · exact hb2 a h
                  · rcases List.mem_cons.mp h with h | h
                    · rw [h]; exact hcall
                    · exact hb3 a h
                · exact ih _ _ _ _ _ (by omega) hend a h
          · simp only [hp, if_false, Bool.false_eq_true]
            intro a ha
            simp only [List.mem_singleton] at ha
            rw [ha]; exact hread
    · simp only [hlt, if_false]
      intro a ha
      simp at ha

/-- C11: for every string and every range that ends inside it (`parseFormula` passes the
whole cleaned string), `parseGroup` terminates, normally or by throwing
`std::invalid_argument`: the recursion budget `end - start` of the embedding never runs out
and no read fails.  In the log of the reads and recursive calls it makes (erasing the log
gives `parseGroup` back), every read of `formula[i]` inside a call with the range from
`start` to `end` has `start <= i < end <= length`, and every recursive call is on a strictly
shorter range, which ends inside the string. -/
theorem C11_parseGroup_in_bounds (formula : List Char) (start end_ : Nat) (multiplier : Int)
    (elements : ElementMap) (hend : end_ ≤ formula.length) :
    (parseGroupLog formula start end_ multiplier elements).1
      = parseGroup formula start end_ multiplier elements ∧
    ((parseGroup formula start end_ multiplier elements).1 = .ok () ∨
      ∃ what, (parseGroup formula start end_ multiplier elements).1
        = .error (.invalidArgument what)) ∧
    ∀ a ∈ (parseGroupLog formula start end_ multiplier elements).2, a.inBounds formula :=
  ⟨parseGroupAuxLog_fst formula _ _ _ _ _ _,
    parseGroupAux_total formula _ _ _ _ _ hend (le_refl _),
    parseGroupAuxLog_inBounds formula _ _ _ _ _ _ (le_refl _) hend⟩

/-- C11 at `Ca(`, a string with `(` as its last character: the reads and the recursive call
that `parseGroup` makes on it. -/
theorem C11_parseGroup_in_bounds_witness :
    3 ≤ "Ca(".toList.length ∧
    parseGroupLog "Ca(".toList 0 3 1 []
      = ((.ok (), [("Ca".toList, 1)]),
          [.read 0 3 0, .read 0 3 1, .read 0 3 2, .read 0 3 2, .read 0 3 2, .call 0 3 3 2]) ∧
    ∀ a ∈ (parseGroupLog "Ca(".toList 0 3 1 []).2, a.inBounds "Ca(".toList :=
  ⟨by decide, by decide, (C11_parseGroup_in_bounds "Ca(".toList 0 3 1 [] (by decide)).2.2⟩

/-! ## Systems with more than one free parameter -/

/-- The null space of the matrix of the equation `underdeterminedEquation` holds the
independent vectors `(1, 1, 1, 1, 1, 1)` and `(1, 1, 1, 1001, 0, 1)`. -/
theorem underdeterminedEquation_nullity :
    NullityAtLeastTwo (stoichiometricMatrix underdeterminedEquation)
      underdeterminedEquation.getTotalCompounds := by
  have hM : stoichiometricMatrix underdeterminedEquation
      = [[1000000, 1, 0, 0, 0, -1000001], [0, 1000000, 1, -1, -1000, -999000],
          [0, 0, 1001, -1, -1000, 0], [0, 0, 1000, 0, 0, -1000], [1, 0, 0, 0, 0, -1]] := by
    decide!
  have hn : underdeterminedEquation.getTotalCompounds = 6 := by decide!
  rw [hM, hn]
  refine ⟨[1, 1, 1, 1, 1, 1], [1, 1, 1, 1001, 0, 1], rfl, rfl, ?_, ?_, ?_⟩
  · intro row hrow
    simp only [List.mem_cons, List.mem_singleton, List.not_mem_nil, or_false] at hrow
    rcases hrow with h | h | h | h | h <;> subst h <;> simp [dot] <;> norm_num
  · intro row hrow
    simp only [List.mem_cons, List.mem_singleton, List.not_mem_nil, or_false] at hrow
    rcases hrow with h | h | h | h | h <;> subst h <;> simp [dot] <;> norm_num
  · intro a b h
    have h4 := h 4 (by omega)
    have h0 := h 0 (by omega)
    simp at h4 h0
    constructor
    · exact h4
    · rw [h4] at h0; simpa using h0

/-- C16 fails as stated. The matrix of
`C1000000S + CH1000000 + HN1001O1000 -> HN + H1000N1000 + C1000001H999000O1000S`
has five rows, six columns and rank four: its null space holds the independent vectors
`(1, 1, 1, 1, 1, 1)` and `(1, 1, 1, 1001, 0, 1)`.  Forward elimination leaves the last row as
`(0, 0, 1e-12, -1e-12, -1e-9, 1e-9)`: its first two entries are below the tolerance `1e-10`
and were not eliminated, so back substitution takes the row, which exact elimination turns
into a zero row, as an equation for the fifth unknown.  The solver returns
`(1, 1, 1, 1, 1, 1)` and `balance` returns `SUCCESS` with these coefficients: one solution of
the two-parameter family, with nothing detected. -/
theorem C16_underdetermined_system_is_resolved :
    parseEquationString
        "C1000000S + CH1000000 + HN1001O1000 -> HN + H1000N1000 + C1000001H999000O1000S".toList
      = .ok underdeterminedEquation ∧
    stoichiometricMatrix underdeterminedEquation
      = [[1000000, 1, 0, 0, 0, -1000001], [0, 1000000, 1, -1, -1000, -999000],
          [0, 0, 1001, -1, -1000, 0], [0, 0, 1000, 0, 0, -1000], [1, 0, 0, 0, 0, -1]] ∧
    NullityAtLeastTwo (stoichiometricMatrix underdeterminedEquation)
      underdeterminedEquation.getTotalCompounds ∧
    (forwardEliminationM isZero (stoichiometricMatrix underdeterminedEquation)).getD 4 []
      = [0, 0, 1 / 1000000000000, -1 / 1000000000000, -1 / 1000000000, 1 / 1000000000] ∧
    solutionOf underdeterminedEquation = [1, 1, 1, 1, 1, 1] ∧
    exactSolutionOf underdeterminedEquation = [1, 1, 1, 1001, 0, 1] ∧
    ∀ b : EquationBalancer,
      (b.balance underdeterminedEquation).1.result = .SUCCESS ∧
      (b.balance underdeterminedEquation).1.coefficients = [1, 1, 1, 1, 1, 1] := by
  refine ⟨by decide!, by decide!, underdeterminedEquation_nullity, by decide!, by decide!,
    by decide!, fun b => ?_⟩
  rw [balance_eq_of_fresh]
  exact ⟨by decide!, by decide!⟩

/-! ## Forward elimination in general: zeros below the diagonal -/

theorem ShapeState.swap_shape {n rows p : Nat} {original m : Matrix}
    (h : ShapeState n rows p original m) (hp : p < rows) (pr : Nat) (hpr1 : p ≤ pr)
    (hpr2 : pr < rows) : ShapeState n rows p original (swapRowsM m p pr) := by
  obtain ⟨hlen, hrect, hlow, hnull⟩ := h
  have ha : p < m.length := by omega
  have hb : pr < m.length := by omega
  refine ⟨by rw [swapRowsM_length, hlen], swapRowsM_rect m n p pr hrect ha hb, ?_, ?_⟩
  · intro q hq r hr hrl
    rw [swapRowsM_length] at hrl
    rw [swapRowsM_entry m p pr r q ha hb]
    apply hlow q hq
    · split
      · omega
      · split <;> omega
    · split
      · omega
      · split <;> omega
  · intro x
    rw [NullF_swapRowsM n m p pr ha hb, hnull]

theorem shape_eliminate_fold (n rows p : Nat) (original : Matrix) (hp : p < rows)
    (l : List Nat) (hl : ∀ r ∈ l, p < r ∧ r < rows) :
    ∀ m, ShapeState n rows p original m → entry m p p ≠ 0 →
      ShapeState n rows p original
        (l.foldl (fun m row =>
          if !isExactZero (entry m row p) then
            addRowToRowM m p row (-(entry m row p) / entry m p p)
          else m) m) ∧
      ∀ r, p < r → (r ∈ l ∨ entry m r p = 0) →
        entry (l.foldl (fun m row =>
          if !isExactZero (entry m row p) then
            addRowToRowM m p row (-(entry m row p) / entry m p p)
          else m) m) r p = 0 := by
  induction l with
  | nil =>
    intro m hm _
    refine ⟨hm, fun r _ hr => ?_⟩
    rcases hr with hr | hr
    · cases hr
    · exact hr
  | cons r0 l ih =>
    intro m hm hpiv
    have hr0 := hl r0 (List.mem_cons_self _ _)
    have hl1 : ∀ r ∈ l, p < r ∧ r < rows := fun r hr => hl r (List.mem_cons_of_mem _ hr)
    rw [List.foldl_cons]
    by_cases hz : entry m r0 p = 0
    · have hz1 : isExactZero (entry m r0 p) = true := (isExactZero_iff _).mpr hz
      simp only [hz1, Bool.not_true, Bool.false_eq_true, if_false]
      obtain ⟨h1, h3⟩ := ih hl1 m hm hpiv
      refine ⟨h1, fun r hr hcase => ?_⟩
      apply h3 r hr
      rcases hcase with hcase | hcase
      · rcases List.mem_cons.mp hcase with hc | hc
        · right; rw [hc]; exact hz
        · left; exact hc
      · right; exact hcase
    · have hz1 : isExactZero (entry m r0 p) = false := by
        rw [← Bool.not_eq_true, isExactZero_iff]; exact hz
      simp only [hz1, Bool.not_false, if_true]
      obtain ⟨hlen, hrect, hlow, hnull⟩ := hm
      have hs : p < m.length := by omega
      have ht : r0 < m.length := by omega
      have hent := addRowToRowM_entry m n p r0 (-(entry m r0 p) / entry m p p) hrect hs ht
      have hm1 : ShapeState n rows p original
          (addRowToRowM m p r0 (-(entry m r0 p) / entry m p p)) := by
        refine ⟨by rw [addRowToRowM_length, hlen], addRowToRowM_rect m n p r0 _ hrect hs ht,
          ?_, ?_⟩
        · intro q hq r hr hrl
          rw [addRowToRowM_length] at hrl
          rw [hent]
          by_cases hrr : r = r0
          · rw [if_pos hrr, hlow q hq r0 (by omega) ht, hlow q hq p hq hs]
            ring
          · rw [if_neg hrr]; exact hlow q hq r hr hrl
        · intro x
          rw [NullF_addRowToRowM n m p r0 _ hrect hs ht (by omega), hnull]
      have hpiv1 : entry (addRowToRowM m p r0 (-(entry m r0 p) / entry m p p)) p p ≠ 0 := by
        rw [hent, if_neg (by omega)]; exact hpiv
      have hzero : entry (addRowToRowM m p r0 (-(entry m r0 p) / entry m p p)) r0 p = 0 := by
        rw [hent, if_pos rfl]
        field_simp
      obtain ⟨h1, h3⟩ := ih hl1 _ hm1 hpiv1
      refine ⟨h1, fun r hr hcase => ?_⟩
      apply h3 r hr
      by_cases hrr : r = r0
      · right; rw [hrr]; exact hzero
      · rcases hcase with hcase | hcase
        · rcases List.mem_cons.mp hcase with hc | hc
          · exact absurd hc hrr
          · left; exact hc
        · right; rw [hent, if_neg hrr]; exact hcase

theorem ShapeState.eliminate_shape {n rows p : Nat} {original m : Matrix}
    (h : ShapeState n rows p original m) (hp : p < rows) (hpiv : entry m p p ≠ 0) :
    ShapeState n rows (p + 1) original (eliminateColumnM isExactZero m p rows) := by
  unfold eliminateColumnM
  obtain ⟨h1, h3⟩ := shape_eliminate_fold n rows p original hp
    (List.range' (p + 1) (rows - (p + 1)))
    (fun r hr => by
      rcases List.mem_range'.mp hr with ⟨i, hi, hri⟩
      omega)
    m h hpiv
  obtain ⟨hlen, hrect, hlow, hnull⟩ := h1
  refine ⟨hlen, hrect, ?_, hnull⟩
  intro q hq r hr hrl
  by_cases hqp : q = p
  · subst hqp
    apply h3 r hr
    left
    rw [List.mem_range']
    exact ⟨r - (q + 1), by omega, by omega⟩
  · exact hlow q (by omega) r hr hrl

/-- One iteration of forward elimination, whether a pivot is found or not: one more column
has zeros below the diagonal. -/
theorem forwardStep_shape (n rows p : Nat) (original m : Matrix)
    (hst : ShapeState n rows p original m) (hp : p < rows) :
    ShapeState n rows (p + 1) original (forwardStepM isExactZero rows m p) := by
  obtain ⟨hpr1, hpr2, hmax⟩ := findPivotRow_spec m p rows hp
  unfold forwardStepM
  simp only []
  generalize hm1 : (if findPivotRow m p rows ≠ p then swapRowsM m p (findPivotRow m p rows)
    else m) = m1
  have hlenm : m.length = rows := hst.1
  have hst1 : ShapeState n rows p original m1 := by
    rw [← hm1]
    split
    · exact hst.swap_shape hp _ hpr1 hpr2
    · exact hst
  have hcolumn : ∀ r, p ≤ r → r < rows →
      abs (entry m1 r p) ≤ abs (entry m1 p p) := by
    intro r hr hrr
    rw [← hm1]
    split
    · rw [swapRowsM_entry m p _ r p (by omega) (by omega),
        swapRowsM_entry m p _ p p (by omega) (by omega)]
      have e : (if p = findPivotRow m p rows then p
          else if p = p then findPivotRow m p rows else p) = findPivotRow m p rows := by
        split
        · rename_i h; exact h
        · simp
      rw [e]
      apply hmax
      · split
        · omega
        · split <;> omega
      · split
        · omega
        · split <;> omega
    · rename_i h
      have h1 : findPivotRow m p rows = p := by
        by_contra hcon; exact h hcon
      have := hmax r hr hrr
      rw [h1] at this
      exact this
  by_cases hz : entry m1 p p = 0
  · have hz1 : isExactZero (entry m1 p p) = true := (isExactZero_iff _).mpr hz
    rw [if_pos hz1]
    obtain ⟨hlen, hrect, hlow, hnull⟩ := hst1
    refine ⟨hlen, hrect, ?_, hnull⟩
    intro q hq r hr hrl
    by_cases hqp : q = p
    · subst hqp
      have := hcolumn r (by omega) (by omega)
      rw [hz, abs_zero] at this
      exact abs_eq_zero.mp (le_antisymm this (abs_nonneg _))
    · exact hlow q (by omega) r hr hrl
  · have hz1 : ¬ isExactZero (entry m1 p p) = true := by
      rw [isExactZero_iff]; exact hz
    rw [if_neg hz1]
    exact hst1.eliminate_shape hp hz

/-- Forward elimination with the exact zero test leaves zeros below the diagonal and keeps
the null space. -/
theorem forwardElimination_shape (n : Nat) (original : Matrix)
    (hrows : 1 ≤ original.length) (hrect : Rect original n) :
    ShapeState n original.length (min original.length n) original
      (forwardEliminationM isExactZero original) := by
  have hcols : (original.getD 0 []).length = n := hrect.getD_length 0 (by omega)
  have hloop : ∀ k, k ≤ min original.length n →
      ShapeState n original.length k original
        ((List.range k).foldl (forwardStepM isExactZero original.length) original) := by
    intro k
    induction k with
    | zero =>
      intro _
      exact ⟨rfl, hrect, fun q hq => by omega, fun x => Iff.rfl⟩
    | succ k ih =>
      intro hk
      rw [List.range_succ, List.foldl_append, List.foldl_cons, List.foldl_nil]
      exact forwardStep_shape n original.length k original _ (ih (by omega)) (by omega)
  have hfinal := hloop (min original.length n) (le_refl _)
  have hfe : forwardEliminationM isExactZero original
      = (List.range (min original.length n)).foldl
          (forwardStepM isExactZero original.length) original := by
    unfold forwardEliminationM
    rw [hcols]
  rw [← hfe] at hfinal
  exact hfinal

/-! ## Back substitution in general: which unknowns are assigned -/

theorem find_range'_min (p : Nat → Bool) :
    ∀ (k s a : Nat), (List.range' s k).find? p = some a →
      s ≤ a ∧ a < s + k ∧ p a = true ∧ ∀ j, s ≤ j → j < a → p j = false := by
  intro k
  induction k with
  | zero => intro s a h; simp at h
  | succ k ih =>
    intro s a h
    rw [List.range'_succ, List.find?_cons] at h
    cases hp : p s with
    | true =>
      rw [hp] at h
      simp only [Option.some.injEq] at h
      subst h
      exact ⟨le_refl _, by omega, hp, fun j h1 h2 => by omega⟩
    | false =>
      rw [hp] at h
      obtain ⟨h1, h2, h3, h4⟩ := ih (s + 1) a h
      refine ⟨by omega, by omega, h3, fun j hj hja => ?_⟩
      by_cases hjs : j = s
      · rw [hjs]; exact hp
      · exact h4 j (by omega) hja

/-- The pivot that back substitution finds in a row: the first entry that is not zero. -/
theorem firstNonZero_spec (matrix : Matrix) (n r j : Nat)
    (h : firstNonZeroBy isExactZero (matrix.getD r []) n = some j) :
    j < n ∧ entry matrix r j ≠ 0 ∧ ∀ k, k < j → entry matrix r k = 0 := by
  unfold firstNonZeroBy at h
  rw [List.range_eq_range' n] at h
  obtain ⟨_, h2, h3, h4⟩ := find_range'_min _ n 0 j h
  refine ⟨by omega, ?_, fun k hk => ?_⟩
  · intro hz
    have : isExactZero ((matrix.getD r []).getD j 0) = true := (isExactZero_iff _).mpr hz
    rw [this] at h3
    cases h3
  · have := h4 k (Nat.zero_le _) hk
    have h5 : isExactZero ((matrix.getD r []).getD k 0) = true := by
      simpa using this
    exact (isExactZero_iff _).mp h5

/-- One row of back substitution changes the unknown of the row's pivot only. -/
theorem backStep_changes (matrix : Matrix) (n r : Nat) (sol : List ℚ) :
    (backStepBy isExactZero matrix n sol r).length = sol.length ∧
    ∀ j, (backStepBy isExactZero matrix n sol r).getD j 0 ≠ sol.getD j 0 →
      firstNonZeroBy isExactZero (matrix.getD r []) n = some j := by
  unfold backStepBy
  cases hf : firstNonZeroBy isExactZero (matrix.getD r []) n with
  | none => exact ⟨rfl, fun j hj => absurd rfl hj⟩
  | some pivot =>
    simp only []
    split
    · refine ⟨List.length_set _ _ _, fun j hj => ?_⟩
      by_cases hjp : j = pivot
      · rw [hjp]
      · exfalso
        apply hj
        rw [getD_set]
        have : ¬ (pivot = j ∧ pivot < sol.length) := fun h => hjp h.1.symm
        rw [if_neg this]
    · exact ⟨rfl, fun j hj => absurd rfl hj⟩

theorem backSubstitution_fold (matrix : Matrix) (n : Nat) (l : List Nat)
    (hl : ∀ r ∈ l, r < matrix.length) :
    ∀ sol : List ℚ,
      (l.foldl (backStepBy isExactZero matrix n) sol).length = sol.length ∧
      ∀ j, (l.foldl (backStepBy isExactZero matrix n) sol).getD j 0 ≠ sol.getD j 0 →
        ∃ r, r < matrix.length ∧ firstNonZeroBy isExactZero (matrix.getD r []) n = some j := by
  induction l with
  | nil => intro sol; exact ⟨rfl, fun j hj => absurd rfl hj⟩
  | cons r0 l ih =>
    intro sol
    rw [List.foldl_cons]
    obtain ⟨h1, h2⟩ := ih (fun r hr => hl r (List.mem_cons_of_mem _ hr))
      (backStepBy isExactZero matrix n sol r0)
    obtain ⟨h3, h4⟩ := backStep_changes matrix n r0 sol
    refine ⟨by rw [h1, h3], fun j hj => ?_⟩
    by_cases hc : (l.foldl (backStepBy isExactZero matrix n)
        (backStepBy isExactZero matrix n sol r0)).getD j 0
          = (backStepBy isExactZero matrix n sol r0).getD j 0
    · rw [hc] at hj
      exact ⟨r0, hl r0 (List.mem_cons_self _ _), h4 j hj⟩
    · exact h2 j hc

/-- An unknown other than the last that back substitution leaves different from `0` is the
pivot of some row: the row's first non-zero entry is in its column. -/
theorem backSubstitution_pivots (n : Nat) (matrix : Matrix) (hrows : 1 ≤ matrix.length)
    (hrect : Rect matrix n) :
    (backSubstitution isExactZero matrix).length = n ∧
    ∀ j, j ≠ n - 1 → (backSubstitution isExactZero matrix).getD j 0 ≠ 0 →
      ∃ r, r < matrix.length ∧ entry matrix r j ≠ 0 ∧ ∀ k, k < j → entry matrix r k = 0 := by
  have hcols : (matrix.getD 0 []).length = n := hrect.getD_length 0 (by omega)
  unfold backSubstitution
  rw [hcols]
  obtain ⟨h1, h2⟩ := backSubstitution_fold matrix n (List.range matrix.length).reverse
    (fun r hr => by
      rw [List.mem_reverse, List.mem_range] at hr
      exact hr)
    ((List.replicate n (0 : ℚ)).set (n - 1) 1)
  refine ⟨by rw [h1]; simp, fun j hj hne => ?_⟩
  have hinit : ((List.replicate n (0 : ℚ)).set (n - 1) 1).getD j 0 = 0 := by
    rw [getD_set]
    have : ¬ (n - 1 = j ∧ n - 1 < (List.replicate n (0 : ℚ)).length) := fun h => hj h.1.symm
    rw [if_neg this, List.getD_eq_getElem?_getD, List.getElem?_replicate]
    split <;> rfl
  obtain ⟨r, hr, hf⟩ := h2 j (by rw [hinit]; exact hne)
  obtain ⟨_, h3, h4⟩ := firstNonZero_spec matrix n r j hf
  exact ⟨r, hr, h3, h4⟩

/-! ## A solution without zero entries needs a pivot in every column but the last -/

/-- If every column before the last holds the first non-zero entry of some row, and the
entries below the diagonal are zero, the pivots are on the diagonal. -/
theorem echelon_of_pivots (n : Nat) (matrix : Matrix)
    (hlow : LowerZero matrix (min matrix.length n))
    (hpiv : ∀ j, j < n - 1 →
      ∃ r, r < matrix.length ∧ entry matrix r j ≠ 0 ∧ ∀ k, k < j → entry matrix r k = 0) :
    Echelon matrix (n - 1) := by
  have hdiag : ∀ j, j < n - 1 → j < matrix.length ∧ entry matrix j j ≠ 0 := by
    intro j
    induction j using Nat.strong_induction_on with
    | _ j ih =>
      intro hj
      obtain ⟨r, hr, hne, hzero⟩ := hpiv j hj
      rcases Nat.lt_trichotomy r j with h | h | h
      · exact absurd (hzero r h) (ih r h (by omega)).2
      · rw [h] at hr hne
        exact ⟨hr, hne⟩
      · exact absurd (hlow j (by omega) r h hr) hne
  intro q hq
  refine ⟨(hdiag q hq).2, fun r hr hrl => ?_⟩
  exact hlow q (by have := (hdiag q hq).1; omega) r hr hrl

/-- With pivots on the diagonal in every column but the last, a null vector whose last
coordinate is `0` vanishes. -/
theorem echelon_null_unique (n : Nat) (matrix : Matrix) (hech : Echelon matrix (n - 1))
    (z : Nat → ℚ) (hz : NullF n matrix z) (hlast : z (n - 1) = 0) :
    ∀ j, j < n → z j = 0 := by
  have key : ∀ d j, j < n → n - 1 - j ≤ d → z j = 0 := by
    intro d
    induction d with
    | zero =>
      intro j hj hd
      have : j = n - 1 := by omega
      rw [this]; exact hlast
    | succ d ih =>
      intro j hj hd
      by_cases hle : n - 1 - j ≤ d
      · exact ih j hj hle
      · have hjn : j < n - 1 := by omega
        obtain ⟨hdiag, _⟩ := hech j hjn
        have hjl : j < matrix.length := entry_ne_zero_lt matrix j j hdiag
        have hrow := hz j hjl
        unfold dotF at hrow
        rw [Finset.sum_eq_single j] at hrow
        · rcases mul_eq_zero.mp hrow with h | h
          · exact absurd h hdiag
          · exact h
        · intro c hc hcj
          have hcn : c < n := Finset.mem_range.mp hc
          rcases Nat.lt_or_gt_of_ne hcj with h | h
          · rw [(hech c (by omega)).2 j h hjl, zero_mul]
          · rw [ih c hcn (by omega), mul_zero]
        · intro hnot
          exact absurd (Finset.mem_range.mpr hj) hnot
  intro j hj
  exact key (n - 1 - j) j hj (le_refl _)

/-- With the exact zero test, a solver result without a zero entry means that the null space
is a line: a null vector whose last coordinate is `0` vanishes. -/
theorem exact_solver_nonzero (n : Nat) (matrix : Matrix)
    (hrows : 1 ≤ matrix.length) (hrect : Rect matrix n)
    (hnz : ∀ j, j < n - 1 →
      (backSubstitution isExactZero (forwardEliminationM isExactZero matrix)).getD j 0 ≠ 0)
    (z : Nat → ℚ) (hz : NullF n matrix z) (hlast : z (n - 1) = 0) :
    ∀ j, j < n → z j = 0 := by
  obtain ⟨hlen, hrect1, hlow, hnull⟩ := forwardElimination_shape n matrix hrows hrect
  obtain ⟨_, hpiv⟩ := backSubstitution_pivots n (forwardEliminationM isExactZero matrix)
    (by omega) hrect1
  have hech : Echelon (forwardEliminationM isExactZero matrix) (n - 1) := by
    apply echelon_of_pivots n _ (by rw [hlen]; exact hlow)
    intro j hj
    exact hpiv j (by omega) (hnz j hj)
  exact echelon_null_unique n _ hech z ((hnull z).mpr hz) hlast

theorem toFraction_zero : toFraction 0 = (0, 1) := by decide!

/-- A zero among the solver's values gives a zero among the integer coefficients. -/
theorem reduceToIntegers_zero (coefficients : List ℚ) (h : (0 : ℚ) ∈ coefficients) :
    (0 : Int) ∈ reduceToIntegers coefficients := by
  unfold reduceToIntegers
  simp only []
  generalize (List.map (fun fraction => fraction.2) (List.map toFraction coefficients)).tail.foldl
    lcm ((List.map (fun fraction => fraction.2) (List.map toFraction coefficients)).headD 0) = L
  rw [List.map_map, List.map_map, zipWith_map_map]
  generalize hres : List.map (fun x => Int.tdiv (wrapInt (((fun fraction : Int × Int =>
    fraction.1) ∘ toFraction) x * L)) (((fun fraction : Int × Int => fraction.2) ∘ toFraction) x))
    coefficients = result
  have h0 : (0 : Int) ∈ result := by
    rw [← hres]
    refine List.mem_map.mpr ⟨0, h, ?_⟩
    simp [toFraction_zero, wrapInt_zero]
  have h1 : (0 : Int) ∈ divideByGcd result := by
    unfold divideByGcd
    simp only []
    split
    · exact List.mem_map.mpr ⟨0, h0, by simp⟩
    · exact h0
  unfold makePositive
  simp only []
  split
  · exact List.mem_map.mpr ⟨0, h1, by decide⟩
  · exact h1

theorem dotF_linear (n : Nat) (matrix : Matrix) (r : Nat) (x y : Nat → ℚ) (a b : ℚ) :
    dotF n matrix r (fun j => a * x j + b * y j)
      = a * dotF n matrix r x + b * dotF n matrix r y := by
  unfold dotF
  rw [Finset.mul_sum, Finset.mul_sum, ← Finset.sum_add_distrib]
  apply Finset.sum_congr rfl
  intro j _
  ring

/-- The null space of the matrix of `C + O2 -> CO + CO2` holds the independent vectors
`(2, 1, 2, 0)` and `(1, 1, 0, 1)`. -/
theorem carbonOxidesEquation_nullity :
    NullityAtLeastTwo (stoichiometricMatrix carbonOxidesEquation)
      carbonOxidesEquation.getTotalCompounds := by
  have hM : stoichiometricMatrix carbonOxidesEquation
      = [[1, 0, -1, -1], [0, 2, -1, -2]] := by decide!
  have hn : carbonOxidesEquation.getTotalCompounds = 4 := by decide!
  rw [hM, hn]
  refine ⟨[2, 1, 2, 0], [1, 1, 0, 1], rfl, rfl, ?_, ?_, ?_⟩
  · intro row hrow
    simp only [List.mem_cons, List.mem_singleton, List.not_mem_nil, or_false] at hrow
    rcases hrow with h | h <;> subst h <;> simp [dot]
  · intro row hrow
    simp only [List.mem_cons, List.mem_singleton, List.not_mem_nil, or_false] at hrow
    rcases hrow with h | h <;> subst h <;> simp [dot]
  · intro a b h
    have h2 := h 2 (by omega)
    have h1 := h 1 (by omega)
    simp at h2 h1
    constructor
    · exact h2
    · rw [h2] at h1; simpa using h1

/-- C16, amended: for every equation whose stoichiometric matrix has a null space of
dimension two or more and on whose matrix the solver's tolerance tests decide as exact zero
tests do (the solver returns the same vector with either), `balance` does not return
`SUCCESS`: back substitution leaves an unknown without a pivot at `0`, and a coefficient that
is not positive ends the balancing. -/
theorem C16_underdetermined_not_success (b : EquationBalancer) (equation : ChemicalEquation)
    (hnull : NullityAtLeastTwo (stoichiometricMatrix equation) equation.getTotalCompounds)
    (hexact : solutionOf equation = exactSolutionOf equation) :
    (b.balance equation).1.result ≠ .SUCCESS := by
  intro hs
  obtain ⟨hne, hpos, _⟩ := balance_success b equation hs
  obtain ⟨_, hrect, _⟩ := stoichiometricMatrix_spec equation
  rw [hexact] at hne hpos
  have hM1 : stoichiometricMatrix equation ≠ [] := by
    intro h
    apply hne
    unfold exactSolutionOf
    rw [h]
    rfl
  have hrows : 1 ≤ (stoichiometricMatrix equation).length :=
    List.length_pos.mpr hM1
  have hcols : ((stoichiometricMatrix equation).getD 0 []).length
      = equation.getTotalCompounds := hrect.getD_length 0 (by omega)
  have hM2 : (stoichiometricMatrix equation).getD 0 [] ≠ [] := by
    intro h
    apply hne
    unfold exactSolutionOf MatrixSolver.gaussianEliminationBy
    simp only []
    rw [h]
    simp
  have hn : 1 ≤ equation.getTotalCompounds := by
    rw [← hcols]
    exact List.length_pos.mpr hM2
  have hsol : exactSolutionOf equation
      = backSubstitution isExactZero
          (forwardEliminationM isExactZero (stoichiometricMatrix equation)) :=
    (gaussianEliminationBy_eq isExactZero ⟨[]⟩ _ hM1 hM2).1
  obtain ⟨hlen1, hrect1, _, _⟩ := forwardElimination_shape equation.getTotalCompounds
    (stoichiometricMatrix equation) hrows hrect
  obtain ⟨hsollen, _⟩ := backSubstitution_pivots equation.getTotalCompounds
    (forwardEliminationM isExactZero (stoichiometricMatrix equation)) (by omega) hrect1
  have hnz : ∀ j, j < equation.getTotalCompounds - 1 →
      (backSubstitution isExactZero
        (forwardEliminationM isExactZero (stoichiometricMatrix equation))).getD j 0 ≠ 0 := by
    intro j hj hzero
    have hmem : (0 : ℚ) ∈ exactSolutionOf equation := by
      rw [hsol, ← hzero]
      exact getD_mem _ j 0 (by omega)
    have := hpos 0 (reduceToIntegers_zero _ hmem)
    omega
  have hN := exact_solver_nonzero equation.getTotalCompounds (stoichiometricMatrix equation)
    hrows hrect hnz
  obtain ⟨x, y, hx, hy, hxnull, hynull, hind⟩ := hnull
  have hxF := (isNull_iff_nullF _ _ hrect x hx).mp hxnull
  have hyF := (isNull_iff_nullF _ _ hrect y hy).mp hynull
  have hz : NullF equation.getTotalCompounds (stoichiometricMatrix equation)
      (fun j => y.getD (equation.getTotalCompounds - 1) 0 * x.getD j 0
        + -(x.getD (equation.getTotalCompounds - 1) 0) * y.getD j 0) := by
    intro r hr
    rw [dotF_linear, hxF r hr, hyF r hr]
    ring
  have hcomb := hind _ _ (hN _ hz (by ring))
  have hxlast : x.getD (equation.getTotalCompounds - 1) 0 = 0 := by
    have := hcomb.2
    linarith
  have hxzero := hN _ hxF hxlast
  have hone := hind 1 0 (fun j hj => by rw [hxzero j hj]; ring)
  exact absurd hone.1 one_ne_zero

/-- C16 (amended) at `C + O2 -> CO + CO2`, whose null space holds the independent vectors
`(2, 1, 2, 0)` and `(1, 1, 0, 1)`. -/
theorem C16_underdetermined_not_success_witness :
    NullityAtLeastTwo (stoichiometricMatrix carbonOxidesEquation)
      carbonOxidesEquation.getTotalCompounds ∧
    solutionOf carbonOxidesEquation = exactSolutionOf carbonOxidesEquation ∧
    (EquationBalancer.balance ⟨⟨[]⟩, []⟩ carbonOxidesEquation).1.result ≠ .SUCCESS :=
  ⟨carbonOxidesEquation_nullity, by decide!,
    C16_underdetermined_not_success ⟨⟨[]⟩, []⟩ carbonOxidesEquation
      carbonOxidesEquation_nullity (by decide!)⟩

/-! ## The equation model and the matrix builder -/

/-- C28: for any two `EquationBalancer` objects, whatever their recorded traces, calling
`balance` on the same equation yields the same `BalanceInfo` (tag, coefficients, message,
atomBalance, conservationVerified) and leaves the same equation; the balancers themselves
end in the same state, because both traces are cleared before anything is computed. -/
theorem C28_balance_deterministic (b1 b2 : EquationBalancer) (equation : ChemicalEquation) :
    (b1.balance equation).1 = (b2.balance equation).1 ∧
    (b1.balance equation).2.2 = (b2.balance equation).2.2 ∧
    (b1.balance equation).2.1 = (b2.balance equation).2.1 ∧
    (b1.balance equation).1.result = (b2.balance equation).1.result ∧
    (b1.balance equation).1.coefficients = (b2.balance equation).1.coefficients ∧
    (b1.balance equation).1.message = (b2.balance equation).1.message ∧
    (b1.balance equation).1.atomBalance = (b2.balance equation).1.atomBalance ∧
    (b1.balance equation).1.conservationVerified
      = (b2.balance equation).1.conservationVerified := by
  rw [balance_eq_of_fresh b1, balance_eq_of_fresh b2]
  exact ⟨rfl, rfl, rfl, rfl, rfl, rfl, rfl, rfl⟩

/-- The conservation test holds exactly when the imbalance of every element, reduced to an
`int`, is zero: when it is a multiple of `2^32`. -/
theorem validateAtomConservation_iff (equation : ChemicalEquation) :
    validateAtomConservation equation = true
      ↔ ∀ element, wrapInt (imbalance equation element) = 0 := by
  constructor
  · intro hv element
    rw [← (getAtomBalance_count equation element).2]
    exact ElementMap.count_eq_zero_of_all _ hv element
  · intro h
    unfold validateAtomConservation
    rw [List.all_eq_true]
    intro p hp
    obtain ⟨hs, hcount⟩ := getAtomBalance_count equation p.1
    have hfind := ElementMap.find_of_mem _ hs p.1 p.2 hp
    unfold ElementMap.count at hcount
    rw [hfind, h] at hcount
    simp only [Option.getD_some] at hcount
    simp [hcount]

/-- What a successful `setCoefficients` returns: the equation with the new coefficients, its
balanced flag set by `checkBalance`. -/
theorem setCoefficients_flag (equation equation1 : ChemicalEquation) (coefficients : List Int)
    (h : equation.setCoefficients coefficients = .ok equation1) :
    equation1.isBalanced = validateAtomConservation equation1 := by
  unfold ChemicalEquation.setCoefficients at h
  split at h
  · cases h
  · injection h with h
    subst h
    rfl

/-- C24 (defect of the code): after `setCoefficients({6, 1, 4})` on `A2 + B4 -> A1073741827B`
the call returns normally and `isBalanced()` is true, although the imbalance of `A` under the
new coefficients is `2 * 6 - 1073741827 * 4`, which is `-4294967296` and not zero: the `int`
sums of `checkBalance` wrap around to `0`.  (After `addReactant`, `addProduct` and `clear` the
flag is false, as claimed.) -/
theorem C24_balanced_flag_set_without_conservation :
    overflowEquation.setCoefficients [6, 1, 4]
      = .ok (overflowEquation.afterSetCoefficients [6, 1, 4]) ∧
    (overflowEquation.afterSetCoefficients [6, 1, 4]).reactants_.map (fun reactant => reactant.2)
      ++ (overflowEquation.afterSetCoefficients [6, 1, 4]).products_.map
        (fun product => product.2) = [6, 1, 4] ∧
    (overflowEquation.afterSetCoefficients [6, 1, 4]).isBalanced = true ∧
    imbalance (overflowEquation.afterSetCoefficients [6, 1, 4]) "A".toList = -4294967296 ∧
    ¬ (∀ element, imbalance (overflowEquation.afterSetCoefficients [6, 1, 4]) element = 0) ∧
    (∀ (equation : ChemicalEquation) (compound : ChemicalCompound) (coefficient : Int),
      (equation.addReactant compound coefficient).isBalanced = false ∧
      (equation.addProduct compound coefficient).isBalanced = false ∧
      equation.clear.isBalanced = false) := by
  refine ⟨by decide!, by decide!, by decide!, by decide!, ?_, fun _ _ _ => ⟨rfl, rfl, rfl⟩⟩
  intro h
  exact absurd (h "A".toList) (by decide!)

theorem getD_zipWith {α β γ : Type} (f : α → β → γ) (l : List α) (cs : List β) (i : Nat)
    (d1 : α) (d2 : β) (d3 : γ) (h1 : i < l.length) (h2 : i < cs.length) :
    (List.zipWith f l cs).getD i d3 = f (l.getD i d1) (cs.getD i d2) := by
  rw [List.getD_eq_getElem?_getD, List.getD_eq_getElem?_getD, List.getD_eq_getElem?_getD,
    List.getElem?_eq_getElem (by rw [List.length_zipWith]; omega),
    List.getElem?_eq_getElem h1, List.getElem?_eq_getElem h2]
  simp

/-- C25: `setCoefficients` throws if and only if the length of the given list differs from
the number of compounds, and then the equation object is as it was (the exception is thrown
before anything is written); on success reactant `i` receives entry `i` and product `j`
receives entry (number of reactants + `j`), and no compound is changed. -/
theorem C25_setCoefficients_contract (equation : ChemicalEquation) (coefficients : List Int) :
    ((∃ e, equation.setCoefficients coefficients = .error e)
      ↔ coefficients.length ≠ equation.getTotalCompounds) ∧
    (coefficients.length ≠ equation.getTotalCompounds →
      equation.setCoefficients coefficients = .error (.invalidArgument
        "Number of coefficients doesn't match number of compounds".toList) ∧
      equation.afterSetCoefficients coefficients = equation) ∧
    (coefficients.length = equation.getTotalCompounds →
      ∃ equation1, equation.setCoefficients coefficients = .ok equation1 ∧
        equation.afterSetCoefficients coefficients = equation1 ∧
        equation1.reactants_.length = equation.reactants_.length ∧
        equation1.products_.length = equation.products_.length ∧
        (∀ i, i < equation.reactants_.length →
          equation1.reactants_.getD i (⟨[], 0, [], false⟩, 0)
            = ((equation.reactants_.getD i (⟨[], 0, [], false⟩, 0)).1,
                coefficients.getD i 0)) ∧
        (∀ j, j < equation.products_.length →
          equation1.products_.getD j (⟨[], 0, [], false⟩, 0)
            = ((equation.products_.getD j (⟨[], 0, [], false⟩, 0)).1,
                coefficients.getD (equation.reactants_.length + j) 0))) := by
  have herr : coefficients.length ≠ equation.getTotalCompounds →
      equation.setCoefficients coefficients = .error (.invalidArgument
        "Number of coefficients doesn't match number of compounds".toList) := by
    intro hne
    unfold ChemicalEquation.setCoefficients
    rw [if_pos hne]
  have hok : coefficients.length = equation.getTotalCompounds →
      equation.setCoefficients coefficients = .ok (ChemicalEquation.checkBalance
        { equation with
          reactants_ := List.zipWith (fun reactant c => (reactant.1, c)) equation.reactants_
            (coefficients.take equation.reactants_.length)
          products_ := List.zipWith (fun product c => (product.1, c)) equation.products_
            (coefficients.drop equation.reactants_.length) }) := by
    intro heq
    unfold ChemicalEquation.setCoefficients
    rw [if_neg (fun hne => hne heq)]
  refine ⟨⟨?_, fun hne => ⟨_, herr hne⟩⟩, fun hne => ⟨herr hne, ?_⟩, fun heq => ?_⟩
  · rintro ⟨e, he⟩ heq
    rw [hok heq] at he
    cases he
  · unfold ChemicalEquation.afterSetCoefficients
    rw [herr hne]
  · have hlen : coefficients.length = equation.reactants_.length + equation.products_.length :=
      heq
    refine ⟨_, hok heq, ?_, ?_, ?_, ?_, ?_⟩
    · unfold ChemicalEquation.afterSetCoefficients
      rw [hok heq]
    · show (List.zipWith _ _ _).length = _
      rw [List.length_zipWith, List.length_take]
      omega
    · show (List.zipWith _ _ _).length = _
      rw [List.length_zipWith, List.length_drop]
      omega
    · intro i hi
      show (List.zipWith _ _ _).getD i _ = _
      rw [getD_zipWith _ _ _ i (⟨[], 0, [], false⟩, 0) 0 _ hi
        (by rw [List.length_take]; omega)]
      simp only [Prod.mk.injEq, true_and]
      rw [List.getD_eq_getElem?_getD, List.getD_eq_getElem?_getD, List.getElem?_take_of_lt hi]
    · intro j hj
      show (List.zipWith _ _ _).getD j _ = _
      rw [getD_zipWith _ _ _ j (⟨[], 0, [], false⟩, 0) 0 _ hj
        (by rw [List.length_drop]; omega)]
      simp only [Prod.mk.injEq, true_and]
      rw [List.getD_eq_getElem?_getD, List.getD_eq_getElem?_getD, List.getElem?_drop]

/-! ## The sorted set of elements -/

theorem setInsert_sorted (s : List (List Char)) (x : List Char)
    (hs : List.Pairwise (fun a b => a < b) s) :
    List.Pairwise (fun a b => a < b) (setInsert s x) := by
  induction s with
  | nil => simp [setInsert]
  | cons y ys ih =>
    rw [List.pairwise_cons] at hs
    simp only [setInsert]
    split
    · exact List.pairwise_cons.mpr hs
    · rename_i hxy
      split
      · rename_i hlt
        refine List.pairwise_cons.mpr ⟨fun z hz => ?_, List.pairwise_cons.mpr hs⟩
        rcases List.mem_cons.mp hz with h | h
        · rw [h]; exact hlt
        · exact lt_trans hlt (hs.1 z h)
      · rename_i hnlt
        refine List.pairwise_cons.mpr ⟨fun z hz => ?_, ih hs.2⟩
        rcases (mem_setInsert ys x z).mp hz with h | h
        · rw [h]
          rcases lt_trichotomy x y with h1 | h1 | h1
          · exact absurd h1 hnlt
          · exact absurd h1 hxy
          · exact h1
        · exact hs.1 z h

theorem fold_setInsert_sorted (entries : ElementMap) (s : List (List Char))
    (hs : List.Pairwise (fun a b => a < b) s) :
    List.Pairwise (fun a b => a < b)
      (entries.foldl (fun s element => setInsert s element.1) s) := by
  induction entries generalizing s with
  | nil => exact hs
  | cons p rest ih => exact ih _ (setInsert_sorted s p.1 hs)

theorem fold_compounds_sorted (compounds : List (ChemicalCompound × Int))
    (s : List (List Char)) (hs : List.Pairwise (fun a b => a < b) s) :
    List.Pairwise (fun a b => a < b)
      (compounds.foldl (fun s compound =>
        compound.1.getElementCount.foldl (fun s element => setInsert s element.1) s) s) := by
  induction compounds generalizing s with
  | nil => exact hs
  | cons cpd rest ih => exact ih _ (fold_setInsert_sorted _ s hs)

theorem getAllElements_sorted (equation : ChemicalEquation) :
    List.Pairwise (fun a b => a < b) equation.getAllElements := by
  unfold ChemicalEquation.getAllElements
  exact fold_compounds_sorted _ _ (fold_compounds_sorted _ _ List.Pairwise.nil)

theorem fold_compounds_congr (compounds1 compounds2 : List (ChemicalCompound × Int))
    (h : compounds1.map (fun compound => compound.1) = compounds2.map (fun compound => compound.1))
    (s : List (List Char)) :
    compounds1.foldl (fun s compound =>
        compound.1.getElementCount.foldl (fun s element => setInsert s element.1) s) s
      = compounds2.foldl (fun s compound =>
        compound.1.getElementCount.foldl (fun s element => setInsert s element.1) s) s := by
  have key : ∀ (l : List (ChemicalCompound × Int)) (s : List (List Char)),
      l.foldl (fun s compound =>
        compound.1.getElementCount.foldl (fun s element => setInsert s element.1) s) s
      = (l.map (fun compound => compound.1)).foldl (fun s compound =>
        compound.getElementCount.foldl (fun s element => setInsert s element.1) s) s := by
    intro l s
    rw [List.foldl_map]
  rw [key compounds1, key compounds2, h]

/-- The elements of an equation depend on its compounds only, not on the coefficients or on
the balanced flag. -/
theorem getAllElements_congr (equation1 equation2 : ChemicalEquation)
    (hr : equation1.reactants_.map (fun reactant => reactant.1)
      = equation2.reactants_.map (fun reactant => reactant.1))
    (hp : equation1.products_.map (fun product => product.1)
      = equation2.products_.map (fun product => product.1)) :
    equation1.getAllElements = equation2.getAllElements := by
  unfold ChemicalEquation.getAllElements
  simp only []
  rw [fold_compounds_congr _ _ hr, fold_compounds_congr _ _ hp]

/-- The equation that `balance` leaves has the compounds of the equation it was given. -/
theorem balance_compounds (b : EquationBalancer) (equation : ChemicalEquation) :
    (b.balance equation).2.2.reactants_.map (fun reactant => reactant.1)
      = equation.reactants_.map (fun reactant => reactant.1) ∧
    (b.balance equation).2.2.products_.map (fun product => product.1)
      = equation.products_.map (fun product => product.1) := by
  have hcore := congrArg Prod.snd (balance_eq_core b equation)
  simp only [] at hcore
  rw [hcore]
  unfold balanceCore
  split
  · exact ⟨rfl, rfl⟩
  · split
    · exact ⟨rfl, rfl⟩
    · split
      · exact ⟨rfl, rfl⟩
      · split
        · exact ⟨rfl, rfl⟩
        · rename_i equation1 hset
          have hok := setCoefficients_ok _ _ _ hset
          split
          · exact ⟨hok.2.1, hok.2.2.1⟩
          · exact ⟨hok.2.1, hok.2.2.1⟩

/-- C23: for every equation, `getAllElements` returns a strictly increasing list (sorted in
the order of `std::string`, without duplicates) that contains a symbol exactly when that
symbol is a key of the element map of some reactant or product; it depends only on the
compounds, not on the coefficients, and it is the same before and after `balance`. -/
theorem C23_elements_sorted_set (b : EquationBalancer) (equation : ChemicalEquation) :
    List.Pairwise (fun a b => a < b) equation.getAllElements ∧
    (∀ symbol, symbol ∈ equation.getAllElements
      ↔ ∃ compound ∈ equation.reactants_ ++ equation.products_,
          ∃ entry ∈ compound.1.getElementCount, entry.1 = symbol) ∧
    (∀ equation1 : ChemicalEquation,
      equation1.reactants_.map (fun reactant => reactant.1)
        = equation.reactants_.map (fun reactant => reactant.1) →
      equation1.products_.map (fun product => product.1)
        = equation.products_.map (fun product => product.1) →
      equation1.getAllElements = equation.getAllElements) ∧
    (b.balance equation).2.2.getAllElements = equation.getAllElements :=
  ⟨getAllElements_sorted equation, mem_getAllElements equation,
    fun equation1 hr hp => getAllElements_congr equation1 equation hr hp,
    getAllElements_congr _ _ (balance_compounds b equation).1 (balance_compounds b equation).2⟩

/-! ## The stoichiometric matrix and the atom balance -/

theorem setCoefficients_of_length (equation : ChemicalEquation) (coefficients : List Int)
    (h : coefficients.length = equation.getTotalCompounds) :
    ∃ equation1, equation.setCoefficients coefficients = .ok equation1 ∧
      equation.afterSetCoefficients coefficients = equation1 := by
  have hok : ∃ equation1, equation.setCoefficients coefficients = .ok equation1 := by
    unfold ChemicalEquation.setCoefficients
    rw [if_neg (fun hne => hne h)]
    exact ⟨_, rfl⟩
  obtain ⟨equation1, h1⟩ := hok
  refine ⟨equation1, h1, ?_⟩
  unfold ChemicalEquation.afterSetCoefficients
  rw [h1]

theorem setCoefficients_maps_sorted (equation equation1 : ChemicalEquation)
    (coefficients : List Int)
    (hmaps : ∀ compound ∈ equation.reactants_ ++ equation.products_,
      compound.1.getElementCount.Sorted)
    (hset : equation.setCoefficients coefficients = .ok equation1) :
    ∀ compound ∈ equation1.reactants_ ++ equation1.products_,
      compound.1.getElementCount.Sorted := by
  obtain ⟨_, hr, hp, _⟩ := setCoefficients_ok equation equation1 coefficients hset
  intro compound hc
  rcases List.mem_append.mp hc with h | h
  · have hm : compound.1 ∈ equation1.reactants_.map (fun reactant => reactant.1) :=
      List.mem_map.mpr ⟨compound, h, rfl⟩
    rw [hr] at hm
    obtain ⟨compound0, h0, heq⟩ := List.mem_map.mp hm
    have := hmaps compound0 (List.mem_append.mpr (Or.inl h0))
    rw [← heq]
    exact this
  · have hm : compound.1 ∈ equation1.products_.map (fun product => product.1) :=
      List.mem_map.mpr ⟨compound, h, rfl⟩
    rw [hp] at hm
    obtain ⟨compound0, h0, heq⟩ := List.mem_map.mp hm
    have := hmaps compound0 (List.mem_append.mpr (Or.inr h0))
    rw [← heq]
    exact this

/-- The row of an element times the coefficient vector is, up to a multiple of `2^32`, the
imbalance of that element once the vector is installed. -/
theorem dot_row_installed (equation equation1 : ChemicalEquation) (x : List Int)
    (hmaps : ∀ compound ∈ equation.reactants_ ++ equation.products_,
      compound.1.getElementCount.Sorted)
    (hset : equation.setCoefficients x = .ok equation1) (element : List Char) :
    ∃ k : Int, dot (stoichiometricRow equation element) (x.map (fun v : Int => (v : ℚ)))
      = ((imbalance equation1 element + 4294967296 * k : Int) : ℚ) := by
  obtain ⟨_, hr, hp, hcoef⟩ := setCoefficients_ok equation equation1 x hset
  obtain ⟨k, hk⟩ := dot_stoichiometricRow equation1
    (setCoefficients_maps_sorted equation equation1 x hmaps hset) element
  refine ⟨k, ?_⟩
  rw [← stoichiometricRow_congr equation equation1 hr hp element, ← hcoef, hk]

/-- The row of an element times the coefficient vector is the imbalance of that element once
the vector is installed, when no product holds the count `INT_MIN` for the element. -/
theorem dot_row_installed_of_range (equation equation1 : ChemicalEquation) (x : List Int)
    (hmaps : ∀ compound ∈ equation.reactants_ ++ equation.products_,
      compound.1.getElementCount.Sorted)
    (hset : equation.setCoefficients x = .ok equation1) (element : List Char)
    (hrange : ∀ product ∈ equation1.products_,
      -2147483647 ≤ product.1.getElementCount.atoms element ∧
        product.1.getElementCount.atoms element ≤ 2147483647) :
    dot (stoichiometricRow equation element) (x.map (fun v : Int => (v : ℚ)))
      = ((imbalance equation1 element : Int) : ℚ) := by
  obtain ⟨_, hr, hp, hcoef⟩ := setCoefficients_ok equation equation1 x hset
  rw [← stoichiometricRow_congr equation equation1 hr hp element, ← hcoef,
    dot_stoichiometricRow_of_range equation1
      (setCoefficients_maps_sorted equation equation1 x hmaps hset) element hrange]

/-- A vector in the null space of the stoichiometric matrix passes the conservation test once
it is installed; a vector that passes the test has, in every row, a product with the matrix
that is a multiple of `2^32`. -/
theorem null_and_conservation (equation : ChemicalEquation) (x : List Int)
    (hmaps : ∀ compound ∈ equation.reactants_ ++ equation.products_,
      compound.1.getElementCount.Sorted)
    (hx : x.length = equation.getTotalCompounds) :
    (IsNull (stoichiometricMatrix equation) (x.map (fun v : Int => (v : ℚ))) →
      validateAtomConservation (equation.afterSetCoefficients x) = true) ∧
    (validateAtomConservation (equation.afterSetCoefficients x) = true →
      ∀ element, ∃ k : Int,
        dot (stoichiometricRow equation element) (x.map (fun v : Int => (v : ℚ)))
          = ((4294967296 * k : Int) : ℚ)) := by
  obtain ⟨equation1, hset, hafter⟩ := setCoefficients_of_length equation x hx
  rw [hafter]
  refine ⟨fun hnull => validate_of_null equation equation1 x hmaps hset hnull, ?_⟩
  intro hv element
  obtain ⟨k2, hk2⟩ :=
    (wrapInt_eq_zero_iff _).mp ((validateAtomConservation_iff equation1).mp hv element)
  obtain ⟨k1, hk1⟩ := dot_row_installed equation equation1 x hmaps hset element
  refine ⟨k2 + k1, ?_⟩
  rw [hk1, hk2]
  congr 1
  ring

/-- C30 (defect of the code): for `A2 + B4 -> A1073741827B` and the vector `x = (6, 1, 4)`,
the row of `A` of the stoichiometric matrix times `x` is `2 * 6 - 1073741827 * 4`, which is
`-4294967296`, but the imbalance of `A` that `getAtomBalance` reports after `x` is installed
is `0`; `x` is not in the null space of the matrix, and the equation with the coefficients
`x` passes the conservation test.  The `int` sums of `getAtomBalance` wrap around; the matrix
holds `double` values, which do not. -/
theorem C30_matrix_product_is_not_atom_balance :
    (∀ compound ∈ overflowEquation.reactants_ ++ overflowEquation.products_,
      compound.1.getElementCount.Sorted) ∧
    ([6, 1, 4] : List Int).length = overflowEquation.getTotalCompounds ∧
    overflowEquation.setCoefficients [6, 1, 4]
      = .ok (overflowEquation.afterSetCoefficients [6, 1, 4]) ∧
    overflowEquation.getAllElements = ["A".toList, "B".toList] ∧
    (EquationBalancer.buildStoichiometricMatrix ⟨⟨[]⟩, []⟩ overflowEquation).1
      = [[2, 0, -1073741827], [0, 4, -1]] ∧
    dot ((EquationBalancer.buildStoichiometricMatrix ⟨⟨[]⟩, []⟩ overflowEquation).1.getD 0 [])
      (([6, 1, 4] : List Int).map (fun v : Int => (v : ℚ))) = -4294967296 ∧
    getAtomBalance (overflowEquation.afterSetCoefficients [6, 1, 4])
      = [("A".toList, 0), ("B".toList, 0)] ∧
    ¬ IsNull (EquationBalancer.buildStoichiometricMatrix ⟨⟨[]⟩, []⟩ overflowEquation).1
      (([6, 1, 4] : List Int).map (fun v : Int => (v : ℚ))) ∧
    validateAtomConservation (overflowEquation.afterSetCoefficients [6, 1, 4]) = true := by
  have hM : (EquationBalancer.buildStoichiometricMatrix ⟨⟨[]⟩, []⟩ overflowEquation).1
      = [[2, 0, -1073741827], [0, 4, -1]] := by decide!
  refine ⟨by decide, by decide, by decide!, by decide!, hM, by decide!, by decide!, ?_,
    by decide!⟩
  intro hnull
  rw [hM] at hnull
  exact absurd (hnull [2, 0, -1073741827] (List.mem_cons_self _ _)) (by decide!)

/-! ## The solver on a one-dimensional null space -/

/-- With the exact zero test, on a matrix whose null space is the line through a vector `c`
with last entry not `0`, the solver returns `c` divided by its last entry. -/
theorem exact_solver_of_span (self : MatrixSolver) (matrix : Matrix) (n : Nat) (c : List ℚ)
    (hrows : 1 ≤ matrix.length) (hn : 1 ≤ n) (hrect : Rect matrix n) (hlen : c.length = n)
    (hlast : c.getD (n - 1) 0 ≠ 0)
    (hnull : ∀ x : List ℚ, x.length = n →
      (IsNull matrix x ↔ ∃ t : ℚ, x = c.map (fun ci => t * ci))) :
    (self.gaussianEliminationBy isExactZero matrix).1.length = n ∧
    ∀ j, j < n → (self.gaussianEliminationBy isExactZero matrix).1.getD j 0
      = c.getD j 0 / c.getD (n - 1) 0 := by
  have hcq : IsNull matrix (c.map (fun ci => (1 : ℚ) * ci)) :=
    (hnull _ (by simp [hlen])).mpr ⟨1, rfl⟩
  have hc : NullF n matrix (fun j => c.getD j 0) := by
    have h1 := (isNull_iff_nullF _ _ hrect _ (by simp [hlen])).mp hcq
    apply NullF_congr _ _ _ _ _ h1
    intro j hj
    rw [getD_map _ _ _ (0 : ℚ) _ (by omega)]
    simp
  have hN : ∀ x : Nat → ℚ, NullF n matrix x → x (n - 1) = 0 → ∀ j, j < n → x j = 0 := by
    intro x hx hx0 j hj
    have hget : ∀ i, i < n → ((List.range n).map x).getD i 0 = x i := by
      intro i hi
      rw [getD_map _ _ _ 0 _ (by simp [hi]), List.getD_eq_getElem _ _ (by simp [hi])]
      simp
    have h1 : NullF n matrix (fun i => ((List.range n).map x).getD i 0) :=
      NullF_congr _ _ _ _ (fun i hi => (hget i hi).symm) hx
    have h2 := (isNull_iff_nullF _ _ hrect _ (by simp)).mpr h1
    obtain ⟨t, ht⟩ := (hnull _ (by simp)).mp h2
    have hentry : ∀ i, i < n → x i = t * c.getD i 0 := by
      intro i hi
      rw [← hget i hi, ht, getD_map _ _ _ (0 : ℚ) _ (by omega)]
    have ht0 : t = 0 := by
      have h3 := hentry (n - 1) (by omega)
      rw [hx0] at h3
      rcases mul_eq_zero.mp h3.symm with h | h
      · exact h
      · exact absurd h hlast
    rw [hentry j hj, ht0, zero_mul]
  exact exact_solver_solution n matrix self hn hrows hrect _ hc hlast hN

theorem heavyMatrix_null (x : List ℚ) (h : x.length = 4) :
    IsNull heavyMatrix x ↔ ∃ t : ℚ, x = ([1, 1, 1, 1] : List ℚ).map (fun ci => t * ci) := by
  obtain ⟨x0, x1, x2, x3, rfl⟩ := list_length_four x h
  simp only [heavyMatrix, IsNull, dot, List.mem_cons, List.mem_singleton, List.not_mem_nil,
    or_false, forall_eq_or_imp, forall_eq, List.zipWith_cons_cons, List.zipWith_nil_right,
    List.sum_cons, List.sum_nil, List.map_cons, List.map_nil, List.cons.injEq, and_true]
  constructor
  · rintro ⟨h1, h2, h3⟩
    refine ⟨x3, ?_, ?_, ?_, ?_⟩ <;> linarith
  · rintro ⟨t, h0, h1, h2, h3⟩
    refine ⟨?_, ?_, ?_⟩ <;> linarith

theorem waterMatrix_null (x : List ℚ) (h : x.length = 3) :
    IsNull waterMatrix x ↔ ∃ t : ℚ, x = ([2, 1, 2] : List ℚ).map (fun ci => t * ci) := by
  obtain ⟨x0, x1, x2, rfl⟩ := list_length_three x h
  simp only [waterMatrix, IsNull, dot, List.mem_cons, List.mem_singleton, List.not_mem_nil,
    or_false, forall_eq_or_imp, forall_eq, List.zipWith_cons_cons, List.zipWith_nil_right,
    List.sum_cons, List.sum_nil, List.map_cons, List.map_nil, List.cons.injEq, and_true]
  constructor
  · rintro ⟨h1, h2⟩
    refine ⟨x1, ?_, ?_, ?_⟩ <;> linarith
  · rintro ⟨t, h0, h1, h2⟩
    constructor <;> linarith

/-- C29 fails as stated. The matrix of `C1000000O + CH1000000 + H -> C1000001H1000001O` has
three rows of four entries, its null space is the line through `(1, 1, 1, 1)`, a vector with
no zero entry, yet `gaussianElimination`, computed in exact rational arithmetic, returns
`(999999999999/1000000000000, 1000001/1000000, 0, 1)`, which is not a null vector (its
product with the third row is `-1/1000000000000`): elimination reaches a pivot below the
tolerance `1e-10`, and `isZero` takes it for zero. -/
theorem C29_tolerance_loses_null_vector :
    heavyMatrix = stoichiometricMatrix heavyEquation ∧
    1 ≤ heavyMatrix.length ∧ Rect heavyMatrix 4 ∧
    (∀ ci ∈ ([1, 1, 1, 1] : List ℚ), ci ≠ 0) ∧
    (∀ x : List ℚ, x.length = 4 →
      (IsNull heavyMatrix x ↔ ∃ t : ℚ, x = ([1, 1, 1, 1] : List ℚ).map (fun ci => t * ci))) ∧
    (MatrixSolver.gaussianElimination ⟨[]⟩ heavyMatrix).1
      = [999999999999 / 1000000000000, 1000001 / 1000000, 0, 1] ∧
    dot (heavyMatrix.getD 2 []) (MatrixSolver.gaussianElimination ⟨[]⟩ heavyMatrix).1
      = -1 / 1000000000000 ∧
    ¬ IsNull heavyMatrix (MatrixSolver.gaussianElimination ⟨[]⟩ heavyMatrix).1 := by
  have hs : (MatrixSolver.gaussianElimination ⟨[]⟩ heavyMatrix).1
      = [999999999999 / 1000000000000, 1000001 / 1000000, 0, 1] := by decide!
  have hd : dot (heavyMatrix.getD 2 []) (MatrixSolver.gaussianElimination ⟨[]⟩ heavyMatrix).1
      = -1 / 1000000000000 := by decide!
  refine ⟨by decide!, by decide!, by unfold Rect; decide!, by decide!, heavyMatrix_null, hs, hd, ?_⟩
  intro hnull
  have h0 := hnull (heavyMatrix.getD 2 []) (by decide!)
  rw [hd] at h0
  norm_num at h0

/-- C29 (amended): for every matrix with at least one row and `n ≥ 1` columns whose null
space is the line through a vector with no zero entry, and on which the tolerance tests
decide as exact zero tests (the solver returns what it returns with `isExactZero` in place of
`isZero`), `gaussianElimination` returns a vector of length `n` with last entry `1` that
solves `M·x = 0` for the original matrix: a nonzero null vector, namely the spanning vector
divided by its last entry. -/
theorem C29_null_vector_when_tolerance_exact (self : MatrixSolver) (matrix : Matrix) (n : Nat)
    (c : List ℚ) (hrows : 1 ≤ matrix.length) (hn : 1 ≤ n) (hrect : Rect matrix n)
    (hlen : c.length = n) (hc : ∀ ci ∈ c, ci ≠ 0)
    (hnull : ∀ x : List ℚ, x.length = n →
      (IsNull matrix x ↔ ∃ t : ℚ, x = c.map (fun ci => t * ci)))
    (htol : (self.gaussianElimination matrix).1
      = (self.gaussianEliminationBy isExactZero matrix).1) :
    (self.gaussianElimination matrix).1.length = n ∧
    (self.gaussianElimination matrix).1.getD (n - 1) 0 = 1 ∧
    IsNull matrix (self.gaussianElimination matrix).1 ∧
    (self.gaussianElimination matrix).1 ≠ List.replicate n 0 ∧
    (self.gaussianElimination matrix).1 = c.map (fun ci => (1 / c.getD (n - 1) 0) * ci) := by
  have hlast : c.getD (n - 1) 0 ≠ 0 := by
    apply hc
    rw [List.getD_eq_getElem _ _ (by omega)]
    exact List.getElem_mem _
  obtain ⟨hslen, hsget⟩ := exact_solver_of_span self matrix n c hrows hn hrect hlen hlast hnull
  rw [htol]
  have heq : (self.gaussianEliminationBy isExactZero matrix).1
      = c.map (fun ci => (1 / c.getD (n - 1) 0) * ci) := by
    apply list_ext_getD _ _ 0
    · rw [hslen, List.length_map, hlen]
    · intro j hj
      rw [hslen] at hj
      rw [hsget j hj, getD_map _ _ _ (0 : ℚ) _ (by omega)]
      ring
  have hone : (self.gaussianEliminationBy isExactZero matrix).1.getD (n - 1) 0 = 1 := by
    rw [hsget (n - 1) (by omega)]
    exact div_self hlast
  refine ⟨hslen, hone, ?_, ?_, heq⟩
  · rw [heq]
    exact (hnull _ (by simp [hlen])).mpr ⟨_, rfl⟩
  · intro hzero
    rw [hzero, List.getD_eq_getElem _ _ (by simp; omega)] at hone
    simp at hone

/-- C29 (amended) at the matrix of `H2 + O2 -> H2O`, whose null space is the line through
`(2, 1, 2)`: the solver returns `(1, 1/2, 1)`. -/
theorem C29_null_vector_when_tolerance_exact_witness :
    1 ≤ waterMatrix.length ∧ Rect waterMatrix 3 ∧ (∀ ci ∈ ([2, 1, 2] : List ℚ), ci ≠ 0) ∧
    (MatrixSolver.gaussianElimination ⟨[]⟩ waterMatrix).1
      = (MatrixSolver.gaussianEliminationBy isExactZero ⟨[]⟩ waterMatrix).1 ∧
    (MatrixSolver.gaussianElimination ⟨[]⟩ waterMatrix).1.length = 3 ∧
    (MatrixSolver.gaussianElimination ⟨[]⟩ waterMatrix).1.getD (3 - 1) 0 = 1 ∧
    IsNull waterMatrix (MatrixSolver.gaussianElimination ⟨[]⟩ waterMatrix).1 :=
  ⟨by decide!, by unfold Rect; decide!, by decide!, by decide!,
    (C29_null_vector_when_tolerance_exact ⟨[]⟩ waterMatrix 3 [2, 1, 2] (by decide!) (by decide!)
      (by unfold Rect; decide!) (by decide!) (by decide!) waterMatrix_null (by decide!)).1,
    (C29_null_vector_when_tolerance_exact ⟨[]⟩ waterMatrix 3 [2, 1, 2] (by decide!) (by decide!)
      (by unfold Rect; decide!) (by decide!) (by decide!) waterMatrix_null (by decide!)).2.1,
    (C29_null_vector_when_tolerance_exact ⟨[]⟩ waterMatrix 3 [2, 1, 2] (by decide!) (by decide!)
      (by unfold Rect; decide!) (by decide!) (by decide!) waterMatrix_null (by decide!)).2.2.1⟩

/-! ## Coefficients read by `parseEquationString` -/

theorem digit_value_bounds (c : Char) (h : c.isDigit = true) :
    0 ≤ (c.toNat : Int) - ('0'.toNat : Int) ∧ (c.toNat : Int) - ('0'.toNat : Int) ≤ 9 ∧
    (c ≠ '0' → 1 ≤ (c.toNat : Int) - ('0'.toNat : Int)) := by
  simp only [Char.isDigit, Bool.and_eq_true, decide_eq_true_eq] at h
  have h0 : ('0'.toNat : Int) = 48 := by decide
  have h1 : 48 ≤ c.toNat := h.1
  have h2 : c.toNat ≤ 57 := h.2
  refine ⟨by omega, by omega, fun hne => ?_⟩
  have h3 : c.toNat ≠ 48 := by
    intro heq
    apply hne
    apply Char.ext
    apply UInt32.ext
    exact heq
  omega

theorem digits_fold_nonneg (digits : List Char) (hd : ∀ c ∈ digits, c.isDigit = true)
    (init : Int) (hinit : 0 ≤ init) :
    0 ≤ digits.foldl (fun value c => value * 10 + ((c.toNat : Int) - ('0'.toNat : Int))) init := by
  induction digits generalizing init with
  | nil => exact hinit
  | cons c rest ih =>
    rw [List.foldl_cons]
    apply ih (fun d hd1 => hd d (List.mem_cons_of_mem _ hd1))
    have := (digit_value_bounds c (hd c (List.mem_cons_self _ _))).1
    omega

theorem digits_fold_pos (digits : List Char) (hd : ∀ c ∈ digits, c.isDigit = true)
    (hne : digits ≠ []) (hzero : '0' ∉ digits) :
    1 ≤ digits.foldl (fun value c => value * 10 + ((c.toNat : Int) - ('0'.toNat : Int))) 0 := by
  rcases List.eq_nil_or_concat digits with h | ⟨front, last, h⟩
  · exact absurd h hne
  · rw [List.concat_eq_append] at h
    rw [h, List.foldl_append, List.foldl_cons, List.foldl_nil]
    have hfront := digits_fold_nonneg front
      (fun c hc => hd c (by rw [h]; exact List.mem_append_left _ hc)) 0 (le_refl 0)
    have hlast := (digit_value_bounds last
      (hd last (by rw [h]; simp))).2.2 (by
        intro heq
        apply hzero
        rw [h, heq]
        simp)
    omega

/-- What `std::stoi` returns on a string of digits is between `0` and `INT_MAX`, and at
least `1` when no digit is `0`. -/
theorem stoi_bounds (digits : List Char) (value : Int) (hd : ∀ c ∈ digits, c.isDigit = true)
    (h : stoi digits = .ok value) :
    0 ≤ value ∧ value ≤ 2147483647 ∧ (digits ≠ [] → '0' ∉ digits → 1 ≤ value) := by
  unfold stoi at h
  simp only [] at h
  split at h
  · cases h
  · rename_i hle
    simp only [Except.ok.injEq] at h
    rw [← h]
    exact ⟨digits_fold_nonneg digits hd 0 (le_refl 0), by omega,
      fun hne hzero => digits_fold_pos digits hd hne hzero⟩

/-- The first capture of the coefficient regex is made of digits of the string. -/
theorem matchCoeffRegex_digits (compoundStr digits formula : List Char)
    (h : matchCoeffRegex compoundStr = some (digits, formula)) :
    (∀ c ∈ digits, c.isDigit = true) ∧ (∀ c ∈ digits, c ∈ compoundStr) := by
  unfold matchCoeffRegex at h
  simp only [] at h
  obtain ⟨taken, _, htaken⟩ := List.exists_of_findSome?_eq_some h
  cases hm : matchFormulaTail
      (List.drop taken (List.takeWhile Char.isDigit (List.dropWhile isspace compoundStr)) ++
        List.dropWhile Char.isDigit (List.dropWhile isspace compoundStr)) with
  | none => rw [hm] at htaken; cases htaken
  | some formula1 =>
    rw [hm] at htaken
    simp only [Option.map_some', Option.some.injEq, Prod.mk.injEq] at htaken
    rw [← htaken.1]
    constructor
    · intro c hc
      exact List.mem_takeWhile_imp (List.mem_of_mem_take hc)
    · intro c hc
      have h1 := (List.takeWhile_sublist Char.isDigit).subset (List.mem_of_mem_take hc)
      exact (List.dropWhile_sublist isspace).subset h1

/-- The coefficient that `parseCompoundWithCoefficient` returns is between `0` and `INT_MAX`,
and at least `1` when the token holds no digit `0`. -/
theorem parseCompoundWithCoefficient_bounds (compoundStr formula : List Char) (coeff : Int)
    (h : parseCompoundWithCoefficient compoundStr = .ok (formula, coeff)) :
    0 ≤ coeff ∧ coeff ≤ 2147483647 ∧ ('0' ∉ compoundStr → 1 ≤ coeff) := by
  unfold parseCompoundWithCoefficient at h
  split at h
  · rename_i digits formula1 hm
    obtain ⟨hd, hsub⟩ := matchCoeffRegex_digits compoundStr digits formula1 hm
    split at h
    · simp only [Except.ok.injEq, Prod.mk.injEq] at h
      rw [← h.2]
      exact ⟨by omega, by omega, fun _ => le_refl 1⟩
    · rename_i hne
      split at h
      · rename_i coefficient hs
        simp only [Except.ok.injEq, Prod.mk.injEq] at h
        rw [← h.2]
        obtain ⟨h0, h1, h2⟩ := stoi_bounds digits coefficient hd hs
        refine ⟨h0, h1, fun hzero => h2 ?_ (fun hmem => hzero (hsub _ hmem))⟩
        intro hnil
        apply hne
        rw [hnil]
        rfl
      · cases h
  · cases h

/-- The tokens that `splitTokens` returns are made of characters of the token under
construction and of the string. -/
theorem splitTokens_chars (matchAt : List Char → Option (List Char))
    (hmatch : ∀ s rest, matchAt s = some rest → ∀ c ∈ rest, c ∈ s) (fuel : Nat) :
    ∀ (token s : List Char), ∀ t ∈ splitTokens matchAt fuel token s,
      ∀ c ∈ t, c ∈ token ∨ c ∈ s := by
  induction fuel with
  | zero =>
    intro token s t ht c hc
    simp only [splitTokens, List.mem_singleton] at ht
    rw [ht] at hc
    exact Or.inl hc
  | succ fuel ih =>
    intro token s t ht c hc
    cases s with
    | nil =>
      simp only [splitTokens, List.mem_singleton] at ht
      rw [ht] at hc
      exact Or.inl hc
    | cons a rest =>
      simp only [splitTokens] at ht
      cases hm : matchAt (a :: rest) with
      | some rest1 =>
        rw [hm] at ht
        simp only [List.mem_cons] at ht
        rcases ht with ht | ht
        · rw [ht] at hc
          exact Or.inl hc
        · rcases ih [] rest1 t ht c hc with h | h
          · simp at h
          · exact Or.inr (hmatch _ _ hm c h)
      | none =>
        rw [hm] at ht
        simp only [] at ht
        rcases ih (token ++ [a]) rest t ht c hc with h | h
        · rcases List.mem_append.mp h with h1 | h1
          · exact Or.inl h1
          · rw [List.mem_singleton.mp h1]
            exact Or.inr (List.mem_cons_self _ _)
        · exact Or.inr (List.mem_cons_of_mem _ h)

theorem matchPlus_chars (s rest : List Char) (h : matchPlus s = some rest) :
    ∀ c ∈ rest, c ∈ s := by
  unfold matchPlus at h
  split at h
  · rename_i rest1 heq
    simp only [Option.some.injEq] at h
    intro c hc
    rw [← h] at hc
    have h1 := (List.dropWhile_sublist isspace).subset hc
    have h2 : c ∈ s.dropWhile isspace := by
      rw [heq]
      exact List.mem_cons_of_mem _ h1
    exact (List.dropWhile_sublist isspace).subset h2
  · cases h

theorem matchArrow_chars (s rest : List Char) (h : matchArrow s = some rest) :
    ∀ c ∈ rest, c ∈ s := by
  unfold matchArrow at h
  split at h
  · rename_i rest1 heq
    simp only [Option.some.injEq] at h
    intro c hc
    rw [← h] at hc
    have h1 := (List.dropWhile_sublist isspace).subset hc
    have h2 : c ∈ s.dropWhile isspace := by
      rw [heq]
      exact List.mem_cons_of_mem _ (List.mem_cons_of_mem _ h1)
    exact (List.dropWhile_sublist isspace).subset h2
  · rename_i rest1 heq
    simp only [Option.some.injEq] at h
    intro c hc
    rw [← h] at hc
    have h1 := (List.dropWhile_sublist isspace).subset hc
    have h2 : c ∈ s.dropWhile isspace := by
      rw [heq]
      exact List.mem_cons_of_mem _ h1
    exact (List.dropWhile_sublist isspace).subset h2
  · cases h

theorem splitCompounds_chars (side : List Char) :
    ∀ t ∈ splitCompounds side, ∀ c ∈ t, c ∈ side := by
  intro t ht c hc
  unfold splitCompounds at ht
  rcases splitTokens_chars matchPlus matchPlus_chars _ [] side t (List.mem_filter.mp ht).1 c hc
    with h | h
  · simp at h
  · exact h

/-- The loops "Parse reactants" and "Parse products" add coefficients that
`parseCompoundWithCoefficient` returned for one of the tokens. -/
theorem addCompounds_coefficients (Q : Int → Prop) (isProduct : Bool)
    (compounds : List (List Char))
    (hQ : ∀ compoundStr ∈ compounds, ∀ formula coeff,
      parseCompoundWithCoefficient compoundStr = .ok (formula, coeff) → Q coeff) :
    ∀ (equation equation1 : ChemicalEquation),
      (∀ compound ∈ equation.reactants_ ++ equation.products_, Q compound.2) →
      addCompounds isProduct compounds equation = .ok equation1 →
      ∀ compound ∈ equation1.reactants_ ++ equation1.products_, Q compound.2 := by
  induction compounds with
  | nil =>
    intro equation equation1 hinv h
    simp only [addCompounds, Except.ok.injEq] at h
    rw [← h]
    exact hinv
  | cons compoundStr rest ih =>
    intro equation equation1 hinv h
    unfold addCompounds at h
    cases hp : parseCompoundWithCoefficient compoundStr with
    | error e => rw [hp] at h; cases h
    | ok parsed =>
      obtain ⟨formula, coeff⟩ := parsed
      have hq : Q coeff := hQ compoundStr (List.mem_cons_self _ _) formula coeff hp
      rw [hp] at h
      simp only [] at h
      cases hv : (ChemicalCompound.create formula).isValid with
      | false => rw [hv] at h; simp at h
      | true =>
        rw [hv] at h
        simp only [Bool.not_true, Bool.false_eq_true, if_false] at h
        apply ih (fun s hs => hQ s (List.mem_cons_of_mem _ hs)) _ equation1 _ h
        intro compound hc
        cases isProduct with
        | false =>
          simp only [Bool.false_eq_true, if_false, ChemicalEquation.addReactant,
            List.mem_append, List.mem_singleton] at hc
          rcases hc with (hc | hc) | hc
          · exact hinv compound (List.mem_append.mpr (Or.inl hc))
          · rw [hc]; exact hq
          · exact hinv compound (List.mem_append.mpr (Or.inr hc))
        | true =>
          simp only [if_true, ChemicalEquation.addProduct, List.mem_append,
            List.mem_singleton] at hc
          rcases hc with hc | hc | hc
          · exact hinv compound (List.mem_append.mpr (Or.inl hc))
          · exact hinv compound (List.mem_append.mpr (Or.inr hc))
          · rw [hc]; exact hq

/-- C27 fails as stated. `parseEquationString` returns an equation for `0H2 + O2 -> H2O`, and
its first reactant has the coefficient `0`: the regex capture `\d+` admits `0` and the value
of `std::stoi` is stored as it is. -/
theorem C27_zero_coefficient_accepted :
    parseEquationString "0H2 + O2 -> H2O".toList = .ok zeroCoefficientEquation ∧
    zeroCoefficientEquation.reactants_.map (fun reactant => (reactant.1.formula_, reactant.2))
      = [("H2".toList, 0), ("O2".toList, 1)] ∧
    zeroCoefficientEquation.products_.map (fun product => (product.1.formula_, product.2))
      = [("H2O".toList, 1)] ∧
    (∀ compound ∈ zeroCoefficientEquation.reactants_ ++ zeroCoefficientEquation.products_,
      compound.1.isValid = true) ∧
    ¬ (∀ compound ∈ zeroCoefficientEquation.reactants_ ++ zeroCoefficientEquation.products_,
      1 ≤ compound.2) := by
  refine ⟨by decide!, by decide!, by decide!, by decide!, by decide!⟩

theorem digits_fold_eq_zero (digits : List Char) (hd : ∀ c ∈ digits, c.isDigit = true)
    (init : Int) (hinit : 0 ≤ init) :
    digits.foldl (fun value c => value * 10 + ((c.toNat : Int) - ('0'.toNat : Int))) init = 0
      ↔ init = 0 ∧ ∀ c ∈ digits, c = '0' := by
  induction digits generalizing init with
  | nil => simp
  | cons c rest ih =>
    have hc := digit_value_bounds c (hd c (List.mem_cons_self _ _))
    rw [List.foldl_cons, ih (fun d hd1 => hd d (List.mem_cons_of_mem _ hd1)) _ (by omega)]
    constructor
    · rintro ⟨h1, h2⟩
      have hc0 : c = '0' := by
        by_contra hne
        have := hc.2.2 hne
        omega
      refine ⟨by omega, fun d hd1 => ?_⟩
      rcases List.mem_cons.mp hd1 with h | h
      · rw [h, hc0]
      · exact h2 d h
    · rintro ⟨h1, h2⟩
      have hc0 : c = '0' := h2 c (List.mem_cons_self _ _)
      subst hc0
      subst h1
      exact ⟨by decide, fun d hd1 => h2 d (List.mem_cons_of_mem _ hd1)⟩

/-- The value that `std::stoi` returns is the decimal value of the digits. -/
theorem stoi_value (digits : List Char) (value : Int) (h : stoi digits = .ok value) :
    value = decimalValue digits ∧ decimalValue digits ≤ 2147483647 := by
  unfold stoi at h
  simp only [] at h
  split at h
  · cases h
  · rename_i hle
    simp only [Except.ok.injEq] at h
    have hsame : digits.foldl
        (fun value c => value * 10 + ((c.toNat : Int) - ('0'.toNat : Int))) 0
        = decimalValue digits := rfl
    rw [hsame] at h hle
    exact ⟨h.symm, by omega⟩

/-- What `parseCompoundWithCoefficient` returns for a token: the formula that the regex
captures and the value of the digits that it captures. -/
theorem parseCompoundWithCoefficient_token (token formula : List Char) (coeff : Int)
    (h : parseCompoundWithCoefficient token = .ok (formula, coeff)) :
    ∃ digits, matchCoeffRegex token = some (digits, formula) ∧
      (∀ d ∈ digits, d.isDigit = true) ∧ coeff = countValue digits ∧
      0 ≤ coeff ∧ coeff ≤ 2147483647 ∧
      (coeff = 0 ↔ digits ≠ [] ∧ ∀ d ∈ digits, d = '0') ∧
      tokenCompound token = (ChemicalCompound.create formula, coeff) := by
  have hb := parseCompoundWithCoefficient_bounds token formula coeff h
  unfold parseCompoundWithCoefficient at h
  split at h
  · rename_i digits formula1 hm
    obtain ⟨hd, _⟩ := matchCoeffRegex_digits token digits formula1 hm
    have hcoeff : formula1 = formula ∧ coeff = countValue digits := by
      split at h
      · rename_i hempty
        simp only [Except.ok.injEq, Prod.mk.injEq] at h
        have hnil : digits = [] := List.isEmpty_iff.mp hempty
        exact ⟨h.1, by rw [← h.2, hnil]; rfl⟩
      · rename_i hempty
        have hne : digits ≠ [] := fun hnil => hempty (List.isEmpty_iff.mpr hnil)
        cases hs : stoi digits with
        | error e => rw [hs] at h; cases h
        | ok value =>
          rw [hs] at h
          simp only [Except.ok.injEq, Prod.mk.injEq] at h
          refine ⟨h.1, ?_⟩
          rw [← h.2, (stoi_value digits value hs).1]
          unfold countValue
          rw [if_neg hne]
    obtain ⟨hf, hc⟩ := hcoeff
    subst hf
    refine ⟨digits, hm, hd, hc, hb.1, hb.2.1, ?_, ?_⟩
    · rw [hc]
      unfold countValue
      by_cases hnil : digits = []
      · rw [if_pos hnil]
        constructor
        · intro h1; cases h1
        · intro h1; exact absurd hnil h1.1
      · rw [if_neg hnil]
        have := digits_fold_eq_zero digits hd 0 (le_refl 0)
        constructor
        · intro h1
          exact ⟨hnil, (this.mp h1).2⟩
        · intro h1
          exact this.mpr ⟨rfl, h1.2⟩
    · unfold tokenCompound
      rw [hm, hc]
  · cases h

/-- The loops "Parse reactants" and "Parse products" append, token by token, the compound
and the coefficient that the token stands for; every token they pass has a valid compound. -/
theorem addCompounds_tokens (isProduct : Bool) (compounds : List (List Char)) :
    ∀ (equation equation1 : ChemicalEquation),
      addCompounds isProduct compounds equation = .ok equation1 →
      equation1.reactants_
        = equation.reactants_ ++ (if isProduct then [] else compounds.map tokenCompound) ∧
      equation1.products_
        = equation.products_ ++ (if isProduct then compounds.map tokenCompound else []) ∧
      ∀ token ∈ compounds, ∃ digits formula, matchCoeffRegex token = some (digits, formula) ∧
        (∀ d ∈ digits, d.isDigit = true) ∧
        (tokenCompound token).1 = ChemicalCompound.create formula ∧
        (tokenCompound token).1.isValid = true ∧
        (tokenCompound token).2 = countValue digits ∧
        0 ≤ (tokenCompound token).2 ∧ (tokenCompound token).2 ≤ 2147483647 ∧
        ((tokenCompound token).2 = 0 ↔ digits ≠ [] ∧ ∀ d ∈ digits, d = '0') := by
  induction compounds with
  | nil =>
    intro equation equation1 h
    simp only [addCompounds, Except.ok.injEq] at h
    rw [← h]
    refine ⟨by split <;> simp, by split <;> simp, fun token ht => ?_⟩
    cases ht
  | cons compoundStr rest ih =>
    intro equation equation1 h
    unfold addCompounds at h
    cases hp : parseCompoundWithCoefficient compoundStr with
    | error e => rw [hp] at h; cases h
    | ok parsed =>
      obtain ⟨formula, coeff⟩ := parsed
      obtain ⟨digits, hm, hd, hc, h0, h1, hz, htok⟩ :=
        parseCompoundWithCoefficient_token compoundStr formula coeff hp
      rw [hp] at h
      simp only [] at h
      cases hv : (ChemicalCompound.create formula).isValid with
      | false => rw [hv] at h; simp at h
      | true =>
        rw [hv] at h
        simp only [Bool.not_true, Bool.false_eq_true, if_false] at h
        obtain ⟨hr, hpr, hall⟩ := ih _ equation1 h
        have hhead : ∃ digits formula, matchCoeffRegex compoundStr = some (digits, formula) ∧
            (∀ d ∈ digits, d.isDigit = true) ∧
            (tokenCompound compoundStr).1 = ChemicalCompound.create formula ∧
            (tokenCompound compoundStr).1.isValid = true ∧
            (tokenCompound compoundStr).2 = countValue digits ∧
            0 ≤ (tokenCompound compoundStr).2 ∧ (tokenCompound compoundStr).2 ≤ 2147483647 ∧
            ((tokenCompound compoundStr).2 = 0 ↔ digits ≠ [] ∧ ∀ d ∈ digits, d = '0') := by
          refine ⟨digits, formula, hm, hd, ?_⟩
          rw [htok]
          exact ⟨rfl, hv, hc, h0, h1, hz⟩
        cases isProduct with
        | false =>
          simp only [Bool.false_eq_true, if_false, ChemicalEquation.addReactant,
            List.append_nil] at hr hpr ⊢
          refine ⟨by rw [hr, List.map_cons, htok, List.append_assoc]; rfl, hpr, fun token ht => ?_⟩
          rcases List.mem_cons.mp ht with ht | ht
          · rw [ht]; exact hhead
          · exact hall token ht
        | true =>
          simp only [if_true, ChemicalEquation.addProduct, List.append_nil] at hr hpr ⊢
          refine ⟨hr, by rw [hpr, List.map_cons, htok, List.append_assoc]; rfl, fun token ht => ?_⟩
          rcases List.mem_cons.mp ht with ht | ht
          · rw [ht]; exact hhead
          · exact hall token ht

/-- C27 (amended): every equation returned by `parseEquationString` holds, in the order of
the tokens of its two sides, one compound for each token, and only valid compounds; each
reactant's and each product's coefficient is the decimal value, at most `INT_MAX`
(2147483647), of the digits that the token holds before its formula, and `1` when it holds
none.  So every coefficient is `≥ 0`; it is `0` exactly when digits are written for it and
all of them are `0`, and it is `≥ 1` otherwise. -/
theorem C27_parsed_equation_coefficients (equationStr : List Char)
    (equation : ChemicalEquation) (h : parseEquationString equationStr = .ok equation) :
    ∃ reactantSide productSide,
      (splitTokens matchArrow equationStr.length [] equationStr).filter
        (fun side => !side.isEmpty) = [reactantSide, productSide] ∧
      equation.reactants_ = (splitCompounds reactantSide).map tokenCompound ∧
      equation.products_ = (splitCompounds productSide).map tokenCompound ∧
      (∀ token ∈ splitCompounds reactantSide ++ splitCompounds productSide,
        ∃ digits formula, matchCoeffRegex token = some (digits, formula) ∧
          (∀ d ∈ digits, d.isDigit = true) ∧
          (tokenCompound token).1 = ChemicalCompound.create formula ∧
          (tokenCompound token).1.isValid = true ∧
          (tokenCompound token).2 = countValue digits ∧
          0 ≤ (tokenCompound token).2 ∧ (tokenCompound token).2 ≤ 2147483647 ∧
          ((tokenCompound token).2 = 0 ↔ digits ≠ [] ∧ ∀ d ∈ digits, d = '0') ∧
          ((digits = [] ∨ ∃ d ∈ digits, d ≠ '0') → 1 ≤ (tokenCompound token).2)) ∧
      (∀ compound ∈ equation.reactants_ ++ equation.products_,
        compound.1.isValid = true ∧ 0 ≤ compound.2 ∧ compound.2 ≤ 2147483647) := by
  unfold parseEquationString at h
  simp only [] at h
  split at h
  · rename_i reactantSide productSide hsides
    cases h1 : addCompounds false (splitCompounds reactantSide) ChemicalEquation.create with
    | error e => rw [h1] at h; cases h
    | ok equation0 =>
      rw [h1] at h
      simp only [] at h
      obtain ⟨hr0, hp0, hall0⟩ := addCompounds_tokens false _ _ _ h1
      obtain ⟨hr1, hp1, hall1⟩ := addCompounds_tokens true _ _ _ h
      simp only [Bool.false_eq_true, if_false, if_true, List.append_nil,
        ChemicalEquation.create, List.nil_append] at hr0 hp0 hr1 hp1
      have hreact : equation.reactants_ = (splitCompounds reactantSide).map tokenCompound := by
        rw [hr1, hr0]
      have hprod : equation.products_ = (splitCompounds productSide).map tokenCompound := by
        rw [hp1, hp0, List.nil_append]
      have htokens : ∀ token ∈ splitCompounds reactantSide ++ splitCompounds productSide,
          ∃ digits formula, matchCoeffRegex token = some (digits, formula) ∧
            (∀ d ∈ digits, d.isDigit = true) ∧
            (tokenCompound token).1 = ChemicalCompound.create formula ∧
            (tokenCompound token).1.isValid = true ∧
            (tokenCompound token).2 = countValue digits ∧
            0 ≤ (tokenCompound token).2 ∧ (tokenCompound token).2 ≤ 2147483647 ∧
            ((tokenCompound token).2 = 0 ↔ digits ≠ [] ∧ ∀ d ∈ digits, d = '0') ∧
            ((digits = [] ∨ ∃ d ∈ digits, d ≠ '0') → 1 ≤ (tokenCompound token).2) := by
        intro token ht
        have hboth : ∃ digits formula, matchCoeffRegex token = some (digits, formula) ∧
            (∀ d ∈ digits, d.isDigit = true) ∧
            (tokenCompound token).1 = ChemicalCompound.create formula ∧
            (tokenCompound token).1.isValid = true ∧
            (tokenCompound token).2 = countValue digits ∧
            0 ≤ (tokenCompound token).2 ∧ (tokenCompound token).2 ≤ 2147483647 ∧
            ((tokenCompound token).2 = 0 ↔ digits ≠ [] ∧ ∀ d ∈ digits, d = '0') := by
          rcases List.mem_append.mp ht with ht | ht
          · exact hall0 token ht
          · exact hall1 token ht
        obtain ⟨digits, formula, hm, hd, hc, hv, hcv, h0, h1, hz⟩ := hboth
        refine ⟨digits, formula, hm, hd, hc, hv, hcv, h0, h1, hz, fun hcase => ?_⟩
        have hne : (tokenCompound token).2 ≠ 0 := by
          intro hzero
          obtain ⟨hnn, hzeros⟩ := hz.mp hzero
          rcases hcase with hnil | ⟨d, hdm, hdne⟩
          · exact hnn hnil
          · exact hdne (hzeros d hdm)
        omega
      refine ⟨reactantSide, productSide, hsides, hreact, hprod, htokens, ?_⟩
      intro compound hc
      rw [hreact, hprod, ← List.map_append] at hc
      obtain ⟨token, ht, rfl⟩ := List.mem_map.mp hc
      obtain ⟨_, _, _, _, _, hv, _, h0, h1, _, _⟩ := htokens token ht
      exact ⟨hv, h0, h1⟩
  · cases h

/-- C27 (amended) at `10H2 + 5O2 -> 10H2O`: the coefficients `10`, `5`, `10` are read. -/
theorem C27_parsed_equation_coefficients_witness :
    parseEquationString "10H2 + 5O2 -> 10H2O".toList = .ok tenfoldWaterEquation ∧
    tenfoldWaterEquation.reactants_.map (fun reactant => reactant.2) = [10, 5] ∧
    tenfoldWaterEquation.products_.map (fun product => product.2) = [10] ∧
    ∃ reactantSide productSide,
      (splitTokens matchArrow "10H2 + 5O2 -> 10H2O".toList.length []
        "10H2 + 5O2 -> 10H2O".toList).filter (fun side => !side.isEmpty)
        = [reactantSide, productSide] ∧
      tenfoldWaterEquation.reactants_ = (splitCompounds reactantSide).map tokenCompound ∧
      tenfoldWaterEquation.products_ = (splitCompounds productSide).map tokenCompound :=
  ⟨by decide!, by decide!, by decide!,
    (C27_parsed_equation_coefficients "10H2 + 5O2 -> 10H2O".toList tenfoldWaterEquation
      (by decide!)).imp (fun _ hr => hr.imp (fun _ hp => ⟨hp.1, hp.2.1, hp.2.2.1⟩))⟩

/-! ## The counts that a formula denotes, and the counts that the parser stores -/

theorem noLeadingZeroFrom_spec (s : List Char) :
    ∀ (afterDigit : Bool), noLeadingZeroFrom afterDigit s = true →
      ∀ k, s[k]? = some '0' →
        (k = 0 ∧ afterDigit = true) ∨ (1 ≤ k ∧ ∃ d, s[k - 1]? = some d ∧ d.isDigit = true) := by
  induction s with
  | nil => intro afterDigit _ k hk; simp at hk
  | cons c rest ih =>
    intro afterDigit h k hk
    simp only [noLeadingZeroFrom, Bool.and_eq_true, Bool.or_eq_true, bne_iff_ne, ne_eq] at h
    cases k with
    | zero =>
      simp only [List.getElem?_cons_zero, Option.some.injEq] at hk
      rcases h.1 with h1 | h1
      · exact absurd hk h1
      · exact Or.inl ⟨rfl, h1⟩
    | succ k =>
      rw [List.getElem?_cons_succ] at hk
      right
      refine ⟨by omega, ?_⟩
      rcases ih _ h.2 k hk with ⟨hk0, hd⟩ | ⟨hk1, d, hd, hdd⟩
      · subst hk0
        exact ⟨c, by simp, hd⟩
      · refine ⟨d, ?_, hdd⟩
        have : k + 1 - 1 = (k - 1) + 1 := by omega
        rw [this, List.getElem?_cons_succ]
        exact hd

theorem noLeadingZero_spec (s : List Char) (h : noLeadingZero s = true) (k : Nat)
    (hk : s[k]? = some '0') : 1 ≤ k ∧ ∃ d, s[k - 1]? = some d ∧ d.isDigit = true := by
  rcases noLeadingZeroFrom_spec s false h k hk with ⟨_, hf⟩ | h1
  · cases hf
  · exact h1

theorem addToExact_bound (lo : Int) (hlo : 0 ≤ lo) (m : ElementMap) (key : List Char) (value : Int)
    (hm : ∀ p ∈ m, lo ≤ p.2) (hv : lo ≤ value) : ∀ p ∈ m.addToExact key value, lo ≤ p.2 := by
  induction m with
  | nil =>
    intro p hp
    simp only [ElementMap.addToExact, List.mem_singleton] at hp
    rw [hp]
    simp only []
    omega
  | cons q rest ih =>
    obtain ⟨k, v⟩ := q
    intro p hp
    have hq : lo ≤ v := hm (k, v) (List.mem_cons_self _ _)
    have hrest : ∀ p ∈ rest, lo ≤ p.2 := fun p hp => hm p (List.mem_cons_of_mem _ hp)
    simp only [ElementMap.addToExact] at hp
    split at hp
    · rcases List.mem_cons.mp hp with h | h
      · rw [h]; simp only []; omega
      · exact hrest p h
    · split at hp
      · rcases List.mem_cons.mp hp with h | h
        · rw [h]; simp only []; omega
        · exact hm p h
      · rcases List.mem_cons.mp hp with h | h
        · rw [h]; exact hq
        · exact ih hrest p h

theorem digitLoopExact_bound (lo : Int) (hlo : lo = 0 ∨ lo = 1) (s : List Char) (n : Nat) :
    ∀ (i : Nat) (count : Int) (i1 : Nat) (count1 : Int), lo ≤ count →
      digitLoopExact s n i count = .ok (i1, count1) → lo ≤ count1 := by
  induction n with
  | zero =>
    intro i count i1 count1 hc h
    simp only [digitLoopExact, Except.ok.injEq, Prod.mk.injEq] at h
    rw [← h.2]
    exact hc
  | succ n ih =>
    intro i count i1 count1 hc h
    unfold digitLoopExact at h
    cases hch : charAt s i with
    | error e => rw [hch] at h; cases h
    | ok c =>
      rw [hch] at h
      simp only [] at h
      by_cases hd : c.isDigit = true
      · simp only [hd, if_true] at h
        refine ih _ _ _ _ ?_ h
        have := (digit_value_bounds c hd).1
        rcases hlo with h0 | h0 <;> omega
      · simp only [hd, Bool.false_eq_true, if_false, Except.ok.injEq, Prod.mk.injEq] at h
        rw [← h.2]
        exact hc

theorem charAt_ok (s : List Char) (i : Nat) (c : Char) (h : charAt s i = .ok c) :
    s[i]? = some c := by
  unfold charAt at h
  split at h
  · rename_i c1 hc
    simp only [Except.ok.injEq] at h
    rw [hc, h]
  · cases h

/-- The number that `readCountExact` returns is not negative, and it is at least `1` unless the
digit `0` stands at the position where it starts to read. -/
theorem readCountExact_bound (s : List Char) (end_ i i1 : Nat) (count : Int)
    (h : readCountExact s end_ i = .ok (i1, count)) :
    0 ≤ count ∧ ((i < end_ → s[i]? ≠ some '0') → 1 ≤ count) := by
  unfold readCountExact at h
  by_cases hlt : i < end_
  · simp only [hlt, if_true] at h
    cases hch : charAt s i with
    | error e => rw [hch] at h; cases h
    | ok c =>
      rw [hch] at h
      simp only [] at h
      have hget := charAt_ok s i c hch
      by_cases hd : c.isDigit = true
      · simp only [hd, if_true] at h
        refine ⟨digitLoopExact_bound 0 (Or.inl rfl) s _ _ _ _ _ (le_refl 0) h, fun hz => ?_⟩
        have hne : c ≠ '0' := by
          intro heq
          apply hz hlt
          rw [hget, heq]
        have hpos : end_ - i = (end_ - i - 1) + 1 := by omega
        rw [hpos] at h
        unfold digitLoopExact at h
        rw [hch] at h
        simp only [hd, if_true] at h
        refine digitLoopExact_bound 1 (Or.inr rfl) s _ _ _ _ _ ?_ h
        have := (digit_value_bounds c hd).2.2 hne
        omega
      · simp only [hd, Bool.false_eq_true, if_false, Except.ok.injEq, Prod.mk.injEq] at h
        rw [← h.2]
        exact ⟨by omega, fun _ => le_refl 1⟩
  · simp only [hlt, if_false, Except.ok.injEq, Prod.mk.injEq] at h
    rw [← h.2]
    exact ⟨by omega, fun _ => le_refl 1⟩

theorem not_digit_of_upper (c : Char) (h : c.isUpper = true) : c.isDigit = false := by
  exact not_digit_of_head c (Or.inl h)

theorem not_digit_of_lower (c : Char) (h : c.isLower = true) : c.isDigit = false := by
  cases hd : c.isDigit with
  | false => rfl
  | true =>
    have := not_lower_of_digit c hd
    rw [h] at this
    cases this

theorem mul_bound (lo a b : Int) (hlo : lo = 0 ∨ lo = 1) (ha : lo ≤ a) (hb : lo ≤ b) :
    lo ≤ a * b := by
  rcases hlo with h | h
  · subst h
    exact Int.mul_nonneg ha hb
  · subst h
    nlinarith

/-- The counts that `parseGroupExact` stores keep a lower bound `lo`: `0` on every text, `1` on a
text in which no number starts with the digit `0`. -/
theorem parseGroupAuxExact_bound (lo : Int) (hlo : lo = 0 ∨ lo = 1) (s : List Char)
    (hz : lo = 1 → ∀ k, s[k]? = some '0' → 1 ≤ k ∧ ∃ d, s[k - 1]? = some d ∧ d.isDigit = true)
    (fuel : Nat) :
    ∀ (i end_ : Nat) (multiplier : Int) (elements : ElementMap), end_ ≤ s.length →
      lo ≤ multiplier → (∀ p ∈ elements, lo ≤ p.2) →
      ∀ p ∈ (parseGroupAuxExact s fuel i end_ multiplier elements).2, lo ≤ p.2 := by
  have hlo0 : 0 ≤ lo := by rcases hlo with h | h <;> omega
  induction fuel with
  | zero =>
    intro i end_ multiplier elements _ _ hel
    unfold parseGroupAuxExact
    split <;> exact hel
  | succ fuel ih =>
    intro i end_ multiplier elements hend hmul hel
    unfold parseGroupAuxExact
    by_cases hlt : i < end_
    · simp only [hlt, if_true]
      cases hch : charAt s i with
      | error e => exact hel
      | ok c =>
        simp only []
        have hget := charAt_ok s i c hch
        by_cases hu : c.isUpper = true
        · simp only [hu, if_true]
          obtain ⟨i1, element1, hl1, hl2, hl3, hl4⟩ :=
            lowerLoop_shape s (end_ - (i + 1)) (i + 1) [c] (by omega)
          rw [hl1]
          simp only []
          cases hr : readCountExact s end_ i1 with
          | error e => exact hel
          | ok r =>
            obtain ⟨i2, count⟩ := r
            simp only []
            obtain ⟨hc0, hc1⟩ := readCountExact_bound s end_ i1 i2 count hr
            have hcount : lo ≤ count := by
              rcases hlo with h | h
              · rw [h]; exact hc0
              · rw [h]
                apply hc1
                intro _ hzero
                obtain ⟨hk, d, hd, hdd⟩ := hz h i1 hzero
                by_cases hi1 : i1 = i + 1
                · rw [hi1, Nat.add_sub_cancel, hget] at hd
                  simp only [Option.some.injEq] at hd
                  rw [← hd, not_digit_of_upper c hu] at hdd
                  cases hdd
                · obtain ⟨c1, hc1get, hc1low⟩ := hl4 (i1 - 1) (by omega) (by omega)
                  rw [hc1get] at hd
                  simp only [Option.some.injEq] at hd
                  rw [← hd, not_digit_of_lower c1 hc1low] at hdd
                  cases hdd
            exact ih _ _ _ _ hend hmul
              (addToExact_bound lo hlo0 elements element1 _ hel (mul_bound lo _ _ hlo hcount hmul))
        · simp only [hu, Bool.false_eq_true, if_false]
          by_cases hp : c = '('
          · simp only [hp, if_true]
            obtain ⟨i1, hd1, hd2, hd3, hd4, hd5⟩ :=
              depthLoop_shape s (end_ - (i + 1)) (i + 1) 1 (by omega)
            rw [hd1]
            simp only []
            cases hr : readCountExact s end_ i1 with
            | error e => exact hel
            | ok r =>
              obtain ⟨i2, groupMultiplier⟩ := r
              simp only []
              obtain ⟨hc0, hc1⟩ := readCountExact_bound s end_ i1 i2 groupMultiplier hr
              have hcount : lo ≤ groupMultiplier := by
                rcases hlo with h | h
                · rw [h]; exact hc0
                · rw [h]
                  apply hc1
                  intro hi1lt hzero
                  obtain ⟨hk, d, hd, hdd⟩ := hz h i1 hzero
                  rcases hd5 with h5 | h5
                  · omega
                  · have hi1 : i + 1 < i1 := by
                      rcases Nat.lt_or_ge (i + 1) i1 with h6 | h6
                      · exact h6
                      · have h7 : i1 = i + 1 := by omega
                        rw [h7, segDepth_self] at h5
                        omega
                    have h8 := hd4 (i1 - 1) (by omega) (by omega)
                    have h9 := segDepth_succ s (i + 1) (i1 - 1) d (by omega) hd
                    have h10 : i1 - 1 + 1 = i1 := by omega
                    rw [h10, parenStep_of_digit d hdd] at h9
                    omega
              have hinner := ih (i + 1) (i1 - 1) (multiplier * groupMultiplier) elements
                (by omega) (mul_bound lo _ _ hlo hmul hcount) hel
              rcases hg : parseGroupAuxExact s fuel (i + 1) (i1 - 1) (multiplier * groupMultiplier)
                elements with ⟨outcome, elements1⟩
              rw [hg] at hinner
              cases outcome with
              | error e => exact hinner
              | ok u =>
                cases u
                exact ih _ _ _ _ hend hmul hinner
          · simp only [hp, if_false]
            exact hel
    · simp only [hlt, if_false]
      exact hel

theorem parseFormulaExact_elements (formula : List Char) :
    (parseFormulaExact formula).2
      = (parseGroupExact (cleanFormula formula) 0 (cleanFormula formula).length 1 []).2 := by
  unfold parseFormulaExact
  simp only []
  rcases parseGroupExact (cleanFormula formula) 0 (cleanFormula formula).length 1 []
    with ⟨outcome, elements⟩
  cases outcome with
  | error e => rfl
  | ok u => cases u; rfl

/-- The counts that a formula denotes, computed with unbounded integers, are not negative,
and they are positive when no number of the cleaned formula starts with the digit `0`. -/
theorem parseFormulaExact_bound (formula : List Char) :
    (∀ entry ∈ (parseFormulaExact formula).2, 0 ≤ entry.2) ∧
    (noLeadingZero (cleanFormula formula) = true →
      ∀ entry ∈ (parseFormulaExact formula).2, 1 ≤ entry.2) := by
  rw [parseFormulaExact_elements]
  unfold parseGroupExact
  constructor
  · exact parseGroupAuxExact_bound 0 (Or.inl rfl) _ (fun h => by omega) _ _ _ _ _ (le_refl _)
      (by omega) (fun p hp => by simp at hp)
  · intro hz
    exact parseGroupAuxExact_bound 1 (Or.inr rfl) _
      (fun _ k hk => noLeadingZero_spec _ hz k hk) _ _ _ _ _ (le_refl _) (le_refl 1)
      (fun p hp => by simp at hp)

/-- The element map of a compound holds the counts that its formula denotes, each reduced to
an `int`. -/
theorem create_elements (formula : List Char) :
    (ChemicalCompound.create formula).getElementCount
      = ElementMap.wrap (parseFormulaExact formula).2 := by
  unfold ChemicalCompound.create ChemicalCompound.getElementCount
  rw [parseFormula_wrap]
  cases (parseFormulaExact formula).1 with
  | error e => rfl
  | ok clean => rfl

/-- C21 fails as stated. The parser accepts `H0` and `(H)0` and stores the count `0` for
`H`: a count or a group multiplier is read as it is written, `0` included.  The parser also
accepts `H2147483648` and stores the count `-2147483648` for `H`: the `int` that accumulates
the digits wraps around. -/
theorem C21_zero_or_negative_count_accepted :
    (ChemicalCompound.create "H0".toList).isValid = true ∧
    (ChemicalCompound.create "H0".toList).getElementCount = [("H".toList, 0)] ∧
    (ChemicalCompound.create "(H)0".toList).isValid = true ∧
    (ChemicalCompound.create "(H)0".toList).getElementCount = [("H".toList, 0)] ∧
    ¬ (∀ entry ∈ (ChemicalCompound.create "H0".toList).getElementCount, 1 ≤ entry.2) ∧
    (ChemicalCompound.create "H2147483648".toList).isValid = true ∧
    noLeadingZero (cleanFormula "H2147483648".toList) = true ∧
    (ChemicalCompound.create "H2147483648".toList).getElementCount
      = [("H".toList, -2147483648)] ∧
    ¬ (∀ entry ∈ (ChemicalCompound.create "H2147483648".toList).getElementCount,
      0 ≤ entry.2) := by
  refine ⟨by decide!, by decide!, by decide!, by decide!, by decide!, by decide!, by decide!,
    by decide!, by decide!⟩

/-- A map whose counts fit an `int` is stored as it is. -/
theorem ElementMap.wrap_of_range (m : ElementMap)
    (h : ∀ entry ∈ m, -2147483648 ≤ entry.2 ∧ entry.2 ≤ 2147483647) : ElementMap.wrap m = m := by
  unfold ElementMap.wrap
  induction m with
  | nil => rfl
  | cons p rest ih =>
    obtain ⟨hlo, hhi⟩ := h p (List.mem_cons_self _ _)
    rw [List.map_cons, ih (fun entry hentry => h entry (List.mem_cons_of_mem _ hentry)),
      wrapInt_of_range p.2 hlo hhi]

/-- C21 (amended): for every formula, so for every formula the parser accepts, in which no
count that the formula denotes (the count computed with unbounded integers: the written count
times the multipliers of the enclosing groups, summed over the occurrences of the symbol)
exceeds `INT_MAX`, the counts stored in `getElementCount()` are the denoted counts, every
stored count is a non-negative integer, and every stored count is a positive integer (`≥ 1`)
when no number in the cleaned formula is written with a leading `0` (no digit `0` stands first
or directly after a character that is not a digit). -/
theorem C21_counts_positive_without_overflow (formula : List Char)
    (hfit : ∀ entry ∈ (parseFormulaExact formula).2, entry.2 ≤ 2147483647) :
    (ChemicalCompound.create formula).getElementCount = (parseFormulaExact formula).2 ∧
    (∀ entry ∈ (ChemicalCompound.create formula).getElementCount,
      0 ≤ entry.2 ∧ entry.2 ≤ 2147483647) ∧
    (noLeadingZero (cleanFormula formula) = true →
      ∀ entry ∈ (ChemicalCompound.create formula).getElementCount, 1 ≤ entry.2) := by
  obtain ⟨hnonneg, hpos⟩ := parseFormulaExact_bound formula
  have heq : (ChemicalCompound.create formula).getElementCount
      = (parseFormulaExact formula).2 := by
    rw [create_elements]
    exact ElementMap.wrap_of_range _
      (fun entry hentry => ⟨by have := hnonneg entry hentry; omega, hfit entry hentry⟩)
  rw [heq]
  exact ⟨rfl, fun entry hentry => ⟨hnonneg entry hentry, hfit entry hentry⟩, hpos⟩

/-- C21 (amended) at `C10H22 (l)`: the denoted counts `10` and `22` fit an `int`, no number
is written with a leading `0`, and the stored counts are `10` and `22`. -/
theorem C21_counts_positive_without_overflow_witness :
    (ChemicalCompound.create "C10H22 (l)".toList).isValid = true ∧
    noLeadingZero (cleanFormula "C10H22 (l)".toList) = true ∧
    (parseFormulaExact "C10H22 (l)".toList).2 = [("C".toList, 10), ("H".toList, 22)] ∧
    (ChemicalCompound.create "C10H22 (l)".toList).getElementCount
      = [("C".toList, 10), ("H".toList, 22)] ∧
    ∀ entry ∈ (ChemicalCompound.create "C10H22 (l)".toList).getElementCount, 1 ≤ entry.2 :=
  ⟨by decide!, by decide!, by decide!, by decide!,
    (C21_counts_positive_without_overflow "C10H22 (l)".toList (by decide!)).2.2 (by decide!)⟩

/-! ## Equation strings: characters and the coefficient regex -/

theorem formulaChar_plain (c : Char) (h : isFormulaChar c = true) :
    isspace c = false ∧ c ≠ '+' ∧ c ≠ '-' ∧ c ≠ '→' := by
  simp only [isFormulaChar, Bool.or_eq_true, beq_iff_eq] at h
  rcases h with (((h | h) | h) | h) | h
  · refine ⟨(alnum_head c (Or.inl h)).1, ?_, ?_, ?_⟩ <;>
      (intro hc; subst hc; revert h; decide)
  · refine ⟨(alnum_head c (Or.inr (Or.inl h))).1, ?_, ?_, ?_⟩ <;>
      (intro hc; subst hc; revert h; decide)
  · refine ⟨(alnum_head c (Or.inr (Or.inr h))).1, ?_, ?_, ?_⟩ <;>
      (intro hc; subst hc; revert h; decide)
  · subst h; decide
  · subst h; decide

theorem Formula.render_formulaChar (F : Formula) (hF : F.wellFormed = true) :
    ∀ c ∈ F.render, isFormulaChar c = true := by
  induction F with
  | nil => intro c hc; simp [Formula.render] at hc
  | element upper lowers count rest ih =>
    simp only [Formula.wellFormed, Bool.and_eq_true, List.all_eq_true] at hF
    obtain ⟨⟨⟨hu, hl⟩, hc⟩, hr⟩ := hF
    intro c hc1
    simp only [Formula.render, List.cons_append, List.mem_cons, List.mem_append] at hc1
    rcases hc1 with h | (h | h) | h
    · rw [h]; simp [isFormulaChar, hu]
    · simp [isFormulaChar, hl c h]
    · simp [isFormulaChar, hc c h]
    · exact ih hr c h
  | group inner count rest ih1 ih2 =>
    simp only [Formula.wellFormed, Bool.and_eq_true, List.all_eq_true] at hF
    obtain ⟨⟨hi, hc⟩, hr⟩ := hF
    intro c hc1
    simp only [Formula.render, List.cons_append, List.mem_cons, List.mem_append] at hc1
    rcases hc1 with h | (h | h | h) | h
    · rw [h]; decide
    · exact ih1 hi c h
    · rw [h]; decide
    · simp [isFormulaChar, hc c h]
    · exact ih2 hr c h

theorem takeWhile_append_all (p : Char → Bool) (l1 l2 : List Char) (h : ∀ c ∈ l1, p c = true) :
    (l1 ++ l2).takeWhile p = l1 ++ l2.takeWhile p := by
  induction l1 with
  | nil => rfl
  | cons a l ih =>
    rw [List.cons_append, List.takeWhile_cons, h a (List.mem_cons_self _ _)]
    simp only [if_true, List.cons_append, List.cons.injEq, true_and]
    exact ih (fun c hc => h c (List.mem_cons_of_mem _ hc))

theorem dropWhile_append_all (p : Char → Bool) (l1 l2 : List Char) (h : ∀ c ∈ l1, p c = true) :
    (l1 ++ l2).dropWhile p = l2.dropWhile p := by
  induction l1 with
  | nil => rfl
  | cons a l ih =>
    rw [List.cons_append, List.dropWhile_cons, h a (List.mem_cons_self _ _)]
    simp only [if_true]
    exact ih (fun c hc => h c (List.mem_cons_of_mem _ hc))

theorem dropWhile_of_head (p : Char → Bool) (c : Char) (l : List Char) (h : p c = false) :
    (c :: l).dropWhile p = c :: l := by
  rw [List.dropWhile_cons, h]
  simp

theorem takeWhile_of_head (p : Char → Bool) (c : Char) (l : List Char) (h : p c = false) :
    (c :: l).takeWhile p = [] := by
  rw [List.takeWhile_cons, h]
  simp

theorem digit_formulaChar (c : Char) (h : c.isDigit = true) : isFormulaChar c = true := by
  simp [isFormulaChar, h]

/-- A written compound is made of characters of the class `[A-Za-z0-9()]`. -/
theorem writtenCompound_chars (term : List Char × Formula)
    (hd : ∀ c ∈ term.1, c.isDigit = true) (hF : term.2.wellFormed = true) :
    ∀ c ∈ writtenCompound term, isFormulaChar c = true := by
  intro c hc
  rcases List.mem_append.mp hc with h | h
  · exact digit_formulaChar c (hd c h)
  · exact Formula.render_formulaChar term.2 hF c h

theorem stoi_eq_decimalValue (digits : List Char) (h : decimalValue digits ≤ 2147483647) :
    stoi digits = .ok (decimalValue digits) := by
  unfold stoi
  have hv : digits.foldl
      (fun value c => value * 10 + ((c.toNat : Int) - ('0'.toNat : Int))) 0
      = decimalValue digits := rfl
  simp only [hv]
  rw [if_neg (by omega)]

/-- The coefficient regex splits a written compound into its digits and its formula. -/
theorem matchCoeffRegex_written (digits : List Char) (F : Formula)
    (hd : ∀ c ∈ digits, c.isDigit = true) (hF : F.wellFormed = true) (hne : F.render ≠ []) :
    matchCoeffRegex (digits ++ F.render) = some (digits, F.render) := by
  obtain ⟨c0, r0, hr0⟩ := List.exists_cons_of_ne_nil hne
  have hhead := Formula.render_head F hF c0 r0 hr0
  have hc0d : c0.isDigit = false := not_digit_of_head c0 hhead
  have hchars := Formula.render_formulaChar F hF
  have hc0s : isspace c0 = false := (formulaChar_plain c0 (hchars c0 (by rw [hr0]; simp))).1
  have hs1 : (digits ++ F.render).dropWhile isspace = digits ++ F.render := by
    cases digits with
    | nil => rw [List.nil_append, hr0]; exact dropWhile_of_head _ _ _ hc0s
    | cons d ds =>
      rw [List.cons_append]
      exact dropWhile_of_head _ _ _
        (formulaChar_plain d (digit_formulaChar d (hd d (List.mem_cons_self _ _)))).1
  have htake : (digits ++ F.render).takeWhile Char.isDigit = digits := by
    rw [takeWhile_append_all _ _ _ hd, hr0, takeWhile_of_head _ _ _ hc0d, List.append_nil]
  have hdrop : (digits ++ F.render).dropWhile Char.isDigit = F.render := by
    rw [dropWhile_append_all _ _ _ hd, hr0]
    exact dropWhile_of_head _ _ _ hc0d
  have htail : matchFormulaTail F.render = some F.render := by
    unfold matchFormulaTail
    have h1 : F.render.dropWhile isspace = F.render := by
      rw [hr0]; exact dropWhile_of_head _ _ _ hc0s
    have h2 : F.render.takeWhile isFormulaChar = F.render := by
      have := takeWhile_append_all isFormulaChar F.render [] hchars
      simpa using this
    have h3 : F.render.dropWhile isFormulaChar = [] := by
      have := dropWhile_append_all isFormulaChar F.render [] hchars
      simpa using this
    simp only [h1, h2, h3]
    rw [hr0]
    simp
  unfold matchCoeffRegex
  simp only [hs1, htake, hdrop]
  rw [List.range_succ, List.reverse_append, List.reverse_singleton, List.singleton_append,
    List.findSome?_cons]
  simp [htail]

/-- What `parseCompoundWithCoefficient` returns for a written compound whose coefficient fits
an `int`. -/
theorem parseCompoundWithCoefficient_written (term : List Char × Formula)
    (hd : ∀ c ∈ term.1, c.isDigit = true) (hF : term.2.wellFormed = true)
    (hne : term.2.render ≠ []) (hfit : decimalValue term.1 ≤ 2147483647) :
    parseCompoundWithCoefficient (writtenCompound term)
      = .ok (term.2.render, countValue term.1) := by
  unfold parseCompoundWithCoefficient writtenCompound
  rw [matchCoeffRegex_written term.1 term.2 hd hF hne]
  simp only []
  cases hdig : term.1 with
  | nil => simp [countValue]
  | cons d ds =>
    rw [← hdig, stoi_eq_decimalValue term.1 hfit]
    simp [countValue, hdig]

/-! ## Equation strings: splitting at the separators -/

theorem splitTokens_end (matchAt : List Char → Option (List Char)) (fuel : Nat)
    (token : List Char) : splitTokens matchAt fuel token [] = [token] := by
  cases fuel <;> rfl

theorem splitTokens_pass (matchAt : List Char → Option (List Char)) (t : List Char) :
    ∀ (fuel : Nat) (token rest : List Char),
      (∀ k, k < t.length → matchAt (t.drop k ++ rest) = none) → t.length ≤ fuel →
      splitTokens matchAt fuel token (t ++ rest)
        = splitTokens matchAt (fuel - t.length) (token ++ t) rest := by
  induction t with
  | nil =>
    intro fuel token rest _ _
    simp
  | cons c t ih =>
    intro fuel token rest hnone hfuel
    cases fuel with
    | zero => simp at hfuel
    | succ fuel =>
      have h0 := hnone 0 (by simp)
      simp only [List.drop_zero, List.cons_append] at h0
      rw [List.cons_append]
      simp only [splitTokens, h0]
      rw [ih fuel (token ++ [c]) rest (fun k hk => by
        have := hnone (k + 1) (by simp; omega)
        simpa using this) (by simp at hfuel; omega)]
      simp

theorem splitTokens_match (matchAt : List Char → Option (List Char)) (fuel : Nat)
    (token s rest1 : List Char) (hs : s ≠ []) (h : matchAt s = some rest1) :
    splitTokens matchAt (fuel + 1) token s = token :: splitTokens matchAt fuel [] rest1 := by
  obtain ⟨c, r, hcr⟩ := List.exists_cons_of_ne_nil hs
  subst hcr
  simp only [splitTokens, h]

theorem matchPlus_of_head (c : Char) (s : List Char) (hs : isspace c = false) (hc : c ≠ '+') :
    matchPlus (c :: s) = none := by
  unfold matchPlus
  rw [dropWhile_of_head _ _ _ hs]
  split
  · rename_i rest heq
    simp only [List.cons.injEq] at heq
    exact absurd heq.1 hc
  · rfl

theorem matchArrow_of_head (c : Char) (s : List Char) (hs : isspace c = false)
    (hc1 : c ≠ '-') (hc2 : c ≠ '→') : matchArrow (c :: s) = none := by
  unfold matchArrow
  rw [dropWhile_of_head _ _ _ hs]
  split
  · rename_i rest heq
    simp only [List.cons.injEq] at heq
    exact absurd heq.1 hc1
  · rename_i rest heq
    simp only [List.cons.injEq] at heq
    exact absurd heq.1 hc2
  · rfl

theorem matchArrow_of_space (c : Char) (s : List Char) (hs : isspace c = true) :
    matchArrow (c :: s) = matchArrow s := by
  unfold matchArrow
  rw [List.dropWhile_cons, hs]
  simp

/-- No arrow is matched at the head of a text that holds a character other than whitespace
and neither `-` nor `→`. -/
theorem matchArrow_none (s rest : List Char) (hs : ∀ c ∈ s, c ≠ '-' ∧ c ≠ '→')
    (hex : ∃ c ∈ s, isspace c = false) : matchArrow (s ++ rest) = none := by
  induction s with
  | nil =>
    obtain ⟨c, hc, _⟩ := hex
    simp at hc
  | cons a s ih =>
    rw [List.cons_append]
    cases ha : isspace a with
    | false =>
      exact matchArrow_of_head a _ ha (hs a (List.mem_cons_self _ _)).1
        (hs a (List.mem_cons_self _ _)).2
    | true =>
      rw [matchArrow_of_space a _ ha]
      apply ih (fun c hc => hs c (List.mem_cons_of_mem _ hc))
      obtain ⟨c, hc, hcs⟩ := hex
      rcases List.mem_cons.mp hc with h | h
      · rw [h, ha] at hcs; cases hcs
      · exact ⟨c, h, hcs⟩

theorem dropWhile_all (p : Char → Bool) (l : List Char) (h : l.all p = true) :
    l.dropWhile p = [] := by
  have := dropWhile_append_all p l [] (by simpa [List.all_eq_true] using h)
  simpa using this

theorem dropWhile_append_of_ne_nil (p : Char → Bool) (l1 l2 : List Char)
    (h : l1.dropWhile p ≠ []) : (l1 ++ l2).dropWhile p = l1.dropWhile p ++ l2 := by
  induction l1 with
  | nil => simp at h
  | cons a l ih =>
    rw [List.cons_append, List.dropWhile_cons, List.dropWhile_cons]
    rw [List.dropWhile_cons] at h
    cases hp : p a with
    | false => simp
    | true =>
      rw [hp] at h
      simp only [if_true] at h ⊢
      exact ih h

/-- The plus regex matches a plus separator that stands before a text which does not start
with whitespace, and what follows the match is that text. -/
theorem matchPlus_separator (plus : List Char) (c : Char) (rest : List Char)
    (hplus : isPlusSeparator plus = true) (hc : isspace c = false) :
    matchPlus (plus ++ c :: rest) = some (c :: rest) := by
  unfold isPlusSeparator at hplus
  unfold matchPlus
  split at hplus
  · rename_i r heq
    rw [dropWhile_append_of_ne_nil _ _ _ (by rw [heq]; simp), heq]
    simp only [List.cons_append]
    rw [dropWhile_append_all _ _ _ (by simpa [List.all_eq_true] using hplus),
      dropWhile_of_head _ _ _ hc]
  · cases hplus

/-- The arrow regex matches an arrow separator that stands before a text which does not
start with whitespace, and what follows the match is that text. -/
theorem matchArrow_separator (arrow : List Char) (c : Char) (rest : List Char)
    (harrow : isArrowSeparator arrow = true) (hc : isspace c = false) :
    matchArrow (arrow ++ c :: rest) = some (c :: rest) := by
  unfold isArrowSeparator at harrow
  unfold matchArrow
  split at harrow
  · rename_i r heq
    rw [dropWhile_append_of_ne_nil _ _ _ (by rw [heq]; simp), heq]
    simp only [List.cons_append]
    rw [dropWhile_append_all _ _ _ (by simpa [List.all_eq_true] using harrow),
      dropWhile_of_head _ _ _ hc]
  · rename_i r heq
    rw [dropWhile_append_of_ne_nil _ _ _ (by rw [heq]; simp), heq]
    simp only [List.cons_append]
    rw [dropWhile_append_all _ _ _ (by simpa [List.all_eq_true] using harrow),
      dropWhile_of_head _ _ _ hc]
  · cases harrow

theorem separator_ne_nil_plus (plus : List Char) (h : isPlusSeparator plus = true) :
    plus ≠ [] := by
  intro hnil
  rw [hnil] at h
  revert h
  decide

theorem separator_ne_nil_arrow (arrow : List Char) (h : isArrowSeparator arrow = true) :
    arrow ≠ [] := by
  intro hnil
  rw [hnil] at h
  revert h
  decide

/-- The characters of a plus separator are whitespace or `+`. -/
theorem plus_chars (plus : List Char) (h : isPlusSeparator plus = true) :
    ∀ c ∈ plus, isspace c = true ∨ c = '+' := by
  intro c hc
  unfold isPlusSeparator at h
  by_cases hs : isspace c = true
  · exact Or.inl hs
  · right
    have hsplit := List.takeWhile_append_dropWhile isspace plus
    rw [← hsplit] at hc
    rcases List.mem_append.mp hc with h1 | h1
    · exact absurd (List.mem_takeWhile_imp h1) hs
    · split at h
      · rename_i r heq
        rw [heq] at h1
        rcases List.mem_cons.mp h1 with h2 | h2
        · exact h2
        · exact absurd (List.all_eq_true.mp h c h2) hs
      · cases h

/-! ## Equation strings: what `parseEquationString` reads -/

theorem space_not_arrow (c : Char) (h : isspace c = true) : c ≠ '-' ∧ c ≠ '→' := by
  constructor <;> (intro hc; subst hc; revert h; decide)

theorem drop_head_mem (l : List Char) (k : Nat) (h : k < l.length) :
    ∃ c r, l.drop k = c :: r ∧ c ∈ l := by
  have hne : l.drop k ≠ [] := by
    intro hnil
    have := congrArg List.length hnil
    simp at this
    omega
  obtain ⟨c, r, hcr⟩ := List.exists_cons_of_ne_nil hne
  refine ⟨c, r, hcr, ?_⟩
  apply List.mem_of_mem_drop
  rw [hcr]
  exact List.mem_cons_self _ _

theorem writtenCompound_head (term : List Char × Formula)
    (hd : ∀ c ∈ term.1, c.isDigit = true) (hF : term.2.wellFormed = true)
    (hne : term.2.render ≠ []) :
    ∃ c r, writtenCompound term = c :: r ∧ isFormulaChar c = true := by
  have hne1 : writtenCompound term ≠ [] := by
    unfold writtenCompound
    intro h
    exact hne (List.append_eq_nil.mp h).2
  obtain ⟨c, r, hcr⟩ := List.exists_cons_of_ne_nil hne1
  exact ⟨c, r, hcr, writtenCompound_chars term hd hF c (by rw [hcr]; simp)⟩

theorem writtenCompound_last (term : List Char × Formula) (hF : term.2.wellFormed = true)
    (hne : term.2.render ≠ []) :
    ∃ c, (writtenCompound term).getLast? = some c ∧ isFormulaChar c = true := by
  unfold writtenCompound
  rw [List.getLast?_append]
  cases hl : term.2.render.getLast? with
  | none => exact absurd (List.getLast?_eq_none_iff.mp hl) hne
  | some c =>
    exact ⟨c, rfl, Formula.render_formulaChar term.2 hF c (List.mem_of_getLast?_eq_some hl)⟩

theorem writtenSide_cons_cons (plus : List Char) (term next : List Char × Formula)
    (rest : List (List Char × Formula)) :
    writtenSide plus (term :: next :: rest)
      = writtenCompound term ++ (plus ++ writtenSide plus (next :: rest)) := by
  simp only [writtenSide, List.append_assoc]

theorem writtenSide_head (plus : List Char) (term : List Char × Formula)
    (terms : List (List Char × Formula))
    (hd : ∀ c ∈ term.1, c.isDigit = true) (hF : term.2.wellFormed = true)
    (hne : term.2.render ≠ []) :
    ∃ c r, writtenSide plus (term :: terms) = c :: r ∧ isspace c = false := by
  obtain ⟨c, r, hcr, hc⟩ := writtenCompound_head term hd hF hne
  cases terms with
  | nil => exact ⟨c, r, hcr, (formulaChar_plain c hc).1⟩
  | cons next rest =>
    rw [writtenSide_cons_cons, hcr]
    exact ⟨c, _, rfl, (formulaChar_plain c hc).1⟩

theorem writtenSide_last (plus : List Char) (terms : List (List Char × Formula)) :
    ∀ (term : List Char × Formula),
      (∀ t ∈ term :: terms, t.2.wellFormed = true ∧ t.2.render ≠ []) →
      ∃ c, (writtenSide plus (term :: terms)).getLast? = some c ∧ isFormulaChar c = true := by
  induction terms with
  | nil =>
    intro term h
    exact writtenCompound_last term (h term (List.mem_cons_self _ _)).1
      (h term (List.mem_cons_self _ _)).2
  | cons next rest ih =>
    intro term h
    obtain ⟨c, hc, hcf⟩ := ih next (fun t ht => h t (List.mem_cons_of_mem _ ht))
    refine ⟨c, ?_, hcf⟩
    rw [writtenSide_cons_cons, List.getLast?_append, List.getLast?_append, hc]
    rfl

theorem writtenSide_chars (plus : List Char) (hplus : isPlusSeparator plus = true)
    (terms : List (List Char × Formula))
    (h : ∀ t ∈ terms, (∀ c ∈ t.1, c.isDigit = true) ∧ t.2.wellFormed = true) :
    ∀ c ∈ writtenSide plus terms, c ≠ '-' ∧ c ≠ '→' := by
  have htok : ∀ t ∈ terms, ∀ c ∈ writtenCompound t, c ≠ '-' ∧ c ≠ '→' := by
    intro t ht c hc
    exact (formulaChar_plain c (writtenCompound_chars t (h t ht).1 (h t ht).2 c hc)).2.2
  have hsep : ∀ c ∈ plus, c ≠ '-' ∧ c ≠ '→' := by
    intro c hc
    rcases plus_chars plus hplus c hc with h1 | h1
    · exact space_not_arrow c h1
    · rw [h1]; decide
  induction terms with
  | nil => intro c hc; simp [writtenSide] at hc
  | cons term rest ih =>
    cases rest with
    | nil =>
      intro c hc
      exact htok term (List.mem_cons_self _ _) c hc
    | cons next rest =>
      intro c hc
      rw [writtenSide_cons_cons] at hc
      rcases List.mem_append.mp hc with h1 | h1
      · exact htok term (List.mem_cons_self _ _) c h1
      · rcases List.mem_append.mp h1 with h2 | h2
        · exact hsep c h2
        · exact ih (fun t ht => h t (List.mem_cons_of_mem _ ht))
            (fun t ht => htok t (List.mem_cons_of_mem _ ht)) c h2

/-- The plus regex splits a written side into its written compounds. -/
theorem splitTokens_writtenSide (plus : List Char) (hplus : isPlusSeparator plus = true)
    (terms : List (List Char × Formula)) :
    ∀ (term : List Char × Formula) (fuel : Nat) (token : List Char),
      (∀ t ∈ term :: terms,
        (∀ c ∈ t.1, c.isDigit = true) ∧ t.2.wellFormed = true ∧ t.2.render ≠ []) →
      (writtenSide plus (term :: terms)).length ≤ fuel →
      splitTokens matchPlus fuel token (writtenSide plus (term :: terms))
        = (token ++ writtenCompound term) :: terms.map writtenCompound := by
  have hpass : ∀ (t : List Char × Formula), (∀ c ∈ t.1, c.isDigit = true) →
      t.2.wellFormed = true → ∀ (rest : List Char) (k : Nat), k < (writtenCompound t).length →
      matchPlus ((writtenCompound t).drop k ++ rest) = none := by
    intro t hd hF rest k hk
    obtain ⟨c, r, hcr, hc⟩ := drop_head_mem _ k hk
    rw [hcr, List.cons_append]
    have := formulaChar_plain c (writtenCompound_chars t hd hF c hc)
    exact matchPlus_of_head c _ this.1 this.2.1
  induction terms with
  | nil =>
    intro term fuel token h hfuel
    have ht := h term (List.mem_cons_self _ _)
    have hs : writtenSide plus [term] = writtenCompound term ++ [] := by
      simp [writtenSide]
    rw [hs] at hfuel ⊢
    rw [splitTokens_pass matchPlus _ fuel token [] (hpass term ht.1 ht.2.1 [])
      (by simpa using hfuel), splitTokens_end]
    rfl
  | cons next rest ih =>
    intro term fuel token h hfuel
    have ht := h term (List.mem_cons_self _ _)
    have hn := h next (List.mem_cons_of_mem _ (List.mem_cons_self _ _))
    obtain ⟨c, r, hcr, hcs⟩ := writtenSide_head plus next rest hn.1 hn.2.1 hn.2.2
    have hplusne := separator_ne_nil_plus plus hplus
    have hpluslen : 1 ≤ plus.length := List.length_pos.mpr hplusne
    rw [writtenSide_cons_cons] at hfuel ⊢
    simp only [List.length_append] at hfuel
    rw [splitTokens_pass matchPlus _ fuel token _ (hpass term ht.1 ht.2.1 _) (by omega)]
    obtain ⟨fuel1, hfuel1⟩ : ∃ fuel1, fuel - (writtenCompound term).length = fuel1 + 1 :=
      ⟨fuel - (writtenCompound term).length - 1, by omega⟩
    rw [hfuel1, splitTokens_match matchPlus fuel1 _ _ (writtenSide plus (next :: rest))
      (by simp [hplusne]) (by rw [hcr]; exact matchPlus_separator plus c r hplus hcs),
      ih next fuel1 [] (fun t ht1 => h t (List.mem_cons_of_mem _ ht1)) (by omega)]
    simp

/-- What `splitCompounds` returns on a written side: its written compounds. -/
theorem splitCompounds_writtenSide (plus : List Char) (hplus : isPlusSeparator plus = true)
    (terms : List (List Char × Formula)) (hne : terms ≠ [])
    (h : ∀ t ∈ terms,
      (∀ c ∈ t.1, c.isDigit = true) ∧ t.2.wellFormed = true ∧ t.2.render ≠ []) :
    splitCompounds (writtenSide plus terms) = terms.map writtenCompound := by
  obtain ⟨term, rest, hterms⟩ := List.exists_cons_of_ne_nil hne
  subst hterms
  unfold splitCompounds
  rw [splitTokens_writtenSide plus hplus rest term _ [] h (le_refl _), List.nil_append,
    ← List.map_cons, List.filter_eq_self]
  intro s hs
  obtain ⟨t, ht, hts⟩ := List.mem_map.mp hs
  obtain ⟨c, r, hcr, _⟩ := writtenCompound_head t (h t ht).1 (h t ht).2.1 (h t ht).2.2
  rw [← hts, hcr]
  rfl

/-- The arrow regex splits a written equation into its two sides. -/
theorem splitTokens_writtenEquation (plus arrow : List Char)
    (hplus : isPlusSeparator plus = true) (harrow : isArrowSeparator arrow = true)
    (reactants products : List (List Char × Formula))
    (hr : reactants ≠ []) (hp : products ≠ [])
    (h : ∀ t ∈ reactants ++ products,
      (∀ c ∈ t.1, c.isDigit = true) ∧ t.2.wellFormed = true ∧ t.2.render ≠ []) :
    (splitTokens matchArrow (writtenEquation plus arrow reactants products).length []
        (writtenEquation plus arrow reactants products)).filter (fun side => !side.isEmpty)
      = [writtenSide plus reactants, writtenSide plus products] := by
  have hpass : ∀ (terms : List (List Char × Formula)), terms ≠ [] →
      (∀ t ∈ terms,
        (∀ c ∈ t.1, c.isDigit = true) ∧ t.2.wellFormed = true ∧ t.2.render ≠ []) →
      ∀ (rest : List Char) (k : Nat), k < (writtenSide plus terms).length →
      matchArrow ((writtenSide plus terms).drop k ++ rest) = none := by
    intro terms hne hterms rest k hk
    obtain ⟨term, more, hcons⟩ := List.exists_cons_of_ne_nil hne
    apply matchArrow_none
    · intro c hc
      exact writtenSide_chars plus hplus terms (fun t ht => ⟨(hterms t ht).1, (hterms t ht).2.1⟩)
        c (List.mem_of_mem_drop hc)
    · obtain ⟨c, hc, hcf⟩ := writtenSide_last plus more term (by
        intro t ht
        rw [← hcons] at ht
        exact ⟨(hterms t ht).2.1, (hterms t ht).2.2⟩)
      rw [← hcons] at hc
      refine ⟨c, ?_, (formulaChar_plain c hcf).1⟩
      apply List.mem_of_getLast?_eq_some
      rw [List.getLast?_drop, if_neg (by omega)]
      exact hc
  have hR := fun t ht => h t (List.mem_append.mpr (Or.inl ht))
  have hP := fun t ht => h t (List.mem_append.mpr (Or.inr ht))
  obtain ⟨termP, moreP, hconsP⟩ := List.exists_cons_of_ne_nil hp
  obtain ⟨termR, moreR, hconsR⟩ := List.exists_cons_of_ne_nil hr
  have hPt := hP termP (by rw [hconsP]; exact List.mem_cons_self _ _)
  have hRt := hR termR (by rw [hconsR]; exact List.mem_cons_self _ _)
  obtain ⟨c, r, hcr, hcs⟩ := writtenSide_head plus termP moreP hPt.1 hPt.2.1 hPt.2.2
  obtain ⟨cR, rR, hcrR, _⟩ := writtenSide_head plus termR moreR hRt.1 hRt.2.1 hRt.2.2
  rw [← hconsP] at hcr
  rw [← hconsR] at hcrR
  have harrowne := separator_ne_nil_arrow arrow harrow
  have harrowlen : 1 ≤ arrow.length := List.length_pos.mpr harrowne
  have hlen : (writtenEquation plus arrow reactants products).length
      = (writtenSide plus reactants).length + arrow.length
        + (writtenSide plus products).length := by
    unfold writtenEquation
    simp only [List.length_append]
  have hstr : writtenEquation plus arrow reactants products
      = writtenSide plus reactants ++ (arrow ++ writtenSide plus products) := by
    unfold writtenEquation
    rw [List.append_assoc]
  rw [hlen, hstr, splitTokens_pass matchArrow _ _ [] _ (hpass reactants hr hR _) (by omega)]
  obtain ⟨fuel1, hfuel1⟩ : ∃ fuel1, (writtenSide plus reactants).length + arrow.length
      + (writtenSide plus products).length - (writtenSide plus reactants).length
        = fuel1 + 1 := ⟨arrow.length + (writtenSide plus products).length - 1, by omega⟩
  rw [hfuel1, splitTokens_match matchArrow fuel1 _ _ (writtenSide plus products)
    (by simp [harrowne]) (by rw [hcr]; exact matchArrow_separator arrow c r harrow hcs)]
  have hlast : splitTokens matchArrow fuel1 [] (writtenSide plus products)
      = [writtenSide plus products] := by
    have h1 := splitTokens_pass matchArrow (writtenSide plus products) fuel1 [] []
      (hpass products hp hP []) (by omega)
    rw [List.append_nil] at h1
    rw [h1, splitTokens_end, List.nil_append]
  rw [hlast, List.nil_append, List.filter_eq_self]
  intro s hs
  rcases List.mem_cons.mp hs with h1 | h1
  · rw [h1, hcrR]; rfl
  · rw [List.mem_singleton.mp h1, hcr]; rfl

/-- The loops "Parse reactants" and "Parse products" on written compounds whose coefficients
fit an `int`. -/
theorem addCompounds_written (isProduct : Bool) (terms : List (List Char × Formula)) :
    ∀ (equation : ChemicalEquation), equation.balanced_ = false →
      (∀ t ∈ terms, (∀ c ∈ t.1, c.isDigit = true) ∧ t.2.wellFormed = true ∧ t.2.render ≠ [] ∧
        decimalValue t.1 ≤ 2147483647) →
      addCompounds isProduct (terms.map writtenCompound) equation
        = .ok (if isProduct then
            ⟨equation.reactants_, equation.products_ ++ terms.map readCompound, false⟩
          else ⟨equation.reactants_ ++ terms.map readCompound, equation.products_, false⟩) := by
  induction terms with
  | nil =>
    intro equation hb _
    cases equation
    simp only [] at hb
    subst hb
    cases isProduct <;> simp [addCompounds]
  | cons term rest ih =>
    intro equation hb h
    have ht := h term (List.mem_cons_self _ _)
    have hvalid : (ChemicalCompound.create term.2.render).isValid = true :=
      (create_of_accepted term.2.render term.2.render
        (by rw [parseFormula_render term.2 ht.2.1])).1
    rw [List.map_cons]
    unfold addCompounds
    rw [parseCompoundWithCoefficient_written term ht.1 ht.2.1 ht.2.2.1 ht.2.2.2]
    simp only [hvalid, Bool.not_true, Bool.false_eq_true, if_false]
    rw [ih _ (by cases isProduct <;> rfl) (fun t ht1 => h t (List.mem_cons_of_mem _ ht1))]
    cases isProduct <;>
      simp [ChemicalEquation.addReactant, ChemicalEquation.addProduct, readCompound]

/-! ## Round trip of written equations -/

/-- C26 fails as stated. In `99999999999H2 -> H2O` the reactant `H2` is prefixed by the
decimal coefficient `99999999999`, which does not fit an `int`: `std::stoi` throws
`std::out_of_range` and `parseEquationString` returns no equation.  The grammar
`F ::= item*` also generates the empty formula: for the reactants (empty formula, `H2`) and
the product `H2O`, the string is `+H2->H2O`, and `parseEquationString` returns an equation
with the single reactant `H2`, because `splitCompounds` drops the empty token. -/
theorem C26_coefficient_overflow_or_empty_formula :
    (writtenEquation [] " -> ".toList [("99999999999".toList, hydrogenFormula)]
        [([], waterFormula)] = "99999999999H2 -> H2O".toList ∧
      isArrowSeparator " -> ".toList = true ∧
      hydrogenFormula.wellFormed = true ∧ waterFormula.wellFormed = true ∧
      parseEquationString "99999999999H2 -> H2O".toList = .error .outOfRange) ∧
    (writtenEquation "+".toList "->".toList [([], .nil), ([], hydrogenFormula)]
        [([], waterFormula)] = "+H2->H2O".toList ∧
      isPlusSeparator "+".toList = true ∧ isArrowSeparator "->".toList = true ∧
      Formula.nil.wellFormed = true ∧
      (∃ equation, parseEquationString "+H2->H2O".toList = .ok equation ∧
        equation.reactants_ = [readCompound ([], hydrogenFormula)] ∧
        equation.reactants_
          ≠ [readCompound ([], .nil), readCompound ([], hydrogenFormula)])) := by
  refine ⟨⟨by decide, by decide, by decide, by decide, by decide!⟩,
    ⟨by decide, by decide, by decide, by decide,
      ⟨⟨[readCompound ([], hydrogenFormula)], [readCompound ([], waterFormula)], false⟩,
        by decide!, rfl, by simp⟩⟩⟩

/-- C26 (amended): for all non-empty lists of non-empty formulas of the grammar, each
optionally prefixed by a decimal coefficient of value at most `INT_MAX` (2147483647),
`parseEquationString` applied to the reactant side joined by `+`, an arrow `->` or `→`, and
the product side joined by `+` (the separators may carry whitespace on both sides) returns an
equation whose reactants and products are the written compounds in order, each with its
written coefficient, or `1` where no coefficient is written. -/
theorem C26_written_equation_is_read (plus arrow : List Char)
    (reactants products : List (List Char × Formula))
    (hplus : isPlusSeparator plus = true) (harrow : isArrowSeparator arrow = true)
    (hr : reactants ≠ []) (hp : products ≠ [])
    (h : ∀ term ∈ reactants ++ products,
      (∀ c ∈ term.1, c.isDigit = true) ∧ term.2.wellFormed = true ∧ term.2.render ≠ [] ∧
        decimalValue term.1 ≤ 2147483647) :
    parseEquationString (writtenEquation plus arrow reactants products)
      = .ok ⟨reactants.map readCompound, products.map readCompound, false⟩ := by
  have h3 : ∀ t ∈ reactants ++ products,
      (∀ c ∈ t.1, c.isDigit = true) ∧ t.2.wellFormed = true ∧ t.2.render ≠ [] :=
    fun t ht => ⟨(h t ht).1, (h t ht).2.1, (h t ht).2.2.1⟩
  unfold parseEquationString
  simp only [splitTokens_writtenEquation plus arrow hplus harrow reactants products hr hp h3]
  rw [splitCompounds_writtenSide plus hplus reactants hr
      (fun t ht => h3 t (List.mem_append.mpr (Or.inl ht))),
    splitCompounds_writtenSide plus hplus products hp
      (fun t ht => h3 t (List.mem_append.mpr (Or.inr ht))),
    addCompounds_written false reactants ChemicalEquation.create rfl
      (fun t ht => h t (List.mem_append.mpr (Or.inl ht)))]
  simp only [Bool.false_eq_true, if_false]
  rw [addCompounds_written true products _ rfl
    (fun t ht => h t (List.mem_append.mpr (Or.inr ht)))]
  simp [ChemicalEquation.create]

/-- C26 (amended) at `2H2 + O2 → 2H2O`. -/
theorem C26_written_equation_is_read_witness :
    writtenEquation " + ".toList " → ".toList
        [("2".toList, hydrogenFormula), ([], oxygenFormula)] [("2".toList, waterFormula)]
      = "2H2 + O2 → 2H2O".toList ∧
    parseEquationString "2H2 + O2 → 2H2O".toList
      = .ok ⟨[(ChemicalCompound.create "H2".toList, 2), (ChemicalCompound.create "O2".toList, 1)],
          [(ChemicalCompound.create "H2O".toList, 2)], false⟩ :=
  ⟨by decide,
    C26_written_equation_is_read " + ".toList " → ".toList
      [("2".toList, hydrogenFormula), ([], oxygenFormula)] [("2".toList, waterFormula)]
      (by decide) (by decide) (List.cons_ne_nil _ _) (List.cons_ne_nil _ _) (by decide)⟩

/-! ## The balanced flag and the two conservation checks -/

theorem checkBalance_flag (equation : ChemicalEquation) :
    equation.checkBalance.isBalanced = validateAtomConservation equation := rfl

theorem checkBalance_atomBalance (equation : ChemicalEquation) :
    getAtomBalance equation.checkBalance = getAtomBalance equation := rfl

theorem validateAtomConservation_entries (equation : ChemicalEquation) :
    validateAtomConservation equation = true
      ↔ ∀ entry ∈ getAtomBalance equation, entry.2 = 0 := by
  unfold validateAtomConservation
  rw [List.all_eq_true]
  constructor
  · intro h entry hentry
    simpa using h entry hentry
  · intro h entry hentry
    simpa using h entry hentry

/-- C36: for every equation, after `ChemicalEquation::checkBalance` the flag `isBalanced()`
equals `EquationBalancer::validateAtomConservation(equation)` (on the equation before or
after the call, which changes the flag only), and both are true exactly when every entry of
`getAtomBalance(equation)` is zero. -/
theorem C36_conservation_checks_agree (equation : ChemicalEquation) :
    equation.checkBalance.isBalanced = validateAtomConservation equation.checkBalance ∧
    equation.checkBalance.isBalanced = validateAtomConservation equation ∧
    equation.checkBalance.reactants_ = equation.reactants_ ∧
    equation.checkBalance.products_ = equation.products_ ∧
    getAtomBalance equation.checkBalance = getAtomBalance equation ∧
    (equation.checkBalance.isBalanced = true
      ↔ ∀ entry ∈ getAtomBalance equation, entry.2 = 0) ∧
    (validateAtomConservation equation = true
      ↔ ∀ entry ∈ getAtomBalance equation, entry.2 = 0) := by
  refine ⟨rfl, rfl, rfl, rfl, rfl, ?_, validateAtomConservation_entries equation⟩
  rw [checkBalance_flag]
  exact validateAtomConservation_entries equation

/-- The flag of a reachable state tells the truth: it is set only by `checkBalance`, and
every change of the compounds or of the coefficients resets or recomputes it. -/
theorem reachable_flag (equation : ChemicalEquation) (h : Reachable equation) :
    equation.isBalanced = true → validateAtomConservation equation = true := by
  induction h with
  | create => intro hb; cases hb
  | addReactant equation compound coefficient _ _ => intro hb; cases hb
  | addProduct equation compound coefficient _ _ => intro hb; cases hb
  | setCoefficients equation equation1 coefficients _ hset _ =>
    intro hb
    rw [← setCoefficients_flag equation equation1 coefficients hset]
    exact hb
  | checkBalance equation _ _ =>
    intro hb
    exact hb
  | clear equation _ _ => intro hb; cases hb

theorem balanceCore_of_balanced (equation : ChemicalEquation)
    (h : equation.isBalanced = true) :
    balanceCore equation = (⟨.ALREADY_BALANCED,
      equation.reactants_.map (fun reactant => reactant.2) ++
        equation.products_.map (fun product => product.2),
      "Equation is already balanced", getAtomBalance equation, true⟩, equation) := by
  unfold balanceCore
  rw [if_pos h]

theorem balanceCore_already_balanced (equation : ChemicalEquation)
    (h : (balanceCore equation).1.result = .ALREADY_BALANCED) : equation.isBalanced = true := by
  unfold balanceCore at h
  split at h
  · assumption
  · split at h
    · simp at h
    · split at h
      · simp at h
      · split at h
        · simp at h
        · split at h
          · simp at h
          · simp at h

theorem balance_info_eq (b : EquationBalancer) (equation : ChemicalEquation) :
    (b.balance equation).1 = (balanceCore equation).1 ∧
    (b.balance equation).2.2 = (balanceCore equation).2 := by
  have h := balance_eq_core b equation
  exact ⟨congrArg Prod.fst h, congrArg Prod.snd h⟩

/-- C34 (defect of the code): the state that `addReactant(A2)`, `addReactant(B4)`,
`addProduct(A1073741827B)` and `setCoefficients({6, 1, 4})` reach from a new
`ChemicalEquation` has `isBalanced()` true, although the imbalance of `A` under its
coefficients is `2 * 6 - 1073741827 * 4`, which is `-4294967296` and not zero: the `int` sums
of `checkBalance` wrap around to `0`.  `balance` returns `ALREADY_BALANCED` on it, with an
all-zero `atomBalance`. -/
theorem C34_balanced_flag_true_without_conservation :
    Reachable (overflowEquation.afterSetCoefficients [6, 1, 4]) ∧
    (overflowEquation.afterSetCoefficients [6, 1, 4]).isBalanced = true ∧
    imbalance (overflowEquation.afterSetCoefficients [6, 1, 4]) "A".toList = -4294967296 ∧
    ¬ (∀ element, imbalance (overflowEquation.afterSetCoefficients [6, 1, 4]) element = 0) ∧
    (EquationBalancer.balance ⟨⟨[]⟩, []⟩
      (overflowEquation.afterSetCoefficients [6, 1, 4])).1.result = .ALREADY_BALANCED ∧
    (EquationBalancer.balance ⟨⟨[]⟩, []⟩
      (overflowEquation.afterSetCoefficients [6, 1, 4])).1.atomBalance
      = [("A".toList, 0), ("B".toList, 0)] := by
  refine ⟨?_, by decide!, by decide!, ?_, by decide!, by decide!⟩
  · exact Reachable.setCoefficients overflowEquation _ [6, 1, 4]
      (Reachable.addProduct _ _ _ (Reachable.addReactant _ _ _
        (Reachable.addReactant _ _ _ Reachable.create))) (by decide!)
  · intro h
    exact absurd (h "A".toList) (by decide!)

/-- C35: for every equation on which `balance` returns `SUCCESS` or `ALREADY_BALANCED` with
coefficients `c`, an immediately following `balance` call (of the same balancer) on the same
equation returns `ALREADY_BALANCED` with the same coefficients `c` and
`conservationVerified = true`, and does not change the equation. -/
theorem C35_balance_idempotent (b : EquationBalancer) (equation : ChemicalEquation)
    (h : (b.balance equation).1.result = .SUCCESS ∨
      (b.balance equation).1.result = .ALREADY_BALANCED) :
    ((b.balance equation).2.1.balance (b.balance equation).2.2).1.result
      = .ALREADY_BALANCED ∧
    ((b.balance equation).2.1.balance (b.balance equation).2.2).1.coefficients
      = (b.balance equation).1.coefficients ∧
    ((b.balance equation).2.1.balance (b.balance equation).2.2).1.conservationVerified
      = true ∧
    ((b.balance equation).2.1.balance (b.balance equation).2.2).2.2
      = (b.balance equation).2.2 := by
  have key : (b.balance equation).2.2.isBalanced = true ∧
      (b.balance equation).2.2.reactants_.map (fun reactant => reactant.2) ++
        (b.balance equation).2.2.products_.map (fun product => product.2)
        = (b.balance equation).1.coefficients := by
    rw [(balance_info_eq b equation).1, (balance_info_eq b equation).2]
    rw [(balance_info_eq b equation).1] at h
    rcases h with h | h
    · obtain ⟨_, _, _, equation1, hset, hv, hcore⟩ := balanceCore_success equation h
      rw [hcore]
      simp only []
      exact ⟨by rw [setCoefficients_flag equation equation1 _ hset]; exact hv,
        (setCoefficients_ok equation equation1 _ hset).2.2.2⟩
    · have hb := balanceCore_already_balanced equation h
      rw [balanceCore_of_balanced equation hb]
      exact ⟨hb, rfl⟩
  generalize (b.balance equation).2.1 = b1 at *
  generalize (b.balance equation).2.2 = equation1 at *
  rw [(balance_info_eq b1 equation1).1, (balance_info_eq b1 equation1).2,
    balanceCore_of_balanced equation1 key.1]
  exact ⟨rfl, key.2, rfl, rfl⟩

/-- C35 at `H2 + O2 -> H2O`: the first call returns `SUCCESS` with `2, 1, 2`, the second
`ALREADY_BALANCED` with `2, 1, 2`. -/
theorem C35_balance_idempotent_witness :
    (EquationBalancer.balance ⟨⟨[]⟩, []⟩ waterEquation).1.result = .SUCCESS ∧
    (EquationBalancer.balance ⟨⟨[]⟩, []⟩ waterEquation).1.coefficients = [2, 1, 2] ∧
    ((EquationBalancer.balance ⟨⟨[]⟩, []⟩ waterEquation).2.1.balance
      (EquationBalancer.balance ⟨⟨[]⟩, []⟩ waterEquation).2.2).1.result = .ALREADY_BALANCED ∧
    ((EquationBalancer.balance ⟨⟨[]⟩, []⟩ waterEquation).2.1.balance
      (EquationBalancer.balance ⟨⟨[]⟩, []⟩ waterEquation).2.2).1.coefficients
      = (EquationBalancer.balance ⟨⟨[]⟩, []⟩ waterEquation).1.coefficients :=
  ⟨by decide!, by decide!,
    (C35_balance_idempotent ⟨⟨[]⟩, []⟩ waterEquation (Or.inl (by decide!))).1,
    (C35_balance_idempotent ⟨⟨[]⟩, []⟩ waterEquation (Or.inl (by decide!))).2.1⟩

/-! ## Forward elimination with any zero test: row operations -/

theorem RowOps.length_eq {original m : Matrix} (h : RowOps original m) :
    m.length = original.length := by
  induction h with
  | start => rfl
  | swap m row1 row2 _ _ _ ih => rw [swapRowsM_length, ih]
  | add m sourceRow targetRow factor _ _ _ ih => rw [addRowToRowM_length, ih]

/-- Row operations keep the shape and the null space of a matrix. -/
theorem RowOps.keep {original m : Matrix} (n : Nat) (hrect : Rect original n)
    (h : RowOps original m) : Rect m n ∧ ∀ x, NullF n m x ↔ NullF n original x := by
  induction h with
  | start => exact ⟨hrect, fun x => Iff.rfl⟩
  | swap m row1 row2 _ h1 h2 ih =>
    exact ⟨swapRowsM_rect m n row1 row2 ih.1 h1 h2,
      fun x => (NullF_swapRowsM n m row1 row2 h1 h2 x).trans (ih.2 x)⟩
  | add m sourceRow targetRow factor _ h1 h2 ih =>
    exact ⟨addRowToRowM_rect m n sourceRow targetRow factor ih.1 (by omega) h2,
      fun x => (NullF_addRowToRowM n m sourceRow targetRow factor ih.1 (by omega) h2
        (by omega) x).trans (ih.2 x)⟩

theorem eliminateColumn_rowOps (zero : ℚ → Bool) (original : Matrix) (pivot : Nat)
    (l : List Nat) (hl : ∀ r ∈ l, pivot < r ∧ r < original.length) :
    ∀ m, RowOps original m →
      RowOps original (l.foldl (fun m row =>
        if !zero (entry m row pivot) then
          addRowToRowM m pivot row (-(entry m row pivot) / entry m pivot pivot)
        else m) m) := by
  induction l with
  | nil => intro m hm; exact hm
  | cons r0 l ih =>
    intro m hm
    have hr0 := hl r0 (List.mem_cons_self _ _)
    rw [List.foldl_cons]
    apply ih (fun r hr => hl r (List.mem_cons_of_mem _ hr))
    split
    · exact RowOps.add m pivot r0 _ hm hr0.1 (by rw [hm.length_eq]; exact hr0.2)
    · exact hm

theorem forwardStep_rowOps (zero : ℚ → Bool) (original m : Matrix) (pivot : Nat)
    (hm : RowOps original m) (hp : pivot < original.length) :
    RowOps original (forwardStepM zero original.length m pivot) := by
  obtain ⟨_, hpr2, _⟩ := findPivotRow_spec m pivot original.length hp
  unfold forwardStepM
  simp only []
  generalize hm1 : (if findPivotRow m pivot original.length ≠ pivot then
      swapRowsM m pivot (findPivotRow m pivot original.length) else m) = m1
  have hops1 : RowOps original m1 := by
    rw [← hm1]
    split
    · exact RowOps.swap m pivot _ hm (by rw [hm.length_eq]; exact hp)
        (by rw [hm.length_eq]; exact hpr2)
    · exact hm
  split
  · exact hops1
  · unfold eliminateColumnM
    exact eliminateColumn_rowOps zero original pivot
      (List.range' (pivot + 1) (original.length - (pivot + 1)))
      (fun r hr => by
        rcases List.mem_range'.mp hr with ⟨i, hi, hri⟩
        omega) _ hops1

/-- Forward elimination, with any zero test, is a sequence of row swaps and of additions of
a multiple of a row to a lower row. -/
theorem forwardElimination_rowOps (zero : ℚ → Bool) (matrix : Matrix) :
    RowOps matrix (forwardEliminationM zero matrix) := by
  unfold forwardEliminationM
  have hloop : ∀ k, k ≤ min matrix.length (matrix.getD 0 []).length →
      RowOps matrix ((List.range k).foldl (forwardStepM zero matrix.length) matrix) := by
    intro k
    induction k with
    | zero => intro _; exact RowOps.start
    | succ k ih =>
      intro hk
      rw [List.range_succ, List.foldl_append, List.foldl_cons, List.foldl_nil]
      exact forwardStep_rowOps zero matrix _ k (ih (by omega)) (by omega)
  exact hloop _ (le_refl _)

/-- The matrix that `gaussianElimination` leaves in place, with any zero test, is obtained
from the given matrix by row operations. -/
theorem gaussianElimination_rowOps (zero : ℚ → Bool) (self : MatrixSolver) (matrix : Matrix) :
    RowOps matrix (self.gaussianEliminationBy zero matrix).2.2 := by
  by_cases h1 : matrix = []
  · rw [h1]
    exact RowOps.start
  · by_cases h2 : matrix.getD 0 [] = []
    · have : (self.gaussianEliminationBy zero matrix).2.2 = matrix := by
        unfold MatrixSolver.gaussianEliminationBy
        have hc : (matrix.isEmpty || (matrix.getD 0 []).isEmpty) = true := by
          rw [h2]
          simp
        simp only [hc, if_true]
      rw [this]
      exact RowOps.start
    · rw [(gaussianEliminationBy_eq zero self matrix h1 h2).2]
      exact forwardElimination_rowOps zero matrix

/-- C37: for every matrix `M` (rows of one length `n`), the matrix `M'` left in place by
`gaussianElimination` is obtained from `M` only by row swaps and by adding multiples of a
row to lower rows, it has the shape of `M`, and it satisfies `M'·x = 0` exactly when
`M·x = 0`, for every vector `x` (the arithmetic of `double` read as exact). -/
theorem C37_forward_elimination_keeps_solutions (self : MatrixSolver) (matrix : Matrix)
    (n : Nat) (hrect : Rect matrix n) :
    RowOps matrix (self.gaussianElimination matrix).2.2 ∧
    (self.gaussianElimination matrix).2.2.length = matrix.length ∧
    Rect (self.gaussianElimination matrix).2.2 n ∧
    ∀ x : List ℚ, x.length = n →
      (IsNull (self.gaussianElimination matrix).2.2 x ↔ IsNull matrix x) := by
  have hops : RowOps matrix (self.gaussianElimination matrix).2.2 :=
    gaussianElimination_rowOps isZero self matrix
  obtain ⟨hrect1, hnull⟩ := hops.keep n hrect
  refine ⟨hops, hops.length_eq, hrect1, fun x hx => ?_⟩
  rw [isNull_iff_nullF n _ hrect1 x hx, isNull_iff_nullF n _ hrect x hx]
  exact hnull _

/-- C37 at the matrix of `C1000000O + CH1000000 + H -> C1000001H1000001O`: the vector
`(1, 1, 1, 1)` solves the system of the matrix left in place. -/
theorem C37_forward_elimination_keeps_solutions_witness :
    Rect heavyMatrix 4 ∧
    (MatrixSolver.gaussianElimination ⟨[]⟩ heavyMatrix).2.2 ≠ heavyMatrix ∧
    (IsNull (MatrixSolver.gaussianElimination ⟨[]⟩ heavyMatrix).2.2 [1, 1, 1, 1]
      ↔ IsNull heavyMatrix [1, 1, 1, 1]) :=
  ⟨by unfold Rect; decide!, by decide!,
    (C37_forward_elimination_keeps_solutions ⟨[]⟩ heavyMatrix 4
      (by unfold Rect; decide!)).2.2.2 [1, 1, 1, 1] rfl⟩

/-! ## Nothing in the guarded block of `balance` throws -/

theorem backStepBy_length (zero : ℚ → Bool) (matrix : Matrix) (cols : Nat) (solution : List ℚ)
    (row : Nat) : (backStepBy zero matrix cols solution row).length = solution.length := by
  unfold backStepBy
  split
  · rfl
  · simp only []
    split
    · rw [List.length_set]
    · rfl

theorem backSubstitution_length (zero : ℚ → Bool) (matrix : Matrix) :
    (backSubstitution zero matrix).length = (matrix.getD 0 []).length := by
  unfold backSubstitution
  have hfold : ∀ (l : List Nat) (solution : List ℚ),
      (l.foldl (backStepBy zero matrix (matrix.getD 0 []).length) solution).length
        = solution.length := by
    intro l
    induction l with
    | nil => intro solution; rfl
    | cons r l ih =>
      intro solution
      rw [List.foldl_cons, ih, backStepBy_length]
  rw [hfold, List.length_set, List.length_replicate]

/-- The solver, with any zero test, returns the empty vector or one entry per column. -/
theorem gaussianElimination_length (zero : ℚ → Bool) (self : MatrixSolver) (matrix : Matrix)
    (n : Nat) (hrect : Rect matrix n) :
    (self.gaussianEliminationBy zero matrix).1 = [] ∨
    (self.gaussianEliminationBy zero matrix).1.length = n := by
  by_cases h1 : matrix = []
  · left
    rw [h1]
    rfl
  · by_cases h2 : matrix.getD 0 [] = []
    · left
      unfold MatrixSolver.gaussianEliminationBy
      have hc : (matrix.isEmpty || (matrix.getD 0 []).isEmpty) = true := by
        rw [h2]
        simp
      simp only [hc, if_true]
    · right
      have hrows : 1 ≤ matrix.length := List.length_pos.mpr h1
      have hops := forwardElimination_rowOps zero matrix
      rw [(gaussianEliminationBy_eq zero self matrix h1 h2).1, backSubstitution_length]
      exact (hops.keep n hrect).1.getD_length 0 (by rw [hops.length_eq]; omega)

theorem divideByGcd_length (result : List Int) :
    (divideByGcd result).length = result.length := by
  unfold divideByGcd
  simp only []
  split
  · rw [List.length_map]
  · rfl

theorem makePositive_length (result : List Int) :
    (makePositive result).length = result.length := by
  unfold makePositive
  simp only []
  split
  · rw [List.length_map]
  · rfl

theorem reduceToIntegers_length (coefficients : List ℚ) :
    (reduceToIntegers coefficients).length = coefficients.length := by
  unfold reduceToIntegers
  simp only []
  rw [makePositive_length, divideByGcd_length, List.length_zipWith]
  simp

/-- The solver result inside `balance` is empty or has one entry per compound. -/
theorem solutionOf_length (equation : ChemicalEquation) :
    solutionOf equation = [] ∨ (solutionOf equation).length = equation.getTotalCompounds :=
  gaussianElimination_length isZero ⟨[]⟩ (stoichiometricMatrix equation)
    equation.getTotalCompounds (stoichiometricMatrix_spec equation).2.1

/-- C38: for every equation, `balance` returns one of `SUCCESS`, `ALREADY_BALANCED`,
`NO_SOLUTION` or `INVALID_EQUATION`, never `PARSING_ERROR` or `INFINITE_SOLUTIONS`: a solver
result that is not empty has exactly one entry per compound, so has the reduced vector, and
`setCoefficients` succeeds on it. -/
theorem C38_balance_never_throws (b : EquationBalancer) (equation : ChemicalEquation) :
    ((b.balance equation).1.result = .SUCCESS ∨
      (b.balance equation).1.result = .ALREADY_BALANCED ∨
      (b.balance equation).1.result = .NO_SOLUTION ∨
      (b.balance equation).1.result = .INVALID_EQUATION) ∧
    (b.balance equation).1.result ≠ .PARSING_ERROR ∧
    (b.balance equation).1.result ≠ .INFINITE_SOLUTIONS ∧
    (solutionOf equation ≠ [] →
      (solutionOf equation).length = equation.getTotalCompounds ∧
      (reduceToIntegers (solutionOf equation)).length = equation.getTotalCompounds ∧
      ∃ equation1,
        equation.setCoefficients (reduceToIntegers (solutionOf equation)) = .ok equation1) := by
  have hlen : solutionOf equation ≠ [] →
      (solutionOf equation).length = equation.getTotalCompounds ∧
      (reduceToIntegers (solutionOf equation)).length = equation.getTotalCompounds ∧
      ∃ equation1,
        equation.setCoefficients (reduceToIntegers (solutionOf equation)) = .ok equation1 := by
    intro hne
    rcases solutionOf_length equation with h | h
    · exact absurd h hne
    · have h2 : (reduceToIntegers (solutionOf equation)).length = equation.getTotalCompounds := by
        rw [reduceToIntegers_length, h]
      obtain ⟨equation1, h3, _⟩ := setCoefficients_of_length equation _ h2
      exact ⟨h, h2, equation1, h3⟩
  have hcases : (balanceCore equation).1.result = .SUCCESS ∨
      (balanceCore equation).1.result = .ALREADY_BALANCED ∨
      (balanceCore equation).1.result = .NO_SOLUTION ∨
      (balanceCore equation).1.result = .INVALID_EQUATION := by
    unfold balanceCore
    split
    · exact Or.inr (Or.inl rfl)
    · split
      · exact Or.inr (Or.inr (Or.inl rfl))
      · rename_i hempty
        split
        · exact Or.inr (Or.inr (Or.inl rfl))
        · split
          · rename_i e herr
            obtain ⟨_, _, equation1, hok⟩ := hlen (by
              intro hnil
              apply hempty
              rw [hnil]
              rfl)
            rw [hok] at herr
            cases herr
          · split
            · exact Or.inl rfl
            · exact Or.inr (Or.inr (Or.inr rfl))
  rw [(balance_info_eq b equation).1]
  refine ⟨hcases, ?_, ?_, hlen⟩
  · intro h
    rcases hcases with h1 | h1 | h1 | h1 <;> (rw [h] at h1; cases h1)
  · intro h
    rcases hcases with h1 | h1 | h1 | h1 <;> (rw [h] at h1; cases h1)

/-! ## The fraction search on `int` -/

/-- Every numerator that `reduceToIntegers` pushes is an `int`. -/
theorem toFraction_num_range (coef : ℚ) :
    -2147483648 ≤ (toFraction coef).1 ∧ (toFraction coef).1 ≤ 2147483647 := by
  rw [toFraction_cast]
  exact castToInt_range _

/-- For a rational `p/q` in lowest terms with `q ≤ 1000` and `p` an `int`, the search finds
the numerator `p` and the denominator `q`. -/
theorem toFraction_rat (q : ℚ) (h : q.den ≤ 1000) (hlo : -2147483648 ≤ q.num)
    (hhi : q.num ≤ 2147483647) : toFraction q = (q.num, (q.den : Int)) := by
  rw [toFraction_cast, toFractionExact_rat q h]
  simp only []
  rw [castToInt_of_range _ hlo hhi]

/-- C32 (defect of the code): the coefficient `10000000000`, which the solver returns for
`A100000B -> A + B100000`, is `p/q` in lowest terms with `p = 10000000000` and `q = 1`; the
search chooses the denominator `1`, but the numerator it stores is not `p`: the source
converts `std::round(coefficient * 1)` with `static_cast<int>`, and `p` is greater than
`INT_MAX`, so the conversion is undefined (the compiled program stores `INT_MIN`).  Every
numerator that the search stores is an `int`. -/
theorem C32_numerator_does_not_fit_int :
    parseEquationString "A100000B -> A + B100000".toList = .ok largeRatioEquation ∧
    solutionOf largeRatioEquation = [100000, 10000000000, 1] ∧
    (10000000000 : ℚ).num = 10000000000 ∧ (10000000000 : ℚ).den = 1 ∧
    stdRound ((10000000000 : ℚ) * 1) = 10000000000 ∧
    (toFraction 10000000000).2 = 1 ∧
    (toFraction 10000000000).1 = -2147483648 ∧
    (toFraction 10000000000).1 ≠ 10000000000 ∧
    (∀ coef : ℚ, -2147483648 ≤ (toFraction coef).1 ∧ (toFraction coef).1 ≤ 2147483647) := by
  refine ⟨by decide!, by decide!, by decide!, by decide!, by decide!, by decide!, by decide!,
    by decide!, toFraction_num_range⟩

/-! ## The integer reducer on `int` -/

/-- Without overflow, and for coefficients with denominators at most `1000` that are not all
zero, `reduceToIntegers` returns a vector proportional to the coefficients whose entries have
greatest common divisor `1`. -/
theorem reduceToIntegers_proportional (v : List ℚ) (hne : v ≠ [])
    (hden : ∀ q ∈ v, q.den ≤ 1000) (hnz : ∃ q ∈ v, q ≠ 0) (hfit : reduceFits v = true) :
    (∃ k : ℚ, k ≠ 0 ∧ ((∃ q ∈ v, 0 < q) → 0 < k) ∧
      (reduceToIntegers v).map (fun w : Int => (w : ℚ)) = v.map (fun q => k * q)) ∧
    listGcd (reduceToIntegers v) = 1 := by
  rw [reduceToIntegers_exact v hfit]
  obtain ⟨k, hk, hpos, _, hprop⟩ := reduceToIntegersExact_proportional v hne hden
  exact ⟨⟨k, hk, hpos, hprop⟩, reduceToIntegersExact_gcd v hne hden hnz⟩

/-- The vector that `reduceToIntegers` returns for `(3/997, 1/991, 1/983)`. -/
theorem reduceToIntegers_overflow_example :
    reduceToIntegers [3 / 997, 1 / 991, 1 / 983] = [-1385431, 980051, 988027] := by
  have h1 : toFraction (3 / 997) = (3, 997) := by
    rw [toFraction_rat (3 / 997) (by decide!) (by decide!) (by decide!)]
    decide!
  have h2 : toFraction (1 / 991) = (1, 991) := by
    rw [toFraction_rat (1 / 991) (by decide!) (by decide!) (by decide!)]
    decide!
  have h3 : toFraction (1 / 983) = (1, 983) := by
    rw [toFraction_rat (1 / 983) (by decide!) (by decide!) (by decide!)]
    decide!
  unfold reduceToIntegers
  simp only [List.map_cons, List.map_nil, h1, h2, h3]
  decide!

/-- C31 (defect of the code): for the vector `(3/997, 1/991, 1/983)`, whose entries have
lowest-terms denominators at most `1000`, `reduceToIntegers` returns
`(-1385431, 980051, 988027)`, which is not proportional to the vector (its first entry is
negative, the others are positive).  The least common multiple `997 * 991 * 983` of the
denominators is `971230541`, and the product `3 * 971230541` of the first numerator with it
does not fit an `int`: it wraps around to `-1381275673`. -/
theorem C31_product_overflow_breaks_proportionality :
    ([3 / 997, 1 / 991, 1 / 983] : List ℚ) ≠ [] ∧
    (∀ q ∈ ([3 / 997, 1 / 991, 1 / 983] : List ℚ), q.den ≤ 1000) ∧
    (∃ q ∈ ([3 / 997, 1 / 991, 1 / 983] : List ℚ), q ≠ 0) ∧
    reduceToIntegers [3 / 997, 1 / 991, 1 / 983] = [-1385431, 980051, 988027] ∧
    wrapInt (3 * 971230541) = -1381275673 ∧
    ¬ (∃ k : ℚ, k ≠ 0 ∧
      (reduceToIntegers [3 / 997, 1 / 991, 1 / 983]).map (fun w : Int => (w : ℚ))
        = ([3 / 997, 1 / 991, 1 / 983] : List ℚ).map (fun q => k * q)) := by
  have hred := reduceToIntegers_overflow_example
  refine ⟨by decide!, by decide!, ⟨3 / 997, by decide!, by decide!⟩, hred, by decide!, ?_⟩
  rintro ⟨k, _, hk⟩
  rw [hred] at hk
  simp only [List.map_cons, List.map_nil, List.cons.injEq, and_true] at hk
  obtain ⟨h1, h2, _⟩ := hk
  have e1 : k = -1385431 * 997 / 3 := by
    have : k * (3 / 997) = -1385431 := by rw [← h1]; norm_num
    linarith
  have e2 : k = 980051 * 991 := by
    have : k * (1 / 991) = 980051 := by rw [← h2]; norm_num
    linarith
  rw [e1] at e2
  norm_num at e2

/-! ## Sign normalization on `int` -/

/-- Sign normalization with unbounded integers. -/
theorem reduceToIntegersExact_sign (v : List ℚ) (hne : v ≠ []) (hneg : ∀ q ∈ v, q < 0) :
    reduceToIntegersExact v = reduceToIntegersExact (v.map (fun q => -q)) ∧
    (∀ w ∈ reduceToIntegersExact v, 0 ≤ w) ∧
    ((∀ q ∈ v, q ≤ -1 / 2000) → ∀ w ∈ reduceToIntegersExact v, 0 < w) ∧
    ((∀ q ∈ v, q.den ≤ 1000) → ∀ w ∈ reduceToIntegersExact v, 0 < w) := by
  have hpos : ∀ q ∈ v, 0 < (toFractionExact q).2 := by
    intro q _
    have := (toFractionExact_spec q).1
    omega
  obtain ⟨hLpos, hLdvd⟩ := denominators_lcm v hne hpos
  rw [reduce_map_neg, reduceToIntegersExact_form]
  generalize (v.map (fun q => (toFractionExact q).2)).tail.foldl lcmExact
    ((v.map (fun q => (toFractionExact q).2)).headD 0) = L at hLpos hLdvd
  generalize hres : v.map (fun q => Int.tdiv ((toFractionExact q).1 * L) (toFractionExact q).2) = result
  obtain ⟨g, hg, hdiv⟩ := divideByGcdExact_mul result
  -- an entry before the division, and the coefficient it comes from
  have hentry : ∀ x ∈ divideByGcdExact result, ∃ q ∈ v, ∃ t : Int, 1 ≤ t ∧
      g * x = (toFractionExact q).1 * t := by
    intro x hx
    have h1 : g * x ∈ result := by
      rw [← hdiv]
      exact List.mem_map.mpr ⟨x, hx, rfl⟩
    rw [← hres] at h1
    obtain ⟨q, hq, hqx⟩ := List.mem_map.mp h1
    obtain ⟨t, ht1, ht2⟩ := tdiv_scaled (toFractionExact q).1 L (toFractionExact q).2 (hpos q hq) hLpos
      (hLdvd q hq)
    exact ⟨q, hq, t, ht1, by rw [← hqx, ht2]⟩
  have hle : ∀ x ∈ divideByGcdExact result, x ≤ 0 := by
    intro x hx
    obtain ⟨q, hq, t, ht, hgx⟩ := hentry x hx
    have hnum := (toFractionExact_numerator q (hneg q hq)).1
    have h1 : g * x ≤ 0 := by
      rw [hgx]
      exact Int.mul_nonpos_of_nonpos_of_nonneg hnum (by omega)
    by_contra hcon
    have h2 : 0 < g * x := Int.mul_pos hg (by omega)
    omega
  have hlt : (∀ q ∈ v, q ≤ -1 / 2000) → ∀ x ∈ divideByGcdExact result, x < 0 := by
    intro hsmall x hx
    obtain ⟨q, hq, t, ht, hgx⟩ := hentry x hx
    have hnum := (toFractionExact_numerator q (hneg q hq)).2 (hsmall q hq)
    have h1 : g * x < 0 := by
      rw [hgx]
      have : (toFractionExact q).1 * t ≤ -1 * 1 := by nlinarith
      omega
    by_contra hcon
    have h2 : 0 ≤ g * x := Int.mul_nonneg (le_of_lt hg) (by omega)
    omega
  obtain ⟨hsame, hmap⟩ := makePositiveExact_map_neg (divideByGcdExact result) hle
  have hthird : (∀ q ∈ v, q ≤ -1 / 2000) →
      ∀ w ∈ makePositiveExact (divideByGcdExact result), 0 < w := by
    intro hsmall w hw
    rw [hmap] at hw
    obtain ⟨x, hx, hxw⟩ := List.mem_map.mp hw
    have := hlt hsmall x hx
    omega
  refine ⟨hsame.symm, ?_, hthird, fun hden => hthird (fun q hq => ?_)⟩
  · intro w hw
    rw [hmap] at hw
    obtain ⟨x, hx, hxw⟩ := List.mem_map.mp hw
    have := hle x hx
    omega
  · have hq0 := hneg q hq
    have hnum : q.num ≤ -1 := by
      have : q.num < 0 := Rat.num_neg.mpr hq0
      omega
    have hdpos : (0 : ℚ) < (q.den : ℚ) := by exact_mod_cast q.den_pos
    have hd1000 : (q.den : ℚ) ≤ 1000 := by exact_mod_cast hden q hq
    have hnumq : (q.num : ℚ) ≤ -1 := by exact_mod_cast hnum
    have hq : q = (q.num : ℚ) / q.den := (Rat.num_div_den q).symm
    rw [hq, div_le_iff₀ hdpos]
    linarith


theorem reduceFits_neg (v : List ℚ) : reduceFits (v.map (fun q => -q)) = reduceFits v := by
  unfold reduceFits
  have hsnd : ((v.map (fun q => -q)).map toFractionExact).map (fun fraction => fraction.2)
      = (v.map toFractionExact).map (fun fraction => fraction.2) := by
    simp only [List.map_map]
    apply List.map_congr_left
    intro q _
    simp only [Function.comp]
    rw [toFractionExact_neg]
  dsimp only
  rw [hsnd]
  congr 1
  generalize List.foldl lcmExact
    (((v.map toFractionExact).map (fun fraction => fraction.2)).headD 0)
    ((v.map toFractionExact).map (fun fraction => fraction.2)).tail = L
  clear hsnd
  induction v with
  | nil => rfl
  | cons q v ih =>
    simp only [List.map_cons, List.all_cons, toFractionExact_neg, abs_neg, ih]

/-- The vector that `reduceToIntegers` returns for `(-3/997, -1/991, -1/983)`. -/
theorem reduceToIntegers_negative_overflow_example :
    reduceToIntegers [-3 / 997, -1 / 991, -1 / 983] = [1385431, -980051, -988027] := by
  have h1 : toFraction (-3 / 997) = (-3, 997) := by
    rw [toFraction_rat (-3 / 997) (by decide!) (by decide!) (by decide!)]
    decide!
  have h2 : toFraction (-1 / 991) = (-1, 991) := by
    rw [toFraction_rat (-1 / 991) (by decide!) (by decide!) (by decide!)]
    decide!
  have h3 : toFraction (-1 / 983) = (-1, 983) := by
    rw [toFraction_rat (-1 / 983) (by decide!) (by decide!) (by decide!)]
    decide!
  unfold reduceToIntegers
  simp only [List.map_cons, List.map_nil, h1, h2, h3]
  decide!

/-- The pair that the search chooses for `-1/2500`: no denominator qualifies. -/
theorem toFraction_small_negative : toFraction (-1 / 2500) = (0, 1000) := by
  rw [toFraction_cast, toFractionExact_fallback _ (by decide!) (by decide!)]
  decide!

/-- The pair that the search chooses for `1/2500`: no denominator qualifies. -/
theorem toFraction_small_positive : toFraction (1 / 2500) = (0, 1000) := by
  rw [toFraction_cast, toFractionExact_fallback _ (by decide!) (by decide!)]
  decide!

/-- The vector that `reduceToIntegers` returns for `(-1/2500, -1)`. -/
theorem reduceToIntegers_small_negative : reduceToIntegers [-1 / 2500, -1] = [0, 1] := by
  have h : toFraction (-1) = (-1, 1) := by decide!
  unfold reduceToIntegers
  simp only [List.map_cons, List.map_nil, toFraction_small_negative, h]
  decide!

/-- The vector that `reduceToIntegers` returns for `(1/2500, 1)`. -/
theorem reduceToIntegers_small_positive : reduceToIntegers [1 / 2500, 1] = [0, 1] := by
  have h : toFraction 1 = (1, 1) := by decide!
  unfold reduceToIntegers
  simp only [List.map_cons, List.map_nil, toFraction_small_positive, h]
  decide!

/-- C33 fails as stated. The entries of `(-1/2500, -1)` are negative, yet
`reduceToIntegers` returns `(0, 1)`: no denominator in `1..1000` brings `-1/2500` within
`1e-6` of an integer, the fallback numerator `round(-1000/2500)` is `0`, and `0` stays `0`
under the sign normalization. For `(-1/10000000)` the search stops at the denominator `1`
with the numerator `0`.  The entries of `(-3/997, -1/991, -1/983)` are negative as well, and
`reduceToIntegers` returns `(1385431, -980051, -988027)` for it, while it returns
`(-1385431, 980051, 988027)` for the negated vector: the product `-3 * 971230541` of the
first numerator with the least common multiple of the denominators does not fit an `int` and
wraps around to a positive number, so not all entries are negative and no sign is changed. -/
theorem C33_zero_or_negative_entry_returned :
    (∀ q ∈ ([-1 / 2500, -1] : List ℚ), q < 0) ∧
    toFraction (-1 / 2500) = (0, 1000) ∧
    reduceToIntegers [-1 / 2500, -1] = [0, 1] ∧
    reduceToIntegers [1 / 2500, 1] = [0, 1] ∧
    ¬ (∀ w ∈ reduceToIntegers [-1 / 2500, -1], 0 < w) ∧
    toFraction (-1 / 10000000) = (0, 1) ∧
    reduceToIntegers [-1 / 10000000] = [0] ∧
    (∀ q ∈ ([-3 / 997, -1 / 991, -1 / 983] : List ℚ), q < 0) ∧
    reduceToIntegers [-3 / 997, -1 / 991, -1 / 983] = [1385431, -980051, -988027] ∧
    reduceToIntegers (([-3 / 997, -1 / 991, -1 / 983] : List ℚ).map (fun q => -q))
      = [-1385431, 980051, 988027] ∧
    wrapInt (-3 * 971230541) = 1381275673 := by
  have hmap : ([-3 / 997, -1 / 991, -1 / 983] : List ℚ).map (fun q => -q)
      = [3 / 997, 1 / 991, 1 / 983] := by
    simp only [List.map_cons, List.map_nil]
    norm_num
  refine ⟨by decide!, toFraction_small_negative, reduceToIntegers_small_negative,
    reduceToIntegers_small_positive, ?_, by decide!, by decide!,
    by decide!, reduceToIntegers_negative_overflow_example,
    by rw [hmap]; exact reduceToIntegers_overflow_example, by decide!⟩
  rw [reduceToIntegers_small_negative]
  decide

/-- C33 (amended): for every non-empty vector `v` all of whose entries are negative and on
which no `int` computation of `reduceToIntegers` overflows (the products of the running
least common multiple with the next denominator, and of every numerator with the least
common multiple of the denominators, are at most `INT_MAX` in absolute value),
`reduceToIntegers(v) = reduceToIntegers(-v)` and every entry of `reduceToIntegers(v)` is
non-negative; every entry is positive when every entry of `v` is at most `-1/2000`, in
particular when every entry has a lowest-terms denominator of at most `1000`. -/
theorem C33_sign_normalization (v : List ℚ) (hne : v ≠ []) (hneg : ∀ q ∈ v, q < 0)
    (hfit : reduceFits v = true) :
    reduceToIntegers v = reduceToIntegers (v.map (fun q => -q)) ∧
    (∀ w ∈ reduceToIntegers v, 0 ≤ w) ∧
    ((∀ q ∈ v, q ≤ -1 / 2000) → ∀ w ∈ reduceToIntegers v, 0 < w) ∧
    ((∀ q ∈ v, q.den ≤ 1000) → ∀ w ∈ reduceToIntegers v, 0 < w) := by
  rw [reduceToIntegers_exact v hfit,
    reduceToIntegers_exact (v.map (fun q => -q)) (by rw [reduceFits_neg]; exact hfit)]
  exact reduceToIntegersExact_sign v hne hneg

/-- C33 (amended) at `(-1, -1/2, -1)`: the reduced vector is `(2, 1, 2)`, as for
`(1, 1/2, 1)`. -/
theorem C33_sign_normalization_witness :
    (∀ q ∈ ([-1, -1 / 2, -1] : List ℚ), q < 0) ∧
    (∀ q ∈ ([-1, -1 / 2, -1] : List ℚ), q ≤ -1 / 2000) ∧
    reduceFits [-1, -1 / 2, -1] = true ∧
    reduceToIntegers [-1, -1 / 2, -1] = [2, 1, 2] ∧
    reduceToIntegers [-1, -1 / 2, -1]
      = reduceToIntegers (([-1, -1 / 2, -1] : List ℚ).map (fun q => -q)) ∧
    ∀ w ∈ reduceToIntegers [-1, -1 / 2, -1], 0 < w :=
  ⟨by decide!, by decide!, by decide!, by decide!,
    (C33_sign_normalization [-1, -1 / 2, -1] (by decide!) (by decide!) (by decide!)).1,
    (C33_sign_normalization [-1, -1 / 2, -1] (by decide!) (by decide!) (by decide!)).2.2.1
      (by decide!)⟩

/-! ## `rank` and `hasUniqueSolution` -/

theorem dependentRowsMatrix_rank :
    (Matrix.of (fun (i j : Fin 2) => entry dependentRowsMatrix i j)).rank = 1 := by
  have hA : Matrix.of (fun (i j : Fin 2) => entry dependentRowsMatrix i j)
      = Matrix.of (fun (i : Fin 2) (_ : Fin 1) => ((i : Nat) : ℚ) + 1)
        * Matrix.of (fun (_ : Fin 1) (j : Fin 2) => ((j : Nat) : ℚ)) := by
    ext i j
    fin_cases i <;> fin_cases j <;>
      simp [entry, dependentRowsMatrix, Matrix.mul_apply]
    norm_num
  have hle : (Matrix.of (fun (i j : Fin 2) => entry dependentRowsMatrix i j)).rank ≤ 1 := by
    rw [hA]
    exact le_trans (Matrix.rank_mul_le_left _ _) (Matrix.rank_le_width _)
  have hone : (Matrix.of (fun (_ : Fin 1) (j : Fin 2) => 1 - ((j : Nat) : ℚ))
        * Matrix.of (fun (i j : Fin 2) => entry dependentRowsMatrix i j))
        * Matrix.of (fun (i : Fin 2) (_ : Fin 1) => ((i : Nat) : ℚ))
      = 1 := by
    ext i j
    fin_cases i; fin_cases j
    simp [entry, dependentRowsMatrix, Matrix.mul_apply, Fin.sum_univ_two]
  have hrank : ((Matrix.of (fun (_ : Fin 1) (j : Fin 2) => 1 - ((j : Nat) : ℚ))
        * Matrix.of (fun (i j : Fin 2) => entry dependentRowsMatrix i j))
        * Matrix.of (fun (i : Fin 2) (_ : Fin 1) => ((i : Nat) : ℚ))).rank = 1 := by
    rw [hone, Matrix.rank_one]
    simp
  have hge : 1 ≤ (Matrix.of (fun (i j : Fin 2) => entry dependentRowsMatrix i j)).rank := by
    rw [← hrank]
    exact le_trans (Matrix.rank_mul_le_left _ _) (Matrix.rank_mul_le_right _ _)
  omega

theorem dependentRowsMatrix_null (x : List ℚ) (h : x.length = 2) :
    IsNull dependentRowsMatrix x ↔ ∃ t : ℚ, x = [t, 0] := by
  match x, h with
  | [x0, x1], _ =>
    simp only [dependentRowsMatrix, IsNull, dot, List.mem_cons, List.mem_singleton,
      List.not_mem_nil, or_false, forall_eq_or_imp, forall_eq, List.zipWith_cons_cons,
      List.zipWith_nil_right, List.sum_cons, List.sum_nil, List.cons.injEq, and_true]
    constructor
    · rintro ⟨h1, _⟩
      exact ⟨x0, rfl, by linarith⟩
    · rintro ⟨t, _, h1⟩
      rw [h1]
      constructor <;> norm_num

/-- C39, the failing case: for the matrix with the rows `(0, 1)` and `(0, 2)` forward
elimination finds no pivot in the first column, moves on to the second column and to the
second row together, and leaves the matrix as it is; `rank` counts two rows that are not
zero and returns `2`, while the rank of the matrix is `1` (the second row is twice the
first, and the null space is the line through `(1, 0)`); `hasUniqueSolution` returns false,
though the rank `1` is the number of columns minus one. -/
theorem C39_rank_counts_dependent_rows :
    (MatrixSolver.gaussianElimination ⟨[]⟩ dependentRowsMatrix).2.2 = dependentRowsMatrix ∧
    (MatrixSolver.rank ⟨[]⟩ dependentRowsMatrix).1 = 2 ∧
    (Matrix.of (fun (i j : Fin 2) => entry dependentRowsMatrix i j)).rank = 1 ∧
    (∀ j, entry dependentRowsMatrix 1 j = 2 * entry dependentRowsMatrix 0 j) ∧
    (∀ x : List ℚ, x.length = 2 → (IsNull dependentRowsMatrix x ↔ ∃ t : ℚ, x = [t, 0])) ∧
    (MatrixSolver.hasUniqueSolution ⟨[]⟩ dependentRowsMatrix).1 = false ∧
    ((dependentRowsMatrix.getD 0 []).length : Int) - 1 = 1 := by
  refine ⟨by decide!, by decide!, dependentRowsMatrix_rank, ?_, dependentRowsMatrix_null,
    by decide!, by decide⟩
  intro j
  match j with
  | 0 => decide!
  | 1 => decide!
  | j + 2 => simp [entry, dependentRowsMatrix]

end QuimEq
